import Mathlib

/-!
# xv6-riscv memory management: allocator and page tables

A shallow embedding of `kernel/kalloc.c` and `kernel/vm.c`.

* Physical memory is a byte-addressed map `Mem`; a page-table entry is the
  little-endian 64-bit word stored in eight consecutive bytes.
* The allocator's free list is the linked list threaded through the first
  eight bytes of every free frame, exactly as `struct run` does in C.
* Functions that can `panic` return a `Res`; loops carry a fuel argument
  (large enough for every run, see the `_nofuel` lemmas and the loop
  specifications of the copy routines).
* Kernel-side buffers handed to `copyout`/`copyin`/`copyinstr` are byte
  arrays of their own (`Buf`, offset to byte) rather than regions of `Mem`.
-/

namespace Xv6

/-! ## Physical memory -/

/-- Byte-addressed physical memory. Only the low eight bits of a cell are read. -/
abbrev Mem := Nat → Nat

/-- A kernel buffer (`char *`), indexed by byte offset. -/
abbrev Buf := Nat → Nat

/-- Load one byte. -/
def rd8 (m : Mem) (a : Nat) : Nat := m a % 256

/-- Little-endian load of `n` bytes starting at `a`. -/
def rdLE (m : Mem) : Nat → Nat → Nat
  | 0, _ => 0
  | n + 1, a => rd8 m a + 256 * rdLE m n (a + 1)

/-- A `uint64` load. -/
def rd64 (m : Mem) (a : Nat) : Nat := rdLE m 8 a

/-- A `uint64` store: the low 64 bits of `v`, little-endian, at `a .. a+7`. -/
def wr64 (m : Mem) (a v : Nat) : Mem :=
  fun x => if a ≤ x ∧ x < a + 8 then (v / 256 ^ (x - a)) % 256 else m x

/-- The C library `memset(dst, c, n)`. -/
def memset (m : Mem) (dst c n : Nat) : Mem :=
  fun x => if dst ≤ x ∧ x < dst + n then c % 256 else m x

/-- The C library `memmove(dst, src, n)` between two regions of physical memory. -/
def memmove (m : Mem) (dst src n : Nat) : Mem :=
  fun x => if dst ≤ x ∧ x < dst + n then m (src + (x - dst)) else m x

/-- The call `memmove(pa, src + off, n)` of `copyout`: kernel buffer to memory. -/
def memmoveOut (m : Mem) (pa : Nat) (src : Buf) (off n : Nat) : Mem :=
  fun x => if pa ≤ x ∧ x < pa + n then src (off + (x - pa)) % 256 else m x

/-- The call `memmove(dst + off, pa, n)` of `copyin`: memory to kernel buffer. -/
def memmoveIn (dst : Buf) (off : Nat) (m : Mem) (pa n : Nat) : Buf :=
  fun i => if off ≤ i ∧ i < off + n then rd8 m (pa + (i - off)) else dst i

/-- A single byte store `dst[i] = c` into a kernel buffer. -/
def bufSet (dst : Buf) (i c : Nat) : Buf :=
  fun j => if j = i then c % 256 else dst j

/-! ## Constants and macros of `riscv.h` -/

/-- Modelled from the spec: `riscv.h` is absent from the sources; a frame is a
"fixed-size (4096-byte) block". -/
def PGSIZE : Nat := 4096

/-- Modelled from the spec: `riscv.h` is absent; "addresses ≥ a defined maximum are
always invalid". The value is the one of xv6-riscv, `1L << (9 + 9 + 9 + 12 - 1)`. -/
def MAXVA : Nat := 2 ^ 38

/-- Modelled from the spec: `riscv.h` is absent; the valid bit of an entry. -/
def PTE_V : Nat := 1
/-- Modelled from the spec: `riscv.h` is absent; the readable bit. -/
def PTE_R : Nat := 2
/-- Modelled from the spec: `riscv.h` is absent; the writable bit. -/
def PTE_W : Nat := 4
/-- Modelled from the spec: `riscv.h` is absent; the executable bit. -/
def PTE_X : Nat := 8
/-- Modelled from the spec: `riscv.h` is absent; the user-accessible bit. -/
def PTE_U : Nat := 16

/-- Modelled from the spec: `riscv.h` is absent; `PGROUNDUP(sz)`, "round up to a page
boundary", in 64-bit arithmetic: `((sz)+PGSIZE-1) & ~(PGSIZE-1)`. -/
def PGROUNDUP (sz : Nat) : Nat := (sz + PGSIZE - 1) % 2 ^ 64 / PGSIZE * PGSIZE

/-- Modelled from the spec: `riscv.h` is absent; `PGROUNDDOWN(a)`, "round down to a
page boundary": `(a) & ~(PGSIZE-1)`. -/
def PGROUNDDOWN (a : Nat) : Nat := a / PGSIZE * PGSIZE

/-- Modelled from the spec: `riscv.h` is absent; `PA2PTE(pa)`, the frame address moved
into the entry's frame field: `(pa >> 12) << 10`. -/
def PA2PTE (pa : Nat) : Nat := pa / 4096 * 1024

/-- Modelled from the spec: `riscv.h` is absent; `PTE2PA(pte)`, the frame address held
by an entry: `(pte >> 10) << 12` on a `uint64`. -/
def PTE2PA (pte : Nat) : Nat := pte / 1024 * 4096 % 2 ^ 64

/-- Modelled from the spec: `riscv.h` is absent; `PTE_FLAGS(pte)`, the low ten bits:
`pte & 0x3FF`. -/
def PTE_FLAGS (pte : Nat) : Nat := pte % 1024

/-- Modelled from the spec: `riscv.h` is absent; `PX(level, va)`, the 9-bit index of
`va` at `level`: `(va >> (12 + 9*level)) & 0x1FF`. -/
def PX (level va : Nat) : Nat := va / 2 ^ (12 + 9 * level) % 512

/-! ## Kernel state and results -/

/-- Addresses fixed by the linker script and `memlayout.h` (both absent from the
sources): `kend` is the symbol `end`, `phystop` is `PHYSTOP`. -/
structure Layout where
  kend : Nat
  phystop : Nat

/-- Physical memory together with `kmem.freelist`. -/
structure KState where
  mem : Mem
  freelist : Nat

/-- Outcome of a kernel routine: a value and the state it leaves, a `panic`, or
an exhausted loop budget. -/
inductive Res (α : Type) where
  | ok (v : α) (s : KState)
  | panic (msg : String)
  | fuel

/-- Sequencing of kernel routines. -/
def Res.bind {α β : Type} (r : Res α) (f : α → KState → Res β) : Res β :=
  match r with
  | .ok v s => f v s
  | .panic msg => .panic msg
  | .fuel => .fuel

/-- Iteration budget of every page loop: one more than the number of pages below
`MAXVA`. -/
def LOOPFUEL : Nat := MAXVA / PGSIZE + 1

/-! ## kalloc.c -/

/-- `kfree(pa)` of `kalloc.c`. -/
def kfree (L : Layout) (s : KState) (pa : Nat) : Res Unit :=
  if pa % PGSIZE ≠ 0 ∨ pa < L.kend ∨ pa ≥ L.phystop then .panic "kfree"
  else
    let m1 := memset s.mem pa 1 PGSIZE
    .ok () { mem := wr64 m1 pa s.freelist, freelist := pa }

/-- `kalloc()` of `kalloc.c`: the frame (0 when none is left) and the new state. -/
def kalloc (s : KState) : Nat × KState :=
  let r := s.freelist
  if r ≠ 0 then
    (r, { mem := memset s.mem r 5 PGSIZE, freelist := rd64 s.mem r })
  else (0, s)

/-! ## vm.c -/

/-- The body of the `for(level = 2; level > 0; level--)` loop of `walk`, followed by
its final `return &pagetable[PX(0, va)]`. -/
def walkLevels : Nat → KState → Nat → Nat → Bool → Res Nat
  | 0, s, pagetable, va, _ => .ok (pagetable + 8 * PX 0 va) s
  | level + 1, s, pagetable, va, alloc =>
    let pte := pagetable + 8 * PX (level + 1) va
    if rd64 s.mem pte &&& PTE_V ≠ 0 then
      walkLevels level s (PTE2PA (rd64 s.mem pte)) va alloc
    else
      if !alloc then .ok 0 s
      else
        let (p, s1) := kalloc s
        if p = 0 then .ok 0 s1
        else
          let m2 := memset s1.mem p 0 PGSIZE
          let m3 := wr64 m2 pte (PA2PTE p ||| PTE_V)
          walkLevels level { s1 with mem := m3 } p va alloc

/-- `walk(pagetable, va, alloc)`: the address of the level-0 entry, or 0. -/
def walk (s : KState) (pagetable va : Nat) (alloc : Bool) : Res Nat :=
  if va ≥ MAXVA then .panic "walk"
  else walkLevels 2 s pagetable va alloc

/-- `walkaddr(pagetable, va)`. -/
def walkaddr (s : KState) (pagetable va : Nat) : Res Nat :=
  if va ≥ MAXVA then .ok 0 s
  else
    (walk s pagetable va false).bind fun pte s1 =>
      if pte = 0 then .ok 0 s1
      else if rd64 s1.mem pte &&& PTE_V = 0 then .ok 0 s1
      else if rd64 s1.mem pte &&& PTE_U = 0 then .ok 0 s1
      else .ok (PTE2PA (rd64 s1.mem pte)) s1

/-- The `for(;;)` loop of `mappages`. `perm` is the `int` argument as converted to
`uint64` by the `|`. -/
def mappagesLoop : Nat → KState → Nat → Nat → Nat → Nat → Nat → Res Int
  | 0, _, _, _, _, _, _ => .fuel
  | fuel + 1, s, pagetable, a, last, pa, perm =>
    (walk s pagetable a true).bind fun pte s1 =>
      if pte = 0 then .ok (-1) s1
      else if rd64 s1.mem pte &&& PTE_V ≠ 0 then .panic "mappages: remap"
      else
        let s2 : KState := { s1 with mem := wr64 s1.mem pte (PA2PTE pa ||| perm ||| PTE_V) }
        if a = last then .ok 0 s2
        else mappagesLoop fuel s2 pagetable ((a + PGSIZE) % 2 ^ 64) last
               ((pa + PGSIZE) % 2 ^ 64) perm

/-- `mappages(pagetable, va, size, pa, perm)`. -/
def mappages (s : KState) (pagetable va size pa perm : Nat) : Res Int :=
  if size = 0 then .panic "mappages: size"
  else
    mappagesLoop LOOPFUEL s pagetable (PGROUNDDOWN va)
      (PGROUNDDOWN ((va + size - 1) % 2 ^ 64)) pa perm

/-- The `for(a = va; a < va + npages*PGSIZE; a += PGSIZE)` loop of `uvmunmap`;
`bound` is the 64-bit value of `va + npages*PGSIZE`. -/
def uvmunmapLoop : Nat → Layout → KState → Nat → Nat → Nat → Bool → Res Unit
  | 0, _, _, _, _, _, _ => .fuel
  | fuel + 1, L, s, pagetable, a, bound, do_free =>
    if a < bound then
      (walk s pagetable a false).bind fun pte s1 =>
        if pte = 0 then .panic "uvmunmap: walk"
        else if rd64 s1.mem pte &&& PTE_V = 0 then .panic "uvmunmap: not mapped"
        else if PTE_FLAGS (rd64 s1.mem pte) = PTE_V then .panic "uvmunmap: not a leaf"
        else
          (if do_free then kfree L s1 (PTE2PA (rd64 s1.mem pte)) else .ok () s1).bind
            fun _ s2 =>
              uvmunmapLoop fuel L { s2 with mem := wr64 s2.mem pte 0 } pagetable
                ((a + PGSIZE) % 2 ^ 64) bound do_free
    else .ok () s

/-- `uvmunmap(pagetable, va, npages, do_free)`. -/
def uvmunmap (L : Layout) (s : KState) (pagetable va npages : Nat) (do_free : Bool) :
    Res Unit :=
  if va % PGSIZE ≠ 0 then .panic "uvmunmap: not aligned"
  else uvmunmapLoop LOOPFUEL L s pagetable va ((va + npages * PGSIZE) % 2 ^ 64) do_free

/-- The conversion of `int npages` to the `uint64` parameter of `uvmunmap`:
truncation to 32 bits, then sign extension. -/
def intToU64 (x : Nat) : Nat :=
  if x % 2 ^ 32 < 2 ^ 31 then x % 2 ^ 32 else x % 2 ^ 32 + (2 ^ 64 - 2 ^ 32)

/-- `uvmdealloc(pagetable, oldsz, newsz)`. -/
def uvmdealloc (L : Layout) (s : KState) (pagetable oldsz newsz : Nat) : Res Nat :=
  if newsz ≥ oldsz then .ok oldsz s
  else
    if PGROUNDUP newsz < PGROUNDUP oldsz then
      let npages := intToU64 ((PGROUNDUP oldsz - PGROUNDUP newsz) / PGSIZE)
      (uvmunmap L s pagetable (PGROUNDUP newsz) npages true).bind fun _ s1 =>
        .ok newsz s1
    else .ok newsz s

/-- The `for(a = oldsz; a < newsz; a += PGSIZE)` loop of `uvmalloc`; `oldsz` is already
rounded up. `xperm` is the `int` argument as converted to `uint64`. -/
def uvmallocLoop : Nat → Layout → KState → Nat → Nat → Nat → Nat → Nat → Res Nat
  | 0, _, _, _, _, _, _, _ => .fuel
  | fuel + 1, L, s, pagetable, a, oldsz, newsz, xperm =>
    if a < newsz then
      let (mem, s1) := kalloc s
      if mem = 0 then
        (uvmdealloc L s1 pagetable a oldsz).bind fun _ s2 => .ok 0 s2
      else
        let s2 : KState := { s1 with mem := memset s1.mem mem 0 PGSIZE }
        (mappages s2 pagetable a PGSIZE mem (PTE_R ||| PTE_U ||| xperm)).bind fun r s3 =>
          if r ≠ 0 then
            (kfree L s3 mem).bind fun _ s4 =>
              (uvmdealloc L s4 pagetable a oldsz).bind fun _ s5 => .ok 0 s5
          else uvmallocLoop fuel L s3 pagetable ((a + PGSIZE) % 2 ^ 64) oldsz newsz xperm
    else .ok newsz s

/-- `uvmalloc(pagetable, oldsz, newsz, xperm)`. -/
def uvmalloc (L : Layout) (s : KState) (pagetable oldsz newsz xperm : Nat) : Res Nat :=
  if newsz < oldsz then .ok oldsz s
  else
    uvmallocLoop LOOPFUEL L s pagetable (PGROUNDUP oldsz) (PGROUNDUP oldsz) newsz xperm

/-- The `for(i = 0; i < sz; i += PGSIZE)` loop of `uvmcopy` with its `err:` exit. -/
def uvmcopyLoop : Nat → Layout → KState → Nat → Nat → Nat → Nat → Res Int
  | 0, _, _, _, _, _, _ => .fuel
  | fuel + 1, L, s, old, new, i, sz =>
    if i < sz then
      (walk s old i false).bind fun pte s1 =>
        if pte = 0 then .panic "uvmcopy: pte should exist"
        else if rd64 s1.mem pte &&& PTE_V = 0 then .panic "uvmcopy: page not present"
        else
          let pa := PTE2PA (rd64 s1.mem pte)
          let flags := PTE_FLAGS (rd64 s1.mem pte)
          let (mem, s2) := kalloc s1
          if mem = 0 then
            (uvmunmap L s2 new 0 (i / PGSIZE) true).bind fun _ s3 => .ok (-1) s3
          else
            let s3 : KState := { s2 with mem := memmove s2.mem mem pa PGSIZE }
            (mappages s3 new i PGSIZE mem flags).bind fun r s4 =>
              if r ≠ 0 then
                (kfree L s4 mem).bind fun _ s5 =>
                  (uvmunmap L s5 new 0 (i / PGSIZE) true).bind fun _ s6 => .ok (-1) s6
              else uvmcopyLoop fuel L s4 old new ((i + PGSIZE) % 2 ^ 64) sz
    else .ok 0 s

/-- `uvmcopy(old, new, sz)`. -/
def uvmcopy (L : Layout) (s : KState) (old new sz : Nat) : Res Int :=
  uvmcopyLoop LOOPFUEL L s old new 0 sz

/-- The `while(len > 0)` loop of `copyout`; `off` is how far `src` has advanced. -/
def copyoutLoop : Nat → KState → Nat → Nat → Buf → Nat → Nat → Res Int
  | 0, _, _, _, _, _, _ => .fuel
  | fuel + 1, s, pagetable, dstva, src, off, len =>
    if len > 0 then
      let va0 := PGROUNDDOWN dstva
      (walkaddr s pagetable va0).bind fun pa0 s1 =>
        if pa0 = 0 then .ok (-1) s1
        else
          let n := PGSIZE - (dstva - va0)
          let n := if n > len then len else n
          let s2 : KState := { s1 with mem := memmoveOut s1.mem (pa0 + (dstva - va0)) src off n }
          copyoutLoop fuel s2 pagetable (va0 + PGSIZE) src (off + n) (len - n)
    else .ok 0 s

/-- `copyout(pagetable, dstva, src, len)`. -/
def copyout (s : KState) (pagetable dstva : Nat) (src : Buf) (len : Nat) : Res Int :=
  copyoutLoop LOOPFUEL s pagetable dstva src 0 len

/-- The `while(len > 0)` loop of `copyin_new`; `off` is how far `dst` has advanced.
The value is the return code paired with the destination buffer. -/
def copyinLoop : Nat → KState → Nat → Buf → Nat → Nat → Nat → Res (Int × Buf)
  | 0, _, _, _, _, _, _ => .fuel
  | fuel + 1, s, pagetable, dst, off, srcva, len =>
    if len > 0 then
      let va0 := PGROUNDDOWN srcva
      (walkaddr s pagetable va0).bind fun pa0 s1 =>
        if pa0 = 0 then .ok (-1, dst) s1
        else
          let n := PGSIZE - (srcva - va0)
          let n := if n > len then len else n
          let dst1 := memmoveIn dst off s1.mem (pa0 + (srcva - va0)) n
          copyinLoop fuel s1 pagetable dst1 (off + n) (va0 + PGSIZE) (len - n)
    else .ok (0, dst) s

/-- `copyin_new(pagetable, dst, srcva, len)`. -/
def copyin_new (s : KState) (pagetable : Nat) (dst : Buf) (srcva len : Nat) :
    Res (Int × Buf) :=
  copyinLoop LOOPFUEL s pagetable dst 0 srcva len

/-- `copyin(pagetable, dst, srcva, len)`. -/
def copyin (s : KState) (pagetable : Nat) (dst : Buf) (srcva len : Nat) :
    Res (Int × Buf) :=
  copyin_new s pagetable dst srcva len

/-- Loop variables of `copyinstr_new` that its inner loop updates. -/
structure StrVars where
  got_null : Bool
  dst : Buf
  di : Nat
  max : Nat

/-- The inner `while(n > 0)` loop of `copyinstr_new`; `p` is the physical source
address, `di` how far `dst` has advanced. -/
def copyinstrInner (m : Mem) : Nat → Nat → StrVars → StrVars
  | 0, _, v => v
  | n + 1, p, v =>
    if rd8 m p = 0 then
      { v with dst := bufSet v.dst v.di 0, got_null := true }
    else
      copyinstrInner m n (p + 1)
        { v with dst := bufSet v.dst v.di (rd8 m p), di := v.di + 1, max := v.max - 1 }

/-- The outer `while(got_null == 0 && max > 0)` loop of `copyinstr_new` and its final
`if(got_null)`. -/
def copyinstrLoop : Nat → KState → Nat → Nat → StrVars → Res (Int × Buf)
  | 0, _, _, _, _ => .fuel
  | fuel + 1, s, pagetable, srcva, v =>
    if v.got_null = false ∧ v.max > 0 then
      let va0 := PGROUNDDOWN srcva
      (walkaddr s pagetable va0).bind fun pa0 s1 =>
        if pa0 = 0 then .ok (-1, v.dst) s1
        else
          let n := PGSIZE - (srcva - va0)
          let n := if n > v.max then v.max else n
          let v1 := copyinstrInner s1.mem n (pa0 + (srcva - va0)) v
          copyinstrLoop fuel s1 pagetable (va0 + PGSIZE) v1
    else
      if v.got_null then .ok (0, v.dst) s else .ok (-1, v.dst) s

/-- `copyinstr_new(pagetable, dst, srcva, max)`. -/
def copyinstr_new (s : KState) (pagetable : Nat) (dst : Buf) (srcva max : Nat) :
    Res (Int × Buf) :=
  copyinstrLoop LOOPFUEL s pagetable srcva
    { got_null := false, dst := dst, di := 0, max := max }

/-- `copyinstr(pagetable, dst, srcva, max)`. -/
def copyinstr (s : KState) (pagetable : Nat) (dst : Buf) (srcva max : Nat) :
    Res (Int × Buf) :=
  copyinstr_new s pagetable dst srcva max

/-! ## Vocabulary of the specification -/

/-- Address of the level-2 (root) entry of `va`. -/
def slot2 (pt va : Nat) : Nat := pt + 8 * PX 2 va

/-- The level-2 entry of `va`. -/
def ent2 (m : Mem) (pt va : Nat) : Nat := rd64 m (slot2 pt va)

/-- The level-1 table the root entry of `va` points to. -/
def tbl1 (m : Mem) (pt va : Nat) : Nat := PTE2PA (ent2 m pt va)

/-- Address of the level-1 entry of `va`. -/
def slot1 (m : Mem) (pt va : Nat) : Nat := tbl1 m pt va + 8 * PX 1 va

/-- The level-1 entry of `va`. -/
def ent1 (m : Mem) (pt va : Nat) : Nat := rd64 m (slot1 m pt va)

/-- The level-0 table the level-1 entry of `va` points to. -/
def tbl0 (m : Mem) (pt va : Nat) : Nat := PTE2PA (ent1 m pt va)

/-- Address of the level-0 entry of `va`. -/
def slot0 (m : Mem) (pt va : Nat) : Nat := tbl0 m pt va + 8 * PX 0 va

/-- The level-0 entry of `va`. -/
def ent0 (m : Mem) (pt va : Nat) : Nat := rd64 m (slot0 m pt va)

/-- The root entry of `va` is valid: its level-1 table exists. -/
def has1 (m : Mem) (pt va : Nat) : Prop := ent2 m pt va % 2 = 1

/-- Both upper entries of `va` are valid: its level-0 table exists. -/
def has0 (m : Mem) (pt va : Nat) : Prop := has1 m pt va ∧ ent1 m pt va % 2 = 1

instance (m : Mem) (pt va : Nat) : Decidable (has1 m pt va) := by
  unfold has1; infer_instance

instance (m : Mem) (pt va : Nat) : Decidable (has0 m pt va) := by
  unfold has0; infer_instance

/-- What `walk(pt, va, 0)` returns for `va < MAXVA`. -/
def walkVal (m : Mem) (pt va : Nat) : Nat :=
  if has0 m pt va then slot0 m pt va else 0

/-- What `walkaddr(pt, va)` returns. -/
def walkaddrVal (m : Mem) (pt va : Nat) : Nat :=
  if MAXVA ≤ va then 0
  else if walkVal m pt va = 0 then 0
  else if rd64 m (walkVal m pt va) % 2 = 0 then 0
  else if rd64 m (walkVal m pt va) / 16 % 2 = 0 then 0
  else PTE2PA (rd64 m (walkVal m pt va))

/-- Address `x` lies in the page that starts at `p`. -/
def inPage (p x : Nat) : Prop := p ≤ x ∧ x < p + PGSIZE

/-- Page `p` is the root or a level-1 table of `pt`. -/
def IsUpper (m : Mem) (pt p : Nat) : Prop :=
  p = pt ∨ ∃ va, has1 m pt va ∧ p = tbl1 m pt va

/-- Page `p` is a level-0 table of `pt`. -/
def IsLeafTbl (m : Mem) (pt p : Nat) : Prop :=
  ∃ va, has0 m pt va ∧ p = tbl0 m pt va

/-- Page `p` is one of the page-table pages of `pt`. -/
def IsTable (m : Mem) (pt p : Nat) : Prop := IsUpper m pt p ∨ IsLeafTbl m pt p

/-- Memory `m'` agrees with `m` on every byte of page `p`. -/
def SamePage (m m' : Mem) (p : Nat) : Prop := ∀ x, inPage p x → m' x = m x

/-- The value a routine returned, if it returned. -/
def Res.val? {α : Type} : Res α → Option α
  | .ok v _ => some v
  | _ => none

/-- The state a routine left, `d` if it did not return. -/
def Res.st {α : Type} : Res α → KState → KState
  | .ok _ s, _ => s
  | _, d => d

/-- The physical address `walkaddr` returns for `va` (0 for none). -/
def xlate (s : KState) (pt va : Nat) : Nat :=
  match walkaddr s pt va with
  | .ok pa _ => pa
  | _ => 0

/-- The byte a user process sees at `va`: the byte at `walkaddr` of its page plus the
page offset. -/
def userByte (s : KState) (pt va : Nat) : Nat :=
  rd8 s.mem (xlate s pt (PGROUNDDOWN va) + (va - PGROUNDDOWN va))

/-- Page `p` is a virtual page that intersects `[va, va+len)`. -/
def touches (va len p : Nat) : Prop :=
  p % PGSIZE = 0 ∧ p < va + len ∧ va < p + PGSIZE ∧ 0 < len

instance (va len p : Nat) : Decidable (touches va len p) := by
  unfold touches; infer_instance

/-- The physical address of the user byte at `va`. -/
def userAddr (s : KState) (pt va : Nat) : Nat :=
  xlate s pt (PGROUNDDOWN va) + (va - PGROUNDDOWN va)

/-- The level-0 entry `walk` reaches for `va`, 0 when an upper table is missing. -/
def leafOf (m : Mem) (pt va : Nat) : Nat :=
  if has0 m pt va then ent0 m pt va else 0

/-- Two addresses select the same entry at every level. -/
def samePath (va vb : Nat) : Prop :=
  PX 2 va = PX 2 vb ∧ PX 1 va = PX 1 vb ∧ PX 0 va = PX 0 vb

instance (va vb : Nat) : Decidable (samePath va vb) := by
  unfold samePath; infer_instance

/-- The page table rooted at `pt` is a tree of page-aligned, non-null, pairwise distinct
table pages ("the radix tree has no cycles"). -/
structure TableOK (m : Mem) (pt : Nat) : Prop where
  root_al : pt % 4096 = 0
  root_ne : pt ≠ 0
  t1_ne : ∀ va, has1 m pt va → tbl1 m pt va ≠ pt ∧ tbl1 m pt va ≠ 0
  t1_inj : ∀ va vb, has1 m pt va → has1 m pt vb → tbl1 m pt va = tbl1 m pt vb →
    PX 2 va = PX 2 vb
  t0_ne : ∀ va, has0 m pt va → tbl0 m pt va ≠ pt ∧ tbl0 m pt va ≠ 0
  t0_t1 : ∀ va vb, has0 m pt va → has1 m pt vb → tbl0 m pt va ≠ tbl1 m pt vb
  t0_inj : ∀ va vb, has0 m pt va → has0 m pt vb → tbl0 m pt va = tbl0 m pt vb →
    PX 2 va = PX 2 vb ∧ PX 1 va = PX 1 vb

/-- The allocator's linked list starting at `head` holds exactly the frames `fl`,
in order. -/
def FreeList (m : Mem) : Nat → List Nat → Prop
  | head, [] => head = 0
  | head, f :: rest => head = f ∧ f ≠ 0 ∧ FreeList m (rd64 m f) rest

/-- The allocator is well formed: its list holds the frames `fl`, each once, each a
page-aligned frame of `[end, PHYSTOP)`. -/
structure AllocOK (L : Layout) (s : KState) (fl : List Nat) : Prop where
  list : FreeList s.mem s.freelist fl
  nodup : fl.Nodup
  frames : ∀ f, f ∈ fl → f % 4096 = 0 ∧ L.kend ≤ f ∧ f < L.phystop
  kend_pos : 0 < L.kend
  top : L.phystop ≤ 2 ^ 64

/-- The data-model invariant of one address space: a well-formed allocator, a
well-formed table, and no table page on the free list. -/
structure Inv (L : Layout) (s : KState) (pt : Nat) (fl : List Nat) : Prop where
  alloc : AllocOK L s fl
  table : TableOK s.mem pt
  sep : ∀ p, IsTable s.mem pt p → p ∉ fl

/-- The level-0 entry that `walk(pt, va, 0)` finds for `va`, read from memory; 0 when
`walk` finds none. -/
def pteAt (s : KState) (pt va : Nat) : Nat :=
  match walk s pt va false with
  | .ok pte s1 => if pte = 0 then 0 else rd64 s1.mem pte
  | _ => 0

/-- The leaf mapping of `va`: frame address and flags of its valid level-0 entry, `none`
when `va` is unmapped. -/
def mapping (s : KState) (pt va : Nat) : Option (Nat × Nat) :=
  if pteAt s pt va &&& PTE_V = 0 then none
  else some (PTE2PA (pteAt s pt va), PTE_FLAGS (pteAt s pt va))

/-- Memory after `walk` has allocated frame `f`, cleared it, and stored its entry at
`slot`. -/
def linkMem (m : Mem) (f slot : Nat) : Mem :=
  wr64 (memset (memset m f 5 PGSIZE) f 0 PGSIZE) slot (PA2PTE f ||| PTE_V)

/-- State `s'` with free list `fl'` arises from `s` with free list `fl` by moving
frames from the head of the free list into the page table of `pt`, as fresh, empty
table pages: no level-0 entry changes and nothing outside the table pages changes. -/
structure Grown (L : Layout) (pt : Nat) (s : KState) (fl : List Nat) (s' : KState)
    (fl' : List Nat) : Prop where
  inv : Inv L s' pt fl'
  split : ∃ taken, fl = taken ++ fl' ∧
    ∀ p, IsTable s'.mem pt p ↔ IsTable s.mem pt p ∨ p ∈ taken
  leaf : ∀ vb, leafOf s'.mem pt vb = leafOf s.mem pt vb
  frame : ∀ x, (∀ p, IsTable s'.mem pt p → ¬ inPage p x) → s'.mem x = s.mem x

/-- Like `Grown`, but level-0 entries may have changed: frames moved from the head of
the free list into the page table, and nothing outside the table pages changed. -/
structure Ext (L : Layout) (pt : Nat) (s : KState) (fl : List Nat) (s' : KState)
    (fl' : List Nat) : Prop where
  inv : Inv L s' pt fl'
  split : ∃ taken, fl = taken ++ fl' ∧
    ∀ p, IsTable s'.mem pt p ↔ IsTable s.mem pt p ∨ p ∈ taken
  frame : ∀ x, (∀ p, IsTable s'.mem pt p → ¬ inPage p x) → s'.mem x = s.mem x

/-- The frames mapped by the pages of `[a, bound)` are owned by these mappings alone:
none is on the free list, none is a page-table page of `pt`, and no two pages share one. -/
def OwnedFrames (s : KState) (pt : Nat) (fl : List Nat) (a bound : Nat) : Prop :=
  ∀ b, b % 4096 = 0 → a ≤ b → b < bound → b < MAXVA →
    PTE2PA (leafOf s.mem pt b) ∉ fl ∧ ¬ IsTable s.mem pt (PTE2PA (leafOf s.mem pt b)) ∧
    ∀ b', b' % 4096 = 0 → a ≤ b' → b' < bound → b' < MAXVA →
      PTE2PA (leafOf s.mem pt b) = PTE2PA (leafOf s.mem pt b') → b = b'

/-- Loop invariant of `uvmalloc` and `uvmcopy`. Starting from `s0` with free list `fl0`,
the pages of `[lo, a)` have each been given a frame of `fl0`, filled with `fill`, and
mapped with flags `perm`; the state is now `s` with free list `fl`. -/
structure Grew (L : Layout) (pt : Nat) (perm : Nat → Nat) (fill : Nat → Nat → Nat)
    (s0 : KState) (fl0 : List Nat) (lo a : Nat) (s : KState) (fl : List Nat) : Prop where
  inv : Inv L s pt fl
  sub : ∀ f, f ∈ fl → f ∈ fl0
  tables_mono : ∀ p, IsTable s0.mem pt p → IsTable s.mem pt p
  tables_new : ∀ p, IsTable s.mem pt p → IsTable s0.mem pt p ∨ p ∈ fl0
  leaf_out : ∀ vb, vb < MAXVA → ¬ (lo ≤ vb ∧ vb < a) →
    leafOf s.mem pt vb = leafOf s0.mem pt vb
  leaf_in : ∀ b, b % 4096 = 0 → lo ≤ b → b < a →
    leafOf s.mem pt b = PA2PTE (PTE2PA (leafOf s.mem pt b)) ||| perm b ||| PTE_V ∧
    PTE2PA (leafOf s.mem pt b) ∈ fl0 ∧
    (∀ i, i < 4096 → s.mem (PTE2PA (leafOf s.mem pt b) + i) = fill b i) ∧
    leafOf s0.mem pt b % 2 = 0
  owned : OwnedFrames s pt fl lo a
  account : ∀ f, f ∈ fl0 → f ∈ fl ∨ IsTable s.mem pt f ∨
    ∃ b, b % 4096 = 0 ∧ lo ≤ b ∧ b < a ∧ f = PTE2PA (leafOf s.mem pt b)
  bound : lo < a → a ≤ MAXVA
  frame : ∀ x, (∀ p, IsTable s.mem pt p → ¬ inPage p x) → (∀ f, f ∈ fl0 → ¬ inPage f x) →
    s.mem x = s0.mem x

/-- What a rolled-back `uvmalloc` or `uvmcopy` leaves, relative to the state `s0` and free
list `fl0` at entry: the invariant, every level-0 entry as it was (or cleared, where it was
invalid), and every frame of `fl0` on the free list again or turned into a table page. -/
structure RolledBack (L : Layout) (pt : Nat) (s0 : KState) (fl0 : List Nat) (s' : KState)
    (fl' : List Nat) : Prop where
  inv : Inv L s' pt fl'
  leaf : ∀ vb, vb < MAXVA → leafOf s'.mem pt vb = leafOf s0.mem pt vb ∨
    (leafOf s'.mem pt vb = 0 ∧ leafOf s0.mem pt vb % 2 = 0)
  account : ∀ f, f ∈ fl0 → f ∈ fl' ∨ IsTable s'.mem pt f
  sub : ∀ f, f ∈ fl' → f ∈ fl0
  tables_mono : ∀ p, IsTable s0.mem pt p → IsTable s'.mem pt p
  tables_new : ∀ p, IsTable s'.mem pt p → IsTable s0.mem pt p ∨ p ∈ fl0
  frame : ∀ x, (∀ p, IsTable s'.mem pt p → ¬ inPage p x) → (∀ f, f ∈ fl0 → ¬ inPage f x) →
    s'.mem x = s0.mem x

/-! ## Concrete states used to instantiate the theorems -/

/-- The state a returning `kfree(f)` leaves. -/
def freed (s : KState) (f : Nat) : KState :=
  { mem := wr64 (memset s.mem f 1 PGSIZE) f s.freelist, freelist := f }

/-- A layout: kernel image up to `0x80020000`, RAM up to `0x88000000`. -/
def demoLayout : Layout := { kend := 0x80020000, phystop := 0x88000000 }

/-- All-zero memory and an empty free list. -/
def demoEmpty : KState := { mem := fun _ => 0, freelist := 0 }

/-- The frame used as root page table in the examples. -/
def demoRoot : Nat := 0x87f00000

/-- Four frames `0x87000000 .. 0x87003000` freed in ascending order onto `demoEmpty`. -/
def demoFree4 : KState :=
  freed (freed (freed (freed demoEmpty 0x87000000) 0x87001000) 0x87002000) 0x87003000

/-- The free list of `demoFree4`, head first. -/
def demoList4 : List Nat := [0x87003000, 0x87002000, 0x87001000, 0x87000000]

/-- The source address space `old` of `uvmcopy(old, new, sz)` is well formed and owns its
pages: its table is a tree, and neither its table pages nor the frames of its pages below
`sz` are table pages of `new` or on the free list. -/
structure SourceOK (s : KState) (old new : Nat) (fl : List Nat) (sz : Nat) : Prop where
  table : TableOK s.mem old
  sep : ∀ p, IsTable s.mem old p → ¬ IsTable s.mem new p ∧ p ∉ fl
  src : ∀ b, b % 4096 = 0 → b < sz → b < MAXVA →
    ¬ IsTable s.mem new (PTE2PA (leafOf s.mem old b)) ∧ PTE2PA (leafOf s.mem old b) ∉ fl

/-- A two-page user address space: `uvmalloc` from 0 to 8192 on `demoFree4`. -/
def demoUser2 : KState :=
  (uvmalloc demoLayout demoFree4 demoRoot 0 8192 PTE_W).st demoEmpty

/-- Eight free frames: `0x87004000 .. 0x87007000` freed onto `demoFree4`. -/
def demoFree8 : KState :=
  freed (freed (freed (freed demoFree4 0x87004000) 0x87005000) 0x87006000) 0x87007000

/-- The free list of `demoFree8`, head first. -/
def demoList8 : List Nat :=
  [0x87007000, 0x87006000, 0x87005000, 0x87004000] ++ demoList4

/-- The frame used as root of the destination table in the examples. -/
def demoNew : Nat := 0x87e00000

/-- A two-page source address space with four frames left on the free list. -/
def demoOld2 : KState :=
  (uvmalloc demoLayout demoFree8 demoRoot 0 8192 PTE_W).st demoEmpty

/-- A three-page source address space with three frames left on the free list. -/
def demoOld3 : KState :=
  (uvmalloc demoLayout demoFree8 demoRoot 0 12288 PTE_W).st demoEmpty

/-- The bytes of `hello\0world`. -/
def demoMsg : Buf :=
  fun i => [104, 101, 108, 108, 111, 0, 119, 111, 114, 108, 100].getD i 0

/-- The state `demoUser2` with `demoMsg` copied out to the user address 4093, across the
boundary between its two pages. -/
def demoHello : KState := (copyout demoUser2 demoRoot 4093 demoMsg 11).st demoEmpty

/-- A kernel buffer filled with `0xff`. -/
def demoDst : Buf := fun _ => 0xff

/-! ## kalloc.c: initialisation and the free-memory query -/

/-- Iteration budget of the loops over frames: one more than the number of page-aligned
64-bit addresses. -/
def FRAMEFUEL : Nat := 2 ^ 52 + 1

/-- The `for(; p + PGSIZE <= (char*)pa_end; p += PGSIZE)` loop of `freerange`; the pointer
sum is taken in 64 bits. -/
def freerangeLoop : Nat → Layout → KState → Nat → Nat → Res Unit
  | 0, _, _, _, _ => .fuel
  | fuel + 1, L, s, p, pa_end =>
    if (p + PGSIZE) % 2 ^ 64 ≤ pa_end then
      (kfree L s p).bind fun _ s1 => freerangeLoop fuel L s1 ((p + PGSIZE) % 2 ^ 64) pa_end
    else .ok () s

/-- `freerange(pa_start, pa_end)` of `kalloc.c`. -/
def freerange (L : Layout) (s : KState) (pa_start pa_end : Nat) : Res Unit :=
  freerangeLoop FRAMEFUEL L s (PGROUNDUP pa_start) pa_end

/-- `kinit()` of `kalloc.c`: `freerange(end, PHYSTOP)`; the lock and the `printf` leave
memory and the free list as they are. -/
def kinit (L : Layout) (s : KState) : Res Unit :=
  freerange L s L.kend L.phystop

/-- The `while (r)` loop of `get_free_mem`: `r` walks the list, `pages` counts. -/
def get_free_memLoop : Nat → KState → Nat → Nat → Res Nat
  | 0, _, _, _ => .fuel
  | fuel + 1, s, r, pages =>
    if r ≠ 0 then get_free_memLoop fuel s (rd64 s.mem r) ((pages + 1) % 2 ^ 64)
    else .ok pages s

/-- `get_free_mem()` of `kalloc.c`: it returns `pages << 12`. -/
def get_free_mem (s : KState) : Res Nat :=
  (get_free_memLoop FRAMEFUEL s s.freelist 0).bind fun pages s1 =>
    .ok (pages * 2 ^ 12 % 2 ^ 64) s1

/-! ## vm.c: creating and destroying an address space -/

/-- `uvmcreate()`: the root of an empty page table (0 when out of memory) and the new
state. -/
def uvmcreate (s : KState) : Nat × KState :=
  let (pagetable, s1) := kalloc s
  if pagetable = 0 then (0, s1)
  else (pagetable, { s1 with mem := memset s1.mem pagetable 0 PGSIZE })

/-- The `for(int i = 0; i < 512; i++)` loop of `freewalk` from index `i` on, `n` entries
to go; `child` is the recursive call. -/
def freewalkLoop (child : KState → Nat → Res Unit) : Nat → KState → Nat → Nat → Res Unit
  | 0, s, _, _ => .ok () s
  | n + 1, s, pagetable, i =>
    if rd64 s.mem (pagetable + 8 * i) &&& PTE_V ≠ 0 ∧
        rd64 s.mem (pagetable + 8 * i) &&& (PTE_R ||| PTE_W ||| PTE_X) = 0 then
      (child s (PTE2PA (rd64 s.mem (pagetable + 8 * i)))).bind fun _ s1 =>
        freewalkLoop child n { s1 with mem := wr64 s1.mem (pagetable + 8 * i) 0 }
          pagetable (i + 1)
    else if rd64 s.mem (pagetable + 8 * i) &&& PTE_V ≠ 0 then .panic "freewalk: leaf"
    else freewalkLoop child n s pagetable (i + 1)

/-- Recursion budget of `freewalk`; a well-formed table needs three levels. -/
def WALKDEPTH : Nat := 2 ^ 52 + 1

/-- `freewalk(pagetable)`; the first argument bounds the depth of the recursion. -/
def freewalk : Nat → Layout → KState → Nat → Res Unit
  | 0, _, _, _ => .fuel
  | depth + 1, L, s, pagetable =>
    (freewalkLoop (fun s1 c => freewalk depth L s1 c) 512 s pagetable 0).bind fun _ s1 =>
      kfree L s1 pagetable

/-- `uvmfree(pagetable, sz)`. -/
def uvmfree (L : Layout) (s : KState) (pagetable sz : Nat) : Res Unit :=
  (if sz > 0 then uvmunmap L s pagetable 0 (PGROUNDUP sz / PGSIZE) true
   else .ok () s).bind fun _ s1 => freewalk WALKDEPTH L s1 pagetable

/-! ## Scenarios the statements quantify over -/

/-- The allocate/free round trip repeated `n` times: `kalloc()` followed at once by
`kfree` of the frame it returned. The value counts the rounds in which `kalloc` returned
0 (such a round frees nothing). This is the test loop of the round-trip property, built
from the two routines of `kalloc.c`; the source has no routine of this name. -/
def allocFreeRounds (L : Layout) : Nat → KState → Res Nat
  | 0, s => .ok 0 s
  | n + 1, s =>
    if (kalloc s).1 = 0 then
      (allocFreeRounds L n (kalloc s).2).bind fun k s2 => .ok (k + 1) s2
    else
      (kfree L (kalloc s).2 (kalloc s).1).bind fun _ s2 => allocFreeRounds L n s2

/-- Two user pages at `0x200000` and `0x201000`, in the second level-0 table: `uvmalloc`
from `0x200000` to `0x202000` on `demoFree4`, which takes all four frames. -/
def demoHigh2 : KState :=
  (uvmalloc demoLayout demoFree4 demoRoot 0x200000 0x202000 PTE_W).st demoEmpty

/-- The level-0 tables of the pages that `uvmalloc(pt, oldsz, newsz, ..)` maps exist: both
upper entries of every page-aligned address of `[PGROUNDUP(oldsz), newsz)` are valid. -/
def Present (s : KState) (pt oldsz newsz : Nat) : Prop :=
  ∀ b, b % PGSIZE = 0 → PGROUNDUP oldsz ≤ b → b < newsz → has0 s.mem pt b

/-- States reached from `s` by grow/shrink cycles: `uvmalloc(pt, oldsz, newsz, xperm)`
returning `newsz`, then `uvmdealloc(pt, newsz, oldsz)` returning `oldsz`, any number of
times, each cycle with permission bits of its own. -/
inductive Cycled (L : Layout) (pt oldsz newsz : Nat) (s : KState) : KState → Prop where
  | zero : Cycled L pt oldsz newsz s s
  | next (sa sb sc : KState) (xperm : Nat) :
      Cycled L pt oldsz newsz s sa → xperm < 1024 →
      uvmalloc L sa pt oldsz newsz xperm = .ok newsz sb →
      uvmdealloc L sb pt newsz oldsz = .ok oldsz sc →
      Cycled L pt oldsz newsz s sc

/-! ## Vocabulary for `freewalk` and `uvmfree` -/

/-- Entry `i` of the table page `p`. -/
def entry (m : Mem) (p i : Nat) : Nat := rd64 m (p + 8 * i)

/-- Page `q` belongs to the tree of table pages of height `h` below `p`: it is `p`, or it
belongs to the tree below one of the valid entries of `p`. These are the pages `freewalk`
visits from `p`. -/
def InTree (m : Mem) : Nat → Nat → Nat → Prop
  | 0, p, q => q = p
  | h + 1, p, q => q = p ∨
      ∃ i, i < 512 ∧ entry m p i % 2 = 1 ∧ InTree m h (PTE2PA (entry m p i)) q

/-- The pages below `p` form a tree of height `h` that `freewalk` can free: a page at
height 0 has no valid entry; a valid entry of a higher page has none of `PTE_R`, `PTE_W`,
`PTE_X` set and points to such a tree, which neither contains `p` nor shares a page with the
tree of another entry. -/
def TreeOK (m : Mem) : Nat → Nat → Prop
  | 0, p => ∀ i, i < 512 → entry m p i % 2 = 0
  | h + 1, p => ∀ i, i < 512 → entry m p i % 2 = 1 →
      entry m p i &&& (PTE_R ||| PTE_W ||| PTE_X) = 0 ∧
      TreeOK m h (PTE2PA (entry m p i)) ∧
      ¬ InTree m h (PTE2PA (entry m p i)) p ∧
      ∀ j, j < 512 → entry m p j % 2 = 1 → j ≠ i →
        ∀ q, InTree m h (PTE2PA (entry m p i)) q → ¬ InTree m h (PTE2PA (entry m p j)) q

/-- Every valid root and level-1 entry of `pt` is a pointer entry as `walk` writes it
(flags `PTE_V` alone), and the root has none in its upper half, which no address below
`MAXVA` selects. -/
def Clean (m : Mem) (pt : Nat) : Prop :=
  (∀ va, has1 m pt va → ent2 m pt va % 1024 = 1 ∧ PX 2 va < 256) ∧
  ∀ va, has0 m pt va → ent1 m pt va % 1024 = 1

/-- The address `va` with indices `i`, `j`, `k` at levels 2, 1, 0. -/
def vaOf (i j k : Nat) : Nat := i * 2 ^ 30 + j * 2 ^ 21 + k * 2 ^ 12

/-- An address space "obtained by uvmcreate and then grown by successful uvmalloc calls":
`uvmcreate()` in state `s0` returned the root `pt`, and a sequence of calls
`uvmalloc(pt, sz, newsz, xperm)`, each from the size the previous one reached and each
returning its `newsz`, led to state `s` with size `sz`. -/
inductive Built (L : Layout) (s0 : KState) (pt : Nat) : KState → Nat → Prop where
  | create (s1 : KState) : uvmcreate s0 = (pt, s1) → pt ≠ 0 → Built L s0 pt s1 0
  | grow (s s' : KState) (sz newsz xperm : Nat) :
      Built L s0 pt s sz → sz ≤ newsz → xperm < 1024 →
      uvmalloc L s pt sz newsz xperm = .ok newsz s' → Built L s0 pt s' newsz

/-- The invariant of a built address space of size `sz`, relative to the free list `fl0`
the allocator had before `uvmcreate`: the free list `fl` and every page-table page come
from `fl0`; exactly the pages below `PGROUNDUP(sz)` are mapped, each to a frame of `fl0`
that it owns, with a flag besides `PTE_V`; and every frame of `fl0` is on the free list, a
page-table page, or the frame of a mapped page. -/
structure Space (L : Layout) (pt : Nat) (fl0 : List Nat) (s : KState) (sz : Nat)
    (fl : List Nat) : Prop where
  inv : Inv L s pt fl
  sub : ∀ f, f ∈ fl → f ∈ fl0
  tables : ∀ p, IsTable s.mem pt p → p ∈ fl0
  mapped : ∀ b, b % 4096 = 0 → b < PGROUNDUP sz →
    leafOf s.mem pt b % 2 = 1 ∧ leafOf s.mem pt b % 1024 ≠ 1 ∧
    PTE2PA (leafOf s.mem pt b) ∈ fl0
  unmapped : ∀ vb, vb < MAXVA → PGROUNDUP sz ≤ vb → leafOf s.mem pt vb % 2 = 0
  owned : OwnedFrames s pt fl 0 (PGROUNDUP sz)
  account : ∀ f, f ∈ fl0 → f ∈ fl ∨ IsTable s.mem pt f ∨
    ∃ b, b % 4096 = 0 ∧ b < PGROUNDUP sz ∧ f = PTE2PA (leafOf s.mem pt b)
  size : sz ≤ MAXVA
  clean : Clean s.mem pt
  nodup0 : fl0.Nodup
  frames0 : ∀ f, f ∈ fl0 → f % 4096 = 0 ∧ L.kend ≤ f ∧ f < L.phystop

/-- The root `uvmcreate` returns on `demoFree8`: the head of its free list. -/
def demoPt : Nat := (uvmcreate demoFree8).1

/-- The empty address space `uvmcreate` leaves on `demoFree8`. -/
def demoSpace0 : KState := (uvmcreate demoFree8).2

/-- The address space `demoSpace0` grown to one page. -/
def demoSpace1 : KState := (uvmalloc demoLayout demoSpace0 demoPt 0 4096 PTE_W).st demoEmpty

/-- The address space `demoSpace1` grown to three pages. -/
def demoSpace3 : KState :=
  (uvmalloc demoLayout demoSpace1 demoPt 4096 12288 (PTE_W ||| PTE_X)).st demoEmpty

/-! ## `uvmclear` -/

/-- `uvmclear(pagetable, va)` of `vm.c`: `*pte &= ~PTE_U` on the level-0 entry of `va`.
`~PTE_U` is the 64-bit complement of `PTE_U`. -/
def uvmclear (s : KState) (pagetable va : Nat) : Res Unit :=
  (walk s pagetable va false).bind fun pte s1 =>
    if pte = 0 then .panic "uvmclear"
    else .ok () { s1 with mem := wr64 s1.mem pte (rd64 s1.mem pte &&& (2 ^ 64 - 1 - PTE_U)) }

/-! ## `exec.c` and its collaborators -/

/-- Modelled from the spec: `param.h` is absent; the loader must "reject if the number of
arguments exceeds a fixed maximum". The value is the one of xv6-riscv. -/
def MAXARG : Nat := 32

/-- Modelled from the spec: `memlayout.h` is absent; the start of the "reserved high region
used for memory-mapped devices". The value is the one of xv6-riscv. -/
def PLIC : Nat := 0x0c000000

/-- Modelled from the spec: `elf.h` is absent; the "magic value" of an executable image,
`"\x7FELF"` in little endian. -/
def ELF_MAGIC : Nat := 0x464C457F

/-- Modelled from the spec: `elf.h` is absent; the type of a "loadable segment". -/
def ELF_PROG_LOAD : Nat := 1

/-- Modelled from the spec: the file layer is absent, an "external collaborator"; a
"file-backed object" is the sequence of its bytes. -/
structure Inode where
  data : List Nat

/-- Modelled from the spec: the file layer is absent; `namei(path)`, the named file or
none. -/
abbrev Files := List Nat → Option Inode

/-- The bytes of a file as a memory, zero past its end. -/
def Inode.mem (ip : Inode) : Mem := fun i => ip.data.getD i 0

/-- Modelled from the spec: the file layer is absent; the value of
`readi(ip, 0, dst, off, n)`, "read N bytes of a named file-backed object at a given byte
offset": the number of bytes transferred, which is `n` unless the file ends first. -/
def readi (ip : Inode) (off n : Nat) : Nat := min n (ip.data.length - off)

/-- Modelled from the spec: the file layer is absent; memory after
`readi(ip, 0, dst, off, n)` "into a given kernel or physical destination" `dst`. -/
def readiMem (ip : Inode) (m : Mem) (dst off n : Nat) : Mem :=
  fun x => if dst ≤ x ∧ x < dst + readi ip off n then rd8 ip.mem (off + (x - dst)) else m x

/-- Modelled from the spec: `elf.h` is absent; the fields of `struct elfhdr` that `exec`
uses. -/
structure Elfhdr where
  magic : Nat
  entry : Nat
  phoff : Nat
  phnum : Nat

/-- Modelled from the spec: `elf.h` is absent; the fields of `struct proghdr` that `exec`
uses: "virtual address, file offset, file size, in-memory size, permission flags". -/
structure Proghdr where
  type : Nat
  flags : Nat
  off : Nat
  vaddr : Nat
  filesz : Nat
  memsz : Nat

/-- Modelled from the spec: `elf.h` is absent; `readi(ip, 0, &elf, 0, sizeof(elf))` with
the layout of xv6-riscv (64 bytes; `magic` at 0, `entry` at 24, `phoff` at 32, `phnum` at
56), none when fewer than `sizeof(elf)` bytes were read. -/
def readElfhdr (ip : Inode) : Option Elfhdr :=
  if readi ip 0 64 ≠ 64 then none
  else some { magic := rdLE ip.mem 4 0, entry := rdLE ip.mem 8 24,
              phoff := rdLE ip.mem 8 32, phnum := rdLE ip.mem 2 56 }

/-- Modelled from the spec: `elf.h` is absent; `readi(ip, 0, &ph, off, sizeof(ph))` with
the layout of xv6-riscv (56 bytes; `type` at 0, `flags` at 4, `off` at 8, `vaddr` at 16,
`filesz` at 32, `memsz` at 40), none when fewer than `sizeof(ph)` bytes were read. -/
def readProghdr (ip : Inode) (off : Nat) : Option Proghdr :=
  if readi ip off 56 ≠ 56 then none
  else some { type := rdLE ip.mem 4 off, flags := rdLE ip.mem 4 (off + 4),
              off := rdLE ip.mem 8 (off + 8), vaddr := rdLE ip.mem 8 (off + 16),
              filesz := rdLE ip.mem 8 (off + 32), memsz := rdLE ip.mem 8 (off + 40) }

/-- `flags2perm(flags)` of `exec.c`. -/
def flags2perm (flags : Nat) : Nat :=
  let perm := if flags &&& 1 ≠ 0 then PTE_X else 0
  if flags &&& 2 ≠ 0 then perm ||| PTE_W else perm

/-- Iteration budget of the loop of `loadseg`: its counter is a `uint` that advances by
`PGSIZE`, so a run of more than `2^32 / PGSIZE` iterations never ends. -/
def LOADFUEL : Nat := 2 ^ 32 / PGSIZE + 1

/-- The `for(i = 0; i < sz; i += PGSIZE)` loop of `loadseg`; `offset`, `sz` and `i` are
`uint`. -/
def loadsegLoop : Nat → KState → Nat → Nat → Inode → Nat → Nat → Nat → Res Int
  | 0, _, _, _, _, _, _, _ => .fuel
  | fuel + 1, s, pagetable, va, ip, offset, sz, i =>
    if i < sz then
      (walkaddr s pagetable ((va + i) % 2 ^ 64)).bind fun pa s1 =>
        if pa = 0 then .panic "loadseg: address should exist"
        else
          let n := if sz - i < PGSIZE then sz - i else PGSIZE
          let s2 : KState :=
            { s1 with mem := readiMem ip s1.mem pa ((offset + i) % 2 ^ 32) n }
          if readi ip ((offset + i) % 2 ^ 32) n ≠ n then .ok (-1) s2
          else loadsegLoop fuel s2 pagetable va ip offset sz ((i + PGSIZE) % 2 ^ 32)
    else .ok 0 s

/-- `loadseg(pagetable, va, ip, offset, sz)` of `exec.c`; the arguments `offset` and `sz`
are converted to `uint`. -/
def loadseg (s : KState) (pagetable va : Nat) (ip : Inode) (offset sz : Nat) : Res Int :=
  loadsegLoop LOADFUEL s pagetable va ip (offset % 2 ^ 32) (sz % 2 ^ 32) 0

/-- Modelled from the spec: `proc.h` is absent; the fields of `struct proc` that `exec`
reads or writes: the "address-space handle", its size, the name, and the registers `epc`,
`sp`, `a1` of the trapframe. -/
structure Proc where
  pagetable : Nat
  sz : Nat
  name : List Nat
  epc : Nat
  sp : Nat
  a1 : Nat
deriving DecidableEq

/-- What `exec` hands back: its return value and the process as it left it; beside them,
as a record of the run (not variables of the source), the indices of the local array
`ustack` it used, in order, and on success the words `ustack[0 .. argc]` it copied out. -/
structure ExecRet where
  ret : Int
  p : Proc
  idx : List Nat
  ustack : List Nat
deriving DecidableEq

/-- Modelled from the spec: `proc.c` is absent; `proc_pagetable(p)`, "create a fresh
address space (delegating to 4.2)". -/
def proc_pagetable (s : KState) : Nat × KState := uvmcreate s

/-- Modelled from the spec: `proc.c` is absent; `proc_freepagetable(pagetable, sz)`,
"destroy the partially built address space (4.2 `destroy`)". -/
def proc_freepagetable (L : Layout) (s : KState) (pagetable sz : Nat) : Res Unit :=
  uvmfree L s pagetable sz

/-- The `for(i=0, off=elf.phoff; i<elf.phnum; i++, off+=sizeof(ph))` loop of `exec`, by the
number of headers still to read; `off` is an `int` passed as `uint`. The value is `sz`
paired with `true` when the loop ran to its end and with `false` at a `goto bad`. -/
def execSegs (L : Layout) (ip : Inode) (pagetable : Nat) :
    Nat → KState → Nat → Nat → Res (Bool × Nat)
  | 0, s, _, sz => .ok (true, sz) s
  | n + 1, s, off, sz =>
    match readProghdr ip off with
    | none => .ok (false, sz) s
    | some ph =>
      if ph.type ≠ ELF_PROG_LOAD then execSegs L ip pagetable n s ((off + 56) % 2 ^ 32) sz
      else if ph.memsz < ph.filesz then .ok (false, sz) s
      else if (ph.vaddr + ph.memsz) % 2 ^ 64 < ph.vaddr then .ok (false, sz) s
      else if ph.vaddr % PGSIZE ≠ 0 then .ok (false, sz) s
      else
        (uvmalloc L s pagetable sz ((ph.vaddr + ph.memsz) % 2 ^ 64)
            (flags2perm ph.flags)).bind fun sz1 s1 =>
          if sz1 = 0 then .ok (false, sz) s1
          else if sz1 ≥ PLIC then .ok (false, sz) s1
          else
            (loadseg s1 pagetable ph.vaddr ip ph.off ph.filesz).bind fun r s2 =>
              if r < 0 then .ok (false, sz1) s2
              else execSegs L ip pagetable n s2 ((off + 56) % 2 ^ 32) sz1

/-- Modelled from the spec: `string.c` is absent; an argument string is the list of its
characters before the terminating NUL, and `strlen` is its length. -/
def strlen (a : List Nat) : Nat := a.length

/-- The bytes of an argument string and its terminating NUL, as a kernel buffer. -/
def strBuf (a : List Nat) : Buf := fun i => a.getD i 0

/-- The bytes of the array `ustack`, as the kernel buffer `(char *)ustack`. -/
def wordsBuf (ustack : Nat → Nat) : Buf :=
  fun i => ustack (i / 8) % 2 ^ 64 / 256 ^ (i % 8) % 256

/-- The `for(argc = 0; argv[argc]; argc++)` loop of `exec`, over the strings of `argv`
before its terminating null pointer. The value is `argc`, `sp` and `ustack` at the end of
the loop, none at a `goto bad`, paired with the indices of `ustack` written. -/
def execArgs (pagetable stackbase : Nat) :
    List (List Nat) → KState → Nat → Nat → (Nat → Nat) → List Nat →
      Res (Option (Nat × Nat × (Nat → Nat)) × List Nat)
  | [], s, argc, sp, ustack, idx => .ok (some (argc, sp, ustack), idx) s
  | a :: rest, s, argc, sp, ustack, idx =>
    if argc ≥ MAXARG then .ok (none, idx) s
    else
      let sp1 := (sp + 2 ^ 64 - (strlen a + 1) % 2 ^ 64) % 2 ^ 64
      let sp2 := sp1 - sp1 % 16
      if sp2 < stackbase then .ok (none, idx) s
      else
        (copyout s pagetable sp2 (strBuf a) (strlen a + 1)).bind fun r s1 =>
          if r < 0 then .ok (none, idx) s1
          else
            execArgs pagetable stackbase rest s1 (argc + 1) sp2
              (fun j => if j = argc then sp2 else ustack j) (idx ++ [argc])

/-- The `for(last=s=path; *s; s++)` loop of `exec`: the part of `path` after its last
`/`. -/
def lastName : List Nat → List Nat → List Nat
  | [], last => last
  | c :: rest, last => if c = 47 then lastName rest rest else lastName rest last

/-- The exit `bad:` of `exec` once the page table exists (`ip` released, nothing of the
process changed). -/
def execBad (L : Layout) (s : KState) (pagetable sz : Nat) (p : Proc) (idx : List Nat) :
    Res ExecRet :=
  (proc_freepagetable L s pagetable sz).bind fun _ s1 =>
    .ok { ret := -1, p := p, idx := idx, ustack := [] } s1

/-- The part of `exec` after the segments are loaded: the two stack pages, the argument
strings, the pointer array and the commit. `sz` is the loaded size, `entry` is
`elf.entry`. `safestrcpy` (absent) keeps at most 15 characters of the name; `vmprint` only
prints. -/
def execStack (L : Layout) (s : KState) (p : Proc) (path : List Nat)
    (argv : List (List Nat)) (pagetable sz entry : Nat) : Res ExecRet :=
  (uvmalloc L s pagetable (PGROUNDUP sz) ((PGROUNDUP sz + 2 * PGSIZE) % 2 ^ 64)
      PTE_W).bind fun sz1 s3 =>
    if sz1 = 0 then execBad L s3 pagetable (PGROUNDUP sz) p []
    else
      (uvmclear s3 pagetable ((sz1 + 2 ^ 64 - 2 * PGSIZE) % 2 ^ 64)).bind fun _ s4 =>
        (execArgs pagetable ((sz1 + 2 ^ 64 - PGSIZE) % 2 ^ 64) argv s4 0 sz1
            (fun _ => 0) []).bind fun r s5 =>
          match r with
          | (none, idx) => execBad L s5 pagetable sz1 p idx
          | (some (argc, sp, ustack), idx) =>
            let sp1 := (sp + 2 ^ 64 - (argc + 1) * 8 % 2 ^ 64) % 2 ^ 64
            let sp2 := sp1 - sp1 % 16
            if sp2 < (sz1 + 2 ^ 64 - PGSIZE) % 2 ^ 64 then
              execBad L s5 pagetable sz1 p (idx ++ [argc])
            else
              (copyout s5 pagetable sp2
                  (wordsBuf (fun j => if j = argc then 0 else ustack j))
                  ((argc + 1) * 8)).bind fun c s6 =>
                if c < 0 then
                  execBad L s6 pagetable sz1 p (idx ++ [argc] ++ List.range (argc + 1))
                else
                  (proc_freepagetable L s6 p.pagetable p.sz).bind fun _ s7 =>
                    .ok { ret := (argc : Int),
                          p := { pagetable := pagetable, sz := sz1,
                                 name := (lastName path path).take 15,
                                 epc := entry, sp := sp2, a1 := sp2 },
                          idx := idx ++ [argc] ++ List.range (argc + 1),
                          ustack := (List.range (argc + 1)).map
                            (fun j => if j = argc then 0 else ustack j) } s7

/-- `exec(path, argv)` of `exec.c` for the process `p`. The calls of the log and inode
layers (`begin_op`, `ilock`, `iunlockput`, `end_op`) act on no state modelled here. -/
def exec (L : Layout) (fs : Files) (s : KState) (p : Proc) (path : List Nat)
    (argv : List (List Nat)) : Res ExecRet :=
  match fs path with
  | none => .ok { ret := -1, p := p, idx := [], ustack := [] } s
  | some ip =>
    match readElfhdr ip with
    | none => .ok { ret := -1, p := p, idx := [], ustack := [] } s
    | some elf =>
      if elf.magic ≠ ELF_MAGIC then .ok { ret := -1, p := p, idx := [], ustack := [] } s
      else
        if (proc_pagetable s).1 = 0 then
          .ok { ret := -1, p := p, idx := [], ustack := [] } (proc_pagetable s).2
        else
          (execSegs L ip (proc_pagetable s).1 elf.phnum (proc_pagetable s).2
              (elf.phoff % 2 ^ 32) 0).bind fun r s2 =>
            if r.1 = false then execBad L s2 (proc_pagetable s).1 r.2 p []
            else execStack L s2 p path argv (proc_pagetable s).1 r.2 elf.entry

/-! ## Examples for `exec` -/

/-- The `n` bytes of `v`, little endian. -/
def leBytes : Nat → Nat → List Nat
  | 0, _ => []
  | n + 1, v => v % 256 :: leBytes n (v / 256)

/-- An image header with `phnum` program headers at offset 64 and entry 0. -/
def demoElfhdr (phnum : Nat) : List Nat :=
  leBytes 4 ELF_MAGIC ++ List.replicate 20 0 ++ leBytes 8 0 ++ leBytes 8 64 ++
    List.replicate 16 0 ++ leBytes 2 phnum ++ List.replicate 6 0

/-- A program header. -/
def demoProghdr (type flags off vaddr filesz memsz : Nat) : List Nat :=
  leBytes 4 type ++ leBytes 4 flags ++ leBytes 8 off ++ leBytes 8 vaddr ++ leBytes 8 0 ++
    leBytes 8 filesz ++ leBytes 8 memsz ++ leBytes 8 4096

/-- The image of the loader test: "one loadable segment at virtual address 0x0, file size
10, memory size 4096, flags {readable, executable}". -/
def demoImage : Inode :=
  { data := demoElfhdr 1 ++ demoProghdr 1 5 120 0 10 4096 ++
      [19, 5, 0, 0, 115, 0, 0, 0, 1, 160] }

/-- An image whose only loadable segment has `memsz < filesz`. -/
def demoBadImage : Inode :=
  { data := demoElfhdr 1 ++ demoProghdr 1 5 120 0 10 4 ++
      [19, 5, 0, 0, 115, 0, 0, 0, 1, 160] }

/-- The path `/echo`. -/
def demoPath : List Nat := [47, 101, 99, 104, 111]

/-- The path `/bad`. -/
def demoBadPath : List Nat := [47, 98, 97, 100]

/-- A file system holding `demoImage` as `/echo` and `demoBadImage` as `/bad`. -/
def demoFiles : Files := fun path =>
  if path = demoPath then some demoImage
  else if path = demoBadPath then some demoBadImage else none

/-- The arguments `["echo", "hi"]`. -/
def demoArgv : List (List Nat) := [[101, 99, 104, 111], [104, 105]]

/-- The calling process of the examples: the empty address space `demoSpace0` with root
`demoPt`, seven frames being free. -/
def demoProc : Proc :=
  { pagetable := demoPt, sz := 0, name := [115, 104], epc := 0, sp := 0, a1 := 0 }

/-! ## Vocabulary for `exec` -/

/-- A user address space of size `sz` as `uvmfree` expects it: exactly the pages below
`PGROUNDUP(sz)` are mapped, each with a flag besides `PTE_V` to a frame of the allocator's
range that it owns; the table pages lie in the allocator's range and its root and level-1
entries are pointer entries. `fl` is the free list. -/
structure Proper (L : Layout) (s : KState) (pt sz : Nat) (fl : List Nat) : Prop where
  inv : Inv L s pt fl
  mapped : ∀ b, b % 4096 = 0 → b < PGROUNDUP sz →
    leafOf s.mem pt b % 2 = 1 ∧ leafOf s.mem pt b % 1024 ≠ 1 ∧
    L.kend ≤ PTE2PA (leafOf s.mem pt b) ∧ PTE2PA (leafOf s.mem pt b) < L.phystop
  unmapped : ∀ vb, vb < MAXVA → PGROUNDUP sz ≤ vb → leafOf s.mem pt vb % 2 = 0
  owned : OwnedFrames s pt fl 0 (PGROUNDUP sz)
  size : sz ≤ MAXVA
  clean : Clean s.mem pt
  tables : ∀ p, IsTable s.mem pt p → L.kend ≤ p ∧ p < L.phystop

/-- The tree of table pages of height `h` below `p` contains a valid entry at height 0. -/
def Leafy (m : Mem) : Nat → Nat → Prop
  | 0, p => ∃ i, i < 512 ∧ entry m p i % 2 = 1
  | h + 1, p => ∃ i, i < 512 ∧ entry m p i % 2 = 1 ∧ Leafy m h (PTE2PA (entry m p i))

/-- Like `TreeOK`, but a page at height 0 may hold valid entries, each with one of
`PTE_R`, `PTE_W`, `PTE_X` set: leaves that were not unmapped. -/
def TreeLax (m : Mem) : Nat → Nat → Prop
  | 0, p => ∀ i, i < 512 → entry m p i % 2 = 1 →
      entry m p i &&& (PTE_R ||| PTE_W ||| PTE_X) ≠ 0
  | h + 1, p => ∀ i, i < 512 → entry m p i % 2 = 1 →
      entry m p i &&& (PTE_R ||| PTE_W ||| PTE_X) = 0 ∧
      TreeLax m h (PTE2PA (entry m p i)) ∧
      ¬ InTree m h (PTE2PA (entry m p i)) p ∧
      ∀ j, j < 512 → entry m p j % 2 = 1 → j ≠ i →
        ∀ q, InTree m h (PTE2PA (entry m p i)) q → ¬ InTree m h (PTE2PA (entry m p j)) q

/-- Memory outside the frames of `fl0` is in `s` what it is in `s0`. -/
def Outside (fl0 : List Nat) (s0 s : KState) : Prop :=
  ∀ x, (∀ f, f ∈ fl0 → ¬ inPage f x) → s.mem x = s0.mem x

/-- The address space `exec` is building, in state `s`, from the frames `fl0` that were
free in the state `s0` at its start: an address space of size `sz` in the sense of `Space`
whose pages are all readable, nothing outside the frames of `fl0` having changed. -/
structure Image (L : Layout) (pt : Nat) (fl0 : List Nat) (s0 s : KState) (sz : Nat)
    (fl : List Nat) : Prop where
  space : Space L pt fl0 s sz fl
  outside : Outside fl0 s0 s
  readable : ∀ b, b % 4096 = 0 → b < PGROUNDUP sz → leafOf s.mem pt b / 2 % 2 = 1

/-- Every page below `hi` except the page `g` is user-accessible. -/
def UserPages (s : KState) (pt hi g : Nat) : Prop :=
  ∀ b, b % 4096 = 0 → b < hi → b ≠ g → leafOf s.mem pt b / 16 % 2 = 1

/-- The image once `exec` has added its two stack pages: an image of the page-aligned size
`sz` whose last page but one is not user-accessible (the guard page) and whose last page
(the stack page) is user-accessible and writable. -/
structure Stacked (L : Layout) (pt : Nat) (fl0 : List Nat) (s0 s : KState) (sz : Nat)
    (fl : List Nat) : Prop where
  image : Image L pt fl0 s0 s sz fl
  aligned : sz % 4096 = 0
  two : 8192 ≤ sz
  guard : leafOf s.mem pt (sz - 8192) / 16 % 2 = 0
  stack : leafOf s.mem pt (sz - 4096) / 16 % 2 = 1 ∧ leafOf s.mem pt (sz - 4096) / 4 % 2 = 1

/-- The offset of the first loadable program header, among the `n` headers from offset
`off`, that `exec` rejects for `memsz < filesz`, for `vaddr + memsz` wrapping, or for a
`vaddr` that is not page-aligned; none when a header before it cannot be read or describes
a loadable segment that reaches `PLIC`, or when there is no such header. -/
def offender (ip : Inode) : Nat → Nat → Option Nat
  | 0, _ => none
  | n + 1, off =>
    match readProghdr ip off with
    | none => none
    | some ph =>
      if ph.type ≠ ELF_PROG_LOAD then offender ip n ((off + 56) % 2 ^ 32)
      else if ph.memsz < ph.filesz ∨ (ph.vaddr + ph.memsz) % 2 ^ 64 < ph.vaddr ∨
          ph.vaddr % PGSIZE ≠ 0 then some off
      else if ph.vaddr + ph.memsz ≥ PLIC then none
      else offender ip n ((off + 56) % 2 ^ 32)

/-- The image once `exec` has pushed the strings of `argv` and the pointer array: a stacked
image of size `sz` in state `s`; `sp` is the final stack pointer and `ustack i` the address
of string `i`. The pointer array at `sp` and the strings lie in the stack page, each string
below the one pushed before it and the array below them all, and the frame of the stack
page holds their bytes. -/
structure Pushed (L : Layout) (pt : Nat) (fl0 : List Nat) (s0 s : KState) (sz : Nat)
    (fl : List Nat) (argv : List (List Nat)) (sp : Nat) (ustack : Nat → Nat) : Prop where
  stacked : Stacked L pt fl0 s0 s sz fl
  count : argv.length ≤ MAXARG
  sp_aligned : sp % 16 = 0
  sp_low : sz - 4096 ≤ sp
  array_top : sp + (argv.length + 1) * 8 ≤ sz
  below : ∀ i, i < argv.length → sp + (argv.length + 1) * 8 ≤ ustack i
  strings : ∀ i, i < argv.length →
    ustack i % 16 = 0 ∧ ustack i + (argv.getD i []).length + 1 ≤ sz ∧
    (∀ j, i < j → j < argv.length →
      ustack j + (argv.getD j []).length + 1 ≤ ustack i) ∧
    ∀ k, k ≤ (argv.getD i []).length →
      rd8 s.mem (PTE2PA (leafOf s.mem pt (sz - 4096)) + (ustack i - (sz - 4096)) + k) =
        strBuf (argv.getD i []) k % 256
  array : ∀ i, i < (argv.length + 1) * 8 →
    rd8 s.mem (PTE2PA (leafOf s.mem pt (sz - 4096)) + (sp - (sz - 4096)) + i) =
      wordsBuf (fun j => if j = argv.length then 0 else ustack j) i % 256

/-- An argument vector of exactly `MAXARG` strings `"a"`. -/
def demoArgv32 : List (List Nat) := List.replicate 32 [97]

/-- A layout with 1 GB of RAM: kernel image up to `0x80020000`, RAM up to `0xC0000000`. -/
def demoBigLayout : Layout := { kend := 0x80020000, phystop := 0xC0000000 }

/-- The allocator of `demoBigLayout` after `kinit`: 262112 free frames. -/
@[irreducible] def demoBigState : KState := (kinit demoBigLayout demoEmpty).st demoEmpty

/-- An image whose only loadable segment, at virtual address 0, has `memsz = PLIC`. -/
def demoBigImage : Inode :=
  { data := demoElfhdr 1 ++ demoProghdr 1 5 120 0 10 0x0c000000 ++
      [19, 5, 0, 0, 115, 0, 0, 0, 1, 160] }

/-- The path `/big`. -/
def demoBigPath : List Nat := [47, 98, 105, 103]

/-- A file system holding `demoBigImage` as `/big`. -/
def demoBigFiles : Files := fun path => if path = demoBigPath then some demoBigImage else none

theorem rd8_lt (m : Mem) (a : Nat) : rd8 m a < 256 := by
  unfold rd8; omega

theorem rdLE_congr (m m' : Mem) : ∀ (n a : Nat),
    (∀ x, a ≤ x → x < a + n → m' x = m x) → rdLE m' n a = rdLE m n a
  | 0, _, _ => rfl
  | n + 1, a, h => by
    have h0 : m' a = m a := h a (Nat.le_refl a) (by omega)
    have ih := rdLE_congr m m' n (a + 1) (fun x h1 h2 => h x (by omega) (by omega))
    simp only [rdLE, rd8, h0, ih]

theorem rd64_congr (m m' : Mem) (a : Nat)
    (h : ∀ x, a ≤ x → x < a + 8 → m' x = m x) : rd64 m' a = rd64 m a :=
  rdLE_congr m m' 8 a h

theorem rdLE_lt (m : Mem) : ∀ (n a : Nat), rdLE m n a < 256 ^ n
  | 0, _ => by simp [rdLE]
  | n + 1, a => by
    have ih := rdLE_lt m n (a + 1)
    have h8 := rd8_lt m a
    simp only [rdLE, pow_succ]
    nlinarith

theorem rd64_lt (m : Mem) (a : Nat) : rd64 m a < 2 ^ 64 := by
  have h := rdLE_lt m 8 a
  unfold rd64
  norm_num at h ⊢
  exact h

theorem rd64_wr64_same (m : Mem) (a v : Nat) : rd64 (wr64 m a v) a = v % 2 ^ 64 := by
  have e : ∀ k, k < 8 → rd8 (wr64 m a v) (a + k) = v / 256 ^ k % 256 := by
    intro k hk
    have h1 : a ≤ a + k ∧ a + k < a + 8 := ⟨by omega, by omega⟩
    simp only [rd8, wr64, h1, and_self, if_true, Nat.add_sub_cancel_left, Nat.mod_mod]
  have e0 := e 0 (by omega)
  have e1 := e 1 (by omega)
  have e2 := e 2 (by omega)
  have e3 := e 3 (by omega)
  have e4 := e 4 (by omega)
  have e5 := e 5 (by omega)
  have e6 := e 6 (by omega)
  have e7 := e 7 (by omega)
  simp only [Nat.add_zero] at e0
  simp only [rd64, rdLE, Nat.add_assoc, Nat.reduceAdd, e0, e1, e2, e3, e4, e5, e6, e7]
  norm_num
  omega

theorem rd64_wr64_other (m : Mem) (a v b : Nat) (h : b + 8 ≤ a ∨ a + 8 ≤ b) :
    rd64 (wr64 m a v) b = rd64 m b := by
  apply rd64_congr
  intro x h1 h2
  have : ¬ (a ≤ x ∧ x < a + 8) := by omega
  simp only [wr64, this, if_false]

theorem rd64_memset_zero (m : Mem) (dst n a : Nat) (h1 : dst ≤ a) (h2 : a + 8 ≤ dst + n) :
    rd64 (memset m dst 0 n) a = 0 := by
  have e : rd64 (memset m dst 0 n) a = rd64 (fun _ => 0) a := by
    apply rd64_congr
    intro x h3 h4
    have : dst ≤ x ∧ x < dst + n := ⟨by omega, by omega⟩
    simp only [memset, this, and_self, if_true]
  rw [e]
  rfl

theorem rd64_memset_other (m : Mem) (dst c n a : Nat) (h : a + 8 ≤ dst ∨ dst + n ≤ a) :
    rd64 (memset m dst c n) a = rd64 m a := by
  apply rd64_congr
  intro x h1 h2
  have : ¬ (dst ≤ x ∧ x < dst + n) := by omega
  simp only [memset, this, if_false]

/-! ## Entry bits -/

theorem and_V (x : Nat) : x &&& PTE_V = x % 2 := Nat.and_one_is_mod x

theorem and_U (x : Nat) : x &&& PTE_U = x / 16 % 2 * 16 := by
  have h := Nat.and_two_pow x 4
  have t := @Nat.testBit_to_div_mod 4 x
  simp only [PTE_U]
  norm_num at h t ⊢
  rw [h, t]
  by_cases hb : x / 16 % 2 = 1
  · simp [hb]
  · have : x / 16 % 2 = 0 := by omega
    simp [this]

theorem PTE2PA_aligned (x : Nat) : PTE2PA x % 4096 = 0 := by
  unfold PTE2PA; omega

theorem PTE2PA_lt (x : Nat) : PTE2PA x < 2 ^ 64 := by
  unfold PTE2PA; omega

theorem PX_lt (l va : Nat) : PX l va < 512 := by
  unfold PX; omega

/-- The entry written by `mappages` and `walk`: frame field and flag field. -/
theorem pte_make (pa perm : Nat) (hperm : perm < 1024) :
    (PA2PTE pa ||| perm ||| PTE_V) = pa / 4096 * 1024 + (perm ||| 1) ∧
    (perm ||| 1) < 1024 ∧ (perm ||| 1) % 2 = 1 ∧
    (perm ||| 1) / 16 % 2 = perm / 16 % 2 := by
  have hlt : perm ||| 1 < 2 ^ 10 := Nat.or_lt_two_pow (by simpa using hperm) (by norm_num)
  have h1 : (perm ||| 1) % 2 = 1 := Nat.or_mod_two_eq_one.mpr (Or.inr rfl)
  have h2 : (perm ||| 1) / 16 % 2 = perm / 16 % 2 := by
    have ta := @Nat.testBit_to_div_mod 4 (perm ||| 1)
    have tb := @Nat.testBit_to_div_mod 4 perm
    rw [Nat.testBit_or] at ta
    have tc : Nat.testBit 1 4 = false := by decide
    rw [tc, Bool.or_false, tb] at ta
    norm_num at ta
    omega
  refine ⟨?_, by simpa using hlt, h1, h2⟩
  have h3 := Nat.mul_add_lt_is_or hlt (pa / 4096)
  simp only [PA2PTE, PTE_V]
  rw [Nat.or_assoc, Nat.mul_comm, ← h3]

/-! ## The path of a virtual address through the three levels -/

theorem walk_noalloc (s : KState) (pt va : Nat) (h : va < MAXVA) :
    walk s pt va false = .ok (walkVal s.mem pt va) s := by
  have h' : ¬ va ≥ MAXVA := by omega
  simp only [walk, h', if_false, walkLevels, and_V]
  by_cases h2 : rd64 s.mem (pt + 8 * PX 2 va) % 2 = 1
  · have h2' : rd64 s.mem (pt + 8 * PX 2 va) % 2 ≠ 0 := by omega
    simp only [h2', ne_eq, not_false_eq_true, if_true]
    by_cases h1 : rd64 s.mem (PTE2PA (rd64 s.mem (pt + 8 * PX 2 va)) + 8 * PX 1 va) % 2 = 1
    · have h1' : rd64 s.mem (PTE2PA (rd64 s.mem (pt + 8 * PX 2 va)) + 8 * PX 1 va) % 2 ≠ 0 := by
        omega
      have : has0 s.mem pt va := ⟨h2, h1⟩
      simp only [h1', not_false_eq_true, if_true, walkVal, this, slot0, tbl0, ent1, slot1,
        tbl1, ent2, slot2]
    · have h1' : rd64 s.mem (PTE2PA (rd64 s.mem (pt + 8 * PX 2 va)) + 8 * PX 1 va) % 2 = 0 := by
        omega
      have : ¬ has0 s.mem pt va := fun hh => h1 hh.2
      simp [h1', walkVal, this]
  · have h2' : rd64 s.mem (pt + 8 * PX 2 va) % 2 = 0 := by omega
    have : ¬ has0 s.mem pt va := fun hh => h2 hh.1
    simp [h2', walkVal, this]

theorem walkaddr_eq (s : KState) (pt va : Nat) :
    walkaddr s pt va = .ok (walkaddrVal s.mem pt va) s := by
  unfold walkaddr walkaddrVal
  by_cases h : MAXVA ≤ va
  · simp [h]
  · have h' : va < MAXVA := by omega
    have h'' : ¬ va ≥ MAXVA := by omega
    simp only [h, h'', if_false, walk_noalloc s pt va h', Res.bind, and_V, and_U]
    by_cases a : walkVal s.mem pt va = 0
    · simp [a]
    · by_cases b : rd64 s.mem (walkVal s.mem pt va) % 2 = 0
      · simp [a, b]
      · by_cases c : rd64 s.mem (walkVal s.mem pt va) / 16 % 2 = 0
        · simp [a, b, c]
        · simp [a, b, c]

/-! ## Table pages and the frame rule -/

theorem rd64_samePage (m m' : Mem) (p i : Nat) (h : SamePage m m' p) (hi : i < 512) :
    rd64 m' (p + 8 * i) = rd64 m (p + 8 * i) := by
  apply rd64_congr
  intro x h1 h2
  exact h x ⟨by omega, by unfold PGSIZE; omega⟩

/-- Frame rule, upper levels: if the root and the level-1 tables are untouched, every
address keeps its path. -/
theorem upper_same (m m' : Mem) (pt : Nat)
    (h : ∀ p, IsUpper m pt p → SamePage m m' p) (va : Nat) :
    ent2 m' pt va = ent2 m pt va ∧ (has1 m' pt va ↔ has1 m pt va) ∧
    tbl1 m' pt va = tbl1 m pt va ∧
    (has1 m pt va → ent1 m' pt va = ent1 m pt va) ∧
    (has0 m' pt va ↔ has0 m pt va) ∧
    (has0 m pt va → tbl0 m' pt va = tbl0 m pt va ∧ slot0 m' pt va = slot0 m pt va) := by
  have e2 : ent2 m' pt va = ent2 m pt va :=
    rd64_samePage m m' pt (PX 2 va) (h pt (Or.inl rfl)) (PX_lt 2 va)
  have t1 : tbl1 m' pt va = tbl1 m pt va := by unfold tbl1; rw [e2]
  have h1 : has1 m' pt va ↔ has1 m pt va := by unfold has1; rw [e2]
  have e1 : has1 m pt va → ent1 m' pt va = ent1 m pt va := by
    intro hv
    unfold ent1 slot1
    rw [t1]
    exact rd64_samePage m m' _ (PX 1 va) (h _ (Or.inr ⟨va, hv, rfl⟩)) (PX_lt 1 va)
  have h0 : has0 m' pt va ↔ has0 m pt va := by
    unfold has0
    constructor
    · rintro ⟨a, b⟩
      have a' := h1.mp a
      exact ⟨a', by rw [← e1 a']; exact b⟩
    · rintro ⟨a, b⟩
      exact ⟨h1.mpr a, by rw [e1 a]; exact b⟩
  refine ⟨e2, h1, t1, e1, h0, ?_⟩
  intro hv
  have t0 : tbl0 m' pt va = tbl0 m pt va := by unfold tbl0; rw [e1 hv.1]
  exact ⟨t0, by unfold slot0; rw [t0]⟩

theorem isUpper_same (m m' : Mem) (pt : Nat)
    (h : ∀ p, IsUpper m pt p → SamePage m m' p) (p : Nat) :
    IsUpper m' pt p ↔ IsUpper m pt p := by
  unfold IsUpper
  constructor
  · rintro (a | ⟨va, b, c⟩)
    · exact Or.inl a
    · have u := upper_same m m' pt h va
      exact Or.inr ⟨va, u.2.1.mp b, by rw [c, u.2.2.1]⟩
  · rintro (a | ⟨va, b, c⟩)
    · exact Or.inl a
    · have u := upper_same m m' pt h va
      exact Or.inr ⟨va, u.2.1.mpr b, by rw [c, u.2.2.1]⟩

theorem isLeafTbl_same (m m' : Mem) (pt : Nat)
    (h : ∀ p, IsUpper m pt p → SamePage m m' p) (p : Nat) :
    IsLeafTbl m' pt p ↔ IsLeafTbl m pt p := by
  unfold IsLeafTbl
  constructor
  · rintro ⟨va, b, c⟩
    have u := upper_same m m' pt h va
    have b' := u.2.2.2.2.1.mp b
    exact ⟨va, b', by rw [c, (u.2.2.2.2.2 b').1]⟩
  · rintro ⟨va, b, c⟩
    have u := upper_same m m' pt h va
    exact ⟨va, u.2.2.2.2.1.mpr b, by rw [c, (u.2.2.2.2.2 b).1]⟩

theorem isTable_same (m m' : Mem) (pt : Nat)
    (h : ∀ p, IsUpper m pt p → SamePage m m' p) (p : Nat) :
    IsTable m' pt p ↔ IsTable m pt p := by
  unfold IsTable
  rw [isUpper_same m m' pt h p, isLeafTbl_same m m' pt h p]

/-- Frame rule, all levels: if no page-table page is touched, `walk` and `walkaddr`
return what they returned. -/
theorem tables_same (m m' : Mem) (pt : Nat)
    (h : ∀ p, IsTable m pt p → SamePage m m' p) (va : Nat) :
    walkVal m' pt va = walkVal m pt va ∧
    rd64 m' (walkVal m pt va) = rd64 m (walkVal m pt va) ∨ walkVal m pt va = 0 ∧
      walkVal m' pt va = 0 := by
  have hu : ∀ p, IsUpper m pt p → SamePage m m' p := fun p hp => h p (Or.inl hp)
  have u := upper_same m m' pt hu va
  by_cases hv : has0 m pt va
  · left
    have hv' : has0 m' pt va := u.2.2.2.2.1.mpr hv
    have e := (u.2.2.2.2.2 hv).2
    refine ⟨by simp only [walkVal, hv, hv', if_true, e], ?_⟩
    simp only [walkVal, hv, if_true]
    unfold slot0
    exact rd64_samePage m m' _ (PX 0 va) (h _ (Or.inr ⟨va, hv, rfl⟩)) (PX_lt 0 va)
  · right
    have hv' : ¬ has0 m' pt va := fun x => hv (u.2.2.2.2.1.mp x)
    exact ⟨by simp [walkVal, hv], by simp [walkVal, hv']⟩

theorem walkaddrVal_same (m m' : Mem) (pt : Nat)
    (h : ∀ p, IsTable m pt p → SamePage m m' p) (va : Nat) :
    walkaddrVal m' pt va = walkaddrVal m pt va := by
  unfold walkaddrVal
  rcases tables_same m m' pt h va with ⟨a, b⟩ | ⟨a, b⟩
  · rw [a, b]
  · simp [a, b]

/-! ## Observations on the code -/

theorem xlate_eq (s : KState) (pt va : Nat) : xlate s pt va = walkaddrVal s.mem pt va := by
  simp only [xlate, walkaddr_eq]

theorem xlate_mem (s s' : KState) (pt va : Nat) (h : s'.mem = s.mem) :
    xlate s' pt va = xlate s pt va := by
  rw [xlate_eq, xlate_eq, h]

theorem walkaddrVal_maxva (m : Mem) (pt va : Nat) (h : walkaddrVal m pt va ≠ 0) :
    va < MAXVA := by
  by_contra hc
  have : MAXVA ≤ va := by omega
  simp [walkaddrVal, this] at h

theorem walkaddrVal_aligned (m : Mem) (pt va : Nat) : walkaddrVal m pt va % 4096 = 0 := by
  unfold walkaddrVal
  split_ifs <;> first | rfl | exact PTE2PA_aligned _

/-! ## Page arithmetic -/

theorem PGROUNDDOWN_eq (p x : Nat) (h0 : p % 4096 = 0) (h1 : p ≤ x) (h2 : x < p + 4096) :
    PGROUNDDOWN x = p := by
  unfold PGROUNDDOWN PGSIZE; omega

theorem PGROUNDDOWN_spec (x : Nat) :
    PGROUNDDOWN x % 4096 = 0 ∧ PGROUNDDOWN x ≤ x ∧ x < PGROUNDDOWN x + 4096 := by
  unfold PGROUNDDOWN PGSIZE; omega

/-- The chunk length `n` computed by the copy loops. -/
theorem chunk_spec (o len : Nat) (ho : o < 4096) (hl : 0 < len) :
    ∃ n, (if PGSIZE - o > len then len else PGSIZE - o) = n ∧ 0 < n ∧ n ≤ len ∧
      n + o ≤ 4096 ∧ (n = len ∨ n + o = 4096) := by
  refine ⟨_, rfl, ?_⟩
  unfold PGSIZE
  split_ifs <;> omega

/-! ## copyin -/

theorem copyinLoop_spec (s : KState) (pt : Nat) : ∀ (fuel : Nat) (dst : Buf) (off srcva len : Nat),
    MAXVA ≤ PGROUNDDOWN srcva + fuel * PGSIZE →
    ∃ r dst', copyinLoop (fuel + 1) s pt dst off srcva len = .ok (r, dst') s ∧
      ((r = -1 ∧ ∃ p, touches srcva len p ∧ xlate s pt p = 0) ∨
       (r = 0 ∧ (∀ p, touches srcva len p → xlate s pt p ≠ 0) ∧
         ∀ i, dst' i = if off ≤ i ∧ i < off + len then userByte s pt (srcva + (i - off))
                       else dst i)) := by
  intro fuel
  induction fuel with
  | zero =>
    intro dst off srcva len hf
    by_cases hl : len > 0
    · have hx : xlate s pt (PGROUNDDOWN srcva) = 0 := by
        by_contra hc
        rw [xlate_eq] at hc
        have := walkaddrVal_maxva _ _ _ hc
        omega
      refine ⟨-1, dst, ?_, Or.inl ⟨rfl, PGROUNDDOWN srcva, ?_, hx⟩⟩
      · rw [xlate_eq] at hx
        simp only [copyinLoop, hl, if_true, walkaddr_eq, Res.bind, hx]
      · unfold touches PGROUNDDOWN PGSIZE; omega
    · have hl0 : len = 0 := by omega
      refine ⟨0, dst, by simp only [copyinLoop, hl, if_false], Or.inr ⟨rfl, ?_, ?_⟩⟩
      · intro p hp; unfold touches at hp; omega
      · intro i
        have : ¬ (off ≤ i ∧ i < off + len) := by omega
        simp only [this, if_false]
  | succ k ih =>
    intro dst off srcva len hf
    by_cases hl : len > 0
    · by_cases hx : xlate s pt (PGROUNDDOWN srcva) = 0
      · refine ⟨-1, dst, ?_, Or.inl ⟨rfl, PGROUNDDOWN srcva, ?_, hx⟩⟩
        · rw [xlate_eq] at hx
          simp only [copyinLoop, hl, if_true, walkaddr_eq, Res.bind, hx]
        · unfold touches PGROUNDDOWN PGSIZE; omega
      · have hx' := hx
        rw [xlate_eq] at hx'
        obtain ⟨g0, g1, g2⟩ := PGROUNDDOWN_spec srcva
        obtain ⟨n, hn, n0, n1, n2, n3⟩ :=
          chunk_spec (srcva - PGROUNDDOWN srcva) len (by omega) hl
        have hstep : copyinLoop (k + 1 + 1) s pt dst off srcva len =
            copyinLoop (k + 1) s pt
              (memmoveIn dst off s.mem
                (walkaddrVal s.mem pt (PGROUNDDOWN srcva) + (srcva - PGROUNDDOWN srcva)) n)
              (off + n) (PGROUNDDOWN srcva + PGSIZE) (len - n) := by
          rw [copyinLoop]
          simp only [hl, if_true, walkaddr_eq, Res.bind, hx', if_false, hn]
        have hnext : PGROUNDDOWN (PGROUNDDOWN srcva + PGSIZE) = PGROUNDDOWN srcva + 4096 :=
          PGROUNDDOWN_eq _ _ (by omega) (by unfold PGSIZE; omega) (by unfold PGSIZE; omega)
        obtain ⟨r, dst', he, hr⟩ := ih
          (memmoveIn dst off s.mem
            (walkaddrVal s.mem pt (PGROUNDDOWN srcva) + (srcva - PGROUNDDOWN srcva)) n)
          (off + n) (PGROUNDDOWN srcva + PGSIZE) (len - n)
          (by rw [hnext]; unfold PGSIZE at *; omega)
        refine ⟨r, dst', by rw [hstep]; exact he, ?_⟩
        rcases hr with ⟨h1, p, hp, hp0⟩ | ⟨h1, h2, h3⟩
        · refine Or.inl ⟨h1, p, ?_, hp0⟩
          unfold touches PGSIZE at *
          omega
        · refine Or.inr ⟨h1, ?_, ?_⟩
          · intro p hp
            by_cases hpe : p = PGROUNDDOWN srcva
            · rw [hpe]; exact hx
            · apply h2
              unfold touches PGSIZE at *
              omega
          · intro i
            rw [h3 i]
            by_cases c1 : off + n ≤ i ∧ i < off + n + (len - n)
            · have c2 : off ≤ i ∧ i < off + len := by omega
              rw [if_pos c1, if_pos c2]
              have e : PGROUNDDOWN srcva + PGSIZE + (i - (off + n)) = srcva + (i - off) := by
                unfold PGSIZE; omega
              rw [e]
            · rw [if_neg c1]
              by_cases c2 : off ≤ i ∧ i < off + n
              · have c3 : off ≤ i ∧ i < off + len := by omega
                rw [if_pos c3]
                simp only [memmoveIn, userByte, c2, and_self, if_true]
                have e1 : PGROUNDDOWN (srcva + (i - off)) = PGROUNDDOWN srcva :=
                  PGROUNDDOWN_eq _ _ g0 (by omega) (by omega)
                rw [e1, xlate_eq]
                have e : walkaddrVal s.mem pt (PGROUNDDOWN srcva) + (srcva - PGROUNDDOWN srcva) +
                    (i - off) = walkaddrVal s.mem pt (PGROUNDDOWN srcva) +
                    (srcva + (i - off) - PGROUNDDOWN srcva) := by omega
                rw [e]
              · have c3 : ¬ (off ≤ i ∧ i < off + len) := by omega
                rw [if_neg c3]
                simp only [memmoveIn, c2, if_false]
    · have hl0 : len = 0 := by omega
      refine ⟨0, dst, by simp only [copyinLoop, hl, if_false], Or.inr ⟨rfl, ?_, ?_⟩⟩
      · intro p hp; unfold touches at hp; omega
      · intro i
        have : ¬ (off ≤ i ∧ i < off + len) := by omega
        simp only [this, if_false]

theorem userByte_eq (s : KState) (pt va : Nat) :
    userByte s pt va = rd8 s.mem (userAddr s pt va) := rfl

theorem isTable_aligned (m : Mem) (pt p : Nat) (hpt : pt % 4096 = 0) (h : IsTable m pt p) :
    p % 4096 = 0 := by
  rcases h with (h | ⟨va, _, h⟩) | ⟨va, _, h⟩
  · rw [h]; exact hpt
  · rw [h]; exact PTE2PA_aligned _
  · rw [h]; exact PTE2PA_aligned _

theorem xlate_aligned (s : KState) (pt va : Nat) : xlate s pt va % 4096 = 0 := by
  rw [xlate_eq]; exact walkaddrVal_aligned _ _ _

theorem copyoutLoop_spec (pt : Nat) (hpt : pt % 4096 = 0) (src : Buf) :
    ∀ (fuel : Nat) (s : KState) (dstva off len : Nat),
    MAXVA ≤ PGROUNDDOWN dstva + fuel * PGSIZE →
    (∀ p, touches dstva len p → xlate s pt p ≠ 0 → ¬ IsTable s.mem pt (xlate s pt p)) →
    ∃ r s', copyoutLoop (fuel + 1) s pt dstva src off len = .ok r s' ∧
      s'.freelist = s.freelist ∧
      (∀ p, IsTable s.mem pt p → SamePage s.mem s'.mem p) ∧
      ((r = -1 ∧ ∃ p, touches dstva len p ∧ xlate s pt p = 0) ∨
       (r = 0 ∧ (∀ p, touches dstva len p → xlate s pt p ≠ 0) ∧
        (∀ x, (∀ i, i < len → x ≠ userAddr s pt (dstva + i)) → s'.mem x = s.mem x) ∧
        ((∀ p q, touches dstva len p → touches dstva len q →
            xlate s pt p = xlate s pt q → p = q) →
          ∀ i, i < len → rd8 s'.mem (userAddr s pt (dstva + i)) = src (off + i) % 256))) := by
  intro fuel
  induction fuel with
  | zero =>
    intro s dstva off len hf _
    by_cases hl : len > 0
    · have hx : xlate s pt (PGROUNDDOWN dstva) = 0 := by
        by_contra hc
        rw [xlate_eq] at hc
        have := walkaddrVal_maxva _ _ _ hc
        omega
      refine ⟨-1, s, ?_, rfl, fun _ _ _ _ => rfl, Or.inl ⟨rfl, PGROUNDDOWN dstva, ?_, hx⟩⟩
      · rw [xlate_eq] at hx
        simp only [copyoutLoop, hl, if_true, walkaddr_eq, Res.bind, hx]
      · unfold touches PGROUNDDOWN PGSIZE; omega
    · have hl0 : len = 0 := by omega
      refine ⟨0, s, by simp only [copyoutLoop, hl, if_false], rfl, fun _ _ _ _ => rfl,
        Or.inr ⟨rfl, ?_, fun _ _ => rfl, ?_⟩⟩
      · intro p hp; unfold touches at hp; omega
      · intro _ i hi; omega
  | succ k ih =>
    intro s dstva off len hf hsep
    by_cases hl : len > 0
    · by_cases hx : xlate s pt (PGROUNDDOWN dstva) = 0
      · refine ⟨-1, s, ?_, rfl, fun _ _ _ _ => rfl, Or.inl ⟨rfl, PGROUNDDOWN dstva, ?_, hx⟩⟩
        · rw [xlate_eq] at hx
          simp only [copyoutLoop, hl, if_true, walkaddr_eq, Res.bind, hx]
        · unfold touches PGROUNDDOWN PGSIZE; omega
      · have hx' := hx
        rw [xlate_eq] at hx'
        obtain ⟨g0, g1, g2⟩ := PGROUNDDOWN_spec dstva
        obtain ⟨n, hn, n0, n1, n2, n3⟩ :=
          chunk_spec (dstva - PGROUNDDOWN dstva) len (by omega) hl
        have hstep : copyoutLoop (k + 1 + 1) s pt dstva src off len =
            copyoutLoop (k + 1)
              { s with mem := (memmoveOut s.mem
                  (walkaddrVal s.mem pt (PGROUNDDOWN dstva) + (dstva - PGROUNDDOWN dstva))
                  src off n) }
              pt (PGROUNDDOWN dstva + PGSIZE) src (off + n) (len - n) := by
          rw [copyoutLoop]
          simp only [hl, if_true, walkaddr_eq, Res.bind, hx', if_false, hn]
        have hnext : PGROUNDDOWN (PGROUNDDOWN dstva + PGSIZE) = PGROUNDDOWN dstva + 4096 :=
          PGROUNDDOWN_eq _ _ (by omega) (by unfold PGSIZE; omega) (by unfold PGSIZE; omega)
        have ht0 : touches dstva len (PGROUNDDOWN dstva) := by
          unfold touches PGSIZE; omega
        have hpa := xlate_aligned s pt (PGROUNDDOWN dstva)
        rw [xlate_eq] at hpa
        -- the chunk lies in the frame, which is no table page
        have hsame : ∀ p, IsTable s.mem pt p → SamePage s.mem
            (memmoveOut s.mem
              (walkaddrVal s.mem pt (PGROUNDDOWN dstva) + (dstva - PGROUNDDOWN dstva))
              src off n) p := by
          intro p hp x hxp
          have hne : p ≠ xlate s pt (PGROUNDDOWN dstva) := by
            intro e
            exact hsep _ ht0 hx (e ▸ hp)
          rw [xlate_eq] at hne
          have hpal := isTable_aligned _ _ _ hpt hp
          have : ¬ (walkaddrVal s.mem pt (PGROUNDDOWN dstva) + (dstva - PGROUNDDOWN dstva) ≤ x ∧
              x < walkaddrVal s.mem pt (PGROUNDDOWN dstva) + (dstva - PGROUNDDOWN dstva) + n) := by
            unfold inPage PGSIZE at hxp
            omega
          simp only [memmoveOut, this, if_false]
        have hxl : ∀ va, xlate
            { s with mem := (memmoveOut s.mem
                  (walkaddrVal s.mem pt (PGROUNDDOWN dstva) + (dstva - PGROUNDDOWN dstva))
                  src off n) } pt va = xlate s pt va := by
          intro va
          rw [xlate_eq, xlate_eq]
          exact walkaddrVal_same _ _ _ hsame va
        have hua : ∀ va, userAddr
            { s with mem := (memmoveOut s.mem
                  (walkaddrVal s.mem pt (PGROUNDDOWN dstva) + (dstva - PGROUNDDOWN dstva))
                  src off n) } pt va = userAddr s pt va := by
          intro va; unfold userAddr; rw [hxl]
        have hit : ∀ p, IsTable
            (memmoveOut s.mem
                  (walkaddrVal s.mem pt (PGROUNDDOWN dstva) + (dstva - PGROUNDDOWN dstva))
                  src off n) pt p ↔ IsTable s.mem pt p :=
          fun p => isTable_same _ _ _ (fun q hq => hsame q (Or.inl hq)) p
        have htail : ∀ p, touches (PGROUNDDOWN dstva + PGSIZE) (len - n) p →
            touches dstva len p ∧ p ≠ PGROUNDDOWN dstva := by
          intro p hp
          unfold touches PGSIZE at *
          omega
        obtain ⟨r, s', he, hfl, hsp, hr⟩ := ih
          { s with mem := (memmoveOut s.mem
              (walkaddrVal s.mem pt (PGROUNDDOWN dstva) + (dstva - PGROUNDDOWN dstva))
              src off n) }
          (PGROUNDDOWN dstva + PGSIZE) (off + n) (len - n)
          (by rw [hnext]; unfold PGSIZE at *; omega)
          (by
            intro p hp hne
            rw [hxl] at hne ⊢
            rw [hit]
            exact hsep p (htail p hp).1 hne)
        refine ⟨r, s', by rw [hstep]; exact he, hfl, ?_, ?_⟩
        · intro p hp x hxp
          rw [hsp p ((hit p).mpr hp) x hxp]
          exact hsame p hp x hxp
        · rcases hr with ⟨h1, p, hp, hp0⟩ | ⟨h1, h2, h3, h4⟩
          · exact Or.inl ⟨h1, p, (htail p hp).1, by rw [← hxl]; exact hp0⟩
          · refine Or.inr ⟨h1, ?_, ?_, ?_⟩
            · intro p hp
              by_cases hpe : p = PGROUNDDOWN dstva
              · rw [hpe]; exact hx
              · rw [← hxl]
                apply h2
                unfold touches PGSIZE at *
                omega
            · intro x hxn
              rw [h3 x]
              · have : ¬ (walkaddrVal s.mem pt (PGROUNDDOWN dstva) + (dstva - PGROUNDDOWN dstva) ≤ x ∧
                    x < walkaddrVal s.mem pt (PGROUNDDOWN dstva) + (dstva - PGROUNDDOWN dstva) + n) := by
                  intro hc
                  have hi := hxn (x - (walkaddrVal s.mem pt (PGROUNDDOWN dstva) +
                    (dstva - PGROUNDDOWN dstva))) (by omega)
                  apply hi
                  unfold userAddr
                  have e1 : PGROUNDDOWN (dstva + (x - (walkaddrVal s.mem pt (PGROUNDDOWN dstva) +
                      (dstva - PGROUNDDOWN dstva)))) = PGROUNDDOWN dstva :=
                    PGROUNDDOWN_eq _ _ g0 (by omega) (by omega)
                  rw [e1, xlate_eq]
                  omega
                simp only [memmoveOut, this, if_false]
              · intro i hi
                rw [hua]
                have e : PGROUNDDOWN dstva + PGSIZE + i = dstva + (n + i) := by
                  unfold PGSIZE; omega
                rw [e]
                exact hxn (n + i) (by omega)
            · intro hinj i hi
              by_cases c : i < n
              · -- written by this chunk, untouched by the rest
                have e1 : PGROUNDDOWN (dstva + i) = PGROUNDDOWN dstva :=
                  PGROUNDDOWN_eq _ _ g0 (by omega) (by omega)
                have hnot : ∀ j, j < len - n →
                    userAddr s pt (dstva + i) ≠
                    userAddr
                      { s with mem := (memmoveOut s.mem
                        (walkaddrVal s.mem pt (PGROUNDDOWN dstva) + (dstva - PGROUNDDOWN dstva))
                        src off n) } pt (PGROUNDDOWN dstva + PGSIZE + j) := by
                  intro j hj
                  rw [hua]
                  unfold userAddr
                  rw [e1]
                  obtain ⟨q0, q1, q2⟩ := PGROUNDDOWN_spec (PGROUNDDOWN dstva + PGSIZE + j)
                  have hq : touches dstva len (PGROUNDDOWN (PGROUNDDOWN dstva + PGSIZE + j)) := by
                    unfold touches PGSIZE at *
                    omega
                  have hne : PGROUNDDOWN dstva ≠ PGROUNDDOWN (PGROUNDDOWN dstva + PGSIZE + j) := by
                    unfold PGSIZE at *
                    omega
                  have hfr : xlate s pt (PGROUNDDOWN dstva) ≠
                      xlate s pt (PGROUNDDOWN (PGROUNDDOWN dstva + PGSIZE + j)) :=
                    fun e => hne (hinj _ _ ht0 hq e)
                  have a1 := xlate_aligned s pt (PGROUNDDOWN dstva)
                  have a2 := xlate_aligned s pt (PGROUNDDOWN (PGROUNDDOWN dstva + PGSIZE + j))
                  omega
                have hm := h3 _ hnot
                unfold rd8
                rw [hm]
                unfold userAddr
                rw [e1, xlate_eq]
                have cc : walkaddrVal s.mem pt (PGROUNDDOWN dstva) + (dstva - PGROUNDDOWN dstva) ≤
                    walkaddrVal s.mem pt (PGROUNDDOWN dstva) + (dstva + i - PGROUNDDOWN dstva) ∧
                    walkaddrVal s.mem pt (PGROUNDDOWN dstva) + (dstva + i - PGROUNDDOWN dstva) <
                    walkaddrVal s.mem pt (PGROUNDDOWN dstva) + (dstva - PGROUNDDOWN dstva) + n := by
                  omega
                simp only [memmoveOut, cc, and_self, if_true, Nat.mod_mod]
                have e2 : off + (walkaddrVal s.mem pt (PGROUNDDOWN dstva) +
                    (dstva + i - PGROUNDDOWN dstva) - (walkaddrVal s.mem pt (PGROUNDDOWN dstva) +
                    (dstva - PGROUNDDOWN dstva))) = off + i := by omega
                rw [e2]
              · have hinj' : ∀ p q, touches (PGROUNDDOWN dstva + PGSIZE) (len - n) p →
                    touches (PGROUNDDOWN dstva + PGSIZE) (len - n) q →
                    xlate { s with mem := (memmoveOut s.mem
                        (walkaddrVal s.mem pt (PGROUNDDOWN dstva) + (dstva - PGROUNDDOWN dstva))
                        src off n) } pt p =
                    xlate { s with mem := (memmoveOut s.mem
                        (walkaddrVal s.mem pt (PGROUNDDOWN dstva) + (dstva - PGROUNDDOWN dstva))
                        src off n) } pt q → p = q := by
                  intro p q hp hq e
                  rw [hxl, hxl] at e
                  exact hinj p q (htail p hp).1 (htail q hq).1 e
                have h5 := h4 hinj' (i - n) (by omega)
                rw [hua] at h5
                have e : PGROUNDDOWN dstva + PGSIZE + (i - n) = dstva + i := by
                  unfold PGSIZE; omega
                have e' : off + n + (i - n) = off + i := by omega
                rw [e, e'] at h5
                exact h5
    · have hl0 : len = 0 := by omega
      refine ⟨0, s, by simp only [copyoutLoop, hl, if_false], rfl, fun _ _ _ _ => rfl,
        Or.inr ⟨rfl, ?_, fun _ _ => rfl, ?_⟩⟩
      · intro p hp; unfold touches at hp; omega
      · intro _ i hi; omega

/-! ## copyinstr -/

theorem rd8_mod (m : Mem) (a : Nat) : rd8 m a % 256 = rd8 m a := by
  unfold rd8; omega

theorem inner_nonul (m : Mem) : ∀ (n p : Nat) (v : StrVars),
    (∀ u, u < n → rd8 m (p + u) ≠ 0) →
    (copyinstrInner m n p v).got_null = v.got_null ∧
    (copyinstrInner m n p v).di = v.di + n ∧
    (copyinstrInner m n p v).max = v.max - n ∧
    ∀ i, (copyinstrInner m n p v).dst i =
      if v.di ≤ i ∧ i < v.di + n then rd8 m (p + (i - v.di)) else v.dst i := by
  intro n
  induction n with
  | zero =>
    intro p v _
    refine ⟨rfl, rfl, rfl, fun i => ?_⟩
    have : ¬ (v.di ≤ i ∧ i < v.di + 0) := by omega
    simp only [copyinstrInner, this, if_false]
  | succ n ih =>
    intro p v h
    have h0 : rd8 m p ≠ 0 := by simpa using h 0 (by omega)
    obtain ⟨a, b, c, d⟩ := ih (p + 1)
      { v with dst := bufSet v.dst v.di (rd8 m p), di := v.di + 1, max := v.max - 1 }
      (fun u hu => by
        have := h (u + 1) (by omega)
        rwa [show p + 1 + u = p + (u + 1) by omega])
    rw [copyinstrInner]
    simp only [h0, if_false]
    refine ⟨a, by rw [b]; simp only; omega, by rw [c]; simp only; omega, fun i => ?_⟩
    rw [d i]
    simp only
    by_cases c1 : v.di + 1 ≤ i ∧ i < v.di + 1 + n
    · have c2 : v.di ≤ i ∧ i < v.di + (n + 1) := by omega
      rw [if_pos c1, if_pos c2]
      have e : p + 1 + (i - (v.di + 1)) = p + (i - v.di) := by omega
      rw [e]
    · rw [if_neg c1]
      by_cases c3 : i = v.di
      · have c2 : v.di ≤ i ∧ i < v.di + (n + 1) := by omega
        rw [if_pos c2]
        simp only [bufSet, c3, if_true, rd8_mod, Nat.sub_self, Nat.add_zero]
      · have c2 : ¬ (v.di ≤ i ∧ i < v.di + (n + 1)) := by omega
        rw [if_neg c2]
        simp only [bufSet, c3, if_false]

theorem inner_nul (m : Mem) : ∀ (n p : Nat) (v : StrVars) (t : Nat),
    t < n → rd8 m (p + t) = 0 → (∀ u, u < t → rd8 m (p + u) ≠ 0) →
    (copyinstrInner m n p v).got_null = true ∧
    ∀ i, (copyinstrInner m n p v).dst i =
      if v.di ≤ i ∧ i ≤ v.di + t then rd8 m (p + (i - v.di)) else v.dst i := by
  intro n
  induction n with
  | zero => intro p v t ht; omega
  | succ n ih =>
    intro p v t ht hz hnz
    rw [copyinstrInner]
    by_cases h0 : rd8 m p = 0
    · have t0 : t = 0 := by
        by_contra hc
        exact hnz 0 (by omega) (by simpa using h0)
      simp only [h0, if_true]
      refine ⟨trivial, fun i => ?_⟩
      by_cases c3 : i = v.di
      · have c2 : v.di ≤ i ∧ i ≤ v.di + t := by omega
        rw [if_pos c2]
        simp only [bufSet, c3, if_true, Nat.sub_self, Nat.add_zero, h0]
      · have c2 : ¬ (v.di ≤ i ∧ i ≤ v.di + t) := by omega
        rw [if_neg c2]
        simp only [bufSet, c3, if_false]
    · simp only [h0, if_false]
      have tp : 0 < t := by
        by_contra hc
        have : t = 0 := by omega
        rw [this] at hz
        exact h0 (by simpa using hz)
      obtain ⟨a, d⟩ := ih (p + 1)
        { v with dst := bufSet v.dst v.di (rd8 m p), di := v.di + 1, max := v.max - 1 }
        (t - 1) (by omega)
        (by rwa [show p + 1 + (t - 1) = p + t by omega])
        (fun u hu => by
          have := hnz (u + 1) (by omega)
          rwa [show p + 1 + u = p + (u + 1) by omega])
      refine ⟨a, fun i => ?_⟩
      rw [d i]
      simp only
      by_cases c1 : v.di + 1 ≤ i ∧ i ≤ v.di + 1 + (t - 1)
      · have c2 : v.di ≤ i ∧ i ≤ v.di + t := by omega
        rw [if_pos c1, if_pos c2]
        have e : p + 1 + (i - (v.di + 1)) = p + (i - v.di) := by omega
        rw [e]
      · rw [if_neg c1]
        by_cases c3 : i = v.di
        · have c2 : v.di ≤ i ∧ i ≤ v.di + t := by omega
          rw [if_pos c2]
          simp only [bufSet, c3, if_true, rd8_mod, Nat.sub_self, Nat.add_zero]
        · have c2 : ¬ (v.di ≤ i ∧ i ≤ v.di + t) := by omega
          rw [if_neg c2]
          simp only [bufSet, c3, if_false]

/-- Within the first page of `srcva`, user bytes are consecutive physical bytes. -/
theorem userByte_chunk (s : KState) (pt srcva t : Nat)
    (h : srcva + t < PGROUNDDOWN srcva + 4096) :
    rd8 s.mem (walkaddrVal s.mem pt (PGROUNDDOWN srcva) + (srcva - PGROUNDDOWN srcva) + t) =
      userByte s pt (srcva + t) := by
  obtain ⟨g0, g1, g2⟩ := PGROUNDDOWN_spec srcva
  have e1 : PGROUNDDOWN (srcva + t) = PGROUNDDOWN srcva :=
    PGROUNDDOWN_eq _ _ g0 (by omega) (by omega)
  unfold userByte
  rw [e1, xlate_eq]
  have e : walkaddrVal s.mem pt (PGROUNDDOWN srcva) + (srcva - PGROUNDDOWN srcva) + t =
      walkaddrVal s.mem pt (PGROUNDDOWN srcva) + (srcva + t - PGROUNDDOWN srcva) := by omega
  rw [e]

theorem copyinstrLoop_step (s : KState) (pt k srcva : Nat) (v : StrVars)
    (hg : v.got_null = false) (hm : 0 < v.max)
    (hx : walkaddrVal s.mem pt (PGROUNDDOWN srcva) ≠ 0) (n : Nat)
    (hn : (if PGSIZE - (srcva - PGROUNDDOWN srcva) > v.max then v.max
            else PGSIZE - (srcva - PGROUNDDOWN srcva)) = n) :
    copyinstrLoop (k + 1) s pt srcva v =
      copyinstrLoop k s pt (PGROUNDDOWN srcva + PGSIZE)
        (copyinstrInner s.mem n
          (walkaddrVal s.mem pt (PGROUNDDOWN srcva) + (srcva - PGROUNDDOWN srcva)) v) := by
  rw [copyinstrLoop]
  have c : v.got_null = false ∧ v.max > 0 := ⟨hg, hm⟩
  simp only [c, and_self, if_true, walkaddr_eq, Res.bind, hx, if_false, hn]

theorem copyinstrLoop_nul (s : KState) (pt : Nat) : ∀ (fuel srcva : Nat) (v : StrVars) (j : Nat),
    v.got_null = false → j < v.max →
    (∀ i, i ≤ j → xlate s pt (PGROUNDDOWN (srcva + i)) ≠ 0) →
    userByte s pt (srcva + j) = 0 →
    (∀ i, i < j → userByte s pt (srcva + i) ≠ 0) →
    MAXVA ≤ PGROUNDDOWN srcva + fuel * PGSIZE →
    ∃ dst', copyinstrLoop (fuel + 1) s pt srcva v = .ok (0, dst') s ∧
      ∀ i, dst' i = if v.di ≤ i ∧ i ≤ v.di + j then userByte s pt (srcva + (i - v.di))
                    else v.dst i := by
  intro fuel
  induction fuel with
  | zero =>
    intro srcva v j _ _ hx _ _ hf
    exfalso
    have h0 := hx 0 (by omega)
    rw [xlate_eq] at h0
    have := walkaddrVal_maxva _ _ _ h0
    simp only [Nat.add_zero] at this
    omega
  | succ k ih =>
    intro srcva v j hg hj hx hz hnz hf
    have hx0 := hx 0 (by omega)
    rw [xlate_eq] at hx0
    simp only [Nat.add_zero] at hx0
    obtain ⟨g0, g1, g2⟩ := PGROUNDDOWN_spec srcva
    obtain ⟨n, hn, n0, n1, n2, n3⟩ :=
      chunk_spec (srcva - PGROUNDDOWN srcva) v.max (by omega) (by omega)
    rw [copyinstrLoop_step s pt (k + 1) srcva v hg (by omega) hx0 n hn]
    by_cases c : j < n
    · obtain ⟨a, d⟩ := inner_nul s.mem n
        (walkaddrVal s.mem pt (PGROUNDDOWN srcva) + (srcva - PGROUNDDOWN srcva)) v j c
        (by rw [userByte_chunk s pt srcva j (by omega)]; exact hz)
        (fun u hu => by rw [userByte_chunk s pt srcva u (by omega)]; exact hnz u hu)
      refine ⟨(copyinstrInner s.mem n
        (walkaddrVal s.mem pt (PGROUNDDOWN srcva) + (srcva - PGROUNDDOWN srcva)) v).dst,
        ?_, fun i => ?_⟩
      · rw [copyinstrLoop]
        simp only [a, Bool.true_eq_false, false_and, if_false, if_true]
      · rw [d i]
        by_cases c1 : v.di ≤ i ∧ i ≤ v.di + j
        · rw [if_pos c1, if_pos c1]
          exact userByte_chunk s pt srcva (i - v.di) (by omega)
        · rw [if_neg c1, if_neg c1]
    · obtain ⟨a, b, cm, d⟩ := inner_nonul s.mem n
        (walkaddrVal s.mem pt (PGROUNDDOWN srcva) + (srcva - PGROUNDDOWN srcva)) v
        (fun u hu => by
          rw [userByte_chunk s pt srcva u (by omega)]; exact hnz u (by omega))
      have hnext : PGROUNDDOWN (PGROUNDDOWN srcva + PGSIZE) = PGROUNDDOWN srcva + 4096 :=
        PGROUNDDOWN_eq _ _ (by omega) (by unfold PGSIZE; omega) (by unfold PGSIZE; omega)
      have e0 : PGROUNDDOWN srcva + PGSIZE = srcva + n := by unfold PGSIZE; omega
      obtain ⟨dst', he, hd⟩ := ih (PGROUNDDOWN srcva + PGSIZE)
        (copyinstrInner s.mem n
          (walkaddrVal s.mem pt (PGROUNDDOWN srcva) + (srcva - PGROUNDDOWN srcva)) v) (j - n)
        (by rw [a]; exact hg) (by rw [cm]; omega)
        (fun i hi => by
          rw [e0, show srcva + n + i = srcva + (n + i) by omega]
          exact hx (n + i) (by omega))
        (by rw [e0, show srcva + n + (j - n) = srcva + j by omega]; exact hz)
        (fun i hi => by
          rw [e0, show srcva + n + i = srcva + (n + i) by omega]
          exact hnz (n + i) (by omega))
        (by rw [hnext]; unfold PGSIZE at *; omega)
      refine ⟨dst', he, fun i => ?_⟩
      rw [hd i, b, e0]
      by_cases c1 : v.di + n ≤ i ∧ i ≤ v.di + n + (j - n)
      · have c2 : v.di ≤ i ∧ i ≤ v.di + j := by omega
        rw [if_pos c1, if_pos c2]
        rw [show srcva + n + (i - (v.di + n)) = srcva + (i - v.di) by omega]
      · rw [if_neg c1, d i]
        by_cases c3 : v.di ≤ i ∧ i < v.di + n
        · have c2 : v.di ≤ i ∧ i ≤ v.di + j := by omega
          rw [if_pos c3, if_pos c2]
          exact userByte_chunk s pt srcva (i - v.di) (by omega)
        · have c2 : ¬ (v.di ≤ i ∧ i ≤ v.di + j) := by omega
          rw [if_neg c3, if_neg c2]

theorem copyinstrLoop_nonul (s : KState) (pt : Nat) : ∀ (fuel srcva : Nat) (v : StrVars),
    v.got_null = false →
    (∀ i, i < v.max → xlate s pt (PGROUNDDOWN (srcva + i)) ≠ 0 ∧ userByte s pt (srcva + i) ≠ 0) →
    MAXVA ≤ PGROUNDDOWN srcva + fuel * PGSIZE →
    ∃ dst', copyinstrLoop (fuel + 1) s pt srcva v = .ok (-1, dst') s := by
  intro fuel
  induction fuel with
  | zero =>
    intro srcva v hg hx hf
    by_cases hm : 0 < v.max
    · exfalso
      have h0 := (hx 0 hm).1
      rw [xlate_eq] at h0
      have := walkaddrVal_maxva _ _ _ h0
      simp only [Nat.add_zero] at this
      omega
    · refine ⟨v.dst, ?_⟩
      rw [copyinstrLoop]
      have : ¬ (v.got_null = false ∧ v.max > 0) := fun h => hm h.2
      rw [if_neg this]
      simp only [hg, Bool.false_eq_true, if_false]
  | succ k ih =>
    intro srcva v hg hx hf
    by_cases hm : 0 < v.max
    · have hx0 := (hx 0 hm).1
      rw [xlate_eq] at hx0
      simp only [Nat.add_zero] at hx0
      obtain ⟨g0, g1, g2⟩ := PGROUNDDOWN_spec srcva
      obtain ⟨n, hn, n0, n1, n2, n3⟩ :=
        chunk_spec (srcva - PGROUNDDOWN srcva) v.max (by omega) hm
      rw [copyinstrLoop_step s pt (k + 1) srcva v hg hm hx0 n hn]
      obtain ⟨a, b, cm, d⟩ := inner_nonul s.mem n
        (walkaddrVal s.mem pt (PGROUNDDOWN srcva) + (srcva - PGROUNDDOWN srcva)) v
        (fun u hu => by
          rw [userByte_chunk s pt srcva u (by omega)]; exact (hx u (by omega)).2)
      have hnext : PGROUNDDOWN (PGROUNDDOWN srcva + PGSIZE) = PGROUNDDOWN srcva + 4096 :=
        PGROUNDDOWN_eq _ _ (by omega) (by unfold PGSIZE; omega) (by unfold PGSIZE; omega)
      by_cases hrest : v.max - n = 0
      · refine ⟨(copyinstrInner s.mem n
          (walkaddrVal s.mem pt (PGROUNDDOWN srcva) + (srcva - PGROUNDDOWN srcva)) v).dst, ?_⟩
        rw [copyinstrLoop]
        have : ¬ ((copyinstrInner s.mem n
          (walkaddrVal s.mem pt (PGROUNDDOWN srcva) + (srcva - PGROUNDDOWN srcva)) v).got_null
            = false ∧ (copyinstrInner s.mem n
          (walkaddrVal s.mem pt (PGROUNDDOWN srcva) + (srcva - PGROUNDDOWN srcva)) v).max > 0) := by
          rw [cm]; omega
        rw [if_neg this]
        simp only [a, hg, Bool.false_eq_true, if_false]
      · have e0 : PGROUNDDOWN srcva + PGSIZE = srcva + n := by unfold PGSIZE; omega
        exact ih (PGROUNDDOWN srcva + PGSIZE) _ (by rw [a]; exact hg)
          (fun i hi => by
            rw [cm] at hi
            rw [e0, show srcva + n + i = srcva + (n + i) by omega]
            exact hx (n + i) (by omega))
          (by rw [hnext]; unfold PGSIZE at *; omega)
    · refine ⟨v.dst, ?_⟩
      rw [copyinstrLoop]
      have : ¬ (v.got_null = false ∧ v.max > 0) := fun h => hm h.2
      rw [if_neg this]
      simp only [hg, Bool.false_eq_true, if_false]

/-! ## Paths -/

theorem path_congr2 (m : Mem) (pt va vb : Nat) (h : PX 2 va = PX 2 vb) :
    slot2 pt va = slot2 pt vb ∧ ent2 m pt va = ent2 m pt vb ∧
    tbl1 m pt va = tbl1 m pt vb ∧ (has1 m pt va ↔ has1 m pt vb) := by
  have a : slot2 pt va = slot2 pt vb := by unfold slot2; rw [h]
  have b : ent2 m pt va = ent2 m pt vb := by unfold ent2; rw [a]
  exact ⟨a, b, by unfold tbl1; rw [b], by unfold has1; rw [b]⟩

theorem path_congr1 (m : Mem) (pt va vb : Nat) (h : PX 2 va = PX 2 vb)
    (h1 : PX 1 va = PX 1 vb) :
    slot1 m pt va = slot1 m pt vb ∧ ent1 m pt va = ent1 m pt vb ∧
    tbl0 m pt va = tbl0 m pt vb ∧ (has0 m pt va ↔ has0 m pt vb) := by
  obtain ⟨_, _, c, d⟩ := path_congr2 m pt va vb h
  have a : slot1 m pt va = slot1 m pt vb := by unfold slot1; rw [c, h1]
  have b : ent1 m pt va = ent1 m pt vb := by unfold ent1; rw [a]
  exact ⟨a, b, by unfold tbl0; rw [b], by unfold has0; rw [d, b]⟩

theorem path_congr0 (m : Mem) (pt va vb : Nat) (h : samePath va vb) :
    slot0 m pt va = slot0 m pt vb ∧ ent0 m pt va = ent0 m pt vb ∧
    leafOf m pt va = leafOf m pt vb := by
  obtain ⟨_, _, c, d⟩ := path_congr1 m pt va vb h.1 h.2.1
  have a : slot0 m pt va = slot0 m pt vb := by unfold slot0; rw [c, h.2.2]
  have b : ent0 m pt va = ent0 m pt vb := by unfold ent0; rw [a]
  refine ⟨a, b, ?_⟩
  unfold leafOf
  by_cases hv : has0 m pt va
  · rw [if_pos hv, if_pos (d.mp hv), b]
  · rw [if_neg hv, if_neg (fun x => hv (d.mpr x))]

/-- Below `2^39`, two addresses share their path exactly when they share their page. -/
theorem samePath_iff (va vb : Nat) (ha : va < 2 ^ 39) (hb : vb < 2 ^ 39) :
    samePath va vb ↔ va / 4096 = vb / 4096 := by
  unfold samePath PX
  norm_num at *
  omega

theorem tbl1_aligned (m : Mem) (pt va : Nat) : tbl1 m pt va % 4096 = 0 := PTE2PA_aligned _
theorem tbl0_aligned (m : Mem) (pt va : Nat) : tbl0 m pt va % 4096 = 0 := PTE2PA_aligned _

theorem tbl0_isTable (m : Mem) (pt va : Nat) (h : has0 m pt va) :
    IsTable m pt (tbl0 m pt va) := Or.inr ⟨va, h, rfl⟩
theorem tbl1_isUpper (m : Mem) (pt va : Nat) (h : has1 m pt va) :
    IsUpper m pt (tbl1 m pt va) := Or.inr ⟨va, h, rfl⟩
theorem root_isUpper (m : Mem) (pt : Nat) : IsUpper m pt pt := Or.inl rfl

/-- Two distinct aligned pages share no byte. -/
theorem pages_disjoint (p q x : Nat) (hp : p % 4096 = 0) (hq : q % 4096 = 0) (hne : p ≠ q)
    (hx : inPage p x) : ¬ inPage q x := by
  unfold inPage PGSIZE at *
  omega

theorem tableOK_same (m m' : Mem) (pt : Nat)
    (h : ∀ p, IsUpper m pt p → SamePage m m' p) (ok : TableOK m pt) : TableOK m' pt := by
  have u := upper_same m m' pt h
  have e1 : ∀ va, has1 m' pt va ↔ has1 m pt va := fun va => (u va).2.1
  have t1 : ∀ va, tbl1 m' pt va = tbl1 m pt va := fun va => (u va).2.2.1
  have e0 : ∀ va, has0 m' pt va ↔ has0 m pt va := fun va => (u va).2.2.2.2.1
  have t0 : ∀ va, has0 m pt va → tbl0 m' pt va = tbl0 m pt va :=
    fun va hv => ((u va).2.2.2.2.2 hv).1
  refine ⟨ok.root_al, ok.root_ne, ?_, ?_, ?_, ?_, ?_⟩
  · intro va hv
    rw [t1]; exact ok.t1_ne va ((e1 va).mp hv)
  · intro va vb ha hb
    rw [t1, t1]; exact ok.t1_inj va vb ((e1 va).mp ha) ((e1 vb).mp hb)
  · intro va hv
    rw [t0 va ((e0 va).mp hv)]; exact ok.t0_ne va ((e0 va).mp hv)
  · intro va vb ha hb
    rw [t0 va ((e0 va).mp ha), t1]
    exact ok.t0_t1 va vb ((e0 va).mp ha) ((e1 vb).mp hb)
  · intro va vb ha hb
    rw [t0 va ((e0 va).mp ha), t0 vb ((e0 vb).mp hb)]
    exact ok.t0_inj va vb ((e0 va).mp ha) ((e0 vb).mp hb)

theorem leafOf_same (m m' : Mem) (pt : Nat)
    (h : ∀ p, IsTable m pt p → SamePage m m' p) (va : Nat) :
    leafOf m' pt va = leafOf m pt va := by
  have hu : ∀ p, IsUpper m pt p → SamePage m m' p := fun p hp => h p (Or.inl hp)
  have u := upper_same m m' pt hu va
  unfold leafOf
  by_cases hv : has0 m pt va
  · rw [if_pos hv, if_pos (u.2.2.2.2.1.mpr hv)]
    unfold ent0
    rw [(u.2.2.2.2.2 hv).2]
    unfold slot0
    exact rd64_samePage m m' _ (PX 0 va) (h _ (tbl0_isTable m pt va hv)) (PX_lt 0 va)
  · rw [if_neg hv, if_neg (fun x => hv (u.2.2.2.2.1.mp x))]

/-- Under `TableOK`, `walk` finds a level-0 entry exactly when both upper entries are
valid, and `leafOf` is what it points to. -/
theorem walkVal_ok (m : Mem) (pt va : Nat) (ok : TableOK m pt) :
    (has0 m pt va → walkVal m pt va = slot0 m pt va ∧ walkVal m pt va ≠ 0 ∧
       rd64 m (walkVal m pt va) = leafOf m pt va) ∧
    (¬ has0 m pt va → walkVal m pt va = 0 ∧ leafOf m pt va = 0) := by
  constructor
  · intro hv
    have hne := (ok.t0_ne va hv).2
    have e : walkVal m pt va = slot0 m pt va := by simp only [walkVal, hv, if_true]
    refine ⟨e, ?_, ?_⟩
    · rw [e]; unfold slot0; omega
    · rw [e]; simp only [leafOf, hv, if_true, ent0]
  · intro hv
    exact ⟨by simp only [walkVal, hv, if_false], by simp only [leafOf, hv, if_false]⟩

/-- `walkaddr` in terms of `leafOf`. -/
theorem walkaddrVal_leaf (m : Mem) (pt va : Nat) (ok : TableOK m pt) (hva : va < MAXVA) :
    walkaddrVal m pt va =
      if leafOf m pt va % 2 = 1 ∧ leafOf m pt va / 16 % 2 = 1 then PTE2PA (leafOf m pt va)
      else 0 := by
  have hva' : ¬ MAXVA ≤ va := by omega
  obtain ⟨w1, w2⟩ := walkVal_ok m pt va ok
  unfold walkaddrVal
  rw [if_neg hva']
  by_cases hv : has0 m pt va
  · obtain ⟨_, b, c⟩ := w1 hv
    rw [if_neg b, c]
    by_cases c1 : leafOf m pt va % 2 = 0
    · rw [if_pos c1, if_neg (by omega)]
    · rw [if_neg c1]
      by_cases c2 : leafOf m pt va / 16 % 2 = 0
      · rw [if_pos c2, if_neg (by omega)]
      · rw [if_neg c2, if_pos (by omega)]
  · obtain ⟨a, b⟩ := w2 hv
    rw [if_pos a, b]
    simp

/-! ## Writing a level-0 entry -/

theorem leaf_write (m : Mem) (pt va v : Nat) (ok : TableOK m pt) (hv : has0 m pt va) :
    (∀ p, IsUpper m pt p → SamePage m (wr64 m (slot0 m pt va) v) p) ∧
    (∀ x, ¬ inPage (tbl0 m pt va) x → wr64 m (slot0 m pt va) v x = m x) ∧
    (∀ vb, leafOf (wr64 m (slot0 m pt va) v) pt vb =
      if samePath va vb then v % 2 ^ 64 else leafOf m pt vb) := by
  have hal := tbl0_aligned m pt va
  have hpx := PX_lt 0 va
  have hout : ∀ x, ¬ inPage (tbl0 m pt va) x → wr64 m (slot0 m pt va) v x = m x := by
    intro x hx
    have : ¬ (slot0 m pt va ≤ x ∧ x < slot0 m pt va + 8) := by
      unfold slot0; unfold inPage PGSIZE at hx; omega
    simp only [wr64, this, if_false]
  have hup : ∀ p, IsUpper m pt p → SamePage m (wr64 m (slot0 m pt va) v) p := by
    intro p hp x hx
    apply hout
    have hpa : p % 4096 = 0 := isTable_aligned m pt p ok.root_al (Or.inl hp)
    have hne : p ≠ tbl0 m pt va := by
      rcases hp with hp | ⟨vb, hb, hp⟩
      · rw [hp]; exact fun e => (ok.t0_ne va hv).1 e.symm
      · rw [hp]; exact fun e => ok.t0_t1 va vb hv hb e.symm
    exact pages_disjoint p _ x hpa hal hne hx
  refine ⟨hup, hout, fun vb => ?_⟩
  have u := upper_same m (wr64 m (slot0 m pt va) v) pt hup vb
  by_cases hs : samePath va vb
  · rw [if_pos hs]
    obtain ⟨_, _, c, d⟩ := path_congr1 m pt va vb hs.1 hs.2.1
    have hvb : has0 m pt vb := d.mp hv
    have e := (path_congr0 m pt va vb hs).1
    unfold leafOf
    rw [if_pos (u.2.2.2.2.1.mpr hvb)]
    unfold ent0
    rw [(u.2.2.2.2.2 hvb).2, ← e]
    exact rd64_wr64_same m _ v
  · rw [if_neg hs]
    unfold leafOf
    by_cases hvb : has0 m pt vb
    · rw [if_pos hvb, if_pos (u.2.2.2.2.1.mpr hvb)]
      unfold ent0
      rw [(u.2.2.2.2.2 hvb).2]
      apply rd64_wr64_other
      have hal' := tbl0_aligned m pt vb
      have hpx' := PX_lt 0 vb
      by_cases ht : tbl0 m pt vb = tbl0 m pt va
      · have hh := ok.t0_inj vb va hvb hv ht
        have h0 : PX 0 va ≠ PX 0 vb := fun e => hs ⟨hh.1.symm, hh.2.symm, e⟩
        unfold slot0; rw [ht]; omega
      · unfold slot0; omega
    · rw [if_neg hvb, if_neg (fun x => hvb (u.2.2.2.2.1.mp x))]

/-! ## The allocator -/

theorem freeList_frame (m m' : Mem) : ∀ (fl : List Nat) (h : Nat),
    FreeList m h fl → (∀ f, f ∈ fl → SamePage m m' f) → FreeList m' h fl
  | [], _, hl, _ => hl
  | f :: rest, h, hl, hs => by
    obtain ⟨a, b, c⟩ := hl
    have e : rd64 m' f = rd64 m f := by
      have := rd64_samePage m m' f 0 (hs f (List.mem_cons_self _ _)) (by omega)
      simpa using this
    refine ⟨a, b, ?_⟩
    rw [e]
    exact freeList_frame m m' rest _ c (fun g hg => hs g (List.mem_cons_of_mem _ hg))

theorem freeList_head_lt (m : Mem) (h : Nat) (fl : List Nat) (hl : FreeList m h fl)
    (hb : ∀ f, f ∈ fl → f < 2 ^ 64) : h < 2 ^ 64 := by
  cases fl with
  | nil => rw [hl]; norm_num
  | cons f rest => rw [hl.1]; exact hb f (List.mem_cons_self _ _)

theorem allocOK_frame (L : Layout) (s s' : KState) (fl : List Nat) (ok : AllocOK L s fl)
    (hf : s'.freelist = s.freelist) (hs : ∀ f, f ∈ fl → SamePage s.mem s'.mem f) :
    AllocOK L s' fl :=
  ⟨by rw [hf]; exact freeList_frame _ _ fl _ ok.list hs, ok.nodup, ok.frames, ok.kend_pos,
    ok.top⟩

theorem memset_samePage (m : Mem) (f c p : Nat) (hf : f % 4096 = 0) (hp : p % 4096 = 0)
    (hne : p ≠ f) : SamePage m (memset m f c PGSIZE) p := by
  intro x hx
  have : ¬ (f ≤ x ∧ x < f + PGSIZE) := by
    have := pages_disjoint p f x hp hf hne hx
    exact this
  simp only [memset, this, if_false]

theorem memmove_samePage (m : Mem) (f src p : Nat) (hf : f % 4096 = 0) (hp : p % 4096 = 0)
    (hne : p ≠ f) : SamePage m (memmove m f src PGSIZE) p := by
  intro x hx
  have : ¬ (f ≤ x ∧ x < f + PGSIZE) := by
    have := pages_disjoint p f x hp hf hne hx
    exact this
  simp only [memmove, this, if_false]

theorem wr64_samePage (m : Mem) (f i v p : Nat) (hf : f % 4096 = 0) (hp : p % 4096 = 0)
    (hi : i < 512) (hne : p ≠ f) : SamePage m (wr64 m (f + 8 * i) v) p := by
  intro x hx
  have : ¬ (f + 8 * i ≤ x ∧ x < f + 8 * i + 8) := by
    unfold inPage PGSIZE at hx
    omega
  simp only [wr64, this, if_false]

theorem samePage_trans (m1 m2 m3 : Mem) (p : Nat) (a : SamePage m1 m2 p)
    (b : SamePage m2 m3 p) : SamePage m1 m3 p :=
  fun x hx => (b x hx).trans (a x hx)

theorem samePage_refl (m : Mem) (p : Nat) : SamePage m m p := fun _ _ => rfl

theorem kalloc_cons (L : Layout) (s : KState) (f : Nat) (rest : List Nat)
    (ok : AllocOK L s (f :: rest)) :
    kalloc s = (f, { mem := memset s.mem f 5 PGSIZE, freelist := rd64 s.mem f }) ∧
    AllocOK L { mem := memset s.mem f 5 PGSIZE, freelist := rd64 s.mem f } rest := by
  obtain ⟨a, b, c⟩ := ok.list
  have hf := ok.frames f (List.mem_cons_self _ _)
  constructor
  · unfold kalloc
    rw [a]
    simp only [b, ne_eq, not_false_eq_true, if_true]
  · have nd := List.nodup_cons.mp ok.nodup
    refine ⟨?_, nd.2, fun g hg => ok.frames g (List.mem_cons_of_mem _ hg), ok.kend_pos, ok.top⟩
    apply freeList_frame s.mem _ rest _ c
    intro g hg
    have hgf := ok.frames g (List.mem_cons_of_mem _ hg)
    exact memset_samePage _ _ _ _ hf.1 hgf.1 (fun e => nd.1 (e ▸ hg))

theorem kalloc_nil (L : Layout) (s : KState) (ok : AllocOK L s []) : kalloc s = (0, s) := by
  have : s.freelist = 0 := ok.list
  simp only [kalloc, this, ne_eq, not_true_eq_false, if_false]

theorem kfree_ok (L : Layout) (s : KState) (fl : List Nat) (f : Nat) (ok : AllocOK L s fl)
    (hn : f ∉ fl) (hal : f % 4096 = 0) (hlo : L.kend ≤ f) (hhi : f < L.phystop) :
    kfree L s f = .ok ()
      { mem := wr64 (memset s.mem f 1 PGSIZE) f s.freelist, freelist := f } ∧
    AllocOK L { mem := wr64 (memset s.mem f 1 PGSIZE) f s.freelist, freelist := f }
      (f :: fl) := by
  have hk := ok.kend_pos
  have ht := ok.top
  constructor
  · have : ¬ (f % PGSIZE ≠ 0 ∨ f < L.kend ∨ f ≥ L.phystop) := by
      unfold PGSIZE; omega
    simp only [kfree, this, if_false]
  · refine ⟨⟨rfl, by omega, ?_⟩, List.nodup_cons.mpr ⟨hn, ok.nodup⟩, ?_, hk, ht⟩
    · have hlt : s.freelist < 2 ^ 64 :=
        freeList_head_lt _ _ fl ok.list (fun g hg => by have := ok.frames g hg; omega)
      have e : rd64 (wr64 (memset s.mem f 1 PGSIZE) f s.freelist) f = s.freelist := by
        rw [rd64_wr64_same]; omega
      show FreeList _ (rd64 (wr64 (memset s.mem f 1 PGSIZE) f s.freelist) f) fl
      rw [e]
      apply freeList_frame s.mem _ fl _ ok.list
      intro g hg
      have hgf := ok.frames g hg
      have hne : g ≠ f := fun e => hn (e ▸ hg)
      apply samePage_trans _ (memset s.mem f 1 PGSIZE) _ g
      · exact memset_samePage _ _ _ _ hal hgf.1 hne
      · have := wr64_samePage (memset s.mem f 1 PGSIZE) f 0 s.freelist g hal hgf.1 (by omega) hne
        simpa using this
    · intro g hg
      rcases List.mem_cons.mp hg with e | e
      · rw [e]; exact ⟨hal, hlo, hhi⟩
      · exact ok.frames g e

/-- What a returning `kfree` did. -/
theorem kfree_inv (L : Layout) (s s' : KState) (f : Nat) (h : kfree L s f = .ok () s') :
    f % 4096 = 0 ∧ L.kend ≤ f ∧ f < L.phystop ∧
    s' = { mem := wr64 (memset s.mem f 1 PGSIZE) f s.freelist, freelist := f } := by
  unfold kfree at h
  by_cases c : f % PGSIZE ≠ 0 ∨ f < L.kend ∨ f ≥ L.phystop
  · rw [if_pos c] at h; cases h
  · rw [if_neg c] at h
    have e : s' = { mem := wr64 (memset s.mem f 1 PGSIZE) f s.freelist, freelist := f } := by
      injection h with _ h2
      exact h2.symm
    unfold PGSIZE at c
    exact ⟨by omega, by omega, by omega, e⟩

theorem kfree_samePage (m : Mem) (f h p : Nat) (hf : f % 4096 = 0) (hp : p % 4096 = 0)
    (hne : p ≠ f) : SamePage m (wr64 (memset m f 1 PGSIZE) f h) p := by
  apply samePage_trans _ (memset m f 1 PGSIZE) _ p
  · exact memset_samePage _ _ _ _ hf hp hne
  · have := wr64_samePage (memset m f 1 PGSIZE) f 0 h p hf hp (by omega) hne
    simpa using this

/-! ## The invariant under writes that miss the tables and the free frames -/

theorem inv_frame (L : Layout) (s s' : KState) (pt : Nat) (fl : List Nat) (inv : Inv L s pt fl)
    (hf : s'.freelist = s.freelist) (hfl : ∀ f, f ∈ fl → SamePage s.mem s'.mem f)
    (ht : ∀ p, IsTable s.mem pt p → SamePage s.mem s'.mem p) :
    Inv L s' pt fl ∧ (∀ p, IsTable s'.mem pt p ↔ IsTable s.mem pt p) ∧
    (∀ va, leafOf s'.mem pt va = leafOf s.mem pt va) := by
  have hu : ∀ p, IsUpper s.mem pt p → SamePage s.mem s'.mem p := fun p hp => ht p (Or.inl hp)
  have it := isTable_same s.mem s'.mem pt hu
  refine ⟨⟨allocOK_frame L s s' fl inv.alloc hf hfl, tableOK_same _ _ pt hu inv.table, ?_⟩,
    it, leafOf_same _ _ pt ht⟩
  intro p hp
  exact inv.sep p ((it p).mp hp)

/-- Taking a frame off the free list keeps the invariant for the rest of the list. -/
theorem inv_kalloc (L : Layout) (s : KState) (pt f : Nat) (rest : List Nat)
    (inv : Inv L s pt (f :: rest)) :
    kalloc s = (f, { mem := memset s.mem f 5 PGSIZE, freelist := rd64 s.mem f }) ∧
    Inv L { mem := memset s.mem f 5 PGSIZE, freelist := rd64 s.mem f } pt rest ∧
    (∀ p, IsTable (memset s.mem f 5 PGSIZE) pt p ↔ IsTable s.mem pt p) ∧
    (∀ va, leafOf (memset s.mem f 5 PGSIZE) pt va = leafOf s.mem pt va) := by
  obtain ⟨a, b⟩ := kalloc_cons L s f rest inv.alloc
  have hf := inv.alloc.frames f (List.mem_cons_self _ _)
  have ht : ∀ p, IsTable s.mem pt p → SamePage s.mem (memset s.mem f 5 PGSIZE) p := by
    intro p hp
    have hpa := isTable_aligned _ _ _ inv.table.root_al hp
    exact memset_samePage _ _ _ _ hf.1 hpa (fun e => inv.sep p hp (e ▸ List.mem_cons_self _ _))
  have hu : ∀ p, IsUpper s.mem pt p → SamePage s.mem (memset s.mem f 5 PGSIZE) p :=
    fun p hp => ht p (Or.inl hp)
  have it := isTable_same s.mem (memset s.mem f 5 PGSIZE) pt hu
  refine ⟨a, ⟨b, tableOK_same _ _ pt hu inv.table, ?_⟩, it, leafOf_same _ _ pt ht⟩
  intro p hp
  exact fun hm => inv.sep p ((it p).mp hp) (List.mem_cons_of_mem _ hm)

/-! ## Linking a fresh table page -/

theorem link_entry (f : Nat) (hal : f % 4096 = 0) (hlt : f < 2 ^ 64) :
    (PA2PTE f ||| PTE_V) % 2 ^ 64 = PA2PTE f ||| PTE_V ∧ (PA2PTE f ||| PTE_V) % 2 = 1 ∧
    PTE2PA (PA2PTE f ||| PTE_V) = f := by
  have h3 := Nat.mul_add_lt_is_or (show 1 < 2 ^ 10 by norm_num) (f / 4096)
  have e : PA2PTE f ||| PTE_V = f / 4096 * 1024 + 1 := by
    simp only [PA2PTE, PTE_V]
    rw [Nat.mul_comm, ← h3]
  rw [e]
  unfold PTE2PA
  omega

/-- Reads of `linkMem`, where the entry is stored in slot `i` of table page `q`. -/
theorem linkMem_reads (m : Mem) (f q i : Nat) (hf : f % 4096 = 0) (hq : q % 4096 = 0)
    (hlt : f < 2 ^ 64) (hne : q ≠ f) (hi : i < 512) :
    rd64 (linkMem m f (q + 8 * i)) (q + 8 * i) = PA2PTE f ||| PTE_V ∧
    (∀ j, j < 512 → j ≠ i → rd64 (linkMem m f (q + 8 * i)) (q + 8 * j) = rd64 m (q + 8 * j)) ∧
    (∀ j, j < 512 → rd64 (linkMem m f (q + 8 * i)) (f + 8 * j) = 0) ∧
    (∀ p, p % 4096 = 0 → p ≠ f → p ≠ q → SamePage m (linkMem m f (q + 8 * i)) p) ∧
    (∀ x, ¬ inPage f x → ¬ inPage q x → linkMem m f (q + 8 * i) x = m x) := by
  refine ⟨?_, ?_, ?_, ?_, ?_⟩
  · unfold linkMem
    rw [rd64_wr64_same]
    exact (link_entry f hf hlt).1
  · intro j hj hji
    unfold linkMem
    rw [rd64_wr64_other _ _ _ _ (by omega)]
    rw [rd64_memset_other _ _ _ _ _ (by unfold PGSIZE; omega)]
    rw [rd64_memset_other _ _ _ _ _ (by unfold PGSIZE; omega)]
  · intro j hj
    unfold linkMem
    rw [rd64_wr64_other _ _ _ _ (by omega)]
    exact rd64_memset_zero _ _ _ _ (by omega) (by unfold PGSIZE; omega)
  · intro p hp hpf hpq
    unfold linkMem
    apply samePage_trans _ (memset m f 5 PGSIZE)
    · exact memset_samePage _ _ _ _ hf hp hpf
    · apply samePage_trans _ (memset (memset m f 5 PGSIZE) f 0 PGSIZE)
      · exact memset_samePage _ _ _ _ hf hp hpf
      · exact wr64_samePage _ _ _ _ _ hq hp hi hpq
  · intro x hxf hxq
    have c1 : ¬ (q + 8 * i ≤ x ∧ x < q + 8 * i + 8) := by
      unfold inPage PGSIZE at hxq; omega
    have c2 : ¬ (f ≤ x ∧ x < f + PGSIZE) := hxf
    simp only [linkMem, wr64, memset, c1, c2, if_false]

/-- Linking a level-1 table under an invalid root entry. -/
theorem link1 (m : Mem) (pt va f : Nat) (ok : TableOK m pt) (hv : ¬ has1 m pt va)
    (hf : f % 4096 = 0) (hlt : f < 2 ^ 64) (hf0 : f ≠ 0) (hnt : ¬ IsTable m pt f) :
    TableOK (linkMem m f (slot2 pt va)) pt ∧
    has1 (linkMem m f (slot2 pt va)) pt va ∧ tbl1 (linkMem m f (slot2 pt va)) pt va = f ∧
    ¬ has0 (linkMem m f (slot2 pt va)) pt va ∧
    (∀ p, IsTable (linkMem m f (slot2 pt va)) pt p ↔ IsTable m pt p ∨ p = f) ∧
    (∀ vb, leafOf (linkMem m f (slot2 pt va)) pt vb = leafOf m pt vb) := by
  have hfp : f ≠ pt := fun e => hnt (e ▸ Or.inl (Or.inl rfl))
  obtain ⟨r1, r2, r3, r4, _⟩ :=
    linkMem_reads m f pt (PX 2 va) hf ok.root_al hlt (fun e => hfp e.symm) (PX_lt 2 va)
  obtain ⟨_, l2, l3⟩ := link_entry f hf hlt
  have hnt1 : ∀ vb, has1 m pt vb → tbl1 m pt vb ≠ f :=
    fun vb hb e => hnt (e ▸ Or.inl (tbl1_isUpper m pt vb hb))
  have hnt0 : ∀ vb, has0 m pt vb → tbl0 m pt vb ≠ f :=
    fun vb hb e => hnt (e ▸ tbl0_isTable m pt vb hb)
  -- level-2 entries
  have e2 : ∀ vb, ent2 (linkMem m f (slot2 pt va)) pt vb =
      if PX 2 vb = PX 2 va then PA2PTE f ||| PTE_V else ent2 m pt vb := by
    intro vb
    by_cases c : PX 2 vb = PX 2 va
    · rw [if_pos c]; unfold ent2 slot2; rw [c]; exact r1
    · rw [if_neg c]; unfold ent2 slot2
      exact r2 (PX 2 vb) (PX_lt 2 vb) c
  have hnm : ∀ vb, has1 m pt vb → PX 2 vb ≠ PX 2 va :=
    fun vb hb c => hv ((path_congr2 m pt vb va c).2.2.2.mp hb)
  have h1 : ∀ vb, has1 (linkMem m f (slot2 pt va)) pt vb ↔
      has1 m pt vb ∨ PX 2 vb = PX 2 va := by
    intro vb
    unfold has1
    rw [e2]
    by_cases c : PX 2 vb = PX 2 va
    · rw [if_pos c]; exact ⟨fun _ => Or.inr c, fun _ => l2⟩
    · rw [if_neg c]; exact ⟨fun h => Or.inl h, fun h => h.resolve_right c⟩
  have t1 : ∀ vb, tbl1 (linkMem m f (slot2 pt va)) pt vb =
      if PX 2 vb = PX 2 va then f else tbl1 m pt vb := by
    intro vb
    unfold tbl1
    rw [e2]
    by_cases c : PX 2 vb = PX 2 va
    · rw [if_pos c, if_pos c]; exact l3
    · rw [if_neg c, if_neg c]
  have e1m : ∀ vb, PX 2 vb = PX 2 va → ent1 (linkMem m f (slot2 pt va)) pt vb = 0 := by
    intro vb c
    unfold ent1 slot1
    rw [t1, if_pos c]
    exact r3 (PX 1 vb) (PX_lt 1 vb)
  have e1o : ∀ vb, has1 m pt vb → ent1 (linkMem m f (slot2 pt va)) pt vb = ent1 m pt vb := by
    intro vb hb
    unfold ent1 slot1
    rw [t1, if_neg (hnm vb hb)]
    exact rd64_samePage _ _ _ (PX 1 vb)
      (r4 _ (tbl1_aligned m pt vb) (hnt1 vb hb) (ok.t1_ne vb hb).1) (PX_lt 1 vb)
  have h0 : ∀ vb, has0 (linkMem m f (slot2 pt va)) pt vb ↔ has0 m pt vb := by
    intro vb
    unfold has0
    constructor
    · rintro ⟨a, b⟩
      rcases (h1 vb).mp a with a' | c
      · exact ⟨a', by rw [← e1o vb a']; exact b⟩
      · rw [e1m vb c] at b; omega
    · rintro ⟨a, b⟩
      exact ⟨(h1 vb).mpr (Or.inl a), by rw [e1o vb a]; exact b⟩
  have t0 : ∀ vb, has0 m pt vb → tbl0 (linkMem m f (slot2 pt va)) pt vb = tbl0 m pt vb := by
    intro vb hb
    unfold tbl0
    rw [e1o vb hb.1]
  have e0 : ∀ vb, has0 m pt vb → ent0 (linkMem m f (slot2 pt va)) pt vb = ent0 m pt vb := by
    intro vb hb
    unfold ent0 slot0
    rw [t0 vb hb]
    exact rd64_samePage _ _ _ (PX 0 vb)
      (r4 _ (tbl0_aligned m pt vb) (hnt0 vb hb) (ok.t0_ne vb hb).1) (PX_lt 0 vb)
  have hva1 : has1 (linkMem m f (slot2 pt va)) pt va := (h1 va).mpr (Or.inr rfl)
  have tva : tbl1 (linkMem m f (slot2 pt va)) pt va = f := by rw [t1, if_pos rfl]
  refine ⟨⟨ok.root_al, ok.root_ne, ?_, ?_, ?_, ?_, ?_⟩, hva1, tva,
    fun h => hv ((h0 va).mp h).1, ?_, ?_⟩
  · intro vb hb
    rw [t1]
    by_cases c : PX 2 vb = PX 2 va
    · rw [if_pos c]; exact ⟨hfp, hf0⟩
    · rw [if_neg c]; exact ok.t1_ne vb (((h1 vb).mp hb).resolve_right c)
  · intro v1 v2 a b
    rw [t1, t1]
    by_cases c1 : PX 2 v1 = PX 2 va
    · by_cases c2 : PX 2 v2 = PX 2 va
      · intro _; rw [c1, c2]
      · rw [if_pos c1, if_neg c2]
        intro e
        exact absurd e.symm (hnt1 v2 (((h1 v2).mp b).resolve_right c2))
    · by_cases c2 : PX 2 v2 = PX 2 va
      · rw [if_neg c1, if_pos c2]
        intro e
        exact absurd e (hnt1 v1 (((h1 v1).mp a).resolve_right c1))
      · rw [if_neg c1, if_neg c2]
        exact ok.t1_inj v1 v2 (((h1 v1).mp a).resolve_right c1)
          (((h1 v2).mp b).resolve_right c2)
  · intro vb hb
    have hb' := (h0 vb).mp hb
    rw [t0 vb hb']; exact ok.t0_ne vb hb'
  · intro v1 v2 a b
    have a' := (h0 v1).mp a
    rw [t0 v1 a', t1]
    by_cases c2 : PX 2 v2 = PX 2 va
    · rw [if_pos c2]; exact hnt0 v1 a'
    · rw [if_neg c2]; exact ok.t0_t1 v1 v2 a' (((h1 v2).mp b).resolve_right c2)
  · intro v1 v2 a b
    have a' := (h0 v1).mp a
    have b' := (h0 v2).mp b
    rw [t0 v1 a', t0 v2 b']; exact ok.t0_inj v1 v2 a' b'
  · intro p
    constructor
    · rintro ((hp | ⟨vb, hb, hp⟩) | ⟨vb, hb, hp⟩)
      · exact Or.inl (Or.inl (Or.inl hp))
      · rw [t1] at hp
        by_cases c : PX 2 vb = PX 2 va
        · rw [if_pos c] at hp; exact Or.inr hp
        · rw [if_neg c] at hp
          exact Or.inl (Or.inl (Or.inr ⟨vb, ((h1 vb).mp hb).resolve_right c, hp⟩))
      · have hb' := (h0 vb).mp hb
        rw [t0 vb hb'] at hp
        exact Or.inl (Or.inr ⟨vb, hb', hp⟩)
    · rintro (((hp | ⟨vb, hb, hp⟩) | ⟨vb, hb, hp⟩) | hp)
      · exact Or.inl (Or.inl hp)
      · refine Or.inl (Or.inr ⟨vb, (h1 vb).mpr (Or.inl hb), ?_⟩)
        rw [t1, if_neg (hnm vb hb)]; exact hp
      · exact Or.inr ⟨vb, (h0 vb).mpr hb, by rw [t0 vb hb]; exact hp⟩
      · exact Or.inl (Or.inr ⟨va, hva1, by rw [tva]; exact hp⟩)
  · intro vb
    unfold leafOf
    by_cases hb : has0 m pt vb
    · rw [if_pos hb, if_pos ((h0 vb).mpr hb), e0 vb hb]
    · rw [if_neg hb, if_neg (fun x => hb ((h0 vb).mp x))]

/-- Linking a level-0 table under an invalid level-1 entry. -/
theorem link0 (m : Mem) (pt va f : Nat) (ok : TableOK m pt) (hv1 : has1 m pt va)
    (hv : ¬ has0 m pt va)
    (hf : f % 4096 = 0) (hlt : f < 2 ^ 64) (hf0 : f ≠ 0) (hnt : ¬ IsTable m pt f) :
    TableOK (linkMem m f (slot1 m pt va)) pt ∧
    has0 (linkMem m f (slot1 m pt va)) pt va ∧ tbl0 (linkMem m f (slot1 m pt va)) pt va = f ∧
    (∀ p, IsTable (linkMem m f (slot1 m pt va)) pt p ↔ IsTable m pt p ∨ p = f) ∧
    (∀ vb, leafOf (linkMem m f (slot1 m pt va)) pt vb = leafOf m pt vb) := by
  have hfp : f ≠ pt := fun e => hnt (e ▸ Or.inl (Or.inl rfl))
  have hnt1 : ∀ vb, has1 m pt vb → tbl1 m pt vb ≠ f :=
    fun vb hb e => hnt (e ▸ Or.inl (tbl1_isUpper m pt vb hb))
  have hnt0 : ∀ vb, has0 m pt vb → tbl0 m pt vb ≠ f :=
    fun vb hb e => hnt (e ▸ tbl0_isTable m pt vb hb)
  have hq := tbl1_aligned m pt va
  obtain ⟨r1, r2, r3, r4, _⟩ :=
    linkMem_reads m f (tbl1 m pt va) (PX 1 va) hf hq hlt (hnt1 va hv1) (PX_lt 1 va)
  obtain ⟨_, l2, l3⟩ := link_entry f hf hlt
  have hs : slot1 m pt va = tbl1 m pt va + 8 * PX 1 va := rfl
  rw [hs]
  -- the root page is untouched
  have e2 : ∀ vb, ent2 (linkMem m f (tbl1 m pt va + 8 * PX 1 va)) pt vb = ent2 m pt vb := by
    intro vb
    unfold ent2 slot2
    exact rd64_samePage _ _ _ (PX 2 vb)
      (r4 pt ok.root_al (fun e => hfp e.symm) (fun e => (ok.t1_ne va hv1).1 e.symm)) (PX_lt 2 vb)
  have h1 : ∀ vb, has1 (linkMem m f (tbl1 m pt va + 8 * PX 1 va)) pt vb ↔ has1 m pt vb := by
    intro vb; unfold has1; rw [e2]
  have t1 : ∀ vb, tbl1 (linkMem m f (tbl1 m pt va + 8 * PX 1 va)) pt vb = tbl1 m pt vb := by
    intro vb; exact congrArg PTE2PA (e2 vb)
  have e1 : ∀ vb, has1 m pt vb → ent1 (linkMem m f (tbl1 m pt va + 8 * PX 1 va)) pt vb =
      if PX 2 vb = PX 2 va ∧ PX 1 vb = PX 1 va then PA2PTE f ||| PTE_V else ent1 m pt vb := by
    intro vb hb
    unfold ent1 slot1
    rw [t1]
    by_cases c2 : PX 2 vb = PX 2 va
    · have et := (path_congr2 m pt vb va c2).2.2.1
      rw [et]
      by_cases c1 : PX 1 vb = PX 1 va
      · rw [if_pos ⟨c2, c1⟩, c1]; exact r1
      · rw [if_neg (fun h => c1 h.2)]
        exact r2 (PX 1 vb) (PX_lt 1 vb) c1
    · rw [if_neg (fun h => c2 h.1)]
      have hne : tbl1 m pt vb ≠ tbl1 m pt va := fun e => c2 (ok.t1_inj vb va hb hv1 e)
      exact rd64_samePage _ _ _ (PX 1 vb)
        (r4 _ (tbl1_aligned m pt vb) (hnt1 vb hb) hne) (PX_lt 1 vb)
  have hnm : ∀ vb, has0 m pt vb → ¬ (PX 2 vb = PX 2 va ∧ PX 1 vb = PX 1 va) :=
    fun vb hb c => hv ((path_congr1 m pt vb va c.1 c.2).2.2.2.mp hb)
  have h0 : ∀ vb, has0 (linkMem m f (tbl1 m pt va + 8 * PX 1 va)) pt vb ↔
      has0 m pt vb ∨ (has1 m pt vb ∧ PX 2 vb = PX 2 va ∧ PX 1 vb = PX 1 va) := by
    intro vb
    unfold has0
    constructor
    · rintro ⟨a, b⟩
      have a' := (h1 vb).mp a
      rw [e1 vb a'] at b
      by_cases c : PX 2 vb = PX 2 va ∧ PX 1 vb = PX 1 va
      · exact Or.inr ⟨a', c⟩
      · rw [if_neg c] at b; exact Or.inl ⟨a', b⟩
    · rintro (⟨a, b⟩ | ⟨a, c⟩)
      · refine ⟨(h1 vb).mpr a, ?_⟩
        rw [e1 vb a, if_neg (hnm vb ⟨a, b⟩)]; exact b
      · refine ⟨(h1 vb).mpr a, ?_⟩
        rw [e1 vb a, if_pos c]; exact l2
  have t0 : ∀ vb, has1 m pt vb → tbl0 (linkMem m f (tbl1 m pt va + 8 * PX 1 va)) pt vb =
      if PX 2 vb = PX 2 va ∧ PX 1 vb = PX 1 va then f else tbl0 m pt vb := by
    intro vb hb
    unfold tbl0
    rw [e1 vb hb]
    by_cases c : PX 2 vb = PX 2 va ∧ PX 1 vb = PX 1 va
    · rw [if_pos c, if_pos c]; exact l3
    · rw [if_neg c, if_neg c]
  have t0o : ∀ vb, has0 m pt vb → tbl0 (linkMem m f (tbl1 m pt va + 8 * PX 1 va)) pt vb =
      tbl0 m pt vb := by
    intro vb hb
    rw [t0 vb hb.1, if_neg (hnm vb hb)]
  have e0o : ∀ vb, has0 m pt vb → ent0 (linkMem m f (tbl1 m pt va + 8 * PX 1 va)) pt vb =
      ent0 m pt vb := by
    intro vb hb
    unfold ent0 slot0
    rw [t0o vb hb]
    exact rd64_samePage _ _ _ (PX 0 vb)
      (r4 _ (tbl0_aligned m pt vb) (hnt0 vb hb) (ok.t0_t1 vb va hb hv1)) (PX_lt 0 vb)
  have e0m : ∀ vb, has1 m pt vb → PX 2 vb = PX 2 va ∧ PX 1 vb = PX 1 va →
      ent0 (linkMem m f (tbl1 m pt va + 8 * PX 1 va)) pt vb = 0 := by
    intro vb hb c
    unfold ent0 slot0
    rw [t0 vb hb, if_pos c]
    exact r3 (PX 0 vb) (PX_lt 0 vb)
  have hva0 : has0 (linkMem m f (tbl1 m pt va + 8 * PX 1 va)) pt va :=
    (h0 va).mpr (Or.inr ⟨hv1, rfl, rfl⟩)
  have tva : tbl0 (linkMem m f (tbl1 m pt va + 8 * PX 1 va)) pt va = f := by
    rw [t0 va hv1, if_pos ⟨rfl, rfl⟩]
  -- the new level-0 table, at any address whose path matches
  have tm : ∀ vb, has0 (linkMem m f (tbl1 m pt va + 8 * PX 1 va)) pt vb → ¬ has0 m pt vb →
      tbl0 (linkMem m f (tbl1 m pt va + 8 * PX 1 va)) pt vb = f ∧
      PX 2 vb = PX 2 va ∧ PX 1 vb = PX 1 va ∧ has1 m pt vb := by
    intro vb hb hn
    rcases (h0 vb).mp hb with x | ⟨a, c⟩
    · exact absurd x hn
    · exact ⟨by rw [t0 vb a, if_pos c], c.1, c.2, a⟩
  refine ⟨⟨ok.root_al, ok.root_ne, ?_, ?_, ?_, ?_, ?_⟩, hva0, tva, ?_, ?_⟩
  · intro vb hb
    rw [t1]; exact ok.t1_ne vb ((h1 vb).mp hb)
  · intro v1 v2 a b
    rw [t1, t1]; exact ok.t1_inj v1 v2 ((h1 v1).mp a) ((h1 v2).mp b)
  · intro vb hb
    by_cases c : has0 m pt vb
    · rw [t0o vb c]; exact ok.t0_ne vb c
    · rw [(tm vb hb c).1]; exact ⟨hfp, hf0⟩
  · intro v1 v2 a b
    have b' := (h1 v2).mp b
    rw [t1]
    by_cases c : has0 m pt v1
    · rw [t0o v1 c]; exact ok.t0_t1 v1 v2 c b'
    · rw [(tm v1 a c).1]; exact fun e => hnt1 v2 b' e.symm
  · intro v1 v2 a b
    by_cases c1 : has0 m pt v1
    · by_cases c2 : has0 m pt v2
      · rw [t0o v1 c1, t0o v2 c2]; exact ok.t0_inj v1 v2 c1 c2
      · rw [t0o v1 c1, (tm v2 b c2).1]
        exact fun e => absurd e (hnt0 v1 c1)
    · by_cases c2 : has0 m pt v2
      · rw [(tm v1 a c1).1, t0o v2 c2]
        exact fun e => absurd e.symm (hnt0 v2 c2)
      · obtain ⟨_, x1, y1, _⟩ := tm v1 a c1
        obtain ⟨_, x2, y2, _⟩ := tm v2 b c2
        intro _
        exact ⟨by rw [x1, x2], by rw [y1, y2]⟩
  · intro p
    constructor
    · rintro ((hp | ⟨vb, hb, hp⟩) | ⟨vb, hb, hp⟩)
      · exact Or.inl (Or.inl (Or.inl hp))
      · rw [t1] at hp
        exact Or.inl (Or.inl (Or.inr ⟨vb, (h1 vb).mp hb, hp⟩))
      · by_cases c : has0 m pt vb
        · rw [t0o vb c] at hp
          exact Or.inl (Or.inr ⟨vb, c, hp⟩)
        · rw [(tm vb hb c).1] at hp
          exact Or.inr hp
    · rintro (((hp | ⟨vb, hb, hp⟩) | ⟨vb, hb, hp⟩) | hp)
      · exact Or.inl (Or.inl hp)
      · exact Or.inl (Or.inr ⟨vb, (h1 vb).mpr hb, by rw [t1]; exact hp⟩)
      · exact Or.inr ⟨vb, (h0 vb).mpr (Or.inl hb), by rw [t0o vb hb]; exact hp⟩
      · exact Or.inr ⟨va, hva0, by rw [tva]; exact hp⟩
  · intro vb
    unfold leafOf
    by_cases hb : has0 m pt vb
    · rw [if_pos hb, if_pos ((h0 vb).mpr (Or.inl hb)), e0o vb hb]
    · rw [if_neg hb]
      by_cases hb' : has0 (linkMem m f (tbl1 m pt va + 8 * PX 1 va)) pt vb
      · rw [if_pos hb']
        obtain ⟨_, x, y, z⟩ := tm vb hb' hb
        exact e0m vb z ⟨x, y⟩
      · rw [if_neg hb']

/-! ## walk with allocation -/

theorem walkLevels_valid (l : Nat) (s : KState) (tbl va : Nat) (alloc : Bool)
    (h : rd64 s.mem (tbl + 8 * PX (l + 1) va) % 2 = 1) :
    walkLevels (l + 1) s tbl va alloc =
      walkLevels l s (PTE2PA (rd64 s.mem (tbl + 8 * PX (l + 1) va))) va alloc := by
  rw [walkLevels]
  have : rd64 s.mem (tbl + 8 * PX (l + 1) va) &&& PTE_V ≠ 0 := by rw [and_V]; omega
  simp only [this, ne_eq, not_false_eq_true, if_true]

theorem walkLevels_fail (l : Nat) (s s1 : KState) (tbl va : Nat)
    (h : ¬ rd64 s.mem (tbl + 8 * PX (l + 1) va) % 2 = 1) (hk : kalloc s = (0, s1)) :
    walkLevels (l + 1) s tbl va true = .ok 0 s1 := by
  rw [walkLevels]
  have : ¬ rd64 s.mem (tbl + 8 * PX (l + 1) va) &&& PTE_V ≠ 0 := by rw [and_V]; omega
  simp only [this, if_false, hk, Bool.not_true, Bool.false_eq_true, if_true]

theorem walkLevels_link (l : Nat) (s s1 : KState) (tbl va p : Nat)
    (h : ¬ rd64 s.mem (tbl + 8 * PX (l + 1) va) % 2 = 1) (hk : kalloc s = (p, s1))
    (hp : p ≠ 0) :
    walkLevels (l + 1) s tbl va true =
      walkLevels l
        { s1 with mem := (wr64 (memset s1.mem p 0 PGSIZE) (tbl + 8 * PX (l + 1) va)
            (PA2PTE p ||| PTE_V)) } p va true := by
  rw [walkLevels]
  have : ¬ rd64 s.mem (tbl + 8 * PX (l + 1) va) &&& PTE_V ≠ 0 := by rw [and_V]; omega
  simp only [this, if_false, hk, Bool.not_true, Bool.false_eq_true, hp]

theorem grown_refl (L : Layout) (pt : Nat) (s : KState) (fl : List Nat) (inv : Inv L s pt fl) :
    Grown L pt s fl s fl :=
  ⟨inv, ⟨[], rfl, fun p => by simp⟩, fun _ => rfl, fun _ _ => rfl⟩

theorem grown_trans (L : Layout) (pt : Nat) (s s1 s2 : KState) (fl fl1 fl2 : List Nat)
    (a : Grown L pt s fl s1 fl1) (b : Grown L pt s1 fl1 s2 fl2) : Grown L pt s fl s2 fl2 := by
  obtain ⟨t1, e1, i1⟩ := a.split
  obtain ⟨t2, e2, i2⟩ := b.split
  refine ⟨b.inv, ⟨t1 ++ t2, by rw [e1, e2, List.append_assoc], fun p => ?_⟩,
    fun vb => (b.leaf vb).trans (a.leaf vb), fun x hx => ?_⟩
  · rw [i2, i1, List.mem_append, or_assoc]
  · rw [b.frame x hx]
    exact a.frame x (fun p hp => hx p ((i2 p).mpr (Or.inl hp)))

/-- Taking the head of the free list and linking it as a table page at slot `i` of
table page `q`. -/
theorem grown_link (L : Layout) (pt : Nat) (s : KState) (f : Nat) (rest : List Nat) (q i : Nat)
    (inv : Inv L s pt (f :: rest)) (hq : IsTable s.mem pt q) (hi : i < 512)
    (ok' : TableOK (linkMem s.mem f (q + 8 * i)) pt)
    (it : ∀ p, IsTable (linkMem s.mem f (q + 8 * i)) pt p ↔ IsTable s.mem pt p ∨ p = f)
    (lf : ∀ vb, leafOf (linkMem s.mem f (q + 8 * i)) pt vb = leafOf s.mem pt vb) :
    Grown L pt s (f :: rest)
      { mem := linkMem s.mem f (q + 8 * i), freelist := rd64 s.mem f } rest := by
  have hf := inv.alloc.frames f (List.mem_cons_self _ _)
  have ht := inv.alloc.top
  have hqa := isTable_aligned _ _ _ inv.table.root_al hq
  have hqf : q ≠ f := fun e => inv.sep q hq (e ▸ List.mem_cons_self _ _)
  obtain ⟨_, _, _, r4, r5⟩ := linkMem_reads s.mem f q i hf.1 hqa (by omega) hqf hi
  have nd := List.nodup_cons.mp inv.alloc.nodup
  refine ⟨⟨⟨?_, nd.2, fun g hg => inv.alloc.frames g (List.mem_cons_of_mem _ hg),
    inv.alloc.kend_pos, ht⟩, ok', ?_⟩, ⟨[f], rfl, fun p => by rw [it]; simp⟩, lf, ?_⟩
  · apply freeList_frame s.mem _ rest _ inv.alloc.list.2.2
    intro g hg
    have hgf := inv.alloc.frames g (List.mem_cons_of_mem _ hg)
    exact r4 g hgf.1 (fun e => nd.1 (e ▸ hg))
      (fun e => inv.sep q hq (e ▸ List.mem_cons_of_mem _ hg))
  · intro p hp hm
    rcases (it p).mp hp with h | h
    · exact inv.sep p h (List.mem_cons_of_mem _ hm)
    · exact nd.1 (h ▸ hm)
  · intro x hx
    exact r5 x (hx f ((it f).mpr (Or.inr rfl))) (hx q ((it q).mpr (Or.inl hq)))

/-- The level-1 step of `walk(pt, va, 1)`. -/
theorem walk1_alloc (L : Layout) (s : KState) (pt va : Nat) (fl : List Nat) (r : Nat)
    (s' : KState) (inv : Inv L s pt fl) (hv1 : has1 s.mem pt va)
    (h : walkLevels 1 s (tbl1 s.mem pt va) va true = .ok r s') :
    ∃ fl', Grown L pt s fl s' fl' ∧
      (r ≠ 0 → has0 s'.mem pt va ∧ r = slot0 s'.mem pt va) ∧ (r = 0 → fl' = []) := by
  by_cases hv0 : has0 s.mem pt va
  · have hx : rd64 s.mem (tbl1 s.mem pt va + 8 * PX (0 + 1) va) % 2 = 1 := hv0.2
    rw [walkLevels_valid 0 s _ va true hx, walkLevels] at h
    injection h with h1 h2
    subst h2
    refine ⟨fl, grown_refl L pt s fl inv, fun _ => ⟨hv0, h1.symm⟩, fun h0 => ?_⟩
    exfalso
    have := (inv.table.t0_ne va hv0).2
    have e : r = tbl0 s.mem pt va + 8 * PX 0 va := h1.symm
    omega
  · have hx : ¬ rd64 s.mem (tbl1 s.mem pt va + 8 * PX (0 + 1) va) % 2 = 1 :=
      fun c => hv0 ⟨hv1, c⟩
    cases fl with
    | nil =>
      rw [walkLevels_fail 0 s s _ va hx (kalloc_nil L s inv.alloc)] at h
      injection h with h1 h2
      subst h2
      exact ⟨[], grown_refl L pt s [] inv, fun c => absurd h1.symm c, fun _ => rfl⟩
    | cons f rest =>
      obtain ⟨hk, _⟩ := kalloc_cons L s f rest inv.alloc
      have hf := inv.alloc.frames f (List.mem_cons_self _ _)
      have hk0 := inv.alloc.kend_pos
      have ht := inv.alloc.top
      have hf0 : f ≠ 0 := by omega
      rw [walkLevels_link 0 s _ _ va f hx hk hf0, walkLevels] at h
      injection h with h1 h2
      have hnt : ¬ IsTable s.mem pt f := fun c => inv.sep f c (List.mem_cons_self _ _)
      obtain ⟨ok', a0, t0, it, lf⟩ :=
        link0 s.mem pt va f inv.table hv1 hv0 hf.1 (by omega) hf0 hnt
      have g := grown_link L pt s f rest (tbl1 s.mem pt va) (PX 1 va) inv
        (Or.inl (tbl1_isUpper _ _ _ hv1)) (PX_lt 1 va) ok' it lf
      have es : s' = KState.mk (linkMem s.mem f (tbl1 s.mem pt va + 8 * PX 1 va))
          (rd64 s.mem f) := h2.symm
      rw [es]
      refine ⟨rest, g, fun _ => ⟨a0, ?_⟩, fun c => ?_⟩
      · rw [← h1]
        show f + 8 * PX 0 va =
          tbl0 (linkMem s.mem f (slot1 s.mem pt va)) pt va + 8 * PX 0 va
        rw [t0]
      · exfalso; omega

/-- `walk(pt, va, 1)` under the invariant: it only grows the table. -/
theorem walk_alloc (L : Layout) (s : KState) (pt va : Nat) (fl : List Nat) (r : Nat)
    (s' : KState) (inv : Inv L s pt fl) (h : walk s pt va true = .ok r s') :
    va < MAXVA ∧ ∃ fl', Grown L pt s fl s' fl' ∧
      (r ≠ 0 → has0 s'.mem pt va ∧ r = slot0 s'.mem pt va) ∧ (r = 0 → fl' = []) := by
  unfold walk at h
  by_cases hva : va ≥ MAXVA
  · rw [if_pos hva] at h; cases h
  rw [if_neg hva] at h
  refine ⟨by omega, ?_⟩
  by_cases hv1 : has1 s.mem pt va
  · have hx : rd64 s.mem (pt + 8 * PX (1 + 1) va) % 2 = 1 := hv1
    rw [walkLevels_valid 1 s _ va true hx] at h
    exact walk1_alloc L s pt va fl r s' inv hv1 h
  · have hx : ¬ rd64 s.mem (pt + 8 * PX (1 + 1) va) % 2 = 1 := hv1
    cases fl with
    | nil =>
      rw [walkLevels_fail 1 s s _ va hx (kalloc_nil L s inv.alloc)] at h
      injection h with h1 h2
      subst h2
      exact ⟨[], grown_refl L pt s [] inv, fun c => absurd h1.symm c, fun _ => rfl⟩
    | cons f rest =>
      obtain ⟨hk, _⟩ := kalloc_cons L s f rest inv.alloc
      have hf := inv.alloc.frames f (List.mem_cons_self _ _)
      have hk0 := inv.alloc.kend_pos
      have ht := inv.alloc.top
      have hf0 : f ≠ 0 := by omega
      rw [walkLevels_link 1 s _ _ va f hx hk hf0] at h
      have hnt : ¬ IsTable s.mem pt f := fun c => inv.sep f c (List.mem_cons_self _ _)
      obtain ⟨ok', a1, t1, _, it, lf⟩ :=
        link1 s.mem pt va f inv.table hv1 hf.1 (by omega) hf0 hnt
      have g := grown_link L pt s f rest pt (PX 2 va) inv
        (Or.inl (root_isUpper _ _)) (PX_lt 2 va) ok' it lf
      have h' : walkLevels 1 (KState.mk (linkMem s.mem f (slot2 pt va)) (rd64 s.mem f))
          (tbl1 (linkMem s.mem f (slot2 pt va)) pt va) va true = .ok r s' := by
        rw [t1]; exact h
      obtain ⟨fl', g', p1, p2⟩ := walk1_alloc L _ pt va rest r s' g.inv a1 h'
      exact ⟨fl', grown_trans L pt _ _ _ _ _ _ g g', p1, p2⟩

/-! ## mappages -/

theorem Grown.ext {L : Layout} {pt : Nat} {s s' : KState} {fl fl' : List Nat}
    (g : Grown L pt s fl s' fl') : Ext L pt s fl s' fl' := ⟨g.inv, g.split, g.frame⟩

theorem ext_refl (L : Layout) (pt : Nat) (s : KState) (fl : List Nat) (inv : Inv L s pt fl) :
    Ext L pt s fl s fl := (grown_refl L pt s fl inv).ext

theorem ext_trans (L : Layout) (pt : Nat) (s s1 s2 : KState) (fl fl1 fl2 : List Nat)
    (a : Ext L pt s fl s1 fl1) (b : Ext L pt s1 fl1 s2 fl2) : Ext L pt s fl s2 fl2 := by
  obtain ⟨t1, e1, i1⟩ := a.split
  obtain ⟨t2, e2, i2⟩ := b.split
  refine ⟨b.inv, ⟨t1 ++ t2, by rw [e1, e2, List.append_assoc], fun p => ?_⟩, fun x hx => ?_⟩
  · rw [i2, i1, List.mem_append, or_assoc]
  · rw [b.frame x hx]
    exact a.frame x (fun p hp => hx p ((i2 p).mpr (Or.inl hp)))

theorem Ext.tables_mono {L : Layout} {pt : Nat} {s s' : KState} {fl fl' : List Nat}
    (e : Ext L pt s fl s' fl') (p : Nat) (h : IsTable s.mem pt p) : IsTable s'.mem pt p := by
  obtain ⟨t, _, i⟩ := e.split
  exact (i p).mpr (Or.inl h)

theorem Ext.tables_new {L : Layout} {pt : Nat} {s s' : KState} {fl fl' : List Nat}
    (e : Ext L pt s fl s' fl') (p : Nat) (h : IsTable s'.mem pt p) :
    IsTable s.mem pt p ∨ (p ∈ fl ∧ p ∉ fl') := by
  obtain ⟨t, e1, i⟩ := e.split
  rcases (i p).mp h with a | a
  · exact Or.inl a
  · exact Or.inr ⟨by rw [e1]; exact List.mem_append_left _ a, e.inv.sep p h⟩

theorem Ext.sub {L : Layout} {pt : Nat} {s s' : KState} {fl fl' : List Nat}
    (e : Ext L pt s fl s' fl') (f : Nat) (h : f ∈ fl') : f ∈ fl := by
  obtain ⟨t, e1, _⟩ := e.split
  rw [e1]; exact List.mem_append_right _ h

/-- Every frame of the old free list is on the new one or has become a table page. -/
theorem Ext.account {L : Layout} {pt : Nat} {s s' : KState} {fl fl' : List Nat}
    (e : Ext L pt s fl s' fl') (f : Nat) (h : f ∈ fl) : f ∈ fl' ∨ IsTable s'.mem pt f := by
  obtain ⟨t, e1, i⟩ := e.split
  rw [e1] at h
  rcases List.mem_append.mp h with a | a
  · exact Or.inr ((i f).mpr (Or.inr a))
  · exact Or.inl a

/-- Storing a level-0 entry keeps the invariant and the set of table pages. -/
theorem ext_leaf_write (L : Layout) (s : KState) (pt va v : Nat) (fl : List Nat)
    (inv : Inv L s pt fl) (hv : has0 s.mem pt va) :
    Ext L pt s fl { s with mem := wr64 s.mem (slot0 s.mem pt va) v } fl ∧
    (∀ vb, leafOf (wr64 s.mem (slot0 s.mem pt va) v) pt vb =
      if samePath va vb then v % 2 ^ 64 else leafOf s.mem pt vb) := by
  obtain ⟨hup, hout, hleaf⟩ := leaf_write s.mem pt va v inv.table hv
  have it := isTable_same s.mem (wr64 s.mem (slot0 s.mem pt va) v) pt hup
  have ht0 := tbl0_isTable s.mem pt va hv
  have hfl : ∀ f, f ∈ fl → SamePage s.mem (wr64 s.mem (slot0 s.mem pt va) v) f := by
    intro f hf x hx
    apply hout
    have hfa := (inv.alloc.frames f hf).1
    exact pages_disjoint f _ x hfa (tbl0_aligned _ _ _) (fun e => inv.sep _ ht0 (e ▸ hf)) hx
  refine ⟨⟨⟨allocOK_frame L s _ fl inv.alloc rfl hfl, tableOK_same _ _ pt hup inv.table, ?_⟩,
    ⟨[], rfl, fun p => by rw [it]; simp⟩, ?_⟩, hleaf⟩
  · intro p hp
    exact inv.sep p ((it p).mp hp)
  · intro x hx
    exact hout x (hx _ ((it _).mpr ht0))

theorem mappagesLoop_spec (L : Layout) (pt last perm : Nat) (hperm : perm < 1024)
    (hlast : last % 4096 = 0) :
    ∀ (fuel : Nat) (s : KState) (a pa : Nat) (fl : List Nat) (r : Int) (s' : KState),
    Inv L s pt fl → a % 4096 = 0 → a ≤ last → pa < 2 ^ 64 →
    mappagesLoop fuel s pt a last pa perm = .ok r s' →
    ∃ fl' a', Ext L pt s fl s' fl' ∧ a ≤ a' ∧ a' ≤ last + 4096 ∧ a' ≤ MAXVA ∧ a < MAXVA ∧
      (r = 0 ∧ a' = last + 4096 ∨ r = -1 ∧ fl' = [] ∧ a' ≤ last) ∧
      (∀ vb, vb < MAXVA → leafOf s'.mem pt vb =
        if a ≤ vb ∧ vb < a' then
          PA2PTE ((pa + (PGROUNDDOWN vb - a)) % 2 ^ 64) ||| perm ||| PTE_V
        else leafOf s.mem pt vb) ∧
      (∀ vb, a ≤ vb → vb < a' → leafOf s.mem pt vb % 2 = 0) := by
  intro fuel
  induction fuel with
  | zero => intro s a pa fl r s' _ _ _ _ h; rw [mappagesLoop] at h; cases h
  | succ k ih =>
    intro s a pa fl r s' inv ha hal hpa h
    rw [mappagesLoop] at h
    cases hw : walk s pt a true with
    | panic msg => rw [hw] at h; cases h
    | fuel => rw [hw] at h; cases h
    | ok pte s1 =>
      rw [hw] at h
      simp only [Res.bind] at h
      obtain ⟨hva, fl1, g, p1, p2⟩ := walk_alloc L s pt a fl pte s1 inv hw
      by_cases hp0 : pte = 0
      · rw [if_pos hp0] at h
        injection h with h1 h2
        subst h2
        refine ⟨fl1, a, g.ext, Nat.le_refl _, by omega, by omega, hva,
          Or.inr ⟨h1.symm, p2 hp0, hal⟩, fun vb _ => ?_, fun vb h1 h2 => by omega⟩
        have : ¬ (a ≤ vb ∧ vb < a) := by omega
        rw [if_neg this]; exact g.leaf vb
      · rw [if_neg hp0] at h
        obtain ⟨hv0, hpte⟩ := p1 hp0
        by_cases hval : rd64 s1.mem pte &&& PTE_V ≠ 0
        · rw [if_pos hval] at h; cases h
        · rw [if_neg hval] at h
          rw [and_V] at hval
          have hleaf1 : leafOf s1.mem pt a = rd64 s1.mem pte := by
            rw [hpte]; simp only [leafOf, hv0, if_true, ent0]
          obtain ⟨e2, hl2⟩ := ext_leaf_write L s1 pt a (PA2PTE pa ||| perm ||| PTE_V) fl1
            g.inv hv0
          rw [← hpte] at e2 hl2
          obtain ⟨pm1, pm2, _, _⟩ := pte_make pa perm hperm
          have hvlt : (PA2PTE pa ||| perm ||| PTE_V) % 2 ^ 64 = PA2PTE pa ||| perm ||| PTE_V := by
            rw [pm1]; omega
          have hsp : ∀ vb, vb < MAXVA → (samePath a vb ↔ a ≤ vb ∧ vb < a + 4096) := by
            intro vb hvb
            rw [samePath_iff a vb (by unfold MAXVA at hva; omega) (by unfold MAXVA at hvb; omega)]
            omega
          have hunm : ∀ vb, a ≤ vb → vb < a + 4096 → leafOf s.mem pt vb % 2 = 0 := by
            intro vb h1 h2
            have hvb : vb < 2 ^ 39 := by unfold MAXVA at hva; omega
            have sp : samePath a vb :=
              (samePath_iff a vb (by unfold MAXVA at hva; omega) hvb).mpr (by omega)
            rw [← g.leaf vb, ← (path_congr0 s1.mem pt a vb sp).2.2, hleaf1]
            omega
          by_cases hlast' : a = last
          · rw [if_pos hlast'] at h
            injection h with h1 h2
            subst h2
            refine ⟨fl1, a + 4096, ext_trans L pt _ _ _ _ _ _ g.ext e2, by omega, by omega,
              by unfold MAXVA at *; omega, hva, Or.inl ⟨h1.symm, by omega⟩, fun vb hvb => ?_,
              hunm⟩
            show leafOf (wr64 s1.mem pte (PA2PTE pa ||| perm ||| PTE_V)) pt vb = _
            rw [hl2 vb, hvlt]
            by_cases c : a ≤ vb ∧ vb < a + 4096
            · rw [if_pos ((hsp vb hvb).mpr c), if_pos c]
              have : PGROUNDDOWN vb - a = 0 := by unfold PGROUNDDOWN PGSIZE; omega
              rw [this, Nat.add_zero, Nat.mod_eq_of_lt hpa]
            · rw [if_neg (fun x => c ((hsp vb hvb).mp x)), if_neg c]
              exact g.leaf vb
          · rw [if_neg hlast'] at h
            have ea : (a + PGSIZE) % 2 ^ 64 = a + 4096 := by
              unfold PGSIZE; unfold MAXVA at hva; omega
            rw [ea] at h
            obtain ⟨fl', a', e3, q1, q2, q2', _, q3, q4, q5⟩ :=
              ih _ (a + 4096) ((pa + PGSIZE) % 2 ^ 64) fl1 r s' e2.inv (by omega) (by omega)
                (Nat.mod_lt _ (by norm_num)) h
            refine ⟨fl', a', ext_trans L pt _ _ _ _ _ _ (ext_trans L pt _ _ _ _ _ _ g.ext e2) e3,
              by omega, q2, q2', hva, ?_, fun vb hvb => ?_, fun vb h1 h2 => ?_⟩
            · rcases q3 with ⟨x, y⟩ | ⟨x, y, z⟩
              · exact Or.inl ⟨x, y⟩
              · exact Or.inr ⟨x, y, z⟩
            · rw [q4 vb hvb]
              by_cases c : a + 4096 ≤ vb ∧ vb < a'
              · have c' : a ≤ vb ∧ vb < a' := by omega
                rw [if_pos c, if_pos c']
                have : ((pa + PGSIZE) % 2 ^ 64 + (PGROUNDDOWN vb - (a + 4096))) % 2 ^ 64 =
                    (pa + (PGROUNDDOWN vb - a)) % 2 ^ 64 := by
                  unfold PGROUNDDOWN PGSIZE; omega
                rw [this]
              · rw [if_neg c]
                show leafOf (wr64 s1.mem pte (PA2PTE pa ||| perm ||| PTE_V)) pt vb = _
                rw [hl2 vb, hvlt]
                by_cases c2 : a ≤ vb ∧ vb < a + 4096
                · have c' : a ≤ vb ∧ vb < a' := by omega
                  rw [if_pos ((hsp vb hvb).mpr c2), if_pos c']
                  have : PGROUNDDOWN vb - a = 0 := by unfold PGROUNDDOWN PGSIZE; omega
                  rw [this, Nat.add_zero, Nat.mod_eq_of_lt hpa]
                · have c' : ¬ (a ≤ vb ∧ vb < a') := by omega
                  rw [if_neg (fun x => c2 ((hsp vb hvb).mp x)), if_neg c']
                  exact g.leaf vb
            · by_cases c2 : vb < a + 4096
              · exact hunm vb h1 c2
              · have hvb : vb < MAXVA := by omega
                have := q5 vb (by omega) h2
                have hl := hl2 vb
                rw [if_neg (fun x => c2 ((hsp vb hvb).mp x).2)] at hl
                rw [← g.leaf vb, ← hl]
                exact this

/-! ## Building states that satisfy the invariant -/

/-- A zeroed root page is an empty, well-formed page table. -/
theorem tableOK_zero (m : Mem) (pt : Nat) (hal : pt % 4096 = 0) (h0 : pt ≠ 0)
    (hz : ∀ x, inPage pt x → m x = 0) :
    TableOK m pt ∧ (∀ p, IsTable m pt p ↔ p = pt) ∧ ∀ va, leafOf m pt va = 0 := by
  have e2 : ∀ va, ent2 m pt va = 0 := by
    intro va
    have e : rd64 m (pt + 8 * PX 2 va) = rd64 (fun _ => 0) (pt + 8 * PX 2 va) := by
      apply rd64_congr
      intro x h1 h2
      have := PX_lt 2 va
      exact hz x ⟨by omega, by unfold PGSIZE; omega⟩
    unfold ent2 slot2
    rw [e]; rfl
  have n1 : ∀ va, ¬ has1 m pt va := by
    intro va h; unfold has1 at h; rw [e2] at h; omega
  have n0 : ∀ va, ¬ has0 m pt va := fun va h => n1 va h.1
  refine ⟨⟨hal, h0, fun va h => absurd h (n1 va), fun va _ h => absurd h (n1 va),
    fun va h => absurd h (n0 va), fun va _ h => absurd h (n0 va),
    fun va _ h => absurd h (n0 va)⟩, fun p => ?_, fun va => by simp only [leafOf, n0, if_false]⟩
  constructor
  · rintro ((h | ⟨va, h, _⟩) | ⟨va, h, _⟩)
    · exact h
    · exact absurd h (n1 va)
    · exact absurd h (n0 va)
  · exact fun h => Or.inl (Or.inl h)

theorem inv_zero (L : Layout) (s : KState) (pt : Nat) (hal : pt % 4096 = 0) (h0 : pt ≠ 0)
    (hz : ∀ x, inPage pt x → s.mem x = 0) (hk : 0 < L.kend) (ht : L.phystop ≤ 2 ^ 64)
    (hf : s.freelist = 0) : Inv L s pt [] := by
  obtain ⟨ok, _, _⟩ := tableOK_zero s.mem pt hal h0 hz
  exact ⟨⟨hf, List.nodup_nil, fun f h => absurd h (List.not_mem_nil f), hk, ht⟩, ok,
    fun p _ => List.not_mem_nil p⟩

/-- Freeing a frame that is neither free nor a table page keeps the invariant. -/
theorem inv_freed (L : Layout) (s : KState) (pt f : Nat) (fl : List Nat) (inv : Inv L s pt fl)
    (hn : f ∉ fl) (hnt : ¬ IsTable s.mem pt f) (hal : f % 4096 = 0) (hlo : L.kend ≤ f)
    (hhi : f < L.phystop) :
    kfree L s f = .ok () (freed s f) ∧ Inv L (freed s f) pt (f :: fl) ∧
    (∀ p, IsTable (freed s f).mem pt p ↔ IsTable s.mem pt p) ∧
    (∀ va, leafOf (freed s f).mem pt va = leafOf s.mem pt va) ∧
    (∀ x, ¬ inPage f x → (freed s f).mem x = s.mem x) ∧
    (∀ va, (has0 (freed s f).mem pt va ↔ has0 s.mem pt va) ∧
      (has0 s.mem pt va → slot0 (freed s f).mem pt va = slot0 s.mem pt va)) := by
  obtain ⟨a, b⟩ := kfree_ok L s fl f inv.alloc hn hal hlo hhi
  have ht : ∀ p, IsTable s.mem pt p → SamePage s.mem (freed s f).mem p := by
    intro p hp
    exact kfree_samePage _ _ _ _ hal (isTable_aligned _ _ _ inv.table.root_al hp)
      (fun e => hnt (e ▸ hp))
  have hu : ∀ p, IsUpper s.mem pt p → SamePage s.mem (freed s f).mem p :=
    fun p hp => ht p (Or.inl hp)
  have it := isTable_same s.mem (freed s f).mem pt hu
  refine ⟨a, ⟨b, tableOK_same _ _ pt hu inv.table, ?_⟩, it, leafOf_same _ _ pt ht, ?_, ?_⟩
  · intro p hp hm
    have hp' := (it p).mp hp
    rcases List.mem_cons.mp hm with e | e
    · exact hnt (e ▸ hp')
    · exact inv.sep p hp' e
  · intro x hx
    have c1 : ¬ (f ≤ x ∧ x < f + 8) := by unfold inPage PGSIZE at hx; omega
    have c2 : ¬ (f ≤ x ∧ x < f + PGSIZE) := hx
    simp only [freed, wr64, memset, c1, c2, if_false]
  · intro va
    have u := upper_same s.mem (freed s f).mem pt hu va
    exact ⟨u.2.2.2.2.1, fun h => (u.2.2.2.2.2 h).2⟩

theorem demoFree4_inv :
    Inv demoLayout demoFree4 demoRoot demoList4 ∧
    (∀ p, IsTable demoFree4.mem demoRoot p ↔ p = demoRoot) ∧
    ∀ va, leafOf demoFree4.mem demoRoot va = 0 := by
  have i0 : Inv demoLayout demoEmpty demoRoot [] :=
    inv_zero _ _ _ (by decide) (by decide) (fun _ _ => rfl) (by decide) (by decide) rfl
  obtain ⟨_, t0, l0⟩ := tableOK_zero demoEmpty.mem demoRoot (by decide) (by decide)
    (fun _ _ => rfl)
  obtain ⟨_, i1, t1, l1, _, _⟩ := inv_freed demoLayout demoEmpty demoRoot 0x87000000 [] i0
    (by decide) (by rw [t0]; decide) (by decide) (by decide) (by decide)
  obtain ⟨_, i2, t2, l2, _, _⟩ := inv_freed demoLayout _ demoRoot 0x87001000 _ i1
    (by decide) (by rw [t1, t0]; decide) (by decide) (by decide) (by decide)
  obtain ⟨_, i3, t3, l3, _, _⟩ := inv_freed demoLayout _ demoRoot 0x87002000 _ i2
    (by decide) (by rw [t2, t1, t0]; decide) (by decide) (by decide) (by decide)
  obtain ⟨_, i4, t4, l4, _, _⟩ := inv_freed demoLayout _ demoRoot 0x87003000 _ i3
    (by decide) (by rw [t3, t2, t1, t0]; decide) (by decide) (by decide) (by decide)
  refine ⟨i4, fun p => ?_, fun va => ?_⟩
  · show IsTable (freed _ _).mem demoRoot p ↔ _
    rw [t4, t3, t2, t1, t0]
  · show leafOf (freed _ _).mem demoRoot va = 0
    rw [l4, l3, l2, l1, l0]

/-! ## C1 -/

/-- C1. Map-then-translate round trip: in a well-formed state, for page-aligned `va` and
`pa`, `size` a positive multiple of 4096 with `va + size ≤ MAXVA`, and permission bits
`perm` (flag bits only) that include `PTE_U`, if `mappages` returns 0 then for every `k`
with `k*4096 < size`, `walkaddr(pt, va + k*4096)` returns `pa + k*4096` (the 64-bit sum). -/
theorem mappages_then_walkaddr (L : Layout) (s : KState) (pt va size pa perm : Nat)
    (fl : List Nat) (s' : KState) (inv : Inv L s pt fl)
    (hva : va % PGSIZE = 0) (hpa : pa % PGSIZE = 0) (hpa64 : pa < 2 ^ 64)
    (hsz : 0 < size) (hsz2 : size % PGSIZE = 0) (hmax : va + size ≤ MAXVA)
    (hperm : perm < 1024) (hU : perm &&& PTE_U ≠ 0)
    (h : mappages s pt va size pa perm = .ok 0 s') :
    ∀ k, k * PGSIZE < size →
      walkaddr s' pt (va + k * PGSIZE) = .ok ((pa + k * PGSIZE) % 2 ^ 64) s' := by
  intro k hk
  unfold mappages at h
  rw [if_neg (by omega)] at h
  have e1 : PGROUNDDOWN va = va := by unfold PGROUNDDOWN; unfold PGSIZE at *; omega
  have e2 : PGROUNDDOWN ((va + size - 1) % 2 ^ 64) = va + size - 4096 := by
    unfold PGROUNDDOWN; unfold PGSIZE MAXVA at *; omega
  rw [e1, e2] at h
  obtain ⟨fl', a', e, _, _, _, _, q3, q4, _⟩ :=
    mappagesLoop_spec L pt (va + size - 4096) perm hperm (by unfold PGSIZE at *; omega)
      LOOPFUEL s va pa fl 0 s' inv (by unfold PGSIZE at *; omega)
      (by unfold PGSIZE at *; omega) hpa64 h
  have ha' : a' = va + size := by
    rcases q3 with ⟨_, y⟩ | ⟨x, _⟩
    · unfold PGSIZE at *; omega
    · omega
  have hvk : va + k * PGSIZE < MAXVA := by omega
  have e3 : PGROUNDDOWN (va + k * PGSIZE) - va = k * PGSIZE := by
    unfold PGROUNDDOWN; unfold PGSIZE at *; omega
  obtain ⟨pm1, pm2, pm3, pm4⟩ := pte_make ((pa + k * PGSIZE) % 2 ^ 64) perm hperm
  have hleaf := q4 _ hvk
  rw [if_pos ⟨by omega, by rw [ha']; omega⟩, e3, pm1] at hleaf
  rw [and_U] at hU
  have c : leafOf s'.mem pt (va + k * PGSIZE) % 2 = 1 ∧
      leafOf s'.mem pt (va + k * PGSIZE) / 16 % 2 = 1 := by
    rw [hleaf]; omega
  rw [walkaddr_eq, walkaddrVal_leaf _ _ _ e.inv.table hvk, if_pos c, hleaf]
  have : PTE2PA ((pa + k * PGSIZE) % 2 ^ 64 / 4096 * 1024 + (perm ||| 1)) =
      (pa + k * PGSIZE) % 2 ^ 64 := by
    unfold PTE2PA; unfold PGSIZE at *; omega
  rw [this]

theorem mappages_then_walkaddr_witness :
    walkaddr ((mappages demoFree4 demoRoot 0x3000 0x2000 0x80100000 (PTE_R ||| PTE_U)).st
        demoEmpty) demoRoot (0x3000 + 1 * PGSIZE) =
      .ok ((0x80100000 + 1 * PGSIZE) % 2 ^ 64)
        ((mappages demoFree4 demoRoot 0x3000 0x2000 0x80100000 (PTE_R ||| PTE_U)).st
          demoEmpty) :=
  mappages_then_walkaddr demoLayout demoFree4 demoRoot 0x3000 0x2000 0x80100000
    (PTE_R ||| PTE_U) demoList4 _ demoFree4_inv.1 (by decide) (by decide) (by decide)
    (by decide) (by decide) (by decide) (by decide) (by decide) (by rfl) 1 (by decide)

/-! ## uvmunmap -/

/-- Clearing the level-0 entry of a page. -/
theorem unmap_step (L : Layout) (s : KState) (pt a : Nat) (fl : List Nat) (inv : Inv L s pt fl)
    (hv : has0 s.mem pt a) (ha : a % 4096 = 0) (hva : a < MAXVA) :
    Inv L { s with mem := wr64 s.mem (slot0 s.mem pt a) 0 } pt fl ∧
    (∀ p, IsTable (wr64 s.mem (slot0 s.mem pt a) 0) pt p ↔ IsTable s.mem pt p) ∧
    (∀ vb, vb < MAXVA → leafOf (wr64 s.mem (slot0 s.mem pt a) 0) pt vb =
      if a ≤ vb ∧ vb < a + 4096 then 0 else leafOf s.mem pt vb) ∧
    (∀ x, (∀ p, IsTable s.mem pt p → ¬ inPage p x) →
      wr64 s.mem (slot0 s.mem pt a) 0 x = s.mem x) := by
  obtain ⟨e, hl⟩ := ext_leaf_write L s pt a 0 fl inv hv
  obtain ⟨t, et, it⟩ := e.split
  have t0 : t = [] := by
    have := congrArg List.length et
    simp only [List.length_append] at this
    exact List.length_eq_zero.mp (by omega)
  have it' : ∀ p, IsTable (wr64 s.mem (slot0 s.mem pt a) 0) pt p ↔ IsTable s.mem pt p := by
    intro p
    have := it p
    rw [t0] at this
    simpa using this
  refine ⟨e.inv, it', fun vb hvb => ?_, fun x hx => ?_⟩
  · rw [hl vb]
    have hsp : samePath a vb ↔ a ≤ vb ∧ vb < a + 4096 := by
      rw [samePath_iff a vb (by unfold MAXVA at hva; omega) (by unfold MAXVA at hvb; omega)]
      omega
    by_cases c : a ≤ vb ∧ vb < a + 4096
    · rw [if_pos (hsp.mpr c), if_pos c, Nat.zero_mod]
    · rw [if_neg (fun x => c (hsp.mp x)), if_neg c]
  · exact e.frame x (fun p hp => hx p ((it' p).mp hp))

theorem bind_ok {α β : Type} (v : α) (s : KState) (f : α → KState → Res β) :
    (Res.ok v s).bind f = f v s := rfl

theorem uvmunmapLoop_spec (L : Layout) (pt bound : Nat) (do_free : Bool)
    (hb : bound % 4096 = 0) :
    ∀ (fuel : Nat) (s : KState) (a : Nat) (fl : List Nat) (s' : KState),
    Inv L s pt fl → a % 4096 = 0 → (do_free = true → OwnedFrames s pt fl a bound) →
    uvmunmapLoop fuel L s pt a bound do_free = .ok () s' →
    ∃ freedL, Inv L s' pt (freedL ++ fl) ∧
      (do_free = false → freedL = []) ∧
      (do_free = true → (∀ f, f ∈ freedL ↔ ∃ b, b % 4096 = 0 ∧ a ≤ b ∧ b < bound ∧
          f = PTE2PA (leafOf s.mem pt b)) ∧ freedL.length = (bound - a) / 4096) ∧
      (∀ p, IsTable s'.mem pt p ↔ IsTable s.mem pt p) ∧
      (∀ vb, vb < MAXVA → leafOf s'.mem pt vb =
        if a ≤ vb ∧ vb < bound then 0 else leafOf s.mem pt vb) ∧
      (a < bound → bound ≤ MAXVA) ∧
      (∀ b, b % 4096 = 0 → a ≤ b → b < bound →
        leafOf s.mem pt b % 2 = 1 ∧ leafOf s.mem pt b % 1024 ≠ 1) ∧
      (∀ x, (∀ p, IsTable s.mem pt p → ¬ inPage p x) → (∀ f, f ∈ freedL → ¬ inPage f x) →
        s'.mem x = s.mem x) := by
  intro fuel
  induction fuel with
  | zero => intro s a fl s' _ _ _ h; rw [uvmunmapLoop] at h; cases h
  | succ k ih =>
    intro s a fl s' inv ha hown h
    rw [uvmunmapLoop] at h
    by_cases hab : a < bound
    case neg =>
      rw [if_neg hab] at h
      injection h with _ h2
      subst h2
      refine ⟨[], inv, fun _ => rfl, fun _ => ⟨fun f => ?_, ?_⟩, fun _ => Iff.rfl, fun vb _ => ?_,
        fun c => absurd c hab, fun b _ h1 h2 => by omega, fun _ _ _ => rfl⟩
      · constructor
        · intro hf; cases hf
        · rintro ⟨b, _, h1, h2, _⟩; omega
      · simp only [List.length_nil]; omega
      · have : ¬ (a ≤ vb ∧ vb < bound) := by omega
        rw [if_neg this]
    case pos =>
      rw [if_pos hab] at h
      by_cases hva : a < MAXVA
      case neg =>
        have : walk s pt a false = .panic "walk" := by
          unfold walk; rw [if_pos (by omega)]
        rw [this] at h; cases h
      case pos =>
        rw [walk_noalloc s pt a hva, bind_ok] at h
        by_cases hp0 : walkVal s.mem pt a = 0
        · rw [if_pos hp0] at h; cases h
        rw [if_neg hp0] at h
        have hv0 : has0 s.mem pt a := by
          by_contra c
          exact hp0 ((walkVal_ok s.mem pt a inv.table).2 c).1
        obtain ⟨hw1, _, hw3⟩ := (walkVal_ok s.mem pt a inv.table).1 hv0
        rw [hw3] at h
        by_cases hV : leafOf s.mem pt a &&& PTE_V = 0
        · rw [if_pos hV] at h; cases h
        rw [if_neg hV] at h
        by_cases hF : PTE_FLAGS (leafOf s.mem pt a) = PTE_V
        · rw [if_pos hF] at h; cases h
        rw [if_neg hF] at h
        rw [and_V] at hV
        have hleafa : leafOf s.mem pt a % 2 = 1 ∧ leafOf s.mem pt a % 1024 ≠ 1 := by
          unfold PTE_FLAGS PTE_V at hF; omega
        have ea : (a + PGSIZE) % 2 ^ 64 = a + 4096 := by
          unfold PGSIZE; unfold MAXVA at hva; omega
        rw [ea, hw1] at h
        have hmaxal : MAXVA % 4096 = 0 := by unfold MAXVA; norm_num
        cases do_free with
        | false =>
          rw [if_neg (by decide), bind_ok] at h
          obtain ⟨i3, t3, l3, f3⟩ := unmap_step L s pt a fl inv hv0 ha hva
          obtain ⟨freedL, j1, j2, _, j4, j5, j6, j7, j8⟩ :=
            ih _ (a + 4096) fl s' i3 (by omega) (fun c => Bool.noConfusion c) h
          have hnil := j2 rfl
          refine ⟨freedL, j1, j2, fun c => Bool.noConfusion c, fun p => (j4 p).trans (t3 p),
            fun vb hvb => ?_, fun _ => ?_, fun b hb1 hb2 hb3 => ?_, fun x hx hf => ?_⟩
          · rw [j5 vb hvb]
            by_cases c : a + 4096 ≤ vb ∧ vb < bound
            · rw [if_pos c, if_pos (by omega)]
            · rw [if_neg c, l3 vb hvb]
              by_cases c2 : a ≤ vb ∧ vb < a + 4096
              · rw [if_pos c2, if_pos (by omega)]
              · rw [if_neg c2, if_neg (by omega)]
          · by_cases c : a + 4096 < bound
            · exact j6 c
            · omega
          · by_cases c : b = a
            · rw [c]; exact hleafa
            · have hbm : b < MAXVA := by
                by_cases c2 : a + 4096 < bound
                · have := j6 c2; omega
                · omega
              have := j7 b hb1 (by omega) hb3
              rw [l3 b hbm, if_neg (by omega)] at this
              exact this
          · rw [j8 x (fun p hp => hx p ((t3 p).mp hp)) hf]
            exact f3 x hx
        | true =>
          rw [if_pos rfl] at h
          obtain ⟨o1, o2, o3⟩ := hown rfl a ha (Nat.le_refl _) hab hva
          cases hk : kfree L s (PTE2PA (leafOf s.mem pt a)) with
          | panic msg => rw [hk] at h; cases h
          | fuel => rw [hk] at h; cases h
          | ok u s2 =>
            rw [hk, bind_ok] at h
            obtain ⟨k1, k2, k3, k4⟩ := kfree_inv L s s2 _ hk
            obtain ⟨_, i2, t2, l2, m2, st2⟩ :=
              inv_freed L s pt (PTE2PA (leafOf s.mem pt a)) fl inv o1 o2 k1 k2 k3
            rw [k4] at h
            have hv2 : has0 (freed s (PTE2PA (leafOf s.mem pt a))).mem pt a :=
              (st2 a).1.mpr hv0
            have es : slot0 (freed s (PTE2PA (leafOf s.mem pt a))).mem pt a
                = slot0 s.mem pt a := (st2 a).2 hv0
            obtain ⟨i3, t3, l3, f3⟩ := unmap_step L (freed s (PTE2PA (leafOf s.mem pt a)))
              pt a _ i2 hv2 ha hva
            rw [es] at i3 t3 l3 f3
            have l32 : ∀ vb, vb < MAXVA → ¬ (a ≤ vb ∧ vb < a + 4096) →
                leafOf (wr64 (freed s (PTE2PA (leafOf s.mem pt a))).mem (slot0 s.mem pt a) 0)
                  pt vb = leafOf s.mem pt vb := by
              intro vb hvb c
              rw [l3 vb hvb, if_neg c, l2]
            have hown' : OwnedFrames
                { freed s (PTE2PA (leafOf s.mem pt a)) with
                  mem := (wr64 (freed s (PTE2PA (leafOf s.mem pt a))).mem (slot0 s.mem pt a) 0) }
                pt (PTE2PA (leafOf s.mem pt a) :: fl) (a + 4096) bound := by
              intro b hb1 hb2 hb3 hb4
              obtain ⟨p1, p2, p3⟩ := hown rfl b hb1 (by omega) hb3 hb4
              show PTE2PA (leafOf (wr64 _ _ 0) pt b) ∉ _ ∧
                ¬ IsTable (wr64 _ _ 0) pt (PTE2PA (leafOf (wr64 _ _ 0) pt b)) ∧ _
              rw [l32 b hb4 (by omega)]
              refine ⟨?_, ?_, ?_⟩
              · intro hm
                rcases List.mem_cons.mp hm with e | e
                · have := p3 a ha (Nat.le_refl _) hab hva e
                  omega
                · exact p1 e
              · rw [t3, t2]; exact p2
              · intro b' q1 q2 q3 q4
                show PTE2PA (leafOf s.mem pt b) = PTE2PA (leafOf (wr64 _ _ 0) pt b') → _
                rw [l32 b' q4 (by omega)]
                exact p3 b' q1 (by omega) q3 q4
            obtain ⟨freedL, j1, _, j3, j4, j5, j6, j7, j8⟩ :=
              ih _ (a + 4096) _ s' i3 (by omega) (fun _ => hown') h
            obtain ⟨j3a, j3b⟩ := j3 rfl
            have hbm : ∀ b, b % 4096 = 0 → a + 4096 ≤ b → b < bound → b < MAXVA := by
              intro b _ h2 h3
              have := j6 (by omega)
              omega
            refine ⟨freedL ++ [PTE2PA (leafOf s.mem pt a)], ?_, fun c => Bool.noConfusion c,
              fun _ => ⟨fun f => ?_, ?_⟩, fun p => ((j4 p).trans (t3 p)).trans (t2 p),
              fun vb hvb => ?_, fun _ => ?_, fun b hb1 hb2 hb3 => ?_, fun x hx hf => ?_⟩
            · rw [List.append_assoc]; exact j1
            · rw [List.mem_append, j3a f]
              constructor
              · rintro (⟨b, q1, q2, q3, q4⟩ | hm)
                · refine ⟨b, q1, by omega, q3, ?_⟩
                  rw [q4]
                  show PTE2PA (leafOf (wr64 _ _ 0) pt b) = _
                  rw [l32 b (hbm b q1 q2 q3) (by omega)]
                · exact ⟨a, ha, Nat.le_refl _, hab, by simpa using hm⟩
              · rintro ⟨b, q1, q2, q3, q4⟩
                by_cases c : b = a
                · right; rw [q4, c]; simp
                · left
                  refine ⟨b, q1, by omega, q3, ?_⟩
                  rw [q4]
                  show _ = PTE2PA (leafOf (wr64 _ _ 0) pt b)
                  rw [l32 b (hbm b q1 (by omega) q3) (by omega)]
            · rw [List.length_append, j3b]
              simp only [List.length_singleton]
              omega
            · rw [j5 vb hvb]
              by_cases c : a + 4096 ≤ vb ∧ vb < bound
              · rw [if_pos c, if_pos (by omega)]
              · rw [if_neg c]
                show leafOf (wr64 _ _ 0) pt vb = _
                by_cases c2 : a ≤ vb ∧ vb < a + 4096
                · rw [l3 vb hvb, if_pos c2, if_pos (by omega)]
                · rw [l32 vb hvb c2, if_neg (by omega)]
            · by_cases c : a + 4096 < bound
              · exact j6 c
              · omega
            · by_cases c : b = a
              · rw [c]; exact hleafa
              · have := j7 b hb1 (by omega) hb3
                have e : leafOf (wr64 (freed s (PTE2PA (leafOf s.mem pt a))).mem
                    (slot0 s.mem pt a) 0) pt b = leafOf s.mem pt b :=
                  l32 b (hbm b hb1 (by omega) hb3) (by omega)
                rw [← e]; exact this
            · have hx2 : ∀ p, IsTable (freed s (PTE2PA (leafOf s.mem pt a))).mem pt p →
                  ¬ inPage p x := fun p hp => hx p ((t2 p).mp hp)
              rw [j8 x (fun p hp => hx2 p ((t3 p).mp hp))
                (fun f hf' => hf f (List.mem_append_left _ hf'))]
              show wr64 _ _ 0 x = _
              rw [f3 x hx2]
              exact m2 x (hf _ (List.mem_append_right _ (List.mem_singleton_self _)))

/-! ## Giving a page a frame -/

/-- After `kalloc` handed out `f` and its page was overwritten, the invariant holds for the
rest of the free list. -/
theorem inv_take (L : Layout) (s s2 : KState) (pt f : Nat) (rest : List Nat)
    (inv : Inv L s pt (f :: rest)) (hf : s2.freelist = rd64 s.mem f)
    (hout : ∀ x, ¬ inPage f x → s2.mem x = s.mem x) :
    Inv L s2 pt rest ∧ (∀ p, IsTable s2.mem pt p ↔ IsTable s.mem pt p) ∧
    (∀ va, leafOf s2.mem pt va = leafOf s.mem pt va) := by
  have hfa := inv.alloc.frames f (List.mem_cons_self _ _)
  have nd := List.nodup_cons.mp inv.alloc.nodup
  have sp : ∀ p, p % 4096 = 0 → p ≠ f → SamePage s.mem s2.mem p :=
    fun p hp hne x hx => hout x (pages_disjoint p f x hp hfa.1 hne hx)
  have ht : ∀ p, IsTable s.mem pt p → SamePage s.mem s2.mem p :=
    fun p hp => sp p (isTable_aligned _ _ _ inv.table.root_al hp)
      (fun e => inv.sep p hp (e ▸ List.mem_cons_self _ _))
  have hu : ∀ p, IsUpper s.mem pt p → SamePage s.mem s2.mem p := fun p hp => ht p (Or.inl hp)
  have it := isTable_same s.mem s2.mem pt hu
  refine ⟨⟨⟨?_, nd.2, fun g hg => inv.alloc.frames g (List.mem_cons_of_mem _ hg),
    inv.alloc.kend_pos, inv.alloc.top⟩, tableOK_same _ _ pt hu inv.table, ?_⟩, it,
    leafOf_same _ _ pt ht⟩
  · rw [hf]
    apply freeList_frame s.mem _ rest _ inv.alloc.list.2.2
    intro g hg
    exact sp g (inv.alloc.frames g (List.mem_cons_of_mem _ hg)).1 (fun e => nd.1 (e ▸ hg))
  · intro p hp hm
    exact inv.sep p ((it p).mp hp) (List.mem_cons_of_mem _ hm)

/-- `mappages` of a single page. -/
theorem mappages_page (L : Layout) (s : KState) (pt a pa perm : Nat) (fl : List Nat) (r : Int)
    (s' : KState) (inv : Inv L s pt fl) (ha : a % 4096 = 0) (ha64 : a < 2 ^ 64)
    (hperm : perm < 1024) (hpa : pa < 2 ^ 64)
    (h : mappages s pt a PGSIZE pa perm = .ok r s') :
    a < MAXVA ∧ ∃ fl', Ext L pt s fl s' fl' ∧
      ((r = 0 ∧ (∀ vb, vb < MAXVA → leafOf s'.mem pt vb =
          if a ≤ vb ∧ vb < a + 4096 then PA2PTE pa ||| perm ||| PTE_V
          else leafOf s.mem pt vb) ∧ leafOf s.mem pt a % 2 = 0) ∨
       (r = -1 ∧ fl' = [] ∧ ∀ vb, vb < MAXVA → leafOf s'.mem pt vb = leafOf s.mem pt vb)) := by
  unfold mappages at h
  rw [if_neg (by decide)] at h
  have e1 : PGROUNDDOWN a = a := by unfold PGROUNDDOWN PGSIZE; omega
  have e2 : PGROUNDDOWN ((a + PGSIZE - 1) % 2 ^ 64) = a := by
    unfold PGROUNDDOWN PGSIZE; omega
  rw [e1, e2] at h
  obtain ⟨fl', a', e, q1, q2, _, hva, q3, q4, q5⟩ :=
    mappagesLoop_spec L pt a perm hperm ha LOOPFUEL s a pa fl r s' inv ha (Nat.le_refl _) hpa h
  refine ⟨hva, fl', e, ?_⟩
  rcases q3 with ⟨x, y⟩ | ⟨x, y, z⟩
  · refine Or.inl ⟨x, fun vb hvb => ?_, q5 a (Nat.le_refl _) (by omega)⟩
    rw [q4 vb hvb, y]
    by_cases c : a ≤ vb ∧ vb < a + 4096
    · rw [if_pos c, if_pos c]
      have : PGROUNDDOWN vb - a = 0 := by unfold PGROUNDDOWN PGSIZE; omega
      rw [this, Nat.add_zero, Nat.mod_eq_of_lt hpa]
    · rw [if_neg c, if_neg c]
  · refine Or.inr ⟨x, y, fun vb hvb => ?_⟩
    rw [q4 vb hvb, if_neg (by omega)]

/-- The frame field of the entry `mappages` stores. -/
theorem pte_frame (pa perm : Nat) (hperm : perm < 1024) (hpa : pa % 4096 = 0)
    (hlt : pa < 2 ^ 64) :
    PTE2PA (PA2PTE pa ||| perm ||| PTE_V) = pa ∧ (PA2PTE pa ||| perm ||| PTE_V) % 2 = 1 := by
  obtain ⟨pm1, pm2, pm3, _⟩ := pte_make pa perm hperm
  rw [pm1]
  unfold PTE2PA
  omega

theorem leafOf_page (m : Mem) (pt vb : Nat) (hvb : vb < MAXVA) :
    leafOf m pt vb = leafOf m pt (PGROUNDDOWN vb) := by
  apply (path_congr0 m pt vb _ _).2.2
  have := PGROUNDDOWN_spec vb
  rw [samePath_iff vb _ (by unfold MAXVA at hvb; omega) (by unfold MAXVA at hvb; omega)]
  omega

theorem grew_init (L : Layout) (pt : Nat) (perm : Nat → Nat) (fill : Nat → Nat → Nat)
    (s : KState) (fl : List Nat) (lo : Nat) (inv : Inv L s pt fl) :
    Grew L pt perm fill s fl lo lo s fl :=
  ⟨inv, fun _ h => h, fun _ h => h, fun _ h => Or.inl h, fun _ _ _ => rfl,
    fun b _ h1 h2 => by omega, fun b _ h1 h2 => by omega, fun f h => Or.inl h,
    fun h => by omega, fun _ _ _ => rfl⟩

/-- One successful iteration: frame `f` is taken, filled, and mapped at `a`. -/
theorem grew_step (L : Layout) (pt : Nat) (perm : Nat → Nat) (fill : Nat → Nat → Nat)
    (s0 : KState) (fl0 : List Nat) (lo a : Nat) (s : KState) (f : Nat) (rest : List Nat)
    (s2 s3 : KState) (g : Grew L pt perm fill s0 fl0 lo a s (f :: rest))
    (ha : a % 4096 = 0) (hlo : lo ≤ a) (ha64 : a < 2 ^ 64) (hperm : perm a < 1024)
    (hf : s2.freelist = rd64 s.mem f) (hout : ∀ x, ¬ inPage f x → s2.mem x = s.mem x)
    (hin : ∀ i, i < 4096 → s2.mem (f + i) = fill a i)
    (hmap : mappages s2 pt a PGSIZE f (perm a) = .ok 0 s3) :
    ∃ fl3, Grew L pt perm fill s0 fl0 lo (a + 4096) s3 fl3 := by
  have hfa := g.inv.alloc.frames f (List.mem_cons_self _ _)
  have htop := g.inv.alloc.top
  have nd := List.nodup_cons.mp g.inv.alloc.nodup
  have hf64 : f < 2 ^ 64 := by omega
  obtain ⟨i2, t2, l2⟩ := inv_take L s s2 pt f rest g.inv hf hout
  obtain ⟨hva, fl3, e, hr⟩ := mappages_page L s2 pt a f (perm a) rest 0 s3 i2 ha ha64 hperm hf64
    hmap
  have hmaxal : MAXVA % 4096 = 0 := by unfold MAXVA; norm_num
  have hr0 := hr.resolve_right (fun c => absurd c.1 (by decide))
  obtain ⟨_, l3, hun⟩ := hr0
  obtain ⟨pf1, pf2⟩ := pte_frame f (perm a) hperm hfa.1 hf64
  have hnt_f : ¬ IsTable s.mem pt f := fun c => g.inv.sep f c (List.mem_cons_self _ _)
  have hnt3_f : ¬ IsTable s3.mem pt f := by
    intro c
    rcases e.tables_new f c with c1 | ⟨c1, _⟩
    · exact hnt_f ((t2 f).mp c1)
    · exact nd.1 c1
  have hleaf_a : leafOf s3.mem pt a = PA2PTE f ||| perm a ||| PTE_V := by
    rw [l3 a hva, if_pos ⟨Nat.le_refl _, by omega⟩]
  have hleaf_old : ∀ vb, vb < MAXVA → ¬ (a ≤ vb ∧ vb < a + 4096) →
      leafOf s3.mem pt vb = leafOf s.mem pt vb := by
    intro vb hvb c
    rw [l3 vb hvb, if_neg c, l2]
  have hsub : ∀ x, x ∈ fl3 → x ∈ rest := fun x hx => e.sub x hx
  have hmem0 : ∀ x, x ∈ f :: rest → x ∈ fl0 := g.sub
  -- frames of the pages mapped earlier are untouched
  have hold : ∀ b, b % 4096 = 0 → lo ≤ b → b < a → b < MAXVA ∧
      PTE2PA (leafOf s.mem pt b) ≠ f ∧ ¬ IsTable s3.mem pt (PTE2PA (leafOf s.mem pt b)) ∧
      PTE2PA (leafOf s.mem pt b) ∉ fl3 := by
    intro b hb1 hb2 hb3
    have hbm : b < MAXVA := by omega
    obtain ⟨o1, o2, _⟩ := g.owned b hb1 hb2 hb3 hbm
    refine ⟨hbm, fun c => o1 (c ▸ List.mem_cons_self _ _), ?_,
      fun c => o1 (List.mem_cons_of_mem _ (hsub _ c))⟩
    intro c
    rcases e.tables_new _ c with c1 | ⟨c1, _⟩
    · exact o2 ((t2 _).mp c1)
    · exact o1 (List.mem_cons_of_mem _ c1)
  have hmem3 : ∀ p x, p % 4096 = 0 → ¬ IsTable s3.mem pt p → inPage p x →
      s3.mem x = s2.mem x := by
    intro p x hp hnt hx
    apply e.frame x
    intro q hq
    have hqa := isTable_aligned _ _ _ e.inv.table.root_al hq
    exact fun c => pages_disjoint p q x hp hqa (fun e' => hnt (e' ▸ hq)) hx c
  refine ⟨fl3, ⟨e.inv, fun x hx => hmem0 x (List.mem_cons_of_mem _ (hsub x hx)), ?_, ?_, ?_,
    ?_, ?_, ?_, fun _ => by omega, ?_⟩⟩
  · intro p hp
    exact e.tables_mono p ((t2 p).mpr (g.tables_mono p hp))
  · intro p hp
    rcases e.tables_new p hp with c | ⟨c, _⟩
    · exact g.tables_new p ((t2 p).mp c)
    · exact Or.inr (hmem0 p (List.mem_cons_of_mem _ c))
  · intro vb hvb c
    rw [hleaf_old vb hvb (by omega)]
    exact g.leaf_out vb hvb (by omega)
  · intro b hb1 hb2 hb3
    by_cases c : b = a
    · subst c
      rw [hleaf_a, pf1]
      refine ⟨rfl, hmem0 f (List.mem_cons_self _ _), fun i hi => ?_, ?_⟩
      · rw [hmem3 f (f + i) hfa.1 hnt3_f ⟨by omega, by unfold PGSIZE; omega⟩]
        exact hin i hi
      · rw [← g.leaf_out b hva (by omega), ← l2]; exact hun
    · have hb4 : b < a := by omega
      obtain ⟨hbm, h1, h2, h3⟩ := hold b hb1 hb2 hb4
      rw [hleaf_old b hbm (by omega)]
      obtain ⟨q1, q2, q3, q4⟩ := g.leaf_in b hb1 hb2 hb4
      refine ⟨q1, q2, fun i hi => ?_, q4⟩
      have hal := PTE2PA_aligned (leafOf s.mem pt b)
      rw [hmem3 _ _ hal h2 ⟨by omega, by unfold PGSIZE; omega⟩,
        hout _ (fun c => pages_disjoint _ f _ hal hfa.1 h1
          ⟨by omega, by unfold PGSIZE; omega⟩ c)]
      exact q3 i hi
  · intro b hb1 hb2 hb3 hb4
    have key : ∀ c, c % 4096 = 0 → lo ≤ c → c < a + 4096 → c < MAXVA →
        PTE2PA (leafOf s3.mem pt c) = (if c = a then f else PTE2PA (leafOf s.mem pt c)) := by
      intro c hc1 hc2 hc3 hc4
      by_cases cc : c = a
      · rw [if_pos cc, cc, hleaf_a, pf1]
      · rw [if_neg cc, hleaf_old c hc4 (by omega)]
    rw [key b hb1 hb2 hb3 hb4]
    by_cases c : b = a
    · rw [if_pos c]
      refine ⟨fun x => nd.1 (hsub _ x), hnt3_f, fun b' q1 q2 q3 q4 => ?_⟩
      rw [key b' q1 q2 q3 q4]
      by_cases c' : b' = a
      · intro _; rw [c, c']
      · rw [if_neg c']
        intro e'
        exact absurd e'.symm (hold b' q1 q2 (by omega)).2.1
    · rw [if_neg c]
      obtain ⟨hbm, h1, h2, h3⟩ := hold b hb1 hb2 (by omega)
      refine ⟨h3, h2, fun b' q1 q2 q3 q4 => ?_⟩
      rw [key b' q1 q2 q3 q4]
      by_cases c' : b' = a
      · rw [if_pos c']
        intro e'
        exact absurd e' h1
      · rw [if_neg c']
        exact (g.owned b hb1 hb2 (by omega) hb4).2.2 b' q1 q2 (by omega) q4
  · intro x hx
    rcases g.account x hx with c | c | ⟨b, q1, q2, q3, q4⟩
    · rcases List.mem_cons.mp c with c1 | c1
      · right; right
        exact ⟨a, ha, hlo, by omega, by rw [hleaf_a, pf1]; exact c1⟩
      · rcases e.account x c1 with c2 | c2
        · exact Or.inl c2
        · exact Or.inr (Or.inl c2)
    · exact Or.inr (Or.inl (e.tables_mono x ((t2 x).mpr c)))
    · right; right
      exact ⟨b, q1, q2, by omega, by rw [hleaf_old b (by omega) (by omega)]; exact q4⟩
  · intro x hx hfl
    rw [e.frame x hx, hout x (hfl f (hmem0 f (List.mem_cons_self _ _)))]
    exact g.frame x (fun p hp => hx p (e.tables_mono p ((t2 p).mpr hp))) hfl

/-! ## Failure and roll-back -/

/-- A failed `mappages` followed by `kfree` of the frame: nothing was mapped at `a`. -/
theorem grew_fail (L : Layout) (pt : Nat) (perm : Nat → Nat) (fill : Nat → Nat → Nat)
    (s0 : KState) (fl0 : List Nat) (lo a : Nat) (s : KState) (f : Nat) (rest : List Nat)
    (s2 s3 s4 : KState) (rr : Int) (g : Grew L pt perm fill s0 fl0 lo a s (f :: rest))
    (ha : a % 4096 = 0) (ha64 : a < 2 ^ 64) (hperm : perm a < 1024)
    (hf : s2.freelist = rd64 s.mem f) (hout : ∀ x, ¬ inPage f x → s2.mem x = s.mem x)
    (hmap : mappages s2 pt a PGSIZE f (perm a) = .ok rr s3) (hrr : rr ≠ 0)
    (hk : kfree L s3 f = .ok () s4) :
    Grew L pt perm fill s0 fl0 lo a s4 [f] := by
  have hfa := g.inv.alloc.frames f (List.mem_cons_self _ _)
  have htop := g.inv.alloc.top
  have nd := List.nodup_cons.mp g.inv.alloc.nodup
  have hf64 : f < 2 ^ 64 := by omega
  obtain ⟨i2, t2, l2⟩ := inv_take L s s2 pt f rest g.inv hf hout
  obtain ⟨hva, fl3, e, hr⟩ := mappages_page L s2 pt a f (perm a) rest rr s3 i2 ha ha64 hperm
    hf64 hmap
  have hr0 := hr.resolve_left (fun c => hrr c.1)
  obtain ⟨_, hnil, l3⟩ := hr0
  subst hnil
  have hnt_f : ¬ IsTable s.mem pt f := fun c => g.inv.sep f c (List.mem_cons_self _ _)
  have hnt3_f : ¬ IsTable s3.mem pt f := by
    intro c
    rcases e.tables_new f c with c1 | ⟨c1, _⟩
    · exact hnt_f ((t2 f).mp c1)
    · exact nd.1 c1
  obtain ⟨k1, k2, k3, k4⟩ := kfree_inv L s3 s4 f hk
  obtain ⟨_, i4, t4, l4, m4, _⟩ := inv_freed L s3 pt f [] e.inv (List.not_mem_nil f) hnt3_f
    k1 k2 k3
  have k4' : freed s3 f = s4 := k4.symm
  rw [k4'] at i4 t4 l4 m4
  have hleaf : ∀ vb, vb < MAXVA → leafOf s4.mem pt vb = leafOf s.mem pt vb := by
    intro vb hvb; rw [l4, l3 vb hvb, l2]
  have hold : ∀ b, b % 4096 = 0 → lo ≤ b → b < a → b < MAXVA ∧
      PTE2PA (leafOf s.mem pt b) ≠ f ∧ ¬ IsTable s4.mem pt (PTE2PA (leafOf s.mem pt b)) := by
    intro b hb1 hb2 hb3
    have hbm : b < MAXVA := by omega
    obtain ⟨o1, o2, _⟩ := g.owned b hb1 hb2 hb3 hbm
    refine ⟨hbm, fun c => o1 (c ▸ List.mem_cons_self _ _), ?_⟩
    intro c
    rcases e.tables_new _ ((t4 _).mp c) with c1 | ⟨c1, _⟩
    · exact o2 ((t2 _).mp c1)
    · exact o1 (List.mem_cons_of_mem _ c1)
  refine ⟨i4, ?_, ?_, ?_, ?_, ?_, ?_, ?_, g.bound, ?_⟩
  · intro x hx
    rw [List.mem_singleton.mp hx]; exact g.sub f (List.mem_cons_self _ _)
  · intro p hp
    exact (t4 p).mpr (e.tables_mono p ((t2 p).mpr (g.tables_mono p hp)))
  · intro p hp
    rcases e.tables_new p ((t4 p).mp hp) with c | ⟨c, _⟩
    · exact g.tables_new p ((t2 p).mp c)
    · exact Or.inr (g.sub p (List.mem_cons_of_mem _ c))
  · intro vb hvb c
    rw [hleaf vb hvb]; exact g.leaf_out vb hvb c
  · intro b hb1 hb2 hb3
    obtain ⟨hbm, h1, h2⟩ := hold b hb1 hb2 hb3
    rw [hleaf b hbm]
    obtain ⟨q1, q2, q3, q4⟩ := g.leaf_in b hb1 hb2 hb3
    refine ⟨q1, q2, fun i hi => ?_, q4⟩
    have hal := PTE2PA_aligned (leafOf s.mem pt b)
    have hin : inPage (PTE2PA (leafOf s.mem pt b)) (PTE2PA (leafOf s.mem pt b) + i) :=
      ⟨by omega, by unfold PGSIZE; omega⟩
    have hnf : ¬ inPage f (PTE2PA (leafOf s.mem pt b) + i) :=
      pages_disjoint _ f _ hal hfa.1 h1 hin
    rw [m4 _ hnf, e.frame _ (fun q hq => ?_), hout _ hnf]
    · exact q3 i hi
    · have hqa := isTable_aligned _ _ _ e.inv.table.root_al hq
      exact pages_disjoint _ q _ hal hqa (fun e' => h2 ((t4 _).mpr (e' ▸ hq))) hin
  · intro b hb1 hb2 hb3 hb4
    obtain ⟨hbm, h1, h2⟩ := hold b hb1 hb2 hb3
    rw [hleaf b hbm]
    refine ⟨fun c => h1 (List.mem_singleton.mp c), h2, fun b' q1 q2 q3 q4 => ?_⟩
    rw [hleaf b' q4]
    exact (g.owned b hb1 hb2 hb3 hb4).2.2 b' q1 q2 q3 q4
  · intro x hx
    rcases g.account x hx with c | c | ⟨b, q1, q2, q3, q4⟩
    · rcases List.mem_cons.mp c with c1 | c1
      · exact Or.inl (List.mem_singleton.mpr c1)
      · rcases e.account x c1 with c2 | c2
        · exact absurd c2 (List.not_mem_nil x)
        · exact Or.inr (Or.inl ((t4 x).mpr c2))
    · exact Or.inr (Or.inl ((t4 x).mpr (e.tables_mono x ((t2 x).mpr c))))
    · right; right
      exact ⟨b, q1, q2, q3, by rw [hleaf b (by have := g.bound (by omega); omega)]; exact q4⟩
  · intro x hx hfl
    have hx3 : ∀ p, IsTable s3.mem pt p → ¬ inPage p x := fun p hp => hx p ((t4 p).mpr hp)
    have hnf := hfl f (g.sub f (List.mem_cons_self _ _))
    rw [m4 x hnf, e.frame x hx3, hout x hnf]
    exact g.frame x (fun p hp => hx3 p (e.tables_mono p ((t2 p).mpr hp))) hfl

/-- Unmapping and freeing `[lo, a)` from a `Grew` state undoes the growth. -/
theorem grew_rollback (L : Layout) (pt : Nat) (perm : Nat → Nat) (fill : Nat → Nat → Nat)
    (s0 : KState) (fl0 : List Nat) (lo a : Nat) (s : KState) (fl : List Nat) (s' : KState)
    (fuel : Nat) (g : Grew L pt perm fill s0 fl0 lo a s fl)
    (hlo : lo % 4096 = 0) (ha : a % 4096 = 0)
    (h : uvmunmapLoop fuel L s pt lo a true = .ok () s') :
    ∃ fl', RolledBack L pt s0 fl0 s' fl' := by
  obtain ⟨freedL, j1, _, j3, j4, j5, j6, j7, j8⟩ :=
    uvmunmapLoop_spec L pt a true ha fuel s lo fl s' g.inv hlo (fun _ => g.owned) h
  obtain ⟨j3a, _⟩ := j3 rfl
  have hfreed : ∀ f, f ∈ freedL → f ∈ fl0 := by
    intro f hf
    obtain ⟨b, q1, q2, q3, q4⟩ := (j3a f).mp hf
    rw [q4]; exact (g.leaf_in b q1 q2 q3).2.1
  refine ⟨freedL ++ fl, ⟨j1, fun vb hvb => ?_, fun f hf => ?_, fun f hf => ?_,
    fun p hp => (j4 p).mpr (g.tables_mono p hp),
    fun p hp => g.tables_new p ((j4 p).mp hp), fun x hx hfl => ?_⟩⟩
  · rw [j5 vb hvb]
    by_cases c : lo ≤ vb ∧ vb < a
    · rw [if_pos c]
      right
      refine ⟨rfl, ?_⟩
      have hp := PGROUNDDOWN_spec vb
      rw [leafOf_page _ _ _ hvb]
      exact (g.leaf_in (PGROUNDDOWN vb) hp.1 (by omega) (by omega)).2.2.2
    · rw [if_neg c]
      exact Or.inl (g.leaf_out vb hvb c)
  · rcases g.account f hf with c | c | ⟨b, q1, q2, q3, q4⟩
    · exact Or.inl (List.mem_append_right _ c)
    · exact Or.inr ((j4 f).mpr c)
    · exact Or.inl (List.mem_append_left _ ((j3a f).mpr ⟨b, q1, q2, q3, q4⟩))
  · rcases List.mem_append.mp hf with c | c
    · exact hfreed f c
    · exact g.sub f c
  · have hx' : ∀ p, IsTable s.mem pt p → ¬ inPage p x := fun p hp => hx p ((j4 p).mpr hp)
    rw [j8 x hx' (fun f hf => hfl f (hfreed f hf))]
    exact g.frame x hx' hfl

theorem PGROUNDUP_aligned (a : Nat) (ha : a % 4096 = 0) (hlt : a < 2 ^ 64) : PGROUNDUP a = a := by
  unfold PGROUNDUP PGSIZE; omega

/-- The roll-back call `uvmdealloc(pagetable, a, oldsz)` of `uvmalloc`. -/
theorem uvmdealloc_rollback (L : Layout) (pt : Nat) (perm : Nat → Nat)
    (fill : Nat → Nat → Nat) (s0 : KState) (fl0 : List Nat) (lo a : Nat) (s : KState)
    (fl : List Nat) (s' : KState) (r : Nat) (g : Grew L pt perm fill s0 fl0 lo a s fl)
    (hlo : lo % 4096 = 0) (ha : a % 4096 = 0) (hle : lo ≤ a) (ha64 : a < 2 ^ 64)
    (h : uvmdealloc L s pt a lo = .ok r s') :
    ∃ fl', RolledBack L pt s0 fl0 s' fl' := by
  unfold uvmdealloc at h
  by_cases c : lo ≥ a
  · rw [if_pos c] at h
    injection h with _ h2
    subst h2
    have e : lo = a := by omega
    refine ⟨fl, ⟨g.inv, fun vb hvb => Or.inl (g.leaf_out vb hvb (by omega)), fun f hf => ?_,
      g.sub, g.tables_mono, g.tables_new, g.frame⟩⟩
    rcases g.account f hf with c1 | c1 | ⟨b, _, q2, q3, _⟩
    · exact Or.inl c1
    · exact Or.inr c1
    · omega
  · rw [if_neg c] at h
    have hb := g.bound (by omega)
    rw [PGROUNDUP_aligned lo hlo (by omega), PGROUNDUP_aligned a ha ha64,
      if_pos (by omega)] at h
    have hlt : (a - lo) / 4096 < 2 ^ 31 := by unfold MAXVA at hb; omega
    have en : intToU64 ((a - lo) / PGSIZE) = (a - lo) / 4096 := by
      unfold intToU64 PGSIZE
      rw [Nat.mod_eq_of_lt (by omega), if_pos hlt]
    rw [en] at h
    simp only [] at h
    cases hu : uvmunmap L s pt lo ((a - lo) / 4096) true with
    | panic msg => rw [hu] at h; cases h
    | fuel => rw [hu] at h; cases h
    | ok u s1 =>
      rw [hu, bind_ok] at h
      injection h with _ h2
      subst h2
      unfold uvmunmap at hu
      rw [if_neg (by unfold PGSIZE; omega)] at hu
      have eb : (lo + (a - lo) / 4096 * PGSIZE) % 2 ^ 64 = a := by
        unfold PGSIZE; omega
      rw [eb] at hu
      exact grew_rollback L pt perm fill s0 fl0 lo a s fl s1 LOOPFUEL g hlo ha hu

/-! ## uvmalloc -/

theorem pteAt_eq (s : KState) (pt va : Nat) (ok : TableOK s.mem pt) (hva : va < MAXVA) :
    pteAt s pt va = leafOf s.mem pt va := by
  unfold pteAt
  rw [walk_noalloc s pt va hva]
  obtain ⟨w1, w2⟩ := walkVal_ok s.mem pt va ok
  by_cases hv : has0 s.mem pt va
  · obtain ⟨_, b, c⟩ := w1 hv
    simp only [b, if_false, c]
  · obtain ⟨a, b⟩ := w2 hv
    simp only [a, if_true, b]

theorem pteAt_high (s : KState) (pt va : Nat) (hva : MAXVA ≤ va) : pteAt s pt va = 0 := by
  unfold pteAt walk
  rw [if_pos hva]

theorem mapping_high (s : KState) (pt va : Nat) (hva : MAXVA ≤ va) : mapping s pt va = none := by
  unfold mapping
  rw [pteAt_high s pt va hva]
  rfl

theorem mapping_leaf (s : KState) (pt va : Nat) (ok : TableOK s.mem pt) (hva : va < MAXVA) :
    mapping s pt va = if leafOf s.mem pt va % 2 = 0 then none
      else some (PTE2PA (leafOf s.mem pt va), PTE_FLAGS (leafOf s.mem pt va)) := by
  unfold mapping
  rw [pteAt_eq s pt va ok hva, and_V]

theorem uperm_lt (xperm : Nat) (hx : xperm < 1024) : PTE_R ||| PTE_U ||| xperm < 1024 := by
  have h1 : PTE_R ||| PTE_U < 2 ^ 10 := by decide
  have := Nat.or_lt_two_pow h1 (show xperm < 2 ^ 10 by omega)
  omega

theorem uvmallocLoop_spec (L : Layout) (pt lo newsz xperm : Nat) (s0 : KState)
    (fl0 : List Nat) (hx : xperm < 1024) (hlo : lo % 4096 = 0) :
    ∀ (fuel : Nat) (s : KState) (a : Nat) (fl : List Nat) (r : Nat) (s' : KState),
    Grew L pt (fun _ => PTE_R ||| PTE_U ||| xperm) (fun _ _ => 0) s0 fl0 lo a s fl →
    a % 4096 = 0 → lo ≤ a → a < 2 ^ 64 →
    uvmallocLoop fuel L s pt a lo newsz xperm = .ok r s' →
    (r = newsz ∧ ∃ a' fl',
        Grew L pt (fun _ => PTE_R ||| PTE_U ||| xperm) (fun _ _ => 0) s0 fl0 lo a' s' fl' ∧
        a' % 4096 = 0 ∧ newsz ≤ a' ∧ a ≤ a' ∧ (a' = a ∨ a' < newsz + 4096)) ∨
    (r = 0 ∧ ∃ fl', RolledBack L pt s0 fl0 s' fl') := by
  intro fuel
  induction fuel with
  | zero => intro s a fl r s' _ _ _ _ h; rw [uvmallocLoop] at h; cases h
  | succ k ih =>
    intro s a fl r s' g ha hle ha64 h
    rw [uvmallocLoop] at h
    by_cases hn : a < newsz
    case neg =>
      rw [if_neg hn] at h
      injection h with h1 h2
      subst h2
      exact Or.inl ⟨h1.symm, a, fl, g, ha, by omega, Nat.le_refl _, Or.inl rfl⟩
    case pos =>
      rw [if_pos hn] at h
      cases fl with
      | nil =>
        rw [kalloc_nil L s g.inv.alloc] at h
        simp only [if_true] at h
        cases hd : uvmdealloc L s pt a lo with
        | panic msg => rw [hd] at h; cases h
        | fuel => rw [hd] at h; cases h
        | ok u s1 =>
          rw [hd, bind_ok] at h
          injection h with h1 h2
          subst h2
          exact Or.inr ⟨h1.symm, uvmdealloc_rollback L pt _ _ s0 fl0 lo a s [] _ u g hlo ha hle
            ha64 hd⟩
      | cons f rest =>
        obtain ⟨hk, _⟩ := kalloc_cons L s f rest g.inv.alloc
        have hfa := g.inv.alloc.frames f (List.mem_cons_self _ _)
        have hk0 := g.inv.alloc.kend_pos
        have hf0 : f ≠ 0 := by omega
        rw [hk] at h
        simp only [hf0, if_false] at h
        have hout : ∀ x, ¬ inPage f x →
            memset (memset s.mem f 5 PGSIZE) f 0 PGSIZE x = s.mem x := by
          intro x hx
          have c : ¬ (f ≤ x ∧ x < f + PGSIZE) := hx
          simp only [memset, c, if_false]
        have hin : ∀ i, i < 4096 → memset (memset s.mem f 5 PGSIZE) f 0 PGSIZE (f + i) = 0 := by
          intro i hi
          have c : f ≤ f + i ∧ f + i < f + PGSIZE := ⟨by omega, by unfold PGSIZE; omega⟩
          simp only [memset, c, and_self, if_true, Nat.zero_mod]
        cases hm : mappages
            { mem := memset (memset s.mem f 5 PGSIZE) f 0 PGSIZE, freelist := rd64 s.mem f }
            pt a PGSIZE f (PTE_R ||| PTE_U ||| xperm) with
        | panic msg => rw [hm] at h; cases h
        | fuel => rw [hm] at h; cases h
        | ok rr s3 =>
          rw [hm, bind_ok] at h
          by_cases hrr : rr ≠ 0
          · rw [if_pos hrr] at h
            cases hkf : kfree L s3 f with
            | panic msg => rw [hkf] at h; cases h
            | fuel => rw [hkf] at h; cases h
            | ok u4 s4 =>
              rw [hkf, bind_ok] at h
              cases hd : uvmdealloc L s4 pt a lo with
              | panic msg => rw [hd] at h; cases h
              | fuel => rw [hd] at h; cases h
              | ok u s5 =>
                rw [hd, bind_ok] at h
                injection h with h1 h2
                subst h2
                have g4 := grew_fail L pt _ _ s0 fl0 lo a s f rest
                  (KState.mk (memset (memset s.mem f 5 PGSIZE) f 0 PGSIZE) (rd64 s.mem f))
                  s3 s4 rr g ha ha64 (uperm_lt xperm hx) rfl hout hm hrr hkf
                exact Or.inr ⟨h1.symm, uvmdealloc_rollback L pt _ _ s0 fl0 lo a s4 [f] _ u g4
                  hlo ha hle ha64 hd⟩
          · rw [if_neg hrr] at h
            have hr0 : rr = 0 := by omega
            rw [hr0] at hm
            obtain ⟨fl3, g3⟩ := grew_step L pt _ _ s0 fl0 lo a s f rest
              (KState.mk (memset (memset s.mem f 5 PGSIZE) f 0 PGSIZE) (rd64 s.mem f)) s3 g ha
              hle ha64 (uperm_lt xperm hx) rfl hout hin hm
            have hb := g3.bound (by omega)
            have ea : (a + PGSIZE) % 2 ^ 64 = a + 4096 := by
              unfold PGSIZE; unfold MAXVA at hb; omega
            rw [ea] at h
            have hal' : (a + 4096) % 4096 = 0 := by omega
            have hle' : lo ≤ a + 4096 := by omega
            have h64' : a + 4096 < 2 ^ 64 := by unfold MAXVA at hb; omega
            have hih := ih s3 (a + 4096) fl3 r s' g3 hal' hle' h64' h
            rcases hih with ⟨x, a', fl', q1, q2, q3, q4, q5⟩ | x
            · refine Or.inl ⟨x, a', fl', q1, q2, q3, by omega, Or.inr ?_⟩
              rcases q5 with c | c
              · omega
              · exact c
            · exact Or.inr x

theorem uvmalloc_cases (L : Layout) (s : KState) (pt oldsz newsz xperm : Nat) (fl : List Nat)
    (r : Nat) (s' : KState) (inv : Inv L s pt fl) (hle : oldsz ≤ newsz) (hx : xperm < 1024)
    (h : uvmalloc L s pt oldsz newsz xperm = .ok r s') :
    (r = newsz ∧ ∃ a' fl',
        Grew L pt (fun _ => PTE_R ||| PTE_U ||| xperm) (fun _ _ => 0) s fl (PGROUNDUP oldsz) a'
          s' fl' ∧
        a' % 4096 = 0 ∧ newsz ≤ a' ∧ PGROUNDUP oldsz ≤ a' ∧
        (a' = PGROUNDUP oldsz ∨ a' < newsz + 4096)) ∨
    (r = 0 ∧ ∃ fl', RolledBack L pt s fl s' fl') := by
  unfold uvmalloc at h
  rw [if_neg (by omega)] at h
  have hal : PGROUNDUP oldsz % 4096 = 0 := by unfold PGROUNDUP PGSIZE; omega
  have h64 : PGROUNDUP oldsz < 2 ^ 64 := by unfold PGROUNDUP PGSIZE; omega
  exact uvmallocLoop_spec L pt (PGROUNDUP oldsz) newsz xperm s fl hx hal LOOPFUEL s
    (PGROUNDUP oldsz) fl r s' (grew_init L pt _ _ s fl _ inv) hal (Nat.le_refl _) h64 h

theorem flags_or (xperm : Nat) (hx : xperm < 1024) (f : Nat) :
    PTE_FLAGS (PA2PTE f ||| (PTE_R ||| PTE_U ||| xperm) ||| PTE_V) =
      PTE_V ||| PTE_R ||| PTE_U ||| xperm := by
  obtain ⟨pm1, pm2, _, _⟩ := pte_make f (PTE_R ||| PTE_U ||| xperm) (uperm_lt xperm hx)
  rw [pm1]
  unfold PTE_FLAGS
  have e : (PTE_R ||| PTE_U ||| xperm) ||| 1 = PTE_V ||| PTE_R ||| PTE_U ||| xperm := by
    show (PTE_R ||| PTE_U ||| xperm) ||| PTE_V = _
    rw [Nat.lor_comm, Nat.lor_assoc, Nat.lor_assoc, Nat.lor_assoc]
  rw [← e]
  omega

/-- C9. `uvmalloc` success postcondition: in a well-formed state, for `oldsz ≤ newsz` and
permission bits `xperm`, if `uvmalloc` returns a non-zero value it returns `newsz`; every
page-aligned `a` with `PGROUNDUP(oldsz) ≤ a < newsz` was unmapped and is now mapped to a
frame taken from the free list, zero-filled, with flags `V | R | U | xperm`, distinct pages
to distinct frames; the mapping of every address outside these pages is unchanged. -/
theorem uvmalloc_success (L : Layout) (s : KState) (pt oldsz newsz xperm : Nat)
    (fl : List Nat) (r : Nat) (s' : KState) (inv : Inv L s pt fl) (hle : oldsz ≤ newsz)
    (hx : xperm < 1024) (h : uvmalloc L s pt oldsz newsz xperm = .ok r s') (hr : r ≠ 0) :
    r = newsz ∧
    (∀ a, a % PGSIZE = 0 → PGROUNDUP oldsz ≤ a → a < newsz →
      mapping s pt a = none ∧
      ∃ f, f ∈ fl ∧ mapping s' pt a = some (f, PTE_V ||| PTE_R ||| PTE_U ||| xperm) ∧
        (∀ i, i < PGSIZE → s'.mem (f + i) = 0) ∧
        ∀ b g, b % PGSIZE = 0 → PGROUNDUP oldsz ≤ b → b < newsz →
          mapping s' pt b = some (f, g) → b = a) ∧
    (∀ va, ¬ (PGROUNDUP oldsz ≤ PGROUNDDOWN va ∧ PGROUNDDOWN va < newsz) →
      mapping s' pt va = mapping s pt va) := by
  rcases uvmalloc_cases L s pt oldsz newsz xperm fl r s' inv hle hx h with
    ⟨h1, a', fl', g, q1, q2, q3, q4⟩ | ⟨h1, _⟩
  case inr => exact absurd h1 hr
  have hal : PGROUNDUP oldsz % 4096 = 0 := by unfold PGROUNDUP PGSIZE; omega
  have hmaxal : MAXVA % 4096 = 0 := by unfold MAXVA; norm_num
  have key : ∀ a, a % 4096 = 0 → PGROUNDUP oldsz ≤ a → a < newsz →
      a < a' ∧ a < MAXVA ∧
      mapping s' pt a = some (PTE2PA (leafOf s'.mem pt a),
        PTE_V ||| PTE_R ||| PTE_U ||| xperm) := by
    intro a ha1 ha2 ha3
    have haa : a < a' := by omega
    have hb := g.bound (by omega)
    have ham : a < MAXVA := by omega
    obtain ⟨l1, l2, l3, l4⟩ := g.leaf_in a ha1 ha2 haa
    refine ⟨haa, ham, ?_⟩
    have hfa := (inv.alloc.frames _ l2).1
    have htop := inv.alloc.top
    have hf64 : PTE2PA (leafOf s'.mem pt a) < 2 ^ 64 := PTE2PA_lt _
    obtain ⟨_, pf2⟩ := pte_frame _ _ (uperm_lt xperm hx) hfa hf64
    have hflags : PTE_FLAGS (leafOf s'.mem pt a) = PTE_V ||| PTE_R ||| PTE_U ||| xperm := by
      rw [l1, flags_or xperm hx]
    rw [mapping_leaf s' pt a g.inv.table ham, if_neg (by rw [l1]; omega), hflags]
  refine ⟨h1, fun a ha1 ha2 ha3 => ?_, fun va hva => ?_⟩
  · unfold PGSIZE at ha1
    obtain ⟨haa, ham, hmap⟩ := key a ha1 ha2 ha3
    obtain ⟨l1, l2, l3, l4⟩ := g.leaf_in a ha1 ha2 haa
    refine ⟨?_, PTE2PA (leafOf s'.mem pt a), l2, hmap, l3, fun b gg hb1 hb2 hb3 hb4 => ?_⟩
    · rw [mapping_leaf s pt a inv.table ham, if_pos l4]
    · unfold PGSIZE at hb1
      obtain ⟨hba, hbm, hmapb⟩ := key b hb1 hb2 hb3
      rw [hmapb] at hb4
      have hb6 := (Prod.mk.inj (Option.some.inj hb4)).1
      exact (g.owned b hb1 hb2 hba hbm).2.2 a ha1 ha2 haa ham hb6
  · by_cases hvm : va < MAXVA
    · have hp := PGROUNDDOWN_spec va
      have hout : ¬ (PGROUNDUP oldsz ≤ va ∧ va < a') := by
        intro c
        apply hva
        generalize PGROUNDDOWN va = pg at *
        generalize PGROUNDUP oldsz = lo at *
        constructor
        · omega
        · rcases q4 with c1 | c1
          · omega
          · omega
      rw [mapping_leaf s' pt va g.inv.table hvm, mapping_leaf s pt va inv.table hvm,
        g.leaf_out va hvm hout]
    · have hge : MAXVA ≤ va := Nat.le_of_not_lt hvm
      rw [mapping_high s' pt va hge, mapping_high s pt va hge]

/-- C10. `uvmalloc` failure restores the mappings: in a well-formed state, for
`oldsz < newsz` and permission bits `xperm`, if `uvmalloc` returns 0 then every virtual
address has the leaf mapping (frame and flags, or none) it had before the call, and every
frame that was on the free list before the call is on it again, unless it has become a
page-table page: every data frame has been returned. -/
theorem uvmalloc_failure (L : Layout) (s : KState) (pt oldsz newsz xperm : Nat)
    (fl : List Nat) (s' : KState) (inv : Inv L s pt fl) (hlt : oldsz < newsz)
    (hx : xperm < 1024) (h : uvmalloc L s pt oldsz newsz xperm = .ok 0 s') :
    (∀ va, mapping s' pt va = mapping s pt va) ∧
    ∃ fl', Inv L s' pt fl' ∧ (∀ f, f ∈ fl → f ∈ fl' ∨ IsTable s'.mem pt f) ∧
      (∀ f, f ∈ fl' → f ∈ fl) := by
  rcases uvmalloc_cases L s pt oldsz newsz xperm fl 0 s' inv (by omega) hx h with
    ⟨h1, _⟩ | ⟨_, fl', rb⟩
  · omega
  refine ⟨fun va => ?_, fl', rb.inv, rb.account, rb.sub⟩
  by_cases hvm : va < MAXVA
  · rw [mapping_leaf s' pt va rb.inv.table hvm, mapping_leaf s pt va inv.table hvm]
    rcases rb.leaf va hvm with c | ⟨c1, c2⟩
    · rw [c]
    · rw [if_pos (by rw [c1]), if_pos c2]
  · have hge : MAXVA ≤ va := Nat.le_of_not_lt hvm
    rw [mapping_high s' pt va hge, mapping_high s pt va hge]

/-! ## The loop of `uvmcopy` -/

/-- A page that is neither a table page of `pt` nor on the free list at entry is not
written while the address space grows. -/
theorem grew_untouched (L : Layout) (pt : Nat) (perm : Nat → Nat) (fill : Nat → Nat → Nat)
    (s0 : KState) (fl0 : List Nat) (lo a : Nat) (s : KState) (fl : List Nat)
    (g : Grew L pt perm fill s0 fl0 lo a s fl) (hal0 : ∀ f, f ∈ fl0 → f % 4096 = 0)
    (p : Nat) (hp : p % 4096 = 0) (hnt : ¬ IsTable s0.mem pt p) (hnf : p ∉ fl0) :
    SamePage s0.mem s.mem p := by
  intro x hx
  apply g.frame x
  · intro q hq
    have hqa := isTable_aligned _ _ _ g.inv.table.root_al hq
    refine pages_disjoint p q x hp hqa (fun e => ?_) hx
    rcases g.tables_new q hq with c | c
    · exact hnt (e ▸ c)
    · exact hnf (e ▸ c)
  · intro f hf
    exact pages_disjoint p f x hp (hal0 f hf) (fun e => hnf (e ▸ hf)) hx

theorem rolledBack_untouched (L : Layout) (pt : Nat) (s0 : KState) (fl0 : List Nat)
    (s : KState) (fl : List Nat) (rb : RolledBack L pt s0 fl0 s fl)
    (hal0 : ∀ f, f ∈ fl0 → f % 4096 = 0)
    (p : Nat) (hp : p % 4096 = 0) (hnt : ¬ IsTable s0.mem pt p) (hnf : p ∉ fl0) :
    SamePage s0.mem s.mem p := by
  intro x hx
  apply rb.frame x
  · intro q hq
    have hqa := isTable_aligned _ _ _ rb.inv.table.root_al hq
    refine pages_disjoint p q x hp hqa (fun e => ?_) hx
    rcases rb.tables_new q hq with c | c
    · exact hnt (e ▸ c)
    · exact hnf (e ▸ c)
  · intro f hf
    exact pages_disjoint p f x hp (hal0 f hf) (fun e => hnf (e ▸ hf)) hx

theorem samePage_symm_read (m m' : Mem) (p i : Nat) (h : SamePage m m' p) (hi : i < 4096) :
    m' (p + i) = m (p + i) := h (p + i) ⟨by omega, by unfold PGSIZE; omega⟩

theorem uvmcopyLoop_spec (L : Layout) (old new sz : Nat) (s0 : KState) (fl0 : List Nat)
    (hal0 : ∀ f, f ∈ fl0 → f % 4096 = 0)
    (okold : TableOK s0.mem old)
    (hsep : ∀ p, IsTable s0.mem old p → ¬ IsTable s0.mem new p ∧ p ∉ fl0)
    (hsrc : ∀ b, b % 4096 = 0 → b < sz → b < MAXVA →
      ¬ IsTable s0.mem new (PTE2PA (leafOf s0.mem old b)) ∧
      PTE2PA (leafOf s0.mem old b) ∉ fl0) :
    ∀ (fuel : Nat) (s : KState) (i : Nat) (fl : List Nat) (r : Int) (s' : KState),
    Grew L new (fun b => PTE_FLAGS (leafOf s0.mem old b))
      (fun b k => s0.mem (PTE2PA (leafOf s0.mem old b) + k)) s0 fl0 0 i s fl →
    i % 4096 = 0 → i < 2 ^ 64 →
    uvmcopyLoop fuel L s old new i sz = .ok r s' →
    (r = 0 ∧ (∃ i' fl', Grew L new (fun b => PTE_FLAGS (leafOf s0.mem old b))
        (fun b k => s0.mem (PTE2PA (leafOf s0.mem old b) + k)) s0 fl0 0 i' s' fl' ∧
        i' % 4096 = 0 ∧ sz ≤ i' ∧ i ≤ i') ∧
      ∀ b, b % 4096 = 0 → i ≤ b → b < sz → b < MAXVA ∧ leafOf s0.mem old b % 2 = 1) ∨
    (r = -1 ∧ ∃ fl', RolledBack L new s0 fl0 s' fl') := by
  intro fuel
  induction fuel with
  | zero => intro s i fl r s' _ _ _ h; rw [uvmcopyLoop] at h; cases h
  | succ k ih =>
    intro s i fl r s' g hi hi64 h
    rw [uvmcopyLoop] at h
    by_cases hn : i < sz
    case neg =>
      rw [if_neg hn] at h
      injection h with h1 h2
      subst h2
      exact Or.inl ⟨h1.symm, ⟨i, fl, g, hi, by omega, Nat.le_refl _⟩,
        fun b _ h1 h2 => by omega⟩
    case pos =>
      rw [if_pos hn] at h
      by_cases hva : i < MAXVA
      case neg =>
        have : walk s old i false = .panic "walk" := by
          unfold walk; rw [if_pos (by omega)]
        rw [this] at h; cases h
      case pos =>
        rw [walk_noalloc s old i hva, bind_ok] at h
        by_cases hp0 : walkVal s.mem old i = 0
        · rw [if_pos hp0] at h; cases h
        rw [if_neg hp0] at h
        -- the source table is untouched so far
        have hut : ∀ p, IsTable s0.mem old p → SamePage s0.mem s.mem p := fun p hp =>
          grew_untouched L new _ _ s0 fl0 0 i s fl g hal0 p
            (isTable_aligned _ _ _ okold.root_al hp) (hsep p hp).1 (hsep p hp).2
        have hlo : ∀ va, leafOf s.mem old va = leafOf s0.mem old va :=
          leafOf_same _ _ old hut
        have oks : TableOK s.mem old :=
          tableOK_same _ _ old (fun p hp => hut p (Or.inl hp)) okold
        have hv0 : has0 s.mem old i := by
          by_contra c
          exact hp0 ((walkVal_ok s.mem old i oks).2 c).1
        obtain ⟨_, _, hw3⟩ := (walkVal_ok s.mem old i oks).1 hv0
        rw [hw3, hlo] at h
        by_cases hV : leafOf s0.mem old i &&& PTE_V = 0
        · rw [if_pos hV] at h; cases h
        rw [if_neg hV] at h
        rw [and_V] at hV
        obtain ⟨hs1, hs2⟩ := hsrc i hi hn hva
        have hsal := PTE2PA_aligned (leafOf s0.mem old i)
        have hsrcsame : SamePage s0.mem s.mem (PTE2PA (leafOf s0.mem old i)) :=
          grew_untouched L new _ _ s0 fl0 0 i s fl g hal0 _ hsal hs1 hs2
        have ei : (0 + i / 4096 * PGSIZE) % 2 ^ 64 = i := by unfold PGSIZE; omega
        have hflags : PTE_FLAGS (leafOf s0.mem old i) < 1024 := by unfold PTE_FLAGS; omega
        cases fl with
        | nil =>
          rw [kalloc_nil L s g.inv.alloc] at h
          simp only [if_true] at h
          cases hd : uvmunmap L s new 0 (i / PGSIZE) true with
          | panic msg => rw [hd] at h; cases h
          | fuel => rw [hd] at h; cases h
          | ok u s1 =>
            rw [hd, bind_ok] at h
            injection h with h1 h2
            subst h2
            unfold uvmunmap at hd
            rw [if_neg (by decide)] at hd
            unfold PGSIZE at hd
            unfold PGSIZE at ei
            rw [ei] at hd
            exact Or.inr ⟨h1.symm, grew_rollback L new _ _ s0 fl0 0 i s [] _ LOOPFUEL g
              (by omega) hi hd⟩
        | cons f rest =>
          obtain ⟨hk, _⟩ := kalloc_cons L s f rest g.inv.alloc
          have hfa := g.inv.alloc.frames f (List.mem_cons_self _ _)
          have hk0 := g.inv.alloc.kend_pos
          have hf0 : f ≠ 0 := by omega
          have hfs : PTE2PA (leafOf s0.mem old i) ≠ f :=
            fun e => hs2 (e ▸ g.sub f (List.mem_cons_self _ _))
          rw [hk] at h
          simp only [hf0, if_false] at h
          have hout : ∀ x, ¬ inPage f x →
              memmove (memset s.mem f 5 PGSIZE) f (PTE2PA (leafOf s0.mem old i)) PGSIZE x
                = s.mem x := by
            intro x hx
            have c : ¬ (f ≤ x ∧ x < f + PGSIZE) := hx
            simp only [memmove, memset, c, if_false]
          have hin : ∀ j, j < 4096 →
              memmove (memset s.mem f 5 PGSIZE) f (PTE2PA (leafOf s0.mem old i)) PGSIZE (f + j)
                = s0.mem (PTE2PA (leafOf s0.mem old i) + j) := by
            intro j hj
            have c : f ≤ f + j ∧ f + j < f + PGSIZE := ⟨by omega, by unfold PGSIZE; omega⟩
            have c2 : ¬ (f ≤ PTE2PA (leafOf s0.mem old i) + j ∧
                PTE2PA (leafOf s0.mem old i) + j < f + PGSIZE) := by
              have := hfa.1
              unfold PGSIZE; omega
            simp only [memmove, c, and_self, if_true, Nat.add_sub_cancel_left, memset, c2,
              if_false]
            exact samePage_symm_read _ _ _ j hsrcsame hj
          cases hm : mappages
              (KState.mk (memmove (memset s.mem f 5 PGSIZE) f (PTE2PA (leafOf s0.mem old i))
                PGSIZE) (rd64 s.mem f))
              new i PGSIZE f (PTE_FLAGS (leafOf s0.mem old i)) with
          | panic msg => rw [hm] at h; cases h
          | fuel => rw [hm] at h; cases h
          | ok rr s3 =>
            rw [hm, bind_ok] at h
            by_cases hrr : rr ≠ 0
            · rw [if_pos hrr] at h
              cases hkf : kfree L s3 f with
              | panic msg => rw [hkf] at h; cases h
              | fuel => rw [hkf] at h; cases h
              | ok u4 s4 =>
                rw [hkf, bind_ok] at h
                cases hd : uvmunmap L s4 new 0 (i / PGSIZE) true with
                | panic msg => rw [hd] at h; cases h
                | fuel => rw [hd] at h; cases h
                | ok u s5 =>
                  rw [hd, bind_ok] at h
                  injection h with h1 h2
                  subst h2
                  have g4 := grew_fail L new _ _ s0 fl0 0 i s f rest
                    (KState.mk (memmove (memset s.mem f 5 PGSIZE) f
                      (PTE2PA (leafOf s0.mem old i)) PGSIZE) (rd64 s.mem f))
                    s3 s4 rr g hi hi64 hflags rfl hout hm hrr hkf
                  unfold uvmunmap at hd
                  rw [if_neg (by decide)] at hd
                  unfold PGSIZE at hd
                  unfold PGSIZE at ei
                  rw [ei] at hd
                  exact Or.inr ⟨h1.symm, grew_rollback L new _ _ s0 fl0 0 i s4 [f] _ LOOPFUEL g4
                    (by omega) hi hd⟩
            · rw [if_neg hrr] at h
              have hr0 : rr = 0 := by omega
              rw [hr0] at hm
              obtain ⟨fl3, g3⟩ := grew_step L new _ _ s0 fl0 0 i s f rest
                (KState.mk (memmove (memset s.mem f 5 PGSIZE) f
                  (PTE2PA (leafOf s0.mem old i)) PGSIZE) (rd64 s.mem f)) s3 g hi
                (Nat.zero_le _) hi64 hflags rfl hout hin hm
              have ea : (i + PGSIZE) % 2 ^ 64 = i + 4096 := by
                unfold PGSIZE; unfold MAXVA at hva; omega
              rw [ea] at h
              have hal' : (i + 4096) % 4096 = 0 := by omega
              have h64' : i + 4096 < 2 ^ 64 := by unfold MAXVA at hva; omega
              have hih := ih s3 (i + 4096) fl3 r s' g3 hal' h64' h
              rcases hih with ⟨x, ⟨i', fl', q1, q2, q3, q4⟩, q5⟩ | x
              · refine Or.inl ⟨x, ⟨i', fl', q1, q2, q3, by omega⟩, fun b hb1 hb2 hb3 => ?_⟩
                by_cases c : b = i
                · rw [c]; exact ⟨hva, by omega⟩
                · exact q5 b hb1 (by omega) hb3
              · exact Or.inr x

/-! ## `walkaddr`, `uvmunmap` and the copy routines -/

theorem walkaddr_val (s : KState) (pt va : Nat) :
    walkaddr s pt va = .ok (xlate s pt va) s := by
  rw [xlate_eq, walkaddr_eq]

theorem walkaddr_zero_iff (s : KState) (pt va : Nat) :
    walkaddr s pt va = .ok 0 s ↔ xlate s pt va = 0 := by
  rw [walkaddr_val]
  constructor
  · intro h
    injection h
  · intro h
    rw [h]

/-- The frames `walkaddr` returns in an address space whose pages `[lo, hi)` own their
frames and whose other pages are unmapped: none is a table page, no two pages share one. -/
theorem owned_user (s : KState) (pt : Nat) (fl : List Nat) (lo hi : Nat)
    (ok : TableOK s.mem pt) (own : OwnedFrames s pt fl lo hi)
    (hout : ∀ vb, vb < MAXVA → ¬ (lo ≤ vb ∧ vb < hi) → leafOf s.mem pt vb % 2 = 0) :
    (∀ p, p % 4096 = 0 → xlate s pt p ≠ 0 → ¬ IsTable s.mem pt (xlate s pt p)) ∧
    (∀ p q, p % 4096 = 0 → q % 4096 = 0 → xlate s pt p ≠ 0 →
      xlate s pt p = xlate s pt q → p = q) := by
  have key : ∀ p, xlate s pt p ≠ 0 →
      p < MAXVA ∧ lo ≤ p ∧ p < hi ∧ xlate s pt p = PTE2PA (leafOf s.mem pt p) := by
    intro p hp
    rw [xlate_eq] at hp ⊢
    have hm := walkaddrVal_maxva _ _ _ hp
    rw [walkaddrVal_leaf _ _ _ ok hm] at hp ⊢
    by_cases c : leafOf s.mem pt p % 2 = 1 ∧ leafOf s.mem pt p / 16 % 2 = 1
    · rw [if_pos c]
      have : lo ≤ p ∧ p < hi := by
        by_contra hc
        have := hout p hm hc
        omega
      exact ⟨hm, this.1, this.2, rfl⟩
    · rw [if_neg c] at hp
      exact absurd rfl hp
  constructor
  · intro p hpa hp
    obtain ⟨k1, k2, k3, k4⟩ := key p hp
    rw [k4]
    exact (own p hpa k2 k3 k1).2.1
  · intro p q hpa hqa hp hpq
    obtain ⟨k1, k2, k3, k4⟩ := key p hp
    obtain ⟨j1, j2, j3, j4⟩ := key q (hpq ▸ hp)
    rw [k4, j4] at hpq
    exact (own p hpa k2 k3 k1).2.2 q hqa j2 j3 j1 hpq

/-- A `uvmalloc` from size 0 that returns its page-aligned target `sz` leaves the state
described by `Grew` for the pages `[0, sz)`. -/
theorem uvmalloc_fresh (L : Layout) (s : KState) (pt sz xperm : Nat) (fl : List Nat)
    (s' : KState) (inv : Inv L s pt fl) (hsz : 0 < sz) (hal : sz % 4096 = 0)
    (hx : xperm < 1024) (h : uvmalloc L s pt 0 sz xperm = .ok sz s') :
    ∃ fl', Grew L pt (fun _ => PTE_R ||| PTE_U ||| xperm) (fun _ _ => 0) s fl 0 sz s' fl' := by
  rcases uvmalloc_cases L s pt 0 sz xperm fl sz s' inv (Nat.zero_le _) hx h with
    ⟨_, a', fl', g, q1, q2, q3, q4⟩ | ⟨h1, _⟩
  · have e0 : PGROUNDUP 0 = 0 := by decide
    rw [e0] at g q4
    have : a' = sz := by omega
    rw [this] at g
    exact ⟨fl', g⟩
  · omega

theorem owned_mono (s : KState) (pt : Nat) (fl : List Nat) (lo hi lo' hi' : Nat)
    (own : OwnedFrames s pt fl lo hi) (h1 : lo ≤ lo') (h2 : hi' ≤ hi) :
    OwnedFrames s pt fl lo' hi' := by
  intro b hb1 hb2 hb3 hb4
  obtain ⟨o1, o2, o3⟩ := own b hb1 (by omega) (by omega) hb4
  exact ⟨o1, o2, fun b' c1 c2 c3 c4 c5 => o3 b' c1 (by omega) (by omega) c4 c5⟩

theorem demoUser2_run :
    uvmalloc demoLayout demoFree4 demoRoot 0 8192 PTE_W = .ok 8192 demoUser2 := by rfl

/-- The example address space `demoUser2` is well formed and owns its two frames. -/
theorem demoUser2_ok : ∃ fl, Inv demoLayout demoUser2 demoRoot fl ∧
    OwnedFrames demoUser2 demoRoot fl 0 8192 ∧
    (∀ p, p % 4096 = 0 → xlate demoUser2 demoRoot p ≠ 0 →
      ¬ IsTable demoUser2.mem demoRoot (xlate demoUser2 demoRoot p)) ∧
    (∀ p q, p % 4096 = 0 → q % 4096 = 0 → xlate demoUser2 demoRoot p ≠ 0 →
      xlate demoUser2 demoRoot p = xlate demoUser2 demoRoot q → p = q) := by
  obtain ⟨fl, g⟩ := uvmalloc_fresh demoLayout demoFree4 demoRoot 8192 PTE_W demoList4
    demoUser2 demoFree4_inv.1 (by decide) (by decide) (by decide) demoUser2_run
  have hout : ∀ vb, vb < MAXVA → ¬ (0 ≤ vb ∧ vb < 8192) →
      leafOf demoUser2.mem demoRoot vb % 2 = 0 := by
    intro vb h1 h2
    rw [g.leaf_out vb h1 h2, demoFree4_inv.2.2 vb]
  obtain ⟨u1, u2⟩ := owned_user demoUser2 demoRoot fl 0 8192 g.inv.table g.owned hout
  exact ⟨fl, g.inv, g.owned, u1, u2⟩

/-! ### C3 -/

/-- C3. `walkaddr` resolves exactly the valid user pages: for every state, page table and
`va`, `walkaddr` returns without a fatal error and leaves the state as it was. It returns
a non-zero address only if `va < MAXVA`, both upper entries of `va` are valid, and the
level-0 entry of `va` has `PTE_V` and `PTE_U` set, and the result is then the frame
address stored in that entry. Conversely, when `va < MAXVA`, both upper entries are valid
and the level-0 entry has `PTE_V` and `PTE_U` set, the result is the frame address stored
in that entry, provided the pointer `walk` returns is not null, which holds in every
well-formed table (`TableOK`: no table page at address 0). It returns 0 for `va ≥ MAXVA`,
for a missing intermediate table, and for a level-0 entry lacking `PTE_V` or `PTE_U`. -/
theorem walkaddr_only_user (s : KState) (pt va : Nat) :
    ∃ r, walkaddr s pt va = .ok r s ∧
      (r ≠ 0 → va < MAXVA ∧ has0 s.mem pt va ∧ ent0 s.mem pt va &&& PTE_V ≠ 0 ∧
        ent0 s.mem pt va &&& PTE_U ≠ 0 ∧ r = PTE2PA (ent0 s.mem pt va)) ∧
      (va < MAXVA → has0 s.mem pt va → slot0 s.mem pt va ≠ 0 →
        ent0 s.mem pt va &&& PTE_V ≠ 0 → ent0 s.mem pt va &&& PTE_U ≠ 0 →
        r = PTE2PA (ent0 s.mem pt va)) ∧
      (TableOK s.mem pt → va < MAXVA → has0 s.mem pt va →
        ent0 s.mem pt va &&& PTE_V ≠ 0 → ent0 s.mem pt va &&& PTE_U ≠ 0 →
        r = PTE2PA (ent0 s.mem pt va)) ∧
      (MAXVA ≤ va → r = 0) ∧
      (¬ has0 s.mem pt va → r = 0) ∧
      (ent0 s.mem pt va &&& PTE_V = 0 → r = 0) ∧
      (ent0 s.mem pt va &&& PTE_U = 0 → r = 0) := by
  refine ⟨walkaddrVal s.mem pt va, walkaddr_eq s pt va, ?_⟩
  have hslot : TableOK s.mem pt → has0 s.mem pt va → slot0 s.mem pt va ≠ 0 := by
    intro ok h2
    have := (ok.t0_ne va h2).2
    unfold slot0
    omega
  have conv : va < MAXVA → has0 s.mem pt va → slot0 s.mem pt va ≠ 0 →
      ent0 s.mem pt va &&& PTE_V ≠ 0 → ent0 s.mem pt va &&& PTE_U ≠ 0 →
      walkaddrVal s.mem pt va = PTE2PA (ent0 s.mem pt va) := by
    intro c1 c2 c3 c4 c5
    rw [and_V] at c4
    rw [and_U] at c5
    unfold walkaddrVal walkVal
    have e : rd64 s.mem (slot0 s.mem pt va) = ent0 s.mem pt va := rfl
    rw [if_neg (by omega), if_pos c2, if_neg c3, e, if_neg c4, if_neg (by omega)]
  suffices old : (walkaddrVal s.mem pt va ≠ 0 → va < MAXVA ∧ has0 s.mem pt va ∧
        ent0 s.mem pt va &&& PTE_V ≠ 0 ∧ ent0 s.mem pt va &&& PTE_U ≠ 0 ∧
        walkaddrVal s.mem pt va = PTE2PA (ent0 s.mem pt va)) ∧
      (MAXVA ≤ va → walkaddrVal s.mem pt va = 0) ∧
      (¬ has0 s.mem pt va → walkaddrVal s.mem pt va = 0) ∧
      (ent0 s.mem pt va &&& PTE_V = 0 → walkaddrVal s.mem pt va = 0) ∧
      (ent0 s.mem pt va &&& PTE_U = 0 → walkaddrVal s.mem pt va = 0) from
    ⟨old.1, conv, fun ok c1 c2 => conv c1 c2 (hslot ok c2), old.2⟩
  rw [and_V, and_U]
  unfold walkaddrVal walkVal
  by_cases h1 : MAXVA ≤ va
  · simp only [h1, if_true, ne_eq, not_true_eq_false, false_implies, implies_true, and_self]
  · rw [if_neg h1]
    by_cases h2 : has0 s.mem pt va
    · rw [if_pos h2]
      by_cases h3 : slot0 s.mem pt va = 0
      · simp only [h3, if_true, ne_eq, not_true_eq_false, false_implies, implies_true,
          and_self]
      · rw [if_neg h3]
        have e : rd64 s.mem (slot0 s.mem pt va) = ent0 s.mem pt va := rfl
        rw [e]
        by_cases h4 : ent0 s.mem pt va % 2 = 0
        · simp only [h4, if_true, ne_eq, not_true_eq_false, false_implies, implies_true,
            and_self]
        · rw [if_neg h4]
          by_cases h5 : ent0 s.mem pt va / 16 % 2 = 0
          · simp only [h5, if_true, ne_eq, not_true_eq_false, false_implies, implies_true,
              and_self, zero_mul]
          · rw [if_neg h5]
            refine ⟨fun _ => ⟨by omega, h2, h4, by omega, rfl⟩, fun c => absurd c h1,
              fun c => absurd h2 c, fun c => absurd c h4, fun c => ?_⟩
            omega
    · simp only [h2, if_false, if_true, ne_eq, not_true_eq_false, false_implies,
        implies_true, and_self]

/-- In the example address space `demoUser2` the page at 4096 is a valid user page, and
`walkaddr` returns its frame `0x87001000`. -/
theorem walkaddr_only_user_witness :
    ∃ r, walkaddr demoUser2 demoRoot 4096 = .ok r demoUser2 ∧
      r = PTE2PA (ent0 demoUser2.mem demoRoot 4096) ∧ r ≠ 0 := by
  obtain ⟨r, h, _, hc, _⟩ := walkaddr_only_user demoUser2 demoRoot 4096
  have e := hc (by decide) (by decide) (by decide) (by decide) (by decide)
  refine ⟨r, h, e, ?_⟩
  rw [e]
  decide

theorem loopfuel_eq : LOOPFUEL = MAXVA / PGSIZE + 1 := rfl

theorem fuel_enough (va : Nat) : MAXVA ≤ PGROUNDDOWN va + MAXVA / PGSIZE * PGSIZE := by
  have : MAXVA / PGSIZE * PGSIZE = MAXVA := by unfold MAXVA PGSIZE; norm_num
  omega

/-- What `copyout` returns, in terms of the translations at entry. -/
theorem copyout_spec (s : KState) (pt va : Nat) (src : Buf) (len : Nat)
    (hpt : pt % 4096 = 0)
    (hsep : ∀ p, touches va len p → xlate s pt p ≠ 0 → ¬ IsTable s.mem pt (xlate s pt p)) :
    ∃ r s', copyout s pt va src len = .ok r s' ∧
      s'.freelist = s.freelist ∧
      (∀ p, IsTable s.mem pt p → SamePage s.mem s'.mem p) ∧
      ((r = -1 ∧ ∃ p, touches va len p ∧ xlate s pt p = 0) ∨
       (r = 0 ∧ (∀ p, touches va len p → xlate s pt p ≠ 0) ∧
        (∀ x, (∀ i, i < len → x ≠ userAddr s pt (va + i)) → s'.mem x = s.mem x) ∧
        ((∀ p q, touches va len p → touches va len q →
            xlate s pt p = xlate s pt q → p = q) →
          ∀ i, i < len → rd8 s'.mem (userAddr s pt (va + i)) = src (0 + i) % 256))) := by
  unfold copyout
  rw [loopfuel_eq]
  exact copyoutLoop_spec pt hpt src (MAXVA / PGSIZE) s va 0 len (fuel_enough va) hsep

/-- What `copyin` returns. -/
theorem copyin_spec (s : KState) (pt : Nat) (dst : Buf) (va len : Nat) :
    ∃ r dst', copyin s pt dst va len = .ok (r, dst') s ∧
      ((r = -1 ∧ ∃ p, touches va len p ∧ xlate s pt p = 0) ∨
       (r = 0 ∧ (∀ p, touches va len p → xlate s pt p ≠ 0) ∧
         ∀ i, dst' i = if 0 ≤ i ∧ i < 0 + len then userByte s pt (va + (i - 0))
                       else dst i)) := by
  unfold copyin copyin_new
  rw [loopfuel_eq]
  exact copyinLoop_spec s pt (MAXVA / PGSIZE) dst 0 va len (fuel_enough va)

/-! ### C4 -/

/-- C4. `copyout`/`copyin` round trip across page boundaries: in an address space whose
root is page-aligned and whose pages touched by `[va, va+len)` own their frames (the data
model's exclusive ownership: no such frame is a page-table page, distinct pages have
distinct frames, contiguous or not), for every byte string `src`, if
`copyout(pt, va, src, len)` returns 0 then `copyin(pt, dst, va, len)` on the resulting
state returns 0 and leaves `dst[i] = src[i]` for every `i < len` (and the rest of `dst`
unchanged), however many page boundaries the range crosses. -/
theorem copyout_then_copyin (s : KState) (pt va len : Nat) (src dst : Buf) (s' : KState)
    (hpt : pt % PGSIZE = 0) (hsrc : ∀ i, i < len → src i < 256)
    (hsep : ∀ p, touches va len p → xlate s pt p ≠ 0 → ¬ IsTable s.mem pt (xlate s pt p))
    (hinj : ∀ p q, touches va len p → touches va len q →
      xlate s pt p = xlate s pt q → p = q)
    (h : copyout s pt va src len = .ok 0 s') :
    ∃ dst', copyin s' pt dst va len = .ok (0, dst') s' ∧
      ∀ i, dst' i = if i < len then src i else dst i := by
  obtain ⟨r, s1, e, _, hsame, hr⟩ := copyout_spec s pt va src len hpt hsep
  rw [h] at e
  injection e with e1 e2
  subst e2
  subst e1
  rcases hr with ⟨c, _⟩ | ⟨_, h2, _, h4⟩
  · omega
  have hxl : ∀ a, xlate s' pt a = xlate s pt a := by
    intro a
    rw [xlate_eq, xlate_eq]
    exact walkaddrVal_same _ _ _ hsame a
  obtain ⟨r2, dst', e2, hr2⟩ := copyin_spec s' pt dst va len
  rcases hr2 with ⟨_, p, hp, hp0⟩ | ⟨c, _, h5⟩
  · rw [hxl] at hp0
    exact absurd hp0 (h2 p hp)
  · subst c
    refine ⟨dst', e2, fun i => ?_⟩
    rw [h5 i]
    by_cases hi : i < len
    · rw [if_pos ⟨Nat.zero_le _, by omega⟩, if_pos hi, userByte_eq]
      have e3 : userAddr s' pt (va + (i - 0)) = userAddr s pt (va + i) := by
        unfold userAddr
        rw [hxl, Nat.sub_zero]
      rw [e3, h4 hinj i hi, Nat.zero_add]
      exact Nat.mod_eq_of_lt (hsrc i hi)
    · rw [if_neg (by omega), if_neg hi]

theorem demoHello_run : copyout demoUser2 demoRoot 4093 demoMsg 11 = .ok 0 demoHello := by rfl

theorem demo_touch (p : Nat) (h : touches 4093 11 p) : p % 4096 = 0 := by
  unfold touches PGSIZE at h
  exact h.1

theorem copyout_then_copyin_witness :
    ∃ dst', copyin demoHello demoRoot demoDst 4093 11 = .ok (0, dst') demoHello ∧
      ∀ i, dst' i = if i < 11 then demoMsg i else demoDst i := by
  obtain ⟨fl, _, _, u1, u2⟩ := demoUser2_ok
  exact copyout_then_copyin demoUser2 demoRoot 4093 11 demoMsg demoDst demoHello
    (by decide) (by decide)
    (fun p hp hx => u1 p (demo_touch p hp) hx)
    (fun p q hp hq hx => by
      by_cases c : xlate demoUser2 demoRoot p = 0
      · have hp2 : p = 0 ∨ p = 4096 := by unfold touches PGSIZE at hp; omega
        exfalso
        rcases hp2 with e | e
        · rw [e] at c; revert c; decide
        · rw [e] at c; revert c; decide
      · exact u2 p q (demo_touch p hp) (demo_touch q hq) c hx)
    demoHello_run

/-! ### C5 -/

/-- C5. `copyout` and `copyin` fail exactly on an untranslatable page: in an address space
whose root is page-aligned and in which no frame of a touched page is a page-table page
(the data model's exclusive ownership), `copyout` and `copyin` both return, with 0 or -1,
and the result is -1 if and only if some virtual page that intersects `[va, va+len)`
makes `walkaddr` return 0; for `len = 0` both return 0. Only the result of `walkaddr`,
hence only the valid and user bits, enters the result. -/
theorem copy_fails_iff_untranslatable (s : KState) (pt va len : Nat) (src dst : Buf)
    (hpt : pt % PGSIZE = 0)
    (hsep : ∀ p, touches va len p → xlate s pt p ≠ 0 → ¬ IsTable s.mem pt (xlate s pt p)) :
    (∃ r s', copyout s pt va src len = .ok r s' ∧ (r = 0 ∨ r = -1) ∧
      (r = -1 ↔ ∃ p, touches va len p ∧ walkaddr s pt p = .ok 0 s)) ∧
    (∃ r dst', copyin s pt dst va len = .ok (r, dst') s ∧ (r = 0 ∨ r = -1) ∧
      (r = -1 ↔ ∃ p, touches va len p ∧ walkaddr s pt p = .ok 0 s)) ∧
    (len = 0 → copyout s pt va src len = .ok 0 s ∧
      copyin s pt dst va len = .ok (0, dst) s) := by
  refine ⟨?_, ?_, ?_⟩
  · obtain ⟨r, s1, e, _, _, hr⟩ := copyout_spec s pt va src len hpt hsep
    refine ⟨r, s1, e, ?_, ?_⟩
    · rcases hr with ⟨c, _⟩ | ⟨c, _⟩
      · exact Or.inr c
      · exact Or.inl c
    · rcases hr with ⟨c, p, hp, hp0⟩ | ⟨c, h2, _⟩
      · exact ⟨fun _ => ⟨p, hp, (walkaddr_zero_iff s pt p).mpr hp0⟩, fun _ => c⟩
      · constructor
        · intro c2; omega
        · rintro ⟨p, hp, hp0⟩
          exact absurd ((walkaddr_zero_iff s pt p).mp hp0) (h2 p hp)
  · obtain ⟨r, dst', e, hr⟩ := copyin_spec s pt dst va len
    refine ⟨r, dst', e, ?_, ?_⟩
    · rcases hr with ⟨c, _⟩ | ⟨c, _⟩
      · exact Or.inr c
      · exact Or.inl c
    · rcases hr with ⟨c, p, hp, hp0⟩ | ⟨c, h2, _⟩
      · exact ⟨fun _ => ⟨p, hp, (walkaddr_zero_iff s pt p).mpr hp0⟩, fun _ => c⟩
      · constructor
        · intro c2; omega
        · rintro ⟨p, hp, hp0⟩
          exact absurd ((walkaddr_zero_iff s pt p).mp hp0) (h2 p hp)
  · intro h0
    subst h0
    constructor
    · unfold copyout
      rw [loopfuel_eq, copyoutLoop]
      rfl
    · unfold copyin copyin_new
      rw [loopfuel_eq, copyinLoop]
      rfl

theorem copy_fails_iff_untranslatable_witness :
    (∃ r s', copyout demoUser2 demoRoot 8190 demoMsg 4 = .ok r s' ∧ (r = 0 ∨ r = -1) ∧
      (r = -1 ↔ ∃ p, touches 8190 4 p ∧ walkaddr demoUser2 demoRoot p = .ok 0 demoUser2)) ∧
    (∃ r dst', copyin demoUser2 demoRoot demoDst 8190 4 = .ok (r, dst') demoUser2 ∧
      (r = 0 ∨ r = -1) ∧
      (r = -1 ↔ ∃ p, touches 8190 4 p ∧ walkaddr demoUser2 demoRoot p = .ok 0 demoUser2)) ∧
    ((4 : Nat) = 0 → copyout demoUser2 demoRoot 8190 demoMsg 4 = .ok 0 demoUser2 ∧
      copyin demoUser2 demoRoot demoDst 8190 4 = .ok (0, demoDst) demoUser2) := by
  obtain ⟨fl, _, _, u1, _⟩ := demoUser2_ok
  exact copy_fails_iff_untranslatable demoUser2 demoRoot 8190 4 demoMsg demoDst (by decide)
    (fun p hp hx => u1 p (by unfold touches PGSIZE at hp; exact hp.1) hx)

/-! ### C6 -/

/-- C6. `copyinstr` stops at the first NUL within `max`: if `j < max` is the index of the
first zero byte of user memory from `srcva` and the pages of bytes `0..j` translate, then
`copyinstr` returns 0, `dst[0..j]` holds those `j+1` bytes (the string and its NUL) and
`dst` beyond `j` is unchanged; if the pages of the first `max` bytes translate and none of
these bytes is zero (in particular for `max = 0`), it returns -1. -/
theorem copyinstr_first_nul (s : KState) (pt : Nat) (dst : Buf) (srcva max : Nat) :
    (∀ j, j < max →
      (∀ i, i ≤ j → xlate s pt (PGROUNDDOWN (srcva + i)) ≠ 0) →
      userByte s pt (srcva + j) = 0 →
      (∀ i, i < j → userByte s pt (srcva + i) ≠ 0) →
      ∃ dst', copyinstr s pt dst srcva max = .ok (0, dst') s ∧
        ∀ i, dst' i = if i ≤ j then userByte s pt (srcva + i) else dst i) ∧
    ((∀ i, i < max → xlate s pt (PGROUNDDOWN (srcva + i)) ≠ 0 ∧
        userByte s pt (srcva + i) ≠ 0) →
      ∃ dst', copyinstr s pt dst srcva max = .ok (-1, dst') s) := by
  constructor
  · intro j hj htr hz hnz
    obtain ⟨dst', e, hd⟩ := copyinstrLoop_nul s pt (MAXVA / PGSIZE) srcva
      { got_null := false, dst := dst, di := 0, max := max } j rfl hj htr hz hnz
      (fuel_enough srcva)
    refine ⟨dst', e, fun i => ?_⟩
    have hd' : dst' i = if 0 ≤ i ∧ i ≤ 0 + j then userByte s pt (srcva + (i - 0))
        else dst i := hd i
    rw [hd']
    by_cases hi : i ≤ j
    · rw [if_pos ⟨Nat.zero_le _, by omega⟩, if_pos hi, Nat.sub_zero]
    · rw [if_neg (fun c => hi (by have := c.2; omega)), if_neg hi]
  · intro hall
    exact copyinstrLoop_nonul s pt (MAXVA / PGSIZE) srcva
      { got_null := false, dst := dst, di := 0, max := max } rfl hall (fuel_enough srcva)

theorem copyinstr_first_nul_witness :
    (∃ dst', copyinstr demoHello demoRoot demoDst 4093 20 = .ok (0, dst') demoHello ∧
      ∀ i, dst' i = if i ≤ 5 then [104, 101, 108, 108, 111, 0].getD i 0 else 0xff) ∧
    (∃ dst', copyinstr demoHello demoRoot demoDst 4093 3 = .ok (-1, dst') demoHello) := by
  constructor
  · obtain ⟨dst', e, hd⟩ := (copyinstr_first_nul demoHello demoRoot demoDst 4093 20).1 5
      (by decide) (by decide) (by decide) (by decide)
    refine ⟨dst', e, fun i => ?_⟩
    rw [hd i]
    by_cases hi : i ≤ 5
    · rw [if_pos hi, if_pos hi]
      have : i = 0 ∨ i = 1 ∨ i = 2 ∨ i = 3 ∨ i = 4 ∨ i = 5 := by omega
      rcases this with c | c | c | c | c | c <;> (rw [c]; decide)
    · rw [if_neg hi, if_neg hi]
      rfl
  · exact (copyinstr_first_nul demoHello demoRoot demoDst 4093 3).2 (by decide)

/-! ### C2 -/

/-- C2 (amended). Unmap-then-translate: in a well-formed state, for page-aligned `va` and
a page count `n` with `va + n*4096 < 2^64` (when `do_free` is set, the pages of the range
own their frames), if `uvmunmap(pt, va, n, do_free)` returns then `walkaddr(pt, a)`
returns 0 for every `a` in `[va, va + n*4096)`, and for every `a` outside that range it
returns what it returned before the call. -/
theorem uvmunmap_then_walkaddr (L : Layout) (s : KState) (pt va n : Nat) (do_free : Bool)
    (fl : List Nat) (s' : KState) (inv : Inv L s pt fl) (hva : va % PGSIZE = 0)
    (hn : va + n * PGSIZE < 2 ^ 64)
    (hown : do_free = true → OwnedFrames s pt fl va (va + n * PGSIZE))
    (h : uvmunmap L s pt va n do_free = .ok () s') :
    (∀ a, va ≤ a → a < va + n * PGSIZE → walkaddr s' pt a = .ok 0 s') ∧
    (∀ a, ¬ (va ≤ a ∧ a < va + n * PGSIZE) →
      ∃ r, walkaddr s pt a = .ok r s ∧ walkaddr s' pt a = .ok r s') := by
  unfold uvmunmap at h
  rw [if_neg (by omega), Nat.mod_eq_of_lt hn] at h
  have hb : (va + n * PGSIZE) % 4096 = 0 := by unfold PGSIZE at *; omega
  obtain ⟨freedL, inv', _, _, _, hleaf, _, _, _⟩ :=
    uvmunmapLoop_spec L pt (va + n * PGSIZE) do_free hb LOOPFUEL s va fl s' inv
      (by unfold PGSIZE at hva; exact hva) hown h
  constructor
  · intro a h1 h2
    rw [walkaddr_eq]
    by_cases hm : a < MAXVA
    · have hl : leafOf s'.mem pt a = 0 := by rw [hleaf a hm, if_pos ⟨h1, h2⟩]
      rw [walkaddrVal_leaf _ _ _ inv'.table hm, hl]
      rfl
    · unfold walkaddrVal
      rw [if_pos (by omega)]
  · intro a ha
    refine ⟨walkaddrVal s.mem pt a, walkaddr_eq s pt a, ?_⟩
    rw [walkaddr_eq]
    by_cases hm : a < MAXVA
    · have hl : leafOf s'.mem pt a = leafOf s.mem pt a := by rw [hleaf a hm, if_neg ha]
      rw [walkaddrVal_leaf _ _ _ inv'.table hm, walkaddrVal_leaf _ _ _ inv.table hm, hl]
    · unfold walkaddrVal
      rw [if_pos (by omega), if_pos (by omega)]

theorem uvmunmap_then_walkaddr_witness :
    (∀ a, 4096 ≤ a → a < 4096 + 1 * PGSIZE →
      walkaddr ((uvmunmap demoLayout demoUser2 demoRoot 4096 1 true).st demoEmpty) demoRoot a
        = .ok 0 ((uvmunmap demoLayout demoUser2 demoRoot 4096 1 true).st demoEmpty)) ∧
    (∀ a, ¬ (4096 ≤ a ∧ a < 4096 + 1 * PGSIZE) →
      ∃ r, walkaddr demoUser2 demoRoot a = .ok r demoUser2 ∧
        walkaddr ((uvmunmap demoLayout demoUser2 demoRoot 4096 1 true).st demoEmpty)
          demoRoot a
          = .ok r ((uvmunmap demoLayout demoUser2 demoRoot 4096 1 true).st demoEmpty)) := by
  obtain ⟨fl, inv, own, _, _⟩ := demoUser2_ok
  exact uvmunmap_then_walkaddr demoLayout demoUser2 demoRoot 4096 1 true fl _ inv
    (by decide) (by decide)
    (fun _ => owned_mono _ _ _ 0 8192 _ _ own (by decide) (by decide)) (by rfl)

/-- C2 as written fails: without a bound on the page count the byte count `n*4096`
wraps. In the well-formed state `demoUser2`, `uvmunmap(pt, 0, 2^52, 0)` returns without
unmapping anything, and `walkaddr(pt, 0)` still returns the frame of page 0 although
`0` lies in `[0, 0 + 2^52 * 4096)`. -/
theorem uvmunmap_wrap_counterexample :
    ¬ (∀ (L : Layout) (s : KState) (pt va n : Nat) (do_free : Bool) (fl : List Nat)
        (s' : KState), Inv L s pt fl → va % PGSIZE = 0 →
        (do_free = true → OwnedFrames s pt fl va (va + n * PGSIZE)) →
        uvmunmap L s pt va n do_free = .ok () s' →
        ∀ a, va ≤ a → a < va + n * PGSIZE → walkaddr s' pt a = .ok 0 s') := by
  intro H
  obtain ⟨fl, inv, _, _, _⟩ := demoUser2_ok
  have h0 := H demoLayout demoUser2 demoRoot 0 (2 ^ 52) false fl demoUser2 inv (by decide)
    (fun c => Bool.noConfusion c) (by rfl) 0 (Nat.le_refl _) (by decide)
  have h1 := (walkaddr_zero_iff demoUser2 demoRoot 0).mp h0
  revert h1
  decide

/-! ## `uvmcopy` -/

/-- Frame rule of `copyout`, whatever it returns: a byte outside the frames of the touched
pages is not written. -/
theorem copyoutLoop_frame (pt : Nat) (hpt : pt % 4096 = 0) (src : Buf) :
    ∀ (fuel : Nat) (s : KState) (dstva off len : Nat) (r : Int) (s' : KState),
    (∀ p, touches dstva len p → xlate s pt p ≠ 0 → ¬ IsTable s.mem pt (xlate s pt p)) →
    copyoutLoop fuel s pt dstva src off len = .ok r s' →
    ∀ x, (∀ p, touches dstva len p → xlate s pt p ≠ 0 → ¬ inPage (xlate s pt p) x) →
      s'.mem x = s.mem x := by
  intro fuel
  induction fuel with
  | zero => intro s dstva off len r s' _ h; rw [copyoutLoop] at h; cases h
  | succ k ih =>
    intro s dstva off len r s' hsep h x hx
    rw [copyoutLoop] at h
    by_cases hl : len > 0
    case neg =>
      rw [if_neg hl] at h
      injection h with _ h2
      rw [h2]
    case pos =>
      rw [if_pos hl] at h
      simp only [] at h
      rw [walkaddr_eq, bind_ok] at h
      by_cases hx0 : walkaddrVal s.mem pt (PGROUNDDOWN dstva) = 0
      · rw [if_pos hx0] at h
        injection h with _ h2
        rw [h2]
      · rw [if_neg hx0] at h
        obtain ⟨g0, g1, g2⟩ := PGROUNDDOWN_spec dstva
        obtain ⟨n, hn, n0, n1, n2, n3⟩ :=
          chunk_spec (dstva - PGROUNDDOWN dstva) len (by omega) hl
        simp only [hn] at h
        have ht0 : touches dstva len (PGROUNDDOWN dstva) := by
          unfold touches PGSIZE; omega
        have hxx : xlate s pt (PGROUNDDOWN dstva) ≠ 0 := by rw [xlate_eq]; exact hx0
        have hpa := xlate_aligned s pt (PGROUNDDOWN dstva)
        rw [xlate_eq] at hpa
        have hsame : ∀ p, IsTable s.mem pt p → SamePage s.mem
            (memmoveOut s.mem
              (walkaddrVal s.mem pt (PGROUNDDOWN dstva) + (dstva - PGROUNDDOWN dstva))
              src off n) p := by
          intro p hp y hyp
          have hne : p ≠ xlate s pt (PGROUNDDOWN dstva) := by
            intro e
            exact hsep _ ht0 hxx (e ▸ hp)
          rw [xlate_eq] at hne
          have hpal := isTable_aligned _ _ _ hpt hp
          have : ¬ (walkaddrVal s.mem pt (PGROUNDDOWN dstva) + (dstva - PGROUNDDOWN dstva) ≤ y ∧
              y < walkaddrVal s.mem pt (PGROUNDDOWN dstva) + (dstva - PGROUNDDOWN dstva) + n) := by
            unfold inPage PGSIZE at hyp
            omega
          simp only [memmoveOut, this, if_false]
        have hxl : ∀ va, xlate
            (KState.mk (memmoveOut s.mem
                  (walkaddrVal s.mem pt (PGROUNDDOWN dstva) + (dstva - PGROUNDDOWN dstva))
                  src off n) s.freelist) pt va = xlate s pt va := by
          intro va
          rw [xlate_eq, xlate_eq]
          exact walkaddrVal_same _ _ _ hsame va
        have hit : ∀ p, IsTable
            (memmoveOut s.mem
                  (walkaddrVal s.mem pt (PGROUNDDOWN dstva) + (dstva - PGROUNDDOWN dstva))
                  src off n) pt p ↔ IsTable s.mem pt p :=
          fun p => isTable_same _ _ _ (fun q hq => hsame q (Or.inl hq)) p
        have htail : ∀ p, touches (PGROUNDDOWN dstva + PGSIZE) (len - n) p →
            touches dstva len p := by
          intro p hp
          unfold touches PGSIZE at *
          omega
        have e1 := ih (KState.mk (memmoveOut s.mem
              (walkaddrVal s.mem pt (PGROUNDDOWN dstva) + (dstva - PGROUNDDOWN dstva))
              src off n) s.freelist)
          (PGROUNDDOWN dstva + PGSIZE) (off + n) (len - n) r s'
          (by
            intro p hp hne
            rw [hxl] at hne ⊢
            show ¬ IsTable (memmoveOut s.mem _ src off n) pt _
            rw [hit]
            exact hsep p (htail p hp) hne)
          h x
          (by
            intro p hp hne
            rw [hxl] at hne ⊢
            exact hx p (htail p hp) hne)
        rw [e1]
        have hnx := hx _ ht0 hxx
        rw [xlate_eq] at hnx
        have : ¬ (walkaddrVal s.mem pt (PGROUNDDOWN dstva) + (dstva - PGROUNDDOWN dstva) ≤ x ∧
            x < walkaddrVal s.mem pt (PGROUNDDOWN dstva) + (dstva - PGROUNDDOWN dstva) + n) := by
          unfold inPage PGSIZE at hnx
          omega
        simp only [memmoveOut, this, if_false]

theorem mapping_same (s s' : KState) (pt : Nat) (ok : TableOK s.mem pt)
    (h : ∀ p, IsTable s.mem pt p → SamePage s.mem s'.mem p) (va : Nat) :
    mapping s' pt va = mapping s pt va := by
  by_cases hm : va < MAXVA
  · have ok' : TableOK s'.mem pt := tableOK_same _ _ pt (fun p hp => h p (Or.inl hp)) ok
    rw [mapping_leaf s' pt va ok' hm, mapping_leaf s pt va ok hm, leafOf_same _ _ pt h va]
  · have hge : MAXVA ≤ va := Nat.le_of_not_lt hm
    rw [mapping_high s' pt va hge, mapping_high s pt va hge]

theorem flags_valid (x : Nat) (hx : x % 2 = 1) (f : Nat) :
    PTE_FLAGS (PA2PTE f ||| PTE_FLAGS x ||| PTE_V) = PTE_FLAGS x := by
  have hlt : PTE_FLAGS x < 1024 := by unfold PTE_FLAGS; omega
  obtain ⟨pm1, pm2, _, _⟩ := pte_make f (PTE_FLAGS x) hlt
  rw [pm1]
  have e : PTE_FLAGS x ||| 1 = PTE_FLAGS x := by
    apply Nat.eq_of_testBit_eq
    intro i
    rw [Nat.testBit_or]
    cases i with
    | zero =>
      have : (PTE_FLAGS x).testBit 0 = true := by
        rw [Nat.testBit_zero]
        unfold PTE_FLAGS
        simp only [decide_eq_true_eq]
        omega
      rw [this]
      rfl
    | succ j =>
      have : Nat.testBit 1 (j + 1) = false := by
        rw [Nat.testBit_succ]
        simp
      rw [this, Bool.or_false]
  rw [e]
  unfold PTE_FLAGS at *
  omega

/-- The two ways `uvmcopy` returns. -/
theorem uvmcopy_cases (L : Layout) (s : KState) (old new sz : Nat) (fl : List Nat) (r : Int)
    (s' : KState) (inv : Inv L s new fl) (src : SourceOK s old new fl sz)
    (h : uvmcopy L s old new sz = .ok r s') :
    (r = 0 ∧ (∃ i' fl', Grew L new (fun b => PTE_FLAGS (leafOf s.mem old b))
        (fun b k => s.mem (PTE2PA (leafOf s.mem old b) + k)) s fl 0 i' s' fl' ∧
        i' % 4096 = 0 ∧ sz ≤ i') ∧
      ∀ b, b % 4096 = 0 → b < sz → b < MAXVA ∧ leafOf s.mem old b % 2 = 1) ∨
    (r = -1 ∧ ∃ fl', RolledBack L new s fl s' fl') := by
  unfold uvmcopy at h
  rcases uvmcopyLoop_spec L old new sz s fl (fun f hf => (inv.alloc.frames f hf).1) src.table
      src.sep src.src LOOPFUEL s 0 fl r s' (grew_init L new _ _ s fl 0 inv) (by decide)
      (by decide) h with ⟨h1, ⟨i', fl', g, q1, q2, _⟩, q3⟩ | h2
  · exact Or.inl ⟨h1, ⟨i', fl', g, q1, q2⟩, fun b hb1 hb2 => q3 b hb1 (Nat.zero_le _) hb2⟩
  · exact Or.inr h2

/-! ### C7 -/

/-- C7. `uvmcopy` duplicates into independent frames: in a well-formed state with a
well-formed source address space, if `uvmcopy(old, new, sz)` returns 0 then for every
page-aligned `i < sz` the source maps `i` (before and after the call, to the same frame
`fs` with the same flags), the destination did not map `i` and now maps it with the same
flags to a frame `fd` taken from the free list, different from every source frame, whose
4096 bytes equal those of `fs`, which are unchanged; consequently any later
`copyout` to `new` within `[0, sz)` changes neither a mapping of `old` nor a byte of a
source frame. -/
theorem uvmcopy_success (L : Layout) (s : KState) (old new sz : Nat) (fl : List Nat)
    (s' : KState) (inv : Inv L s new fl) (src : SourceOK s old new fl sz)
    (h : uvmcopy L s old new sz = .ok 0 s') :
    (∀ i, i % PGSIZE = 0 → i < sz →
      ∃ fs fd flags, mapping s old i = some (fs, flags) ∧ mapping s new i = none ∧
        mapping s' old i = some (fs, flags) ∧ mapping s' new i = some (fd, flags) ∧
        fd ≠ fs ∧ fd ∈ fl ∧
        (∀ k, k < PGSIZE → s'.mem (fd + k) = s'.mem (fs + k) ∧
          s'.mem (fs + k) = s.mem (fs + k)) ∧
        (∀ j fs' g, j % PGSIZE = 0 → j < sz → mapping s' old j = some (fs', g) →
          fd ≠ fs')) ∧
    (∀ va len buf r s'', va + len ≤ sz → copyout s' new va buf len = .ok r s'' →
      (∀ a, mapping s'' old a = mapping s' old a) ∧
      ∀ i fs flags, i % PGSIZE = 0 → i < sz → mapping s' old i = some (fs, flags) →
        ∀ k, k < PGSIZE → s''.mem (fs + k) = s'.mem (fs + k)) := by
  rcases uvmcopy_cases L s old new sz fl 0 s' inv src h with
    ⟨_, ⟨i', fl', g, q1, q2⟩, q3⟩ | ⟨c, _⟩
  case inr => omega
  have hal0 : ∀ f, f ∈ fl → f % 4096 = 0 := fun f hf => (inv.alloc.frames f hf).1
  have hroot := src.table.root_al
  -- the source table and the source frames are untouched
  have hut : ∀ p, IsTable s.mem old p → SamePage s.mem s'.mem p := fun p hp =>
    grew_untouched L new _ _ s fl 0 i' s' fl' g hal0 p
      (isTable_aligned _ _ _ hroot hp) (src.sep p hp).1 (src.sep p hp).2
  have hmap : ∀ a, mapping s' old a = mapping s old a := mapping_same s s' old src.table hut
  have oks' : TableOK s'.mem old :=
    tableOK_same _ _ old (fun p hp => hut p (Or.inl hp)) src.table
  have hsf : ∀ b, b % 4096 = 0 → b < sz →
      SamePage s.mem s'.mem (PTE2PA (leafOf s.mem old b)) := fun b hb1 hb2 =>
    grew_untouched L new _ _ s fl 0 i' s' fl' g hal0 _ (PTE2PA_aligned _)
      (src.src b hb1 hb2 (q3 b hb1 hb2).1).1 (src.src b hb1 hb2 (q3 b hb1 hb2).1).2
  have hsrcmap : ∀ b, b % 4096 = 0 → b < sz →
      mapping s old b = some (PTE2PA (leafOf s.mem old b), PTE_FLAGS (leafOf s.mem old b)) := by
    intro b hb1 hb2
    obtain ⟨m1, m2⟩ := q3 b hb1 hb2
    rw [mapping_leaf s old b src.table m1, if_neg (by omega)]
  have hdst : ∀ b, b % 4096 = 0 → b < sz →
      PTE2PA (leafOf s'.mem new b) ∈ fl ∧
      mapping s' new b = some (PTE2PA (leafOf s'.mem new b),
        PTE_FLAGS (leafOf s.mem old b)) := by
    intro b hb1 hb2
    obtain ⟨m1, m2⟩ := q3 b hb1 hb2
    obtain ⟨l1, l2, _, _⟩ := g.leaf_in b hb1 (Nat.zero_le _) (by omega)
    have hfl : PTE_FLAGS (leafOf s.mem old b) < 1024 := by unfold PTE_FLAGS; omega
    obtain ⟨_, pf2⟩ := pte_frame (PTE2PA (leafOf s'.mem new b)) _ hfl (PTE2PA_aligned _)
      (PTE2PA_lt _)
    have hflags : PTE_FLAGS (leafOf s'.mem new b) = PTE_FLAGS (leafOf s.mem old b) := by
      rw [l1]
      exact flags_valid _ m2 _
    refine ⟨l2, ?_⟩
    rw [mapping_leaf s' new b g.inv.table m1, if_neg (by rw [l1]; omega), hflags]
  constructor
  · intro i hi1 hi2
    unfold PGSIZE at hi1
    obtain ⟨m1, m2⟩ := q3 i hi1 hi2
    obtain ⟨l1, l2, l3, l4⟩ := g.leaf_in i hi1 (Nat.zero_le _) (by omega)
    obtain ⟨d1, d2⟩ := hdst i hi1 hi2
    refine ⟨PTE2PA (leafOf s.mem old i), PTE2PA (leafOf s'.mem new i),
      PTE_FLAGS (leafOf s.mem old i), hsrcmap i hi1 hi2, ?_, ?_, d2, ?_, d1, ?_, ?_⟩
    · rw [mapping_leaf s new i inv.table m1, if_pos l4]
    · rw [hmap, hsrcmap i hi1 hi2]
    · intro e
      exact (src.src i hi1 hi2 m1).2 (e ▸ d1)
    · intro k hk
      unfold PGSIZE at hk
      have e1 := samePage_symm_read _ _ _ k (hsf i hi1 hi2) hk
      exact ⟨by rw [l3 k hk, e1], e1⟩
    · intro j fs' gg hj1 hj2 hj3 e
      unfold PGSIZE at hj1
      rw [hmap, hsrcmap j hj1 hj2] at hj3
      have e2 := (Prod.mk.inj (Option.some.inj hj3)).1
      exact (src.src j hj1 hj2 (q3 j hj1 hj2).1).2 (e2 ▸ e ▸ d1)
  · intro va len buf r s'' hvl hco
    unfold copyout at hco
    -- frames that `walkaddr` returns for touched pages are frames of the copy
    have hx : ∀ p, touches va len p → xlate s' new p ≠ 0 →
        xlate s' new p = PTE2PA (leafOf s'.mem new p) ∧ p % 4096 = 0 ∧ p < sz ∧
        p < MAXVA := by
      intro p hp hne
      have hp1 : p % 4096 = 0 := by unfold touches PGSIZE at hp; exact hp.1
      have hp2 : p < sz := by unfold touches at hp; omega
      rw [xlate_eq] at hne ⊢
      have hm := walkaddrVal_maxva _ _ _ hne
      rw [walkaddrVal_leaf _ _ _ g.inv.table hm] at hne ⊢
      by_cases c : leafOf s'.mem new p % 2 = 1 ∧ leafOf s'.mem new p / 16 % 2 = 1
      · rw [if_pos c]
        exact ⟨rfl, hp1, hp2, hm⟩
      · rw [if_neg c] at hne
        exact absurd rfl hne
    have hsep : ∀ p, touches va len p → xlate s' new p ≠ 0 →
        ¬ IsTable s'.mem new (xlate s' new p) := by
      intro p hp hne
      obtain ⟨x1, x2, x3, x4⟩ := hx p hp hne
      rw [x1]
      exact (g.owned p x2 (Nat.zero_le _) (by omega) x4).2.1
    have hfr := copyoutLoop_frame new g.inv.table.root_al buf LOOPFUEL s' va 0 len r s''
      hsep hco
    have hpage : ∀ q, q % 4096 = 0 → q ∉ fl → SamePage s'.mem s''.mem q := by
      intro q hq1 hq2 x hxq
      apply hfr x
      intro p hp hne
      obtain ⟨x1, x2, x3, x4⟩ := hx p hp hne
      rw [x1]
      have hd := (hdst p x2 x3).1
      exact pages_disjoint q _ x hq1 (PTE2PA_aligned _) (fun e => hq2 (e ▸ hd)) hxq
    have hut2 : ∀ p, IsTable s'.mem old p → SamePage s'.mem s''.mem p := by
      intro p hp
      have hp0 : IsTable s.mem old p :=
        (isTable_same _ _ old (fun q hq => hut q (Or.inl hq)) p).mp hp
      exact hpage p (isTable_aligned _ _ _ hroot hp0) (src.sep p hp0).2
    refine ⟨mapping_same s' s'' old oks' hut2, ?_⟩
    intro i fs flags hi1 hi2 hi3 k hk
    unfold PGSIZE at hi1 hk
    rw [hmap, hsrcmap i hi1 hi2] at hi3
    have e2 := (Prod.mk.inj (Option.some.inj hi3)).1
    rw [← e2]
    exact samePage_symm_read _ _ _ k
      (hpage _ (PTE2PA_aligned _) (src.src i hi1 hi2 (q3 i hi1 hi2).1).2) hk

/-! ### C8 -/

/-- C8. `uvmcopy` rolls back on failure: in a well-formed state with a well-formed source
address space and a destination with no mapping below `sz`, if `uvmcopy(old, new, sz)`
returns -1 then the destination has no mapping below `sz` (every mapping of `new` is as
before the call), every frame that was on the free list before the call is on it again
unless it has become a page-table page of `new` (every data frame allocated for a copy is
back), and the source is unchanged: its table pages, its mappings and the bytes of its
frames. -/
theorem uvmcopy_failure (L : Layout) (s : KState) (old new sz : Nat) (fl : List Nat)
    (s' : KState) (inv : Inv L s new fl) (src : SourceOK s old new fl sz)
    (hdst : ∀ va, va < sz → mapping s new va = none)
    (h : uvmcopy L s old new sz = .ok (-1) s') :
    (∀ va, va < sz → mapping s' new va = none) ∧
    (∀ va, mapping s' new va = mapping s new va) ∧
    (∃ fl', Inv L s' new fl' ∧ (∀ f, f ∈ fl → f ∈ fl' ∨ IsTable s'.mem new f) ∧
      (∀ f, f ∈ fl' → f ∈ fl)) ∧
    (∀ p, IsTable s.mem old p → SamePage s.mem s'.mem p) ∧
    (∀ va, mapping s' old va = mapping s old va) ∧
    (∀ i fs flags, i % PGSIZE = 0 → i < sz → mapping s old i = some (fs, flags) →
      ∀ k, k < PGSIZE → s'.mem (fs + k) = s.mem (fs + k)) := by
  rcases uvmcopy_cases L s old new sz fl (-1) s' inv src h with ⟨c, _⟩ | ⟨_, fl', rb⟩
  · omega
  have hal0 : ∀ f, f ∈ fl → f % 4096 = 0 := fun f hf => (inv.alloc.frames f hf).1
  have hroot := src.table.root_al
  have hut : ∀ p, IsTable s.mem old p → SamePage s.mem s'.mem p := fun p hp =>
    rolledBack_untouched L new s fl s' fl' rb hal0 p
      (isTable_aligned _ _ _ hroot hp) (src.sep p hp).1 (src.sep p hp).2
  have hnew : ∀ va, mapping s' new va = mapping s new va := by
    intro va
    by_cases hvm : va < MAXVA
    · rw [mapping_leaf s' new va rb.inv.table hvm, mapping_leaf s new va inv.table hvm]
      rcases rb.leaf va hvm with c | ⟨c1, c2⟩
      · rw [c]
      · rw [if_pos (by rw [c1]), if_pos c2]
    · have hge : MAXVA ≤ va := Nat.le_of_not_lt hvm
      rw [mapping_high s' new va hge, mapping_high s new va hge]
  refine ⟨fun va hva => by rw [hnew, hdst va hva], hnew, ⟨fl', rb.inv, rb.account, rb.sub⟩,
    hut, mapping_same s s' old src.table hut, ?_⟩
  intro i fs flags hi1 hi2 hi3 k hk
  unfold PGSIZE at hi1 hk
  have hm : i < MAXVA := by
    by_contra c
    rw [mapping_high s old i (by omega)] at hi3
    cases hi3
  rw [mapping_leaf s old i src.table hm] at hi3
  by_cases c : leafOf s.mem old i % 2 = 0
  · rw [if_pos c] at hi3
    cases hi3
  · rw [if_neg c] at hi3
    have e2 := (Prod.mk.inj (Option.some.inj hi3)).1
    rw [← e2]
    exact samePage_symm_read _ _ _ k
      (rolledBack_untouched L new s fl s' fl' rb hal0 _ (PTE2PA_aligned _)
        (src.src i hi1 hi2 hm).1 (src.src i hi1 hi2 hm).2) hk

/-! ## Instances for `uvmcopy` and `uvmalloc` -/

theorem freed_other (s : KState) (f x : Nat) (h : ¬ inPage f x) :
    (freed s f).mem x = s.mem x := by
  unfold inPage PGSIZE at h
  have c1 : ¬ (f ≤ x ∧ x < f + 8) := by omega
  have c2 : ¬ (f ≤ x ∧ x < f + PGSIZE) := by unfold PGSIZE; omega
  simp only [freed, wr64, memset, c1, c2, if_false]

theorem demoFree8_inv :
    Inv demoLayout demoFree8 demoRoot demoList8 ∧
    (∀ p, IsTable demoFree8.mem demoRoot p ↔ p = demoRoot) ∧
    (∀ va, leafOf demoFree8.mem demoRoot va = 0) ∧
    (∀ x, inPage demoNew x → demoFree8.mem x = 0) := by
  obtain ⟨i0, t0, l0⟩ := demoFree4_inv
  obtain ⟨_, i1, t1, l1, _, _⟩ := inv_freed demoLayout demoFree4 demoRoot 0x87004000 _ i0
    (by decide) (by rw [t0]; decide) (by decide) (by decide) (by decide)
  obtain ⟨_, i2, t2, l2, _, _⟩ := inv_freed demoLayout _ demoRoot 0x87005000 _ i1
    (by decide) (by rw [t1, t0]; decide) (by decide) (by decide) (by decide)
  obtain ⟨_, i3, t3, l3, _, _⟩ := inv_freed demoLayout _ demoRoot 0x87006000 _ i2
    (by decide) (by rw [t2, t1, t0]; decide) (by decide) (by decide) (by decide)
  obtain ⟨_, i4, t4, l4, _, _⟩ := inv_freed demoLayout _ demoRoot 0x87007000 _ i3
    (by decide) (by rw [t3, t2, t1, t0]; decide) (by decide) (by decide) (by decide)
  refine ⟨i4, fun p => ?_, fun va => ?_, fun x hx => ?_⟩
  · show IsTable (freed _ _).mem demoRoot p ↔ _
    rw [t4, t3, t2, t1, t0]
  · show leafOf (freed _ _).mem demoRoot va = 0
    rw [l4, l3, l2, l1, l0]
  · unfold inPage PGSIZE demoNew at hx
    unfold demoFree8 demoFree4
    rw [freed_other _ _ _ (by unfold inPage PGSIZE; omega),
      freed_other _ _ _ (by unfold inPage PGSIZE; omega),
      freed_other _ _ _ (by unfold inPage PGSIZE; omega),
      freed_other _ _ _ (by unfold inPage PGSIZE; omega),
      freed_other _ _ _ (by unfold inPage PGSIZE; omega),
      freed_other _ _ _ (by unfold inPage PGSIZE; omega),
      freed_other _ _ _ (by unfold inPage PGSIZE; omega),
      freed_other _ _ _ (by unfold inPage PGSIZE; omega)]
    rfl

/-- After an address space `old` has grown from empty to `sz`, an untouched zero page `new`
is the root of an empty table, and `old` is a well-formed source for a copy into it. -/
theorem fork_ready (L : Layout) (old new sz : Nat) (perm : Nat → Nat)
    (fill : Nat → Nat → Nat) (s0 : KState) (fl0 : List Nat) (s : KState) (fl : List Nat)
    (g : Grew L old perm fill s0 fl0 0 sz s fl) (hal0 : ∀ f, f ∈ fl0 → f % 4096 = 0)
    (hna : new % 4096 = 0) (hn0 : new ≠ 0) (hz : ∀ x, inPage new x → s0.mem x = 0)
    (hnt : ¬ IsTable s0.mem old new) (hnf : new ∉ fl0) :
    Inv L s new fl ∧ SourceOK s old new fl sz ∧ ∀ va, mapping s new va = none := by
  have same := grew_untouched L old perm fill s0 fl0 0 sz s fl g hal0 new hna hnt hnf
  have hz' : ∀ x, inPage new x → s.mem x = 0 := fun x hx => (same x hx).trans (hz x hx)
  obtain ⟨tok, tiff, tleaf⟩ := tableOK_zero s.mem new hna hn0 hz'
  refine ⟨⟨g.inv.alloc, tok, fun p hp c => ?_⟩, ⟨g.inv.table, fun p hp => ⟨fun c => ?_,
    g.inv.sep p hp⟩, fun b hb1 hb2 hb3 => ⟨fun c => ?_, (g.owned b hb1 (Nat.zero_le _) hb2
    hb3).1⟩⟩, fun va => ?_⟩
  · rw [(tiff p).mp hp] at c
    exact hnf (g.sub new c)
  · rw [(tiff p).mp c] at hp
    rcases g.tables_new new hp with d | d
    · exact hnt d
    · exact hnf d
  · obtain ⟨_, l2, _, _⟩ := g.leaf_in b hb1 (Nat.zero_le _) hb2
    rw [(tiff _).mp c] at l2
    exact hnf l2
  · by_cases hm : va < MAXVA
    · rw [mapping_leaf s new va tok hm, tleaf va]
      rfl
    · exact mapping_high s new va (Nat.le_of_not_lt hm)

theorem demoOld2_run :
    uvmalloc demoLayout demoFree8 demoRoot 0 8192 PTE_W = .ok 8192 demoOld2 := by rfl

theorem demoOld3_run :
    uvmalloc demoLayout demoFree8 demoRoot 0 12288 PTE_W = .ok 12288 demoOld3 := by rfl

theorem demoOld2_ok : ∃ fl, Inv demoLayout demoOld2 demoNew fl ∧
    SourceOK demoOld2 demoRoot demoNew fl 8192 ∧
    ∀ va, mapping demoOld2 demoNew va = none := by
  obtain ⟨i8, t8, _, z8⟩ := demoFree8_inv
  obtain ⟨fl, g⟩ := uvmalloc_fresh demoLayout demoFree8 demoRoot 8192 PTE_W demoList8
    demoOld2 i8 (by decide) (by decide) (by decide) demoOld2_run
  exact ⟨fl, fork_ready demoLayout demoRoot demoNew 8192 _ _ demoFree8 demoList8 demoOld2 fl g
    (fun f hf => (i8.alloc.frames f hf).1) (by decide) (by decide) z8
    (by rw [t8]; decide) (by decide)⟩

theorem demoOld3_ok : ∃ fl, Inv demoLayout demoOld3 demoNew fl ∧
    SourceOK demoOld3 demoRoot demoNew fl 12288 ∧
    ∀ va, mapping demoOld3 demoNew va = none := by
  obtain ⟨i8, t8, _, z8⟩ := demoFree8_inv
  obtain ⟨fl, g⟩ := uvmalloc_fresh demoLayout demoFree8 demoRoot 12288 PTE_W demoList8
    demoOld3 i8 (by decide) (by decide) (by decide) demoOld3_run
  exact ⟨fl, fork_ready demoLayout demoRoot demoNew 12288 _ _ demoFree8 demoList8 demoOld3 fl g
    (fun f hf => (i8.alloc.frames f hf).1) (by decide) (by decide) z8
    (by rw [t8]; decide) (by decide)⟩

theorem uvmcopy_success_witness :
    ∃ fs fd flags, mapping demoOld2 demoRoot 4096 = some (fs, flags) ∧
      mapping ((uvmcopy demoLayout demoOld2 demoRoot demoNew 8192).st demoEmpty) demoNew 4096
        = some (fd, flags) ∧ fd ≠ fs ∧
      ∀ k, k < PGSIZE →
        ((uvmcopy demoLayout demoOld2 demoRoot demoNew 8192).st demoEmpty).mem (fd + k) =
        ((uvmcopy demoLayout demoOld2 demoRoot demoNew 8192).st demoEmpty).mem (fs + k) := by
  obtain ⟨fl, inv, src, _⟩ := demoOld2_ok
  obtain ⟨fs, fd, flags, a, _, _, d, e, _, g, _⟩ :=
    (uvmcopy_success demoLayout demoOld2 demoRoot demoNew 8192 fl _ inv src (by rfl)).1 4096
      (by decide) (by decide)
  exact ⟨fs, fd, flags, a, d, e, fun k hk => (g k hk).1⟩

theorem uvmcopy_failure_witness :
    (∀ va, va < 12288 →
      mapping ((uvmcopy demoLayout demoOld3 demoRoot demoNew 12288).st demoEmpty) demoNew va
        = none) ∧
    (∀ va,
      mapping ((uvmcopy demoLayout demoOld3 demoRoot demoNew 12288).st demoEmpty) demoRoot va
        = mapping demoOld3 demoRoot va) := by
  obtain ⟨fl, inv, src, hd⟩ := demoOld3_ok
  obtain ⟨a, _, _, _, e, _⟩ :=
    uvmcopy_failure demoLayout demoOld3 demoRoot demoNew 12288 fl _ inv src
      (fun va _ => hd va) (by rfl)
  exact ⟨a, e⟩

theorem uvmalloc_success_witness :
    (8192 : Nat) = 8192 ∧
    (∀ a, a % PGSIZE = 0 → PGROUNDUP 0 ≤ a → a < 8192 →
      mapping demoFree4 demoRoot a = none ∧
      ∃ f, f ∈ demoList4 ∧
        mapping demoUser2 demoRoot a = some (f, PTE_V ||| PTE_R ||| PTE_U ||| PTE_W) ∧
        (∀ i, i < PGSIZE → demoUser2.mem (f + i) = 0) ∧
        ∀ b g, b % PGSIZE = 0 → PGROUNDUP 0 ≤ b → b < 8192 →
          mapping demoUser2 demoRoot b = some (f, g) → b = a) ∧
    (∀ va, ¬ (PGROUNDUP 0 ≤ PGROUNDDOWN va ∧ PGROUNDDOWN va < 8192) →
      mapping demoUser2 demoRoot va = mapping demoFree4 demoRoot va) :=
  uvmalloc_success demoLayout demoFree4 demoRoot 0 8192 PTE_W demoList4 8192 demoUser2
    demoFree4_inv.1 (by decide) (by decide) demoUser2_run (by decide)

theorem uvmalloc_failure_witness :
    (∀ va, mapping ((uvmalloc demoLayout demoFree4 demoRoot 0 12288 PTE_W).st demoEmpty)
        demoRoot va = mapping demoFree4 demoRoot va) ∧
    ∃ fl', Inv demoLayout ((uvmalloc demoLayout demoFree4 demoRoot 0 12288 PTE_W).st demoEmpty)
        demoRoot fl' ∧
      (∀ f, f ∈ demoList4 → f ∈ fl' ∨
        IsTable ((uvmalloc demoLayout demoFree4 demoRoot 0 12288 PTE_W).st demoEmpty).mem
          demoRoot f) ∧
      (∀ f, f ∈ fl' → f ∈ demoList4) :=
  uvmalloc_failure demoLayout demoFree4 demoRoot 0 12288 PTE_W demoList4 _
    demoFree4_inv.1 (by decide) (by decide) (by rfl)

/-! ## The loop budget is never exhausted

Every page loop stops (returns or panics) within `LOOPFUEL` iterations: `walk` panics
at `MAXVA`, and the loop variable advances by one page per iteration. -/

theorem bind_nofuel {α β : Type} (r : Res α) (f : α → KState → Res β) (hr : r ≠ .fuel)
    (hf : ∀ v s, r = .ok v s → f v s ≠ .fuel) : r.bind f ≠ .fuel := by
  cases r with
  | ok v s => exact hf v s rfl
  | panic msg => intro h; cases h
  | fuel => exact absurd rfl hr

theorem kalloc_fst (s : KState) : (kalloc s).1 = s.freelist := by
  unfold kalloc
  by_cases h : s.freelist ≠ 0
  · simp only [h, ne_eq, not_false_eq_true, if_true]
  · have h0 : s.freelist = 0 := not_not.mp h
    simp only [h0, ne_eq, not_true_eq_false, if_false]

theorem walkLevels_nofuel : ∀ (level : Nat) (s : KState) (pt va : Nat) (alloc : Bool),
    walkLevels level s pt va alloc ≠ .fuel := by
  intro level
  induction level with
  | zero => intro s pt va alloc h; rw [walkLevels] at h; cases h
  | succ k ih =>
    intro s pt va alloc
    rw [walkLevels]
    simp only []
    split_ifs
    · exact ih _ _ _ _
    · intro h; cases h
    · intro h; cases h
    · exact ih _ _ _ _

theorem walk_nofuel (s : KState) (pt va : Nat) (alloc : Bool) :
    walk s pt va alloc ≠ .fuel := by
  unfold walk
  split_ifs
  · intro h; cases h
  · exact walkLevels_nofuel _ _ _ _ _

theorem walk_ok_lt (s : KState) (pt va : Nat) (alloc : Bool) (v : Nat) (s' : KState)
    (h : walk s pt va alloc = .ok v s') : va < MAXVA := by
  unfold walk at h
  by_contra c
  rw [if_pos (by omega)] at h
  cases h

theorem kfree_nofuel (L : Layout) (s : KState) (pa : Nat) : kfree L s pa ≠ .fuel := by
  unfold kfree
  split_ifs
  · intro h; cases h
  · intro h; cases h

theorem mappagesLoop_nofuel (pt last perm : Nat) : ∀ (fuel : Nat) (s : KState) (a pa : Nat),
    MAXVA ≤ a + fuel * 4096 → mappagesLoop (fuel + 1) s pt a last pa perm ≠ .fuel := by
  intro fuel
  induction fuel with
  | zero =>
    intro s a pa hm
    rw [mappagesLoop]
    have : walk s pt a true = .panic "walk" := by unfold walk; rw [if_pos (by omega)]
    rw [this]
    intro h; cases h
  | succ k ih =>
    intro s a pa hm
    rw [mappagesLoop]
    apply bind_nofuel _ _ (walk_nofuel _ _ _ _)
    intro pte s1 hw
    have hlt := walk_ok_lt _ _ _ _ _ _ hw
    simp only []
    split_ifs
    · intro h; cases h
    · intro h; cases h
    · intro h; cases h
    · apply ih
      unfold PGSIZE MAXVA at *
      omega

theorem mappages_nofuel (s : KState) (pt va size pa perm : Nat) :
    mappages s pt va size pa perm ≠ .fuel := by
  unfold mappages
  split_ifs
  · intro h; cases h
  · rw [loopfuel_eq]
    exact mappagesLoop_nofuel pt _ perm _ s _ pa (fuel_enough va)

theorem mappages_ok_lt (s : KState) (pt va size pa perm : Nat) (r : Int) (s' : KState)
    (h : mappages s pt va size pa perm = .ok r s') : PGROUNDDOWN va < MAXVA := by
  unfold mappages at h
  by_contra c
  by_cases hs : size = 0
  · rw [if_pos hs] at h; cases h
  · rw [if_neg hs, loopfuel_eq, mappagesLoop] at h
    have : walk s pt (PGROUNDDOWN va) true = .panic "walk" := by
      unfold walk; rw [if_pos (by omega)]
    rw [this] at h
    cases h

theorem uvmunmapLoop_nofuel (L : Layout) (pt bound : Nat) (do_free : Bool) :
    ∀ (fuel : Nat) (s : KState) (a : Nat),
    MAXVA ≤ a + fuel * 4096 → uvmunmapLoop (fuel + 1) L s pt a bound do_free ≠ .fuel := by
  intro fuel
  induction fuel with
  | zero =>
    intro s a hm
    rw [uvmunmapLoop]
    have : walk s pt a false = .panic "walk" := by unfold walk; rw [if_pos (by omega)]
    rw [this]
    by_cases hb : a < bound
    · rw [if_pos hb]; intro h; cases h
    · rw [if_neg hb]; intro h; cases h
  | succ k ih =>
    intro s a hm
    rw [uvmunmapLoop]
    by_cases hb : a < bound
    · rw [if_pos hb]
      apply bind_nofuel _ _ (walk_nofuel _ _ _ _)
      intro pte s1 hw
      have hlt := walk_ok_lt _ _ _ _ _ _ hw
      have hnext : MAXVA ≤ (a + PGSIZE) % 2 ^ 64 + k * 4096 := by
        unfold PGSIZE MAXVA at *
        omega
      split_ifs
      · intro h; cases h
      · intro h; cases h
      · intro h; cases h
      · apply bind_nofuel _ _ (kfree_nofuel _ _ _)
        intro u s2 _
        exact ih _ _ hnext
      · apply bind_nofuel _ _ (by intro h; cases h)
        intro u s2 _
        exact ih _ _ hnext
    · rw [if_neg hb]; intro h; cases h

theorem uvmunmap_nofuel (L : Layout) (s : KState) (pt va n : Nat) (do_free : Bool) :
    uvmunmap L s pt va n do_free ≠ .fuel := by
  unfold uvmunmap
  split_ifs
  · intro h; cases h
  · rw [loopfuel_eq]
    apply uvmunmapLoop_nofuel
    have : MAXVA / PGSIZE * 4096 = MAXVA := by unfold MAXVA PGSIZE; norm_num
    omega

theorem uvmdealloc_nofuel (L : Layout) (s : KState) (pt oldsz newsz : Nat) :
    uvmdealloc L s pt oldsz newsz ≠ .fuel := by
  unfold uvmdealloc
  split_ifs
  · intro h; cases h
  · simp only []
    apply bind_nofuel _ _ (uvmunmap_nofuel _ _ _ _ _ _)
    intro _ _ _ h; cases h
  · intro h; cases h

theorem PGROUNDDOWN_ge (a : Nat) (h : MAXVA ≤ a) : MAXVA ≤ PGROUNDDOWN a := by
  unfold PGROUNDDOWN PGSIZE MAXVA at *
  omega

theorem uvmallocLoop_nofuel (L : Layout) (pt lo newsz xperm : Nat) :
    ∀ (fuel : Nat) (s : KState) (a : Nat),
    MAXVA ≤ a + fuel * 4096 → uvmallocLoop (fuel + 1) L s pt a lo newsz xperm ≠ .fuel := by
  intro fuel
  induction fuel with
  | zero =>
    intro s a hm
    rw [uvmallocLoop]
    split_ifs
    · cases hk : kalloc s with
      | mk mem s1 =>
        simp only []
        split_ifs
        · apply bind_nofuel _ _ (uvmdealloc_nofuel _ _ _ _ _)
          intro _ _ _ h; cases h
        · apply bind_nofuel _ _ (mappages_nofuel _ _ _ _ _ _)
          intro r s3 hmp
          have := mappages_ok_lt _ _ _ _ _ _ _ _ hmp
          have := PGROUNDDOWN_ge a (by omega)
          omega
    · intro h; cases h
  | succ k ih =>
    intro s a hm
    rw [uvmallocLoop]
    split_ifs
    · cases hk : kalloc s with
      | mk mem s1 =>
        simp only []
        split_ifs
        · apply bind_nofuel _ _ (uvmdealloc_nofuel _ _ _ _ _)
          intro _ _ _ h; cases h
        · apply bind_nofuel _ _ (mappages_nofuel _ _ _ _ _ _)
          intro r s3 hmp
          have h1 := mappages_ok_lt _ _ _ _ _ _ _ _ hmp
          have h2 : a < MAXVA := by
            by_contra c
            have := PGROUNDDOWN_ge a (by omega)
            omega
          split_ifs
          · apply bind_nofuel _ _ (kfree_nofuel _ _ _)
            intro _ _ _
            apply bind_nofuel _ _ (uvmdealloc_nofuel _ _ _ _ _)
            intro _ _ _ h; cases h
          · apply ih
            unfold PGSIZE MAXVA at *
            omega
    · intro h; cases h

theorem uvmalloc_nofuel (L : Layout) (s : KState) (pt oldsz newsz xperm : Nat) :
    uvmalloc L s pt oldsz newsz xperm ≠ .fuel := by
  unfold uvmalloc
  split_ifs
  · intro h; cases h
  · rw [loopfuel_eq]
    apply uvmallocLoop_nofuel
    have : MAXVA / PGSIZE * 4096 = MAXVA := by unfold MAXVA PGSIZE; norm_num
    omega

theorem uvmcopyLoop_nofuel (L : Layout) (old new sz : Nat) :
    ∀ (fuel : Nat) (s : KState) (i : Nat),
    MAXVA ≤ i + fuel * 4096 → uvmcopyLoop (fuel + 1) L s old new i sz ≠ .fuel := by
  intro fuel
  induction fuel with
  | zero =>
    intro s i hm
    rw [uvmcopyLoop]
    have : walk s old i false = .panic "walk" := by unfold walk; rw [if_pos (by omega)]
    rw [this]
    split_ifs
    · intro h; cases h
    · intro h; cases h
  | succ k ih =>
    intro s i hm
    rw [uvmcopyLoop]
    split_ifs
    · apply bind_nofuel _ _ (walk_nofuel _ _ _ _)
      intro pte s1 hw
      have hlt := walk_ok_lt _ _ _ _ _ _ hw
      split_ifs
      · intro h; cases h
      · intro h; cases h
      · cases hk : kalloc s1 with
        | mk mem s2 =>
          simp only []
          split_ifs
          · apply bind_nofuel _ _ (uvmunmap_nofuel _ _ _ _ _ _)
            intro _ _ _ h; cases h
          · apply bind_nofuel _ _ (mappages_nofuel _ _ _ _ _ _)
            intro r s4 _
            split_ifs
            · apply bind_nofuel _ _ (kfree_nofuel _ _ _)
              intro _ _ _
              apply bind_nofuel _ _ (uvmunmap_nofuel _ _ _ _ _ _)
              intro _ _ _ h; cases h
            · apply ih
              unfold PGSIZE MAXVA at *
              omega
    · intro h; cases h

theorem uvmcopy_nofuel (L : Layout) (s : KState) (old new sz : Nat) :
    uvmcopy L s old new sz ≠ .fuel := by
  unfold uvmcopy
  rw [loopfuel_eq]
  apply uvmcopyLoop_nofuel
  have : MAXVA / PGSIZE * 4096 = MAXVA := by unfold MAXVA PGSIZE; norm_num
  omega

/-! ## The allocator: `kfree`, `kalloc` and the free list -/

theorem freeList_det (m : Mem) : ∀ (l1 l2 : List Nat) (h : Nat),
    FreeList m h l1 → FreeList m h l2 → l1 = l2
  | [], [], _, _, _ => rfl
  | [], g :: _, h, a, b => by
    have a' : h = 0 := a
    obtain ⟨b1, b2, _⟩ := b
    exact absurd (b1.symm.trans a') b2
  | f :: _, [], h, a, b => by
    have b' : h = 0 := b
    obtain ⟨a1, a2, _⟩ := a
    exact absurd (a1.symm.trans b') a2
  | f :: r1, g :: r2, h, a, b => by
    obtain ⟨a1, _, a3⟩ := a
    obtain ⟨b1, _, b3⟩ := b
    have e : f = g := a1.symm.trans b1
    subst e
    rw [freeList_det m r1 r2 _ a3 b3]

theorem freeList_suffix (m : Mem) : ∀ (a : List Nat) (f : Nat) (b : List Nat) (h : Nat),
    FreeList m h (a ++ f :: b) → FreeList m f (f :: b)
  | [], f, b, h, hl => by
    obtain ⟨a1, a2, a3⟩ := hl
    exact ⟨rfl, a2, a3⟩
  | x :: a, f, b, h, hl => by
    obtain ⟨_, _, a3⟩ := hl
    exact freeList_suffix m a f b _ a3

/-- A null-terminated list threaded through memory holds no frame twice. -/
theorem freeList_nodup (m : Mem) : ∀ (fl : List Nat) (h : Nat), FreeList m h fl → fl.Nodup
  | [], _, _ => List.nodup_nil
  | f :: rest, h, hl => by
    obtain ⟨a1, a2, a3⟩ := hl
    refine List.nodup_cons.mpr ⟨fun hmem => ?_, freeList_nodup m rest _ a3⟩
    obtain ⟨a, b, e⟩ := List.append_of_mem hmem
    have s1 : FreeList m f (f :: b) := freeList_suffix m a f b _ (e ▸ a3)
    have s2 : FreeList m f (f :: rest) := ⟨rfl, a2, a3⟩
    have e2 := freeList_det m _ _ f s1 s2
    have e3 : b = rest := List.tail_eq_of_cons_eq e2
    have e4 := congrArg List.length e
    rw [← e3] at e4
    simp only [List.length_append, List.length_cons] at e4
    omega

theorem freeList_ne_zero (m : Mem) : ∀ (fl : List Nat) (h : Nat), FreeList m h fl →
    ∀ f, f ∈ fl → f ≠ 0
  | [], _, _, f, hf => by cases hf
  | g :: rest, h, hl, f, hf => by
    obtain ⟨_, a2, a3⟩ := hl
    rcases List.mem_cons.mp hf with e | e
    · rw [e]; exact a2
    · exact freeList_ne_zero m rest _ a3 f e

theorem freeList_tail_lt (m : Mem) (f : Nat) (rest : List Nat) (h : Nat)
    (hl : FreeList m h (f :: rest)) : ∀ g, g ∈ rest → g < 2 ^ 64 := by
  have a3 : FreeList m (rd64 m f) rest := hl.2.2
  clear hl
  induction rest generalizing f with
  | nil => intro g hg; cases hg
  | cons x r ih =>
    intro g hg
    obtain ⟨b1, b2, b3⟩ := a3
    rcases List.mem_cons.mp hg with e | e
    · rw [e, ← b1]; exact rd64_lt m f
    · exact ih x b3 g e

/-- `kfree` pushes: the list after a returning `kfree(pa)` is `pa` followed by the list
before. -/
theorem kfree_push (L : Layout) (s s' : KState) (pa : Nat) (fl : List Nat)
    (h : kfree L s pa = .ok () s') (hl : FreeList s.mem s.freelist fl)
    (hal : ∀ g, g ∈ fl → g % 4096 = 0) (hn : pa ∉ fl) (h0 : pa ≠ 0)
    (h64 : s.freelist < 2 ^ 64) : FreeList s'.mem s'.freelist (pa :: fl) := by
  obtain ⟨k1, _, _, k4⟩ := kfree_inv L s s' pa h
  subst k4
  refine ⟨rfl, h0, ?_⟩
  show FreeList _ (rd64 (wr64 (memset s.mem pa 1 PGSIZE) pa s.freelist) pa) fl
  rw [rd64_wr64_same, Nat.mod_eq_of_lt h64]
  exact freeList_frame _ _ fl _ hl
    (fun g hg => kfree_samePage s.mem pa s.freelist g k1 (hal g hg) (fun e => hn (e ▸ hg)))

/-! ### C17 -/

/-- C17. `kfree` fails fatally exactly on a bad frame address: for every state and every
`pa`, `kfree(pa)` panics if and only if `pa` is not a multiple of 4096, or `pa < end`, or
`pa ≥ PHYSTOP`; in every other case it returns, `kmem.freelist` is `pa`, the next pointer
stored in `pa` is the old head, the next `kalloc` returns `pa`, and the well-formed list of
frames `fl` it found has become `pa :: fl`. -/
theorem kfree_fatal_iff (L : Layout) (s : KState) (pa : Nat) :
    ((∃ msg, kfree L s pa = .panic msg) ↔
      (pa % PGSIZE ≠ 0 ∨ pa < L.kend ∨ L.phystop ≤ pa)) ∧
    (¬ (pa % PGSIZE ≠ 0 ∨ pa < L.kend ∨ L.phystop ≤ pa) →
      ∃ s', kfree L s pa = .ok () s' ∧ s'.freelist = pa ∧
        rd64 s'.mem pa = s.freelist % 2 ^ 64 ∧ (kalloc s').1 = pa ∧
        ∀ fl, FreeList s.mem s.freelist fl → (∀ g, g ∈ fl → g % PGSIZE = 0) → pa ∉ fl →
          pa ≠ 0 → s.freelist < 2 ^ 64 → FreeList s'.mem s'.freelist (pa :: fl)) := by
  constructor
  · constructor
    · rintro ⟨msg, h⟩
      by_contra c
      unfold kfree at h
      rw [if_neg (by intro d; exact c (by omega))] at h
      cases h
    · intro c
      refine ⟨"kfree", ?_⟩
      unfold kfree
      rw [if_pos (by omega)]
  · intro c
    have hk : kfree L s pa = .ok ()
        { mem := wr64 (memset s.mem pa 1 PGSIZE) pa s.freelist, freelist := pa } := by
      unfold kfree
      rw [if_neg (by intro d; exact c (by omega))]
    refine ⟨_, hk, rfl, ?_, ?_, ?_⟩
    · show rd64 (wr64 (memset s.mem pa 1 PGSIZE) pa s.freelist) pa = _
      rw [rd64_wr64_same]
    · rw [kalloc_fst]
    · intro fl hl hal hn h0 h64
      exact kfree_push L s _ pa fl hk hl (fun g hg => by have := hal g hg; unfold PGSIZE at this; exact this) hn h0 h64

/-! ### C15 -/

/-- One `kalloc` followed by `kfree` of the frame it returned leaves the list as found. -/
theorem kalloc_kfree_pair (L : Layout) (s : KState) (f : Nat) (rest : List Nat)
    (hl : FreeList s.mem s.freelist (f :: rest))
    (hfr : ∀ g, g ∈ f :: rest → g % 4096 = 0 ∧ L.kend ≤ g ∧ g < L.phystop) :
    (kalloc s).1 = f ∧ f ≠ 0 ∧
    ∃ s', kfree L (kalloc s).2 f = .ok () s' ∧ FreeList s'.mem s'.freelist (f :: rest) := by
  have hnd := freeList_nodup _ _ _ hl
  obtain ⟨a1, a2, a3⟩ := hl
  obtain ⟨f1, f2, f3⟩ := hfr f (List.mem_cons_self _ _)
  have hk : kalloc s = (f, { mem := memset s.mem f 5 PGSIZE, freelist := rd64 s.mem f }) := by
    unfold kalloc
    simp only [a1, ne_eq, a2, not_false_eq_true, if_true]
  have hnot : f ∉ rest := (List.nodup_cons.mp hnd).1
  have hkf : kfree L (kalloc s).2 f = .ok ()
      { mem := wr64 (memset (kalloc s).2.mem f 1 PGSIZE) f (kalloc s).2.freelist,
        freelist := f } := by
    unfold kfree
    rw [if_neg (by unfold PGSIZE; omega)]
  refine ⟨by rw [hk], a2, _, hkf, ?_⟩
  apply kfree_push L (kalloc s).2 _ f rest hkf
  · rw [hk]
    exact freeList_frame _ _ rest _ a3 (fun g hg =>
      memset_samePage s.mem f 5 g f1 (hfr g (List.mem_cons_of_mem _ hg)).1
        (fun e => hnot (e ▸ hg)))
  · exact fun g hg => (hfr g (List.mem_cons_of_mem _ hg)).1
  · exact hnot
  · exact a2
  · rw [hk]
    exact rd64_lt _ _

/-- C15. Allocate-then-free round trip: in every allocator state whose free list is the
non-empty sequence `f :: rest` of page-aligned frames of `[end, PHYSTOP)`, `kalloc`
returns the head `f`, the `kfree` of `f` that follows at once returns and leaves the free
list exactly `f :: rest` again; hence in `n` repetitions of the pair, for every `n`,
`kalloc` never returns 0 and the free list, so its length, is as it was. -/
theorem kalloc_then_kfree (L : Layout) (s : KState) (f : Nat) (rest : List Nat)
    (hl : FreeList s.mem s.freelist (f :: rest))
    (hfr : ∀ g, g ∈ f :: rest → g % PGSIZE = 0 ∧ L.kend ≤ g ∧ g < L.phystop) :
    (kalloc s).1 = f ∧
    (∃ s', kfree L (kalloc s).2 f = .ok () s' ∧ FreeList s'.mem s'.freelist (f :: rest)) ∧
    ∀ n, ∃ s', allocFreeRounds L n s = .ok 0 s' ∧
      FreeList s'.mem s'.freelist (f :: rest) := by
  have hfr' : ∀ g, g ∈ f :: rest → g % 4096 = 0 ∧ L.kend ≤ g ∧ g < L.phystop := by
    intro g hg
    have := hfr g hg
    unfold PGSIZE at this
    exact this
  obtain ⟨p1, _, p3⟩ := kalloc_kfree_pair L s f rest hl hfr'
  refine ⟨p1, p3, fun n => ?_⟩
  clear p1 p3
  induction n generalizing s with
  | zero => exact ⟨s, rfl, hl⟩
  | succ k ih =>
    obtain ⟨q1, q2, s1, q3, q4⟩ := kalloc_kfree_pair L s f rest hl hfr'
    obtain ⟨s2, r1, r2⟩ := ih s1 q4
    refine ⟨s2, ?_, r2⟩
    rw [allocFreeRounds, if_neg (by rw [q1]; exact q2), q1, q3, bind_ok]
    exact r1

theorem kalloc_then_kfree_witness :
    (kalloc demoFree4).1 = 0x87003000 ∧
    (∃ s', kfree demoLayout (kalloc demoFree4).2 0x87003000 = .ok () s' ∧
      FreeList s'.mem s'.freelist (0x87003000 :: [0x87002000, 0x87001000, 0x87000000])) ∧
    ∀ n, ∃ s', allocFreeRounds demoLayout n demoFree4 = .ok 0 s' ∧
      FreeList s'.mem s'.freelist (0x87003000 :: [0x87002000, 0x87001000, 0x87000000]) :=
  kalloc_then_kfree demoLayout demoFree4 0x87003000 [0x87002000, 0x87001000, 0x87000000]
    demoFree4_inv.1.alloc.list
    (fun g hg => by
      have := demoFree4_inv.1.alloc.frames g hg
      unfold PGSIZE
      exact this)

/-! ### C16 -/

/-- A list of distinct non-null page-aligned addresses below `2^64` has fewer than `2^52`
members. -/
theorem frames_length_lt (fl : List Nat) (hnd : fl.Nodup)
    (h : ∀ f, f ∈ fl → f % 4096 = 0 ∧ f < 2 ^ 64 ∧ f ≠ 0) : fl.length < 2 ^ 52 := by
  have hinj : ∀ a, a ∈ fl → ∀ b, b ∈ fl → a / 4096 - 1 = b / 4096 - 1 → a = b := by
    intro a ha b hb e
    obtain ⟨a1, _, a3⟩ := h a ha
    obtain ⟨b1, _, b3⟩ := h b hb
    omega
  have hnd2 : (fl.map (fun f => f / 4096 - 1)).Nodup :=
    (List.nodup_map_iff_inj_on hnd).mpr hinj
  have hsub : (fl.map (fun f => f / 4096 - 1)).toFinset ⊆ Finset.range (2 ^ 52 - 1) := by
    intro x hx
    rw [List.mem_toFinset, List.mem_map] at hx
    obtain ⟨f, hf, e⟩ := hx
    rw [Finset.mem_range, ← e]
    obtain ⟨a1, a2, a3⟩ := h f hf
    omega
  have hc := Finset.card_le_card hsub
  rw [List.toFinset_card_of_nodup hnd2, List.length_map, Finset.card_range] at hc
  omega

theorem allocOK_length_lt (L : Layout) (s : KState) (fl : List Nat) (ok : AllocOK L s fl) :
    fl.length < 2 ^ 52 :=
  frames_length_lt fl ok.nodup (fun f hf => by
    have h1 := ok.frames f hf
    have h2 := ok.top
    have h3 := ok.kend_pos
    exact ⟨h1.1, by omega, by omega⟩)

theorem get_free_memLoop_spec (s : KState) : ∀ (fl : List Nat) (fuel r pages : Nat),
    FreeList s.mem r fl → fl.length < fuel → pages + fl.length < 2 ^ 64 →
    get_free_memLoop fuel s r pages = .ok (pages + fl.length) s
  | [], fuel, r, pages, hl, hf, _ => by
    have h0 : r = 0 := hl
    cases fuel with
    | zero => simp at hf
    | succ k =>
      rw [get_free_memLoop, if_neg (by rw [h0]; simp)]
      rfl
  | f :: rest, fuel, r, pages, hl, hf, hp => by
    obtain ⟨a1, a2, a3⟩ := hl
    cases fuel with
    | zero => simp at hf
    | succ k =>
      simp only [List.length_cons] at hf hp
      rw [get_free_memLoop, if_pos (by rw [a1]; exact a2), a1,
        Nat.mod_eq_of_lt (by omega),
        get_free_memLoop_spec s rest k _ _ a3 (by omega) (by omega)]
      simp only [List.length_cons]
      have e : pages + 1 + rest.length = pages + (rest.length + 1) := by omega
      rw [e]

/-- What `get_free_mem` returns in a well-formed allocator state, in bytes. -/
theorem get_free_mem_len (L : Layout) (s : KState) (fl : List Nat) (ok : AllocOK L s fl) :
    get_free_mem s = .ok (fl.length * 4096) s := by
  have hb := allocOK_length_lt L s fl ok
  unfold get_free_mem
  rw [get_free_memLoop_spec s fl FRAMEFUEL s.freelist 0 ok.list
    (by unfold FRAMEFUEL; omega) (by omega), bind_ok, Nat.zero_add]
  have e : fl.length * 2 ^ 12 % 2 ^ 64 = fl.length * 4096 := by omega
  rw [e]

/-- C16 (amended). The free-memory query returns the free bytes: in every well-formed
allocator state with free list `fl`, `get_free_mem` returns `4096` times the number of
frames on the free list (the count shifted left by 12) and leaves memory and the free list
unchanged. -/
theorem get_free_mem_bytes (L : Layout) (s : KState) (fl : List Nat) (ok : AllocOK L s fl) :
    get_free_mem s = .ok (fl.length * PGSIZE) s := by
  have hb := allocOK_length_lt L s fl ok
  unfold get_free_mem
  have hfuel : fl.length < FRAMEFUEL := by unfold FRAMEFUEL; omega
  rw [get_free_memLoop_spec s fl FRAMEFUEL s.freelist 0 ok.list hfuel (by omega), bind_ok,
    Nat.zero_add]
  have e : fl.length * 2 ^ 12 % 2 ^ 64 = fl.length * PGSIZE := by unfold PGSIZE; omega
  rw [e]

theorem get_free_mem_bytes_witness :
    get_free_mem demoFree4 = .ok (demoList4.length * PGSIZE) demoFree4 :=
  get_free_mem_bytes demoLayout demoFree4 demoList4 demoFree4_inv.1.alloc

theorem demoFree4_free_mem : get_free_mem demoFree4 = .ok 16384 demoFree4 := by rfl

/-- C16 as written fails: `get_free_mem` does not return the number of frames. In the
well-formed state `demoFree4`, whose free list holds 4 frames, it returns 16384. -/
theorem get_free_mem_count_counterexample :
    ¬ (∀ (L : Layout) (s : KState) (fl : List Nat), AllocOK L s fl →
        get_free_mem s = .ok fl.length s) := by
  intro H
  have h1 := H demoLayout demoFree4 demoList4 demoFree4_inv.1.alloc
  rw [demoFree4_free_mem] at h1
  injection h1 with h2 _
  revert h2
  decide

/-! ### C19 -/

theorem samePath_of_page (va vb : Nat) (h : vb / 4096 = va / 4096) : samePath va vb := by
  have e : ∀ l v, PX l v = v / 4096 / 2 ^ (9 * l) % 512 := by
    intro l v
    unfold PX
    rw [Nat.pow_add, Nat.div_div_eq_div_mul]
  unfold samePath
  rw [e 2 va, e 2 vb, e 1 va, e 1 vb, e 0 va, e 0 vb, h]
  exact ⟨rfl, rfl, rfl⟩

/-- C19. The lookup contract of `walk`: for a well-formed table and `va < MAXVA`,
`walk(pt, va, 0)` returns, leaving memory and the free list unchanged; it returns 0 exactly
when the level-2 entry of `va` or the level-1 entry on its path is invalid, and otherwise
the address of the level-0 slot selected by the three 9-bit index fields of `va`; the
result is the same for every address of the same page. For `va ≥ MAXVA`, `walk` panics,
whatever `alloc` is. -/
theorem walk_lookup (s : KState) (pt va : Nat) (ok : TableOK s.mem pt) :
    (va < MAXVA →
      ∃ r, walk s pt va false = .ok r s ∧
        (r = 0 ↔ (ent2 s.mem pt va &&& PTE_V = 0 ∨ ent1 s.mem pt va &&& PTE_V = 0)) ∧
        (r ≠ 0 → r = PTE2PA (rd64 s.mem
            (PTE2PA (rd64 s.mem (pt + 8 * PX 2 va)) + 8 * PX 1 va)) + 8 * PX 0 va) ∧
        ∀ vb, vb / PGSIZE = va / PGSIZE → walk s pt vb false = .ok r s) ∧
    (MAXVA ≤ va → ∀ alloc, walk s pt va alloc = .panic "walk") := by
  constructor
  · intro hva
    obtain ⟨w1, w2⟩ := walkVal_ok s.mem pt va ok
    refine ⟨walkVal s.mem pt va, walk_noalloc s pt va hva, ?_, ?_, ?_⟩
    · rw [and_V, and_V]
      by_cases hv : has0 s.mem pt va
      · obtain ⟨_, b, _⟩ := w1 hv
        have h1 : ent2 s.mem pt va % 2 = 1 := hv.1
        have h2 : ent1 s.mem pt va % 2 = 1 := hv.2
        constructor
        · intro c; exact absurd c b
        · intro c; omega
      · obtain ⟨a, _⟩ := w2 hv
        constructor
        · intro _
          by_contra c
          apply hv
          exact ⟨by show ent2 s.mem pt va % 2 = 1; omega, by omega⟩
        · intro _; exact a
    · intro hr
      by_cases hv : has0 s.mem pt va
      · exact (w1 hv).1
      · exact absurd (w2 hv).1 hr
    · intro vb hvb
      unfold PGSIZE at hvb
      have hvb' : vb < MAXVA := by unfold MAXVA at *; omega
      rw [walk_noalloc s pt vb hvb']
      have sp := samePath_of_page va vb hvb
      obtain ⟨c1, _, _⟩ := path_congr0 s.mem pt va vb sp
      obtain ⟨_, _, _, c4⟩ := path_congr1 s.mem pt va vb sp.1 sp.2.1
      unfold walkVal
      by_cases hv : has0 s.mem pt va
      · rw [if_pos hv, if_pos (c4.mp hv), c1]
      · rw [if_neg hv, if_neg (fun c => hv (c4.mpr c))]
  · intro hva alloc
    unfold walk
    rw [if_pos hva]

theorem walk_lookup_witness :
    (4100 < MAXVA →
      ∃ r, walk demoUser2 demoRoot 4100 false = .ok r demoUser2 ∧
        (r = 0 ↔ (ent2 demoUser2.mem demoRoot 4100 &&& PTE_V = 0 ∨
          ent1 demoUser2.mem demoRoot 4100 &&& PTE_V = 0)) ∧
        (r ≠ 0 → r = PTE2PA (rd64 demoUser2.mem
            (PTE2PA (rd64 demoUser2.mem (demoRoot + 8 * PX 2 4100)) + 8 * PX 1 4100)) +
              8 * PX 0 4100) ∧
        ∀ vb, vb / PGSIZE = 4100 / PGSIZE → walk demoUser2 demoRoot vb false
          = .ok r demoUser2) ∧
    (MAXVA ≤ 4100 → ∀ alloc, walk demoUser2 demoRoot 4100 alloc = .panic "walk") := by
  obtain ⟨fl, inv, _⟩ := demoUser2_ok
  exact walk_lookup demoUser2 demoRoot 4100 inv.table

/-! ### C18 -/

theorem freerangeLoop_spec (L : Layout) (pa_end : Nat) (hend : pa_end ≤ L.phystop)
    (hwrap : pa_end + 8192 ≤ 2 ^ 64) :
    ∀ (n fuel : Nat) (s : KState) (p : Nat) (fl : List Nat),
    n < fuel → p % 4096 = 0 → 0 < p → L.kend ≤ p → p < pa_end + 4096 →
    pa_end < p + (n + 1) * 4096 →
    FreeList s.mem s.freelist fl → s.freelist < 2 ^ 64 →
    (∀ g, g ∈ fl → g % 4096 = 0 ∧ g < p) →
    ∃ s' fl', freerangeLoop fuel L s p pa_end = .ok () s' ∧
      FreeList s'.mem s'.freelist fl' ∧
      ∀ q, q ∈ fl' ↔ q ∈ fl ∨ (q % 4096 = 0 ∧ p ≤ q ∧ q + 4096 ≤ pa_end) := by
  intro n
  induction n with
  | zero =>
    intro fuel s p fl hf hp hp0 hk hpe hn hl h64 hfl
    cases fuel with
    | zero => omega
    | succ k =>
      refine ⟨s, fl, ?_, hl, fun q => ⟨Or.inl, fun c => ?_⟩⟩
      · rw [freerangeLoop, if_neg (by unfold PGSIZE; omega)]
      · rcases c with c | c
        · exact c
        · omega
  | succ m ih =>
    intro fuel s p fl hf hp hp0 hk hpe hn hl h64 hfl
    cases fuel with
    | zero => omega
    | succ k =>
      rw [freerangeLoop]
      have e : (p + PGSIZE) % 2 ^ 64 = p + 4096 := by unfold PGSIZE; omega
      rw [e]
      by_cases hc : p + 4096 ≤ pa_end
      · rw [if_pos hc]
        have hkf : kfree L s p = .ok ()
            { mem := wr64 (memset s.mem p 1 PGSIZE) p s.freelist, freelist := p } := by
          unfold kfree
          rw [if_neg (by unfold PGSIZE; omega)]
        rw [hkf, bind_ok]
        have hl1 := kfree_push L s _ p fl hkf hl (fun g hg => (hfl g hg).1)
          (fun c => by have := (hfl p c).2; omega) (by omega) h64
        obtain ⟨s', fl', r1, r2, r3⟩ := ih k _ (p + 4096) (p :: fl) (by omega) (by omega)
          (by omega) (by omega) (by omega) (by omega) hl1 (by show p < 2 ^ 64; omega)
          (fun g hg => by
            rcases List.mem_cons.mp hg with c | c
            · rw [c]; exact ⟨hp, by omega⟩
            · have := hfl g c
              exact ⟨this.1, by omega⟩)
        refine ⟨s', fl', r1, r2, fun q => ?_⟩
        rw [r3 q, List.mem_cons]
        constructor
        · rintro ((c | c) | c)
          · right; rw [c]; exact ⟨hp, Nat.le_refl _, hc⟩
          · left; exact c
          · right; exact ⟨c.1, by omega, c.2.2⟩
        · rintro (c | c)
          · left; right; exact c
          · by_cases hq : q = p
            · left; left; exact hq
            · right; exact ⟨c.1, by omega, c.2.2⟩
      · rw [if_neg hc]
        refine ⟨s, fl, rfl, hl, fun q => ⟨Or.inl, fun c => ?_⟩⟩
        rcases c with c | c
        · exact c
        · omega

/-- C18 (amended). Initialisation registers every whole page of the range: for
`0 < end ≤ pa_start ≤ pa_end ≤ PHYSTOP` with `pa_end + 8192 ≤ 2^64` (the pointer sums of
the loop do not wrap), `freerange(pa_start, pa_end)` on an empty free list returns, and the
free list then holds, each exactly once, precisely the page-aligned addresses `p` with
`pa_start ≤ p` and `p + 4096 ≤ pa_end`. -/
theorem freerange_registers (L : Layout) (s : KState) (pa_start pa_end : Nat)
    (hs : s.freelist = 0) (hk : 0 < L.kend) (h1 : L.kend ≤ pa_start)
    (h2 : pa_start ≤ pa_end) (h3 : pa_end ≤ L.phystop) (h4 : pa_end + 2 * PGSIZE ≤ 2 ^ 64) :
    ∃ s' fl, freerange L s pa_start pa_end = .ok () s' ∧
      FreeList s'.mem s'.freelist fl ∧ fl.Nodup ∧
      ∀ p, p ∈ fl ↔ (p % PGSIZE = 0 ∧ pa_start ≤ p ∧ p + PGSIZE ≤ pa_end) := by
  unfold PGSIZE at h4
  have hup : PGROUNDUP pa_start % 4096 = 0 ∧ pa_start ≤ PGROUNDUP pa_start ∧
      PGROUNDUP pa_start < pa_start + 4096 := by
    unfold PGROUNDUP PGSIZE
    omega
  obtain ⟨s', fl', r1, r2, r3⟩ := freerangeLoop_spec L pa_end h3 (by omega)
    (pa_end / 4096) FRAMEFUEL s (PGROUNDUP pa_start) [] (by unfold FRAMEFUEL; omega) hup.1
    (by omega) (by omega) (by omega) (by omega) (by rw [hs]; rfl) (by rw [hs]; decide)
    (fun g hg => by cases hg)
  refine ⟨s', fl', r1, r2, freeList_nodup _ _ _ r2, fun p => ?_⟩
  rw [r3 p]
  unfold PGSIZE
  constructor
  · rintro (c | c)
    · cases c
    · exact ⟨c.1, by omega, c.2.2⟩
  · intro c
    right
    exact ⟨c.1, by omega, c.2.2⟩

theorem freerange_registers_witness :
    ∃ s' fl, freerange demoLayout demoEmpty 0x80020000 0x80023064 = .ok () s' ∧
      FreeList s'.mem s'.freelist fl ∧ fl.Nodup ∧
      ∀ p, p ∈ fl ↔ (p % PGSIZE = 0 ∧ 0x80020000 ≤ p ∧ p + PGSIZE ≤ 0x80023064) :=
  freerange_registers demoLayout demoEmpty 0x80020000 0x80023064 rfl (by decide) (by decide)
    (by decide) (by decide) (by decide)

theorem demo_freerange_short :
    freerange demoLayout demoEmpty 0x80020000 0x80020064 = .ok () demoEmpty := by rfl

/-- C18 as written fails: a page that only begins below `pa_end` is not registered. With
`pa_start = 0x80020000` and `pa_end = 0x80020064`, `freerange` on the empty free list
returns and leaves the free list empty, although `0x80020000` is a page-aligned address
with `pa_start ≤ p < pa_end`. -/
theorem freerange_last_page_counterexample :
    ¬ (∀ (L : Layout) (s : KState) (pa_start pa_end : Nat), s.freelist = 0 → 0 < L.kend →
        L.kend ≤ pa_start → pa_start ≤ pa_end → pa_end ≤ L.phystop →
        pa_end + 2 * PGSIZE ≤ 2 ^ 64 →
        ∃ s' fl, freerange L s pa_start pa_end = .ok () s' ∧
          FreeList s'.mem s'.freelist fl ∧ fl.Nodup ∧
          ∀ p, p ∈ fl ↔ (p % PGSIZE = 0 ∧ pa_start ≤ p ∧ p < pa_end)) := by
  intro H
  obtain ⟨s', fl, r1, r2, _, r4⟩ := H demoLayout demoEmpty 0x80020000 0x80020064 rfl
    (by decide) (by decide) (by decide) (by decide) (by decide)
  rw [demo_freerange_short] at r1
  injection r1 with _ e
  subst e
  have hmem : 0x80020000 ∈ fl := (r4 0x80020000).mpr (by decide)
  have h0 := freeList_ne_zero _ _ _ r2
  cases fl with
  | nil => cases hmem
  | cons f rest =>
    obtain ⟨a1, a2, _⟩ := r2
    exact a2 a1.symm

/-! ### C20 -/

/-- What every returning run of the loop of `mappages` keeps: no valid leaf changes, and
a run that returns 0 found every page of its range unmapped. -/
theorem mappagesLoop_keep (L : Layout) (pt last perm : Nat) (hlast : last % 4096 = 0) :
    ∀ (fuel : Nat) (s : KState) (a pa : Nat) (fl : List Nat) (r : Int) (s' : KState),
    Inv L s pt fl → a % 4096 = 0 →
    mappagesLoop fuel s pt a last pa perm = .ok r s' →
    (r = 0 ∨ r = -1) ∧ ∃ fl', Ext L pt s fl s' fl' ∧ (r = -1 → fl' = []) ∧
      (∀ vb, vb < MAXVA → leafOf s.mem pt vb % 2 = 1 →
        leafOf s'.mem pt vb = leafOf s.mem pt vb) ∧
      (r = 0 → a ≤ last → last < MAXVA ∧ ∀ b, b % 4096 = 0 → a ≤ b → b ≤ last →
        leafOf s.mem pt b % 2 = 0) := by
  intro fuel
  induction fuel with
  | zero => intro s a pa fl r s' _ _ h; rw [mappagesLoop] at h; cases h
  | succ k ih =>
    intro s a pa fl r s' inv ha h
    rw [mappagesLoop] at h
    cases hw : walk s pt a true with
    | panic msg => rw [hw] at h; cases h
    | fuel => rw [hw] at h; cases h
    | ok pte s1 =>
      rw [hw, bind_ok] at h
      obtain ⟨hva, fl1, g, p1, p2⟩ := walk_alloc L s pt a fl pte s1 inv hw
      by_cases hp0 : pte = 0
      · rw [if_pos hp0] at h
        injection h with h1 h2
        subst h2
        refine ⟨Or.inr h1.symm, fl1, g.ext, fun _ => p2 hp0, fun vb _ _ => g.leaf vb,
          fun c => ?_⟩
        rw [← h1] at c
        cases c
      · rw [if_neg hp0] at h
        obtain ⟨hv0, hpte⟩ := p1 hp0
        by_cases hval : rd64 s1.mem pte &&& PTE_V ≠ 0
        · rw [if_pos hval] at h; cases h
        · rw [if_neg hval] at h
          rw [and_V] at hval
          have hleaf1 : leafOf s1.mem pt a = rd64 s1.mem pte := by
            rw [hpte]; simp only [leafOf, hv0, if_true, ent0]
          obtain ⟨e2, hl2⟩ := ext_leaf_write L s1 pt a (PA2PTE pa ||| perm ||| PTE_V) fl1
            g.inv hv0
          rw [← hpte] at e2 hl2
          have hsp : ∀ vb, vb < MAXVA → (samePath a vb ↔ a ≤ vb ∧ vb < a + 4096) := by
            intro vb hvb
            rw [samePath_iff a vb (by unfold MAXVA at hva; omega)
              (by unfold MAXVA at hvb; omega)]
            omega
          have hunm : ∀ vb, a ≤ vb → vb < a + 4096 → leafOf s.mem pt vb % 2 = 0 := by
            intro vb h1 h2
            have hvb : vb < 2 ^ 39 := by unfold MAXVA at hva; omega
            have sp : samePath a vb :=
              (samePath_iff a vb (by unfold MAXVA at hva; omega) hvb).mpr (by omega)
            rw [← g.leaf vb, ← (path_congr0 s1.mem pt a vb sp).2.2, hleaf1]
            omega
          -- a valid leaf is not the one written
          have hkeep : ∀ vb, vb < MAXVA → leafOf s.mem pt vb % 2 = 1 →
              leafOf (wr64 s1.mem pte (PA2PTE pa ||| perm ||| PTE_V)) pt vb =
                leafOf s.mem pt vb := by
            intro vb hvb hv
            rw [hl2 vb]
            by_cases c : samePath a vb
            · have c' := (hsp vb hvb).mp c
              have := hunm vb c'.1 c'.2
              omega
            · rw [if_neg c]
              exact g.leaf vb
          have hother : ∀ vb, vb < MAXVA → ¬ (a ≤ vb ∧ vb < a + 4096) →
              leafOf (wr64 s1.mem pte (PA2PTE pa ||| perm ||| PTE_V)) pt vb =
                leafOf s.mem pt vb := by
            intro vb hvb hv
            rw [hl2 vb, if_neg (fun c => hv ((hsp vb hvb).mp c))]
            exact g.leaf vb
          by_cases hlast' : a = last
          · rw [if_pos hlast'] at h
            injection h with h1 h2
            subst h2
            refine ⟨Or.inl h1.symm, fl1, ext_trans L pt _ _ _ _ _ _ g.ext e2,
              fun c => ?_, hkeep, fun _ _ => ⟨by omega, fun b hb1 hb2 hb3 =>
                hunm b hb2 (by omega)⟩⟩
            rw [← h1] at c
            cases c
          · rw [if_neg hlast'] at h
            have ea : (a + PGSIZE) % 2 ^ 64 = a + 4096 := by
              unfold PGSIZE; unfold MAXVA at hva; omega
            rw [ea] at h
            obtain ⟨q0, fl', e3, q1, q2, q3⟩ :=
              ih _ (a + 4096) ((pa + PGSIZE) % 2 ^ 64) fl1 r s' e2.inv (by omega) h
            refine ⟨q0, fl', ext_trans L pt _ _ _ _ _ _ (ext_trans L pt _ _ _ _ _ _ g.ext e2) e3,
              q1, fun vb hvb hv => ?_, fun hr hle => ?_⟩
            · have k1 := hkeep vb hvb hv
              rw [q2 vb hvb (by rw [k1]; exact hv)]
              exact k1
            · obtain ⟨q4, q5⟩ := q3 hr (by omega)
              refine ⟨q4, fun b hb1 hb2 hb3 => ?_⟩
              by_cases c : b < a + 4096
              · exact hunm b hb2 c
              · have := q5 b hb1 (by omega) hb3
                rw [hother b (by omega) (by omega)] at this
                exact this

theorem mapping_some_leaf (s : KState) (pt vb f g : Nat) (ok : TableOK s.mem pt)
    (h : mapping s pt vb = some (f, g)) :
    vb < MAXVA ∧ leafOf s.mem pt vb % 2 = 1 := by
  have hm : vb < MAXVA := by
    by_contra c
    rw [mapping_high s pt vb (by omega)] at h
    cases h
  refine ⟨hm, ?_⟩
  rw [mapping_leaf s pt vb ok hm] at h
  by_cases c : leafOf s.mem pt vb % 2 = 0
  · rw [if_pos c] at h; cases h
  · omega

theorem mapping_ne_none_leaf (s : KState) (pt vb : Nat) (ok : TableOK s.mem pt)
    (h : mapping s pt vb ≠ none) :
    vb < MAXVA ∧ leafOf s.mem pt vb % 2 = 1 := by
  have hm : vb < MAXVA := by
    by_contra c
    exact h (mapping_high s pt vb (by omega))
  refine ⟨hm, ?_⟩
  rw [mapping_leaf s pt vb ok hm] at h
  by_cases c : leafOf s.mem pt vb % 2 = 0
  · rw [if_pos c] at h; exact absurd rfl h
  · omega

/-- C20 (amended). `mappages` never overwrites a mapping: in a well-formed state,
`mappages` panics when `size` is 0; when some page of `PGROUNDDOWN(va) ..
PGROUNDDOWN(va+size-1)` is already validly mapped it never returns 0: it panics, or it
returns -1 with the free list empty (the allocator ran out at an earlier page of the
range); and in every call that returns, with 0 or -1, every mapping that existed before
the call has the same frame and flags afterwards. -/
theorem mappages_no_overwrite (L : Layout) (s : KState) (pt va size pa perm : Nat)
    (fl : List Nat) (inv : Inv L s pt fl) :
    (size = 0 → mappages s pt va size pa perm = .panic "mappages: size") ∧
    ((∃ b, b % PGSIZE = 0 ∧ PGROUNDDOWN va ≤ b ∧
        b ≤ PGROUNDDOWN ((va + size - 1) % 2 ^ 64) ∧ mapping s pt b ≠ none) →
      (∃ msg, mappages s pt va size pa perm = .panic msg) ∨
      ∃ s', mappages s pt va size pa perm = .ok (-1) s' ∧ s'.freelist = 0) ∧
    (∀ r s', mappages s pt va size pa perm = .ok r s' →
      (r = 0 ∨ r = -1) ∧
      ∀ vb f g, mapping s pt vb = some (f, g) → mapping s' pt vb = some (f, g)) := by
  have hla : PGROUNDDOWN ((va + size - 1) % 2 ^ 64) % 4096 = 0 :=
    (PGROUNDDOWN_spec _).1
  have hkeep : ∀ r s', mappages s pt va size pa perm = .ok r s' →
      (r = 0 ∨ r = -1) ∧ ∃ fl', Ext L pt s fl s' fl' ∧ (r = -1 → fl' = []) ∧
      (∀ vb, vb < MAXVA → leafOf s.mem pt vb % 2 = 1 →
        leafOf s'.mem pt vb = leafOf s.mem pt vb) ∧
      (r = 0 → PGROUNDDOWN va ≤ PGROUNDDOWN ((va + size - 1) % 2 ^ 64) →
        PGROUNDDOWN ((va + size - 1) % 2 ^ 64) < MAXVA ∧
        ∀ b, b % 4096 = 0 → PGROUNDDOWN va ≤ b →
          b ≤ PGROUNDDOWN ((va + size - 1) % 2 ^ 64) → leafOf s.mem pt b % 2 = 0) := by
    intro r s' h
    unfold mappages at h
    by_cases hs : size = 0
    · rw [if_pos hs] at h; cases h
    · rw [if_neg hs] at h
      exact mappagesLoop_keep L pt _ perm hla LOOPFUEL s _ pa fl r s' inv
        (PGROUNDDOWN_spec va).1 h
  refine ⟨fun hs => ?_, ?_, fun r s' h => ?_⟩
  · unfold mappages
    rw [if_pos hs]
  · rintro ⟨b, hb1, hb2, hb3, hb4⟩
    unfold PGSIZE at hb1
    obtain ⟨hbm, hbv⟩ := mapping_ne_none_leaf s pt b inv.table hb4
    cases hr : mappages s pt va size pa perm with
    | panic msg => exact Or.inl ⟨msg, rfl⟩
    | fuel => exact absurd hr (mappages_nofuel s pt va size pa perm)
    | ok r s' =>
      right
      obtain ⟨k0, fl', e, k1, _, k3⟩ := hkeep r s' hr
      rcases k0 with c | c
      · have := (k3 c (by omega)).2 b hb1 hb2 hb3
        omega
      · subst c
        refine ⟨s', rfl, ?_⟩
        have hl := e.inv.alloc.list
        rw [k1 rfl] at hl
        exact hl
  · obtain ⟨k0, fl', e, _, k2, _⟩ := hkeep r s' h
    refine ⟨k0, fun vb f g hm => ?_⟩
    obtain ⟨m1, m2⟩ := mapping_some_leaf s pt vb f g inv.table hm
    rw [← hm, mapping_leaf s' pt vb e.inv.table m1, mapping_leaf s pt vb inv.table m1,
      k2 vb m1 m2]

theorem mappages_no_overwrite_witness :
    ((4096 : Nat) = 0 →
      mappages demoUser2 demoRoot 0 4096 0x80100000 PTE_R = .panic "mappages: size") ∧
    ((∃ b, b % PGSIZE = 0 ∧ PGROUNDDOWN 0 ≤ b ∧
        b ≤ PGROUNDDOWN ((0 + 4096 - 1) % 2 ^ 64) ∧ mapping demoUser2 demoRoot b ≠ none) →
      (∃ msg, mappages demoUser2 demoRoot 0 4096 0x80100000 PTE_R = .panic msg) ∨
      ∃ s', mappages demoUser2 demoRoot 0 4096 0x80100000 PTE_R = .ok (-1) s' ∧
        s'.freelist = 0) ∧
    (∀ r s', mappages demoUser2 demoRoot 0 4096 0x80100000 PTE_R = .ok r s' →
      (r = 0 ∨ r = -1) ∧
      ∀ vb f g, mapping demoUser2 demoRoot vb = some (f, g) →
        mapping s' demoRoot vb = some (f, g)) := by
  obtain ⟨fl, inv, _⟩ := demoUser2_ok
  exact mappages_no_overwrite demoLayout demoUser2 demoRoot 0 4096 0x80100000 PTE_R fl inv

theorem demoHigh2_run :
    uvmalloc demoLayout demoFree4 demoRoot 0x200000 0x202000 PTE_W
      = .ok 0x202000 demoHigh2 := by rfl

theorem demoHigh2_inv : ∃ fl, Inv demoLayout demoHigh2 demoRoot fl := by
  rcases uvmalloc_cases demoLayout demoFree4 demoRoot 0x200000 0x202000 PTE_W demoList4
      0x202000 demoHigh2 demoFree4_inv.1 (by decide) (by decide) demoHigh2_run with
    ⟨_, a', fl', g, _⟩ | ⟨h1, _⟩
  · exact ⟨fl', g.inv⟩
  · exact absurd h1 (by decide)

theorem demoHigh2_mappages :
    (mappages demoHigh2 demoRoot 0x1ff000 0x2000 0x80100000 (PTE_R ||| PTE_U)).val?
      = some (-1) := by rfl

/-- C20 as written fails: a mapped page in the range does not always make `mappages`
panic. In the well-formed state `demoHigh2` page `0x200000` is mapped and the free list
is empty; `mappages(pt, 0x1ff000, 0x2000, ..)` needs a new level-0 table for its first
page, `walk` cannot allocate it, and the call returns -1 before the mapped page is
reached. -/
theorem mappages_remap_counterexample :
    ¬ (∀ (L : Layout) (s : KState) (pt va size pa perm : Nat) (fl : List Nat),
        Inv L s pt fl →
        (∃ b, b % PGSIZE = 0 ∧ PGROUNDDOWN va ≤ b ∧
          b ≤ PGROUNDDOWN ((va + size - 1) % 2 ^ 64) ∧ mapping s pt b ≠ none) →
        ∃ msg, mappages s pt va size pa perm = .panic msg) := by
  intro H
  obtain ⟨fl, inv⟩ := demoHigh2_inv
  obtain ⟨msg, h⟩ := H demoLayout demoHigh2 demoRoot 0x1ff000 0x2000 0x80100000
    (PTE_R ||| PTE_U) fl inv ⟨0x200000, by decide, by decide, by decide, by decide⟩
  have h2 := demoHigh2_mappages
  rw [h] at h2
  cases h2

/-! ### C13 -/

/-- C13. `uvmdealloc` does not tolerate an `oldsz` beyond the mapped extent: in the
address space `demoUser2`, whose pages 0 and 4096 are mapped and whose page 8192 is not,
`uvmdealloc(pt, 12288, 4096)` panics in `uvmunmap` at the unmapped page. -/
theorem uvmdealloc_unmapped_panics :
    uvmdealloc demoLayout demoUser2 demoRoot 12288 4096 = .panic "uvmunmap: not mapped" := by
  rfl

/-! ### C11 -/

/-- Splitting a duplicate-free list along a sublist of it. -/
theorem length_split (fl fl' : List Nat) (hnd : fl.Nodup) (hnd' : fl'.Nodup)
    (hsub : ∀ f, f ∈ fl' → f ∈ fl) :
    fl.length = fl'.length + (fl.filter (fun f => decide (f ∉ fl'))).length := by
  have hp : (fl.filter (fun f => decide (f ∈ fl'))).Perm fl' := by
    apply (List.perm_ext_iff_of_nodup (hnd.filter _) hnd').mpr
    intro a
    rw [List.mem_filter]
    constructor
    · intro h; simpa using h.2
    · intro h; exact ⟨hsub a h, by simpa using h⟩
  have hl := hp.length_eq
  have e := List.length_eq_length_filter_add (l := fl) (fun f => decide (f ∈ fl'))
  have e2 : (fl.filter (fun f => !decide (f ∈ fl'))) =
      (fl.filter (fun f => decide (f ∉ fl'))) := by
    congr 1
    funext f
    simp
  rw [e2, hl] at e
  exact e

/-- The free list after a rolled-back `uvmalloc` or `uvmcopy`: what it held before, less
the frames that have become page-table pages. -/
theorem rolledBack_count (L : Layout) (pt : Nat) (s : KState) (fl : List Nat) (s' : KState)
    (fl' : List Nat) (inv : Inv L s pt fl) (rb : RolledBack L pt s fl s' fl') :
    ∃ tabs : List Nat, tabs.Nodup ∧
      (∀ p, p ∈ tabs ↔ IsTable s'.mem pt p ∧ ¬ IsTable s.mem pt p) ∧
      (∀ f, f ∈ fl ↔ f ∈ fl' ∨ f ∈ tabs) ∧ (∀ f, f ∈ fl' → f ∉ tabs) ∧
      fl.length = fl'.length + tabs.length := by
  refine ⟨fl.filter (fun f => decide (f ∉ fl')), inv.alloc.nodup.filter _, fun p => ?_,
    fun f => ?_, fun f hf => ?_,
    length_split fl fl' inv.alloc.nodup rb.inv.alloc.nodup rb.sub⟩
  · rw [List.mem_filter]
    constructor
    · rintro ⟨h1, h2⟩
      have h3 : p ∉ fl' := by simpa using h2
      refine ⟨(rb.account p h1).resolve_left h3, fun c => inv.sep p c h1⟩
    · rintro ⟨h1, h2⟩
      refine ⟨(rb.tables_new p h1).resolve_left h2, ?_⟩
      have := rb.inv.sep p h1
      simpa using this
  · rw [List.mem_filter]
    constructor
    · intro h
      by_cases c : f ∈ fl'
      · exact Or.inl c
      · exact Or.inr ⟨h, by simpa using c⟩
    · rintro (h | h)
      · exact rb.sub f h
      · exact h.1
  · rw [List.mem_filter]
    rintro ⟨_, h2⟩
    have : f ∉ fl' := by simpa using h2
    exact this hf

/-- C11 (amended). What a failed `uvmalloc` returns to the allocator: in a well-formed
state with free list `fl`, for `oldsz < newsz` and permission bits `xperm`, if `uvmalloc`
returns 0 then the state is well formed with a free list `fl'` that holds exactly the
frames of `fl` except those that `walk` has made page-table pages of `pt` during the call
(the list `tabs`), which stay in the table: the number of free frames after the call is the
number before less the number of page-table pages added, and `get_free_mem` reports
accordingly; it is the number before when no table page was added. -/
theorem uvmalloc_failure_frames (L : Layout) (s : KState) (pt oldsz newsz xperm : Nat)
    (fl : List Nat) (s' : KState) (inv : Inv L s pt fl) (hlt : oldsz < newsz)
    (hx : xperm < 1024) (h : uvmalloc L s pt oldsz newsz xperm = .ok 0 s') :
    ∃ fl' tabs : List Nat, Inv L s' pt fl' ∧ tabs.Nodup ∧
      (∀ p, p ∈ tabs ↔ IsTable s'.mem pt p ∧ ¬ IsTable s.mem pt p) ∧
      (∀ f, f ∈ fl ↔ f ∈ fl' ∨ f ∈ tabs) ∧ (∀ f, f ∈ fl' → f ∉ tabs) ∧
      fl.length = fl'.length + tabs.length ∧
      get_free_mem s = .ok (fl.length * PGSIZE) s ∧
      get_free_mem s' = .ok ((fl.length - tabs.length) * PGSIZE) s' ∧
      ((∀ p, IsTable s'.mem pt p → IsTable s.mem pt p) → fl'.length = fl.length) := by
  rcases uvmalloc_cases L s pt oldsz newsz xperm fl 0 s' inv (by omega) hx h with
    ⟨h1, _⟩ | ⟨_, fl', rb⟩
  · omega
  obtain ⟨tabs, t1, t2, t3, t4, t5⟩ := rolledBack_count L pt s fl s' fl' inv rb
  refine ⟨fl', tabs, rb.inv, t1, t2, t3, t4, t5, by unfold PGSIZE; exact get_free_mem_len L s fl inv.alloc, ?_, ?_⟩
  · have e : fl.length - tabs.length = fl'.length := by omega
    rw [e]
    unfold PGSIZE
    exact get_free_mem_len L s' fl' rb.inv.alloc
  · intro hno
    have : tabs = [] := by
      apply List.eq_nil_iff_forall_not_mem.mpr
      intro p hp
      obtain ⟨q1, q2⟩ := (t2 p).mp hp
      exact q2 (hno p q1)
    rw [this] at t5
    simp only [List.length_nil] at t5
    omega

theorem uvmalloc_failure_frames_witness :
    ∃ fl' tabs : List Nat,
      Inv demoLayout ((uvmalloc demoLayout demoFree4 demoRoot 0 12288 PTE_W).st demoEmpty)
        demoRoot fl' ∧ tabs.Nodup ∧
      (∀ p, p ∈ tabs ↔
        IsTable ((uvmalloc demoLayout demoFree4 demoRoot 0 12288 PTE_W).st demoEmpty).mem
          demoRoot p ∧ ¬ IsTable demoFree4.mem demoRoot p) ∧
      (∀ f, f ∈ demoList4 ↔ f ∈ fl' ∨ f ∈ tabs) ∧ (∀ f, f ∈ fl' → f ∉ tabs) ∧
      demoList4.length = fl'.length + tabs.length ∧
      get_free_mem demoFree4 = .ok (demoList4.length * PGSIZE) demoFree4 ∧
      get_free_mem ((uvmalloc demoLayout demoFree4 demoRoot 0 12288 PTE_W).st demoEmpty)
        = .ok ((demoList4.length - tabs.length) * PGSIZE)
          ((uvmalloc demoLayout demoFree4 demoRoot 0 12288 PTE_W).st demoEmpty) ∧
      ((∀ p, IsTable ((uvmalloc demoLayout demoFree4 demoRoot 0 12288 PTE_W).st
          demoEmpty).mem demoRoot p → IsTable demoFree4.mem demoRoot p) →
        fl'.length = demoList4.length) :=
  uvmalloc_failure_frames demoLayout demoFree4 demoRoot 0 12288 PTE_W demoList4 _
    demoFree4_inv.1 (by decide) (by decide) (by rfl)

theorem demo_failed_grow :
    uvmalloc demoLayout demoFree4 demoRoot 0 12288 PTE_W
      = .ok 0 ((uvmalloc demoLayout demoFree4 demoRoot 0 12288 PTE_W).st demoEmpty) := by
  rfl

theorem demo_failed_grow_free :
    (get_free_mem ((uvmalloc demoLayout demoFree4 demoRoot 0 12288 PTE_W).st demoEmpty)).val?
      = some 8192 := by
  rfl

/-- C11 as written fails: a failed `uvmalloc` does not give back the frames `walk` took
for page-table pages. On the empty table of `demoFree4` with 4 free frames,
`uvmalloc(pt, 0, 12288, W)` takes a data frame, two table pages and a second data frame,
finds the list empty, and returns 0 with 2 frames on the free list. -/
theorem uvmalloc_failure_count_counterexample :
    ¬ (∀ (L : Layout) (s : KState) (pt oldsz newsz xperm : Nat) (fl fl' : List Nat)
        (s' : KState), Inv L s pt fl → oldsz < newsz → xperm < 1024 →
        uvmalloc L s pt oldsz newsz xperm = .ok 0 s' → AllocOK L s' fl' →
        fl'.length = fl.length) := by
  intro H
  rcases uvmalloc_cases demoLayout demoFree4 demoRoot 0 12288 PTE_W demoList4 0 _
      demoFree4_inv.1 (by decide) (by decide) demo_failed_grow with ⟨h1, _⟩ | ⟨_, fl', rb⟩
  · exact absurd h1 (by decide)
  have hl := H demoLayout demoFree4 demoRoot 0 12288 PTE_W demoList4 fl' _ demoFree4_inv.1
    (by decide) (by decide) demo_failed_grow rb.inv.alloc
  have hg := get_free_mem_len demoLayout _ fl' rb.inv.alloc
  have hv := demo_failed_grow_free
  rw [hg, hl] at hv
  revert hv
  decide

/-! ## `uvmunmap` returns on a mapped range -/

/-- Total correctness of the loop of `uvmunmap` with `do_free` set: over a range of mapped
pages that own frames of the allocator it returns, and it writes to no root or level-1
table. -/
theorem uvmunmapLoop_total (L : Layout) (pt bound : Nat) (hb : bound % 4096 = 0)
    (hbm : bound ≤ MAXVA) :
    ∀ (fuel : Nat) (s : KState) (a : Nat) (fl : List Nat),
    Inv L s pt fl → a % 4096 = 0 → OwnedFrames s pt fl a bound →
    bound ≤ a + fuel * 4096 →
    (∀ b, b % 4096 = 0 → a ≤ b → b < bound →
      leafOf s.mem pt b % 2 = 1 ∧ leafOf s.mem pt b % 1024 ≠ 1 ∧
      L.kend ≤ PTE2PA (leafOf s.mem pt b) ∧ PTE2PA (leafOf s.mem pt b) < L.phystop) →
    ∃ s', uvmunmapLoop (fuel + 1) L s pt a bound true = .ok () s' ∧
      (∀ p, IsUpper s.mem pt p → SamePage s.mem s'.mem p) := by
  intro fuel
  induction fuel with
  | zero =>
    intro s a fl _ _ _ hf _
    refine ⟨s, ?_, fun p _ => samePage_refl _ _⟩
    rw [uvmunmapLoop, if_neg (by omega)]
  | succ k ih =>
    intro s a fl inv ha hown hf hleaf
    rw [uvmunmapLoop]
    by_cases hab : a < bound
    case neg =>
      rw [if_neg hab]
      exact ⟨s, rfl, fun p _ => samePage_refl _ _⟩
    case pos =>
      rw [if_pos hab]
      have hva : a < MAXVA := by omega
      obtain ⟨lf1, lf2, lf3, lf4⟩ := hleaf a ha (Nat.le_refl _) hab
      have hv0 : has0 s.mem pt a := by
        by_contra c
        have : leafOf s.mem pt a = 0 := by simp only [leafOf, c, if_false]
        omega
      obtain ⟨hw1, hw2, hw3⟩ := (walkVal_ok s.mem pt a inv.table).1 hv0
      rw [walk_noalloc s pt a hva, bind_ok, if_neg hw2, hw3,
        if_neg (by rw [and_V]; omega),
        if_neg (by unfold PTE_FLAGS PTE_V; omega), if_pos rfl]
      obtain ⟨o1, o2, o3⟩ := hown a ha (Nat.le_refl _) hab hva
      obtain ⟨hk, i2, t2, l2, m2, st2⟩ :=
        inv_freed L s pt (PTE2PA (leafOf s.mem pt a)) fl inv o1 o2 (PTE2PA_aligned _) lf3 lf4
      rw [hk, bind_ok]
      have ea : (a + PGSIZE) % 2 ^ 64 = a + 4096 := by
        unfold PGSIZE; unfold MAXVA at hva; omega
      rw [ea, hw1]
      have hv2 : has0 (freed s (PTE2PA (leafOf s.mem pt a))).mem pt a := (st2 a).1.mpr hv0
      have es : slot0 (freed s (PTE2PA (leafOf s.mem pt a))).mem pt a
          = slot0 s.mem pt a := (st2 a).2 hv0
      obtain ⟨i3, t3, l3, f3⟩ := unmap_step L (freed s (PTE2PA (leafOf s.mem pt a)))
        pt a _ i2 hv2 ha hva
      obtain ⟨w1, _, _⟩ := leaf_write (freed s (PTE2PA (leafOf s.mem pt a))).mem pt a 0
        i2.table hv2
      rw [es] at i3 t3 l3 f3 w1
      have l32 : ∀ vb, vb < MAXVA → ¬ (a ≤ vb ∧ vb < a + 4096) →
          leafOf (wr64 (freed s (PTE2PA (leafOf s.mem pt a))).mem (slot0 s.mem pt a) 0)
            pt vb = leafOf s.mem pt vb := by
        intro vb hvb c
        rw [l3 vb hvb, if_neg c, l2]
      have hown' : OwnedFrames
          { freed s (PTE2PA (leafOf s.mem pt a)) with
            mem := (wr64 (freed s (PTE2PA (leafOf s.mem pt a))).mem (slot0 s.mem pt a) 0) }
          pt (PTE2PA (leafOf s.mem pt a) :: fl) (a + 4096) bound := by
        intro b hb1 hb2 hb3 hb4
        obtain ⟨p1, p2, p3⟩ := hown b hb1 (by omega) hb3 hb4
        show PTE2PA (leafOf (wr64 _ _ 0) pt b) ∉ _ ∧
          ¬ IsTable (wr64 _ _ 0) pt (PTE2PA (leafOf (wr64 _ _ 0) pt b)) ∧ _
        rw [l32 b hb4 (by omega)]
        refine ⟨?_, ?_, ?_⟩
        · intro hm
          rcases List.mem_cons.mp hm with e | e
          · have := p3 a ha (Nat.le_refl _) hab hva e
            omega
          · exact p1 e
        · rw [t3, t2]; exact p2
        · intro b' q1 q2 q3 q4
          show PTE2PA (leafOf s.mem pt b) = PTE2PA (leafOf (wr64 _ _ 0) pt b') → _
          rw [l32 b' q4 (by omega)]
          exact p3 b' q1 (by omega) q3 q4
      obtain ⟨s', r1, r2⟩ := ih
        { freed s (PTE2PA (leafOf s.mem pt a)) with
          mem := (wr64 (freed s (PTE2PA (leafOf s.mem pt a))).mem (slot0 s.mem pt a) 0) }
        (a + 4096) _ i3 (by omega) hown' (by omega)
        (fun b hb1 hb2 hb3 => by
          show leafOf (wr64 _ _ 0) pt b % 2 = 1 ∧ leafOf (wr64 _ _ 0) pt b % 1024 ≠ 1 ∧
            L.kend ≤ PTE2PA (leafOf (wr64 _ _ 0) pt b) ∧
            PTE2PA (leafOf (wr64 _ _ 0) pt b) < L.phystop
          rw [l32 b (by omega) (by omega)]
          exact hleaf b hb1 (by omega) hb3)
      refine ⟨s', r1, fun p hp => ?_⟩
      have hpal : p % 4096 = 0 := isTable_aligned _ _ _ inv.table.root_al (Or.inl hp)
      have hne : p ≠ PTE2PA (leafOf s.mem pt a) := fun e => o2 (e ▸ Or.inl hp)
      have sp1 : SamePage s.mem (freed s (PTE2PA (leafOf s.mem pt a))).mem p :=
        kfree_samePage s.mem _ s.freelist p (PTE2PA_aligned _) hpal hne
      have hup1 : ∀ q, IsUpper s.mem pt q →
          SamePage s.mem (freed s (PTE2PA (leafOf s.mem pt a))).mem q := by
        intro q hq
        exact kfree_samePage s.mem _ s.freelist q (PTE2PA_aligned _)
          (isTable_aligned _ _ _ inv.table.root_al (Or.inl hq))
          (fun e => o2 (e ▸ Or.inl hq))
      have hp1 : IsUpper (freed s (PTE2PA (leafOf s.mem pt a))).mem pt p :=
        (isUpper_same _ _ pt hup1 p).mpr hp
      have sp2 := w1 p hp1
      have hp2 : IsUpper
          (wr64 (freed s (PTE2PA (leafOf s.mem pt a))).mem (slot0 s.mem pt a) 0) pt p :=
        (isUpper_same _ _ pt w1 p).mpr hp1
      exact samePage_trans _ _ _ p (samePage_trans _ _ _ p sp1 sp2) (r2 p hp2)

/-! ## Growing where the level-0 tables exist -/

/-- With both upper entries of `va` valid, `walk` allocates nothing. -/
theorem walk_present (s : KState) (pt va : Nat) (alloc : Bool) (h : va < MAXVA)
    (hv : has0 s.mem pt va) : walk s pt va alloc = .ok (slot0 s.mem pt va) s := by
  have h' : ¬ va ≥ MAXVA := by omega
  have h2 : rd64 s.mem (pt + 8 * PX 2 va) % 2 = 1 := hv.1
  have h1 : rd64 s.mem (PTE2PA (rd64 s.mem (pt + 8 * PX 2 va)) + 8 * PX 1 va) % 2 = 1 := hv.2
  unfold walk
  rw [if_neg h', walkLevels_valid 1 s pt va alloc h2, walkLevels_valid 0 s _ va alloc h1,
    walkLevels]
  rfl

/-- Storing a level-0 entry keeps the invariant, the set of table pages and the upper
entries. -/
theorem leaf_store (L : Layout) (s : KState) (pt a v : Nat) (fl : List Nat)
    (inv : Inv L s pt fl) (hv : has0 s.mem pt a) :
    Inv L { s with mem := wr64 s.mem (slot0 s.mem pt a) v } pt fl ∧
    (∀ p, IsTable (wr64 s.mem (slot0 s.mem pt a) v) pt p ↔ IsTable s.mem pt p) ∧
    (∀ p, IsUpper s.mem pt p → SamePage s.mem (wr64 s.mem (slot0 s.mem pt a) v) p) ∧
    (∀ vb, has0 (wr64 s.mem (slot0 s.mem pt a) v) pt vb ↔ has0 s.mem pt vb) ∧
    (∀ vb, leafOf (wr64 s.mem (slot0 s.mem pt a) v) pt vb =
      if samePath a vb then v % 2 ^ 64 else leafOf s.mem pt vb) := by
  obtain ⟨e, hl⟩ := ext_leaf_write L s pt a v fl inv hv
  obtain ⟨t, et, it⟩ := e.split
  have t0 : t = [] := by
    have := congrArg List.length et
    simp only [List.length_append] at this
    exact List.length_eq_zero.mp (by omega)
  obtain ⟨w1, _, _⟩ := leaf_write s.mem pt a v inv.table hv
  refine ⟨e.inv, fun p => ?_, w1, fun vb => (upper_same _ _ pt w1 vb).2.2.2.2.1, hl⟩
  have := it p
  rw [t0] at this
  simpa using this

/-- Taking the head frame off the free list and filling it changes no table page. -/
theorem take_upper (L : Layout) (s : KState) (m2 : Mem) (pt f : Nat) (rest : List Nat)
    (inv : Inv L s pt (f :: rest)) (hout : ∀ x, ¬ inPage f x → m2 x = s.mem x) :
    (∀ p, IsTable s.mem pt p → SamePage s.mem m2 p) ∧
    (∀ vb, has0 m2 pt vb ↔ has0 s.mem pt vb) := by
  have hfa := (inv.alloc.frames f (List.mem_cons_self _ _)).1
  have h1 : ∀ p, IsTable s.mem pt p → SamePage s.mem m2 p := by
    intro p hp x hx
    apply hout
    exact pages_disjoint p f x (isTable_aligned _ _ _ inv.table.root_al hp) hfa
      (fun e => inv.sep p hp (e ▸ List.mem_cons_self _ _)) hx
  exact ⟨h1, fun vb => (upper_same _ _ pt (fun p hp => h1 p (Or.inl hp)) vb).2.2.2.2.1⟩

/-- One page mapped where its level-0 table exists: the call stores one entry. -/
theorem mappages_present (s : KState) (pt a pa perm : Nat) (r : Int) (s' : KState)
    (ok : TableOK s.mem pt) (ha : a % 4096 = 0) (hv : has0 s.mem pt a)
    (h : mappages s pt a PGSIZE pa perm = .ok r s') :
    a < MAXVA ∧ r = 0 ∧ leafOf s.mem pt a % 2 = 0 ∧
    s' = { s with mem := wr64 s.mem (slot0 s.mem pt a) (PA2PTE pa ||| perm ||| PTE_V) } := by
  unfold mappages at h
  rw [if_neg (by decide), loopfuel_eq, mappagesLoop] at h
  have e1 : PGROUNDDOWN a = a := by unfold PGROUNDDOWN PGSIZE; omega
  rw [e1] at h
  by_cases hva : a < MAXVA
  case neg =>
    have : walk s pt a true = .panic "walk" := by unfold walk; rw [if_pos (by omega)]
    rw [this] at h
    cases h
  case pos =>
    have e2 : PGROUNDDOWN ((a + PGSIZE - 1) % 2 ^ 64) = a := by
      unfold PGROUNDDOWN PGSIZE; unfold MAXVA at hva; omega
    obtain ⟨w1, w2, w3⟩ := (walkVal_ok s.mem pt a ok).1 hv
    rw [w1] at w2 w3
    rw [e2, walk_present s pt a true hva hv, bind_ok, if_neg w2, w3] at h
    by_cases hval : leafOf s.mem pt a &&& PTE_V ≠ 0
    · rw [if_pos hval] at h; cases h
    · rw [if_neg hval] at h
      simp only [if_true] at h
      injection h with h1 h2
      rw [and_V] at hval
      exact ⟨hva, h1.symm, by omega, h2.symm⟩

/-- A successful `uvmalloc` over pages whose level-0 tables exist adds no page-table page
and writes to no root or level-1 table. -/
theorem uvmallocLoop_present (L : Layout) (pt lo newsz xperm : Nat) :
    ∀ (fuel : Nat) (s : KState) (a : Nat) (fl : List Nat) (r : Nat) (s' : KState),
    Inv L s pt fl → a % 4096 = 0 →
    (∀ b, b % 4096 = 0 → a ≤ b → b < newsz → has0 s.mem pt b) →
    uvmallocLoop fuel L s pt a lo newsz xperm = .ok r s' → r ≠ 0 →
    (∀ p, IsTable s'.mem pt p ↔ IsTable s.mem pt p) ∧
    (∀ p, IsUpper s.mem pt p → SamePage s.mem s'.mem p) := by
  intro fuel
  induction fuel with
  | zero => intro s a fl r s' _ _ _ h; rw [uvmallocLoop] at h; cases h
  | succ k ih =>
    intro s a fl r s' inv ha hpres h hr
    rw [uvmallocLoop] at h
    by_cases hn : a < newsz
    case neg =>
      rw [if_neg hn] at h
      injection h with _ h2
      subst h2
      exact ⟨fun _ => Iff.rfl, fun p _ => samePage_refl _ _⟩
    case pos =>
      rw [if_pos hn] at h
      cases fl with
      | nil =>
        rw [kalloc_nil L s inv.alloc] at h
        simp only [if_true] at h
        cases hd : uvmdealloc L s pt a lo with
        | panic msg => rw [hd] at h; cases h
        | fuel => rw [hd] at h; cases h
        | ok u s1 =>
          rw [hd, bind_ok] at h
          injection h with h1 _
          exact absurd h1.symm hr
      | cons f rest =>
        obtain ⟨hk, _⟩ := kalloc_cons L s f rest inv.alloc
        have hfa := inv.alloc.frames f (List.mem_cons_self _ _)
        have hk0 := inv.alloc.kend_pos
        have hf0 : f ≠ 0 := by omega
        rw [hk] at h
        simp only [hf0, if_false] at h
        have hout : ∀ x, ¬ inPage f x →
            memset (memset s.mem f 5 PGSIZE) f 0 PGSIZE x = s.mem x := by
          intro x hx
          have c : ¬ (f ≤ x ∧ x < f + PGSIZE) := hx
          simp only [memset, c, if_false]
        obtain ⟨i2, t2, _⟩ := inv_take L s
          (KState.mk (memset (memset s.mem f 5 PGSIZE) f 0 PGSIZE) (rd64 s.mem f)) pt f rest
          inv rfl hout
        obtain ⟨u2, h02⟩ := take_upper L s (memset (memset s.mem f 5 PGSIZE) f 0 PGSIZE) pt f
          rest inv hout
        have hva2 : has0 (memset (memset s.mem f 5 PGSIZE) f 0 PGSIZE) pt a :=
          (h02 a).mpr (hpres a ha (Nat.le_refl _) hn)
        cases hm : mappages
            { mem := memset (memset s.mem f 5 PGSIZE) f 0 PGSIZE, freelist := rd64 s.mem f }
            pt a PGSIZE f (PTE_R ||| PTE_U ||| xperm) with
        | panic msg => rw [hm] at h; cases h
        | fuel => rw [hm] at h; cases h
        | ok rr s3 =>
          rw [hm, bind_ok] at h
          obtain ⟨hva, hr0, _, hs3⟩ := mappages_present _ pt a f _ rr s3 i2.table ha hva2 hm
          rw [if_neg (by rw [hr0]; decide)] at h
          have ea : (a + PGSIZE) % 2 ^ 64 = a + 4096 := by
            unfold PGSIZE; unfold MAXVA at hva; omega
          rw [ea] at h
          obtain ⟨i3, t3, u3, h03, _⟩ := leaf_store L
            (KState.mk (memset (memset s.mem f 5 PGSIZE) f 0 PGSIZE) (rd64 s.mem f)) pt a
            (PA2PTE f ||| (PTE_R ||| PTE_U ||| xperm) ||| PTE_V) rest i2 hva2
          rw [← hs3] at i3
          have hs3m : s3.mem = wr64 (memset (memset s.mem f 5 PGSIZE) f 0 PGSIZE)
              (slot0 (memset (memset s.mem f 5 PGSIZE) f 0 PGSIZE) pt a)
              (PA2PTE f ||| (PTE_R ||| PTE_U ||| xperm) ||| PTE_V) := by rw [hs3]
          rw [← hs3m] at t3 u3 h03
          obtain ⟨q1, q2⟩ := ih s3 (a + 4096) rest r s' i3 (by omega)
            (fun b hb1 hb2 hb3 => (h03 b).mpr ((h02 b).mpr (hpres b hb1 (by omega) hb3))) h hr
          refine ⟨fun p => ((q1 p).trans (t3 p)).trans (t2 p), fun p hp => ?_⟩
          have sp1 := u2 p (Or.inl hp)
          have hp2 : IsUpper (memset (memset s.mem f 5 PGSIZE) f 0 PGSIZE) pt p :=
            (isUpper_same _ _ pt (fun q hq => u2 q (Or.inl hq)) p).mpr hp
          have sp2 := u3 p hp2
          have hp3 : IsUpper s3.mem pt p := (isUpper_same _ _ pt u3 p).mpr hp2
          exact samePage_trans _ _ _ p (samePage_trans _ _ _ p sp1 sp2) (q2 p hp3)

/-! ## One grow/shrink cycle -/

theorem uperm_leaf (xperm : Nat) (hx : xperm < 1024) (f : Nat) :
    (PA2PTE f ||| (PTE_R ||| PTE_U ||| xperm) ||| PTE_V) % 2 = 1 ∧
    (PA2PTE f ||| (PTE_R ||| PTE_U ||| xperm) ||| PTE_V) % 1024 ≠ 1 ∧
    (PA2PTE f ||| (PTE_R ||| PTE_U ||| xperm) ||| PTE_V) % 1024 / 2 % 2 = 1 := by
  obtain ⟨pm1, pm2, pm3, _⟩ := pte_make f (PTE_R ||| PTE_U ||| xperm) (uperm_lt xperm hx)
  have hR : (PTE_R ||| PTE_U ||| xperm ||| 1) / 2 % 2 = 1 := by
    have ta := @Nat.testBit_to_div_mod 1 (PTE_R ||| PTE_U ||| xperm ||| 1)
    rw [Nat.testBit_or, Nat.testBit_or, Nat.testBit_or] at ta
    have tc : Nat.testBit PTE_R 1 = true := by decide
    rw [tc] at ta
    simp only [Bool.true_or, pow_one] at ta
    simpa using ta.symm
  rw [pm1]
  refine ⟨by omega, by omega, by omega⟩

/-- After a `uvmalloc` that returned `newsz > oldsz`, `uvmdealloc(pt, newsz, oldsz)`
returns `oldsz`, undoes the growth, and leaves the level-0 tables of the range in place;
where these existed before the grow, the cycle adds no page-table page. -/
theorem grow_shrink_cycle (L : Layout) (s : KState) (pt oldsz newsz xperm : Nat)
    (fl : List Nat) (s1 : KState) (inv : Inv L s pt fl) (hlt : oldsz < newsz)
    (hx : xperm < 1024) (h : uvmalloc L s pt oldsz newsz xperm = .ok newsz s1) :
    ∃ s2 fl2, uvmdealloc L s1 pt newsz oldsz = .ok oldsz s2 ∧
      RolledBack L pt s fl s2 fl2 ∧ Present s2 pt oldsz newsz ∧
      (Present s pt oldsz newsz → ∀ p, IsTable s2.mem pt p → IsTable s.mem pt p) := by
  rcases uvmalloc_cases L s pt oldsz newsz xperm fl newsz s1 inv (by omega) hx h with
    ⟨_, a', fl1, g, q1, q2, q3, q4⟩ | ⟨h1, _⟩
  case inr => omega
  have hlo : PGROUNDUP oldsz % 4096 = 0 := by unfold PGROUNDUP PGSIZE; omega
  -- the grow adds no table page where the tables were present
  have hgrow : Present s pt oldsz newsz → ∀ p, IsTable s1.mem pt p ↔ IsTable s.mem pt p := by
    intro hp
    have h' := h
    unfold uvmalloc at h'
    rw [if_neg (by omega)] at h'
    exact (uvmallocLoop_present L pt (PGROUNDUP oldsz) newsz xperm LOOPFUEL s
      (PGROUNDUP oldsz) fl newsz s1 inv hlo
      (fun b hb1 hb2 hb3 => hp b (by unfold PGSIZE; exact hb1) hb2 hb3) h' (by omega)).1
  by_cases hc : PGROUNDUP oldsz < a'
  case neg =>
    have ea : a' = PGROUNDUP oldsz := by omega
    have e2 : PGROUNDUP newsz = PGROUNDUP oldsz := by
      rw [ea] at q2
      have hl2 : PGROUNDUP oldsz ≤ oldsz + 4095 := by unfold PGROUNDUP PGSIZE; omega
      have hl3 : PGROUNDUP oldsz < 2 ^ 64 := by unfold PGROUNDUP PGSIZE; omega
      generalize PGROUNDUP oldsz = lo at *
      unfold PGROUNDUP PGSIZE
      omega
    have hd : uvmdealloc L s1 pt newsz oldsz = .ok oldsz s1 := by
      unfold uvmdealloc
      rw [if_neg (by omega), e2, if_neg (by omega)]
    have hu : uvmunmapLoop 1 L s1 pt (PGROUNDUP oldsz) a' true = .ok () s1 := by
      rw [uvmunmapLoop, if_neg (by omega)]
    obtain ⟨fl2, rb⟩ := grew_rollback L pt _ _ s fl (PGROUNDUP oldsz) a' s1 fl1 s1 1 g hlo q1 hu
    refine ⟨s1, fl2, hd, rb, fun b _ hb2 hb3 => ?_, fun hp p hq => (hgrow hp p).mp hq⟩
    omega
  case pos =>
    have hb := g.bound hc
    have e2 : PGROUNDUP newsz = a' := by
      have : a' < newsz + 4096 := by omega
      unfold PGROUNDUP PGSIZE
      unfold MAXVA at hb
      omega
    have hleaf : ∀ b, b % 4096 = 0 → PGROUNDUP oldsz ≤ b → b < a' →
        leafOf s1.mem pt b % 2 = 1 ∧ leafOf s1.mem pt b % 1024 ≠ 1 ∧
        L.kend ≤ PTE2PA (leafOf s1.mem pt b) ∧ PTE2PA (leafOf s1.mem pt b) < L.phystop := by
      intro b hb1 hb2 hb3
      obtain ⟨l1, l2, _, _⟩ := g.leaf_in b hb1 hb2 hb3
      obtain ⟨u1, u2, _⟩ := uperm_leaf xperm hx (PTE2PA (leafOf s1.mem pt b))
      have hf := inv.alloc.frames _ l2
      rw [← l1] at u1 u2
      exact ⟨u1, u2, hf.2.1, hf.2.2⟩
    obtain ⟨s2, r1, r2⟩ := uvmunmapLoop_total L pt a' q1 hb (MAXVA / PGSIZE) s1
      (PGROUNDUP oldsz) fl1 g.inv hlo g.owned
      (by
        have : MAXVA / PGSIZE * 4096 = MAXVA := by unfold MAXVA PGSIZE; norm_num
        omega)
      hleaf
    have hfuel : MAXVA / PGSIZE + 1 = LOOPFUEL := rfl
    rw [hfuel] at r1
    have hlt' : (a' - PGROUNDUP oldsz) / 4096 < 2 ^ 31 := by unfold MAXVA at hb; omega
    have en : intToU64 ((a' - PGROUNDUP oldsz) / PGSIZE) = (a' - PGROUNDUP oldsz) / 4096 := by
      unfold intToU64 PGSIZE
      rw [Nat.mod_eq_of_lt (by omega), if_pos hlt']
    have eb : (PGROUNDUP oldsz + (a' - PGROUNDUP oldsz) / 4096 * PGSIZE) % 2 ^ 64 = a' := by
      unfold PGSIZE; unfold MAXVA at hb; omega
    have hd : uvmdealloc L s1 pt newsz oldsz = .ok oldsz s2 := by
      unfold uvmdealloc
      rw [if_neg (by omega), e2, if_pos hc, en]
      simp only []
      unfold uvmunmap
      rw [if_neg (by unfold PGSIZE; omega), eb, r1, bind_ok]
    obtain ⟨fl2, rb⟩ := grew_rollback L pt _ _ s fl (PGROUNDUP oldsz) a' s1 fl1 s2 LOOPFUEL g
      hlo q1 r1
    obtain ⟨_, _, _, _, j4, _⟩ := uvmunmapLoop_spec L pt a' true q1 LOOPFUEL s1
      (PGROUNDUP oldsz) fl1 s2 g.inv hlo (fun _ => g.owned) r1
    refine ⟨s2, fl2, hd, rb, fun b hb1 hb2 hb3 => ?_,
      fun hp p hq => (hgrow hp p).mp ((j4 p).mp hq)⟩
    unfold PGSIZE at hb1
    have hv1 : has0 s1.mem pt b := by
      by_contra c
      have : leafOf s1.mem pt b = 0 := by simp only [leafOf, c, if_false]
      have := (hleaf b hb1 hb2 (by omega)).1
      omega
    exact (upper_same _ _ pt r2 b).2.2.2.2.1.mpr hv1

/-! ### C12 -/

theorem rolledBack_mapping (L : Layout) (pt : Nat) (s : KState) (fl : List Nat)
    (s' : KState) (fl' : List Nat) (inv : Inv L s pt fl) (rb : RolledBack L pt s fl s' fl')
    (va : Nat) : mapping s' pt va = mapping s pt va := by
  by_cases hvm : va < MAXVA
  · rw [mapping_leaf s' pt va rb.inv.table hvm, mapping_leaf s pt va inv.table hvm]
    rcases rb.leaf va hvm with c | ⟨c1, c2⟩
    · rw [c]
    · rw [if_pos (by rw [c1]), if_pos c2]
  · have hge : MAXVA ≤ va := Nat.le_of_not_lt hvm
    rw [mapping_high s' pt va hge, mapping_high s pt va hge]

/-- Cycles that start where the level-0 tables of the range exist change neither the
mappings nor the members of the free list. -/
theorem cycled_stable (L : Layout) (pt oldsz newsz : Nat) (hlt : oldsz < newsz)
    (s : KState) (fl : List Nat) (inv : Inv L s pt fl) (hp : Present s pt oldsz newsz)
    (sN : KState) (hc : Cycled L pt oldsz newsz s sN) :
    (∀ va, mapping sN pt va = mapping s pt va) ∧ Present sN pt oldsz newsz ∧
    ∃ flN, Inv L sN pt flN ∧ flN.length = fl.length ∧ ∀ f, f ∈ flN ↔ f ∈ fl := by
  induction hc with
  | zero => exact ⟨fun _ => rfl, hp, fl, inv, rfl, fun _ => Iff.rfl⟩
  | next sa sb sc xperm _ hx hg hd ih =>
    obtain ⟨m1, p1, fla, i1, l1, e1⟩ := ih
    obtain ⟨s2, fl2, hd2, rb, p2, t2⟩ :=
      grow_shrink_cycle L sa pt oldsz newsz xperm fla sb i1 hlt hx hg
    rw [hd] at hd2
    injection hd2 with _ e
    subst e
    obtain ⟨tabs, _, c2, c3, _, c5⟩ := rolledBack_count L pt sa fla sc fl2 i1 rb
    have hnil : tabs = [] := by
      apply List.eq_nil_iff_forall_not_mem.mpr
      intro p hpm
      obtain ⟨x1, x2⟩ := (c2 p).mp hpm
      exact x2 (t2 p1 p x1)
    rw [hnil] at c3 c5
    refine ⟨fun va => (rolledBack_mapping L pt sa fla sc fl2 i1 rb va).trans (m1 va), p2,
      fl2, rb.inv, ?_, fun f => ?_⟩
    · simp only [List.length_nil] at c5
      omega
    · rw [← e1 f, c3 f]
      simp

/-- C12 (amended). Grow-then-shrink round trip: in a well-formed state with free list
`fl`, for `oldsz < newsz` and permission bits `xperm`, if `uvmalloc(pt, oldsz, newsz,
xperm)` returns `newsz` then `uvmdealloc(pt, newsz, oldsz)` returns `oldsz` and leaves a
well-formed state in which every address has the mapping (frame and flags, or none) it had
before the grow; its free list `fl2` holds the frames of `fl` except those that the grow
made page-table pages (`tabs`), so the free-frame count is the count before less the
number of page-table pages added, and is the count before where the level-0 tables of the
range already existed. After this first cycle any number of further grow/shrink cycles
leaves the mappings, the members of the free list and so the free-frame count unchanged. -/
theorem grow_then_shrink (L : Layout) (s : KState) (pt oldsz newsz xperm : Nat)
    (fl : List Nat) (s1 : KState) (inv : Inv L s pt fl) (hlt : oldsz < newsz)
    (hx : xperm < 1024) (h : uvmalloc L s pt oldsz newsz xperm = .ok newsz s1) :
    ∃ (s2 : KState) (fl2 tabs : List Nat),
      uvmdealloc L s1 pt newsz oldsz = .ok oldsz s2 ∧ Inv L s2 pt fl2 ∧
      (∀ va, mapping s2 pt va = mapping s pt va) ∧ tabs.Nodup ∧
      (∀ p, p ∈ tabs ↔ IsTable s2.mem pt p ∧ ¬ IsTable s.mem pt p) ∧
      (∀ f, f ∈ fl ↔ f ∈ fl2 ∨ f ∈ tabs) ∧ (∀ f, f ∈ fl2 → f ∉ tabs) ∧
      fl.length = fl2.length + tabs.length ∧
      (Present s pt oldsz newsz → fl2.length = fl.length) ∧
      ∀ sN, Cycled L pt oldsz newsz s2 sN →
        (∀ va, mapping sN pt va = mapping s pt va) ∧
        ∃ flN, Inv L sN pt flN ∧ flN.length = fl2.length ∧ ∀ f, f ∈ flN ↔ f ∈ fl2 := by
  obtain ⟨s2, fl2, hd, rb, p2, t2⟩ :=
    grow_shrink_cycle L s pt oldsz newsz xperm fl s1 inv hlt hx h
  obtain ⟨tabs, c1, c2, c3, c4, c5⟩ := rolledBack_count L pt s fl s2 fl2 inv rb
  have hm := rolledBack_mapping L pt s fl s2 fl2 inv rb
  refine ⟨s2, fl2, tabs, hd, rb.inv, hm, c1, c2, c3, c4, c5, fun hp => ?_, fun sN hc => ?_⟩
  · have hnil : tabs = [] := by
      apply List.eq_nil_iff_forall_not_mem.mpr
      intro p hpm
      obtain ⟨x1, x2⟩ := (c2 p).mp hpm
      exact x2 (t2 hp p x1)
    rw [hnil] at c5
    simp only [List.length_nil] at c5
    omega
  · obtain ⟨m1, _, flN, iN, lN, eN⟩ :=
      cycled_stable L pt oldsz newsz hlt s2 fl2 rb.inv p2 sN hc
    exact ⟨fun va => (m1 va).trans (hm va), flN, iN, lN, eN⟩

theorem grow_then_shrink_witness :
    ∃ (s2 : KState) (fl2 tabs : List Nat),
      uvmdealloc demoLayout demoUser2 demoRoot 8192 0 = .ok 0 s2 ∧
      Inv demoLayout s2 demoRoot fl2 ∧
      (∀ va, mapping s2 demoRoot va = mapping demoFree4 demoRoot va) ∧ tabs.Nodup ∧
      (∀ p, p ∈ tabs ↔ IsTable s2.mem demoRoot p ∧ ¬ IsTable demoFree4.mem demoRoot p) ∧
      (∀ f, f ∈ demoList4 ↔ f ∈ fl2 ∨ f ∈ tabs) ∧ (∀ f, f ∈ fl2 → f ∉ tabs) ∧
      demoList4.length = fl2.length + tabs.length ∧
      (Present demoFree4 demoRoot 0 8192 → fl2.length = demoList4.length) ∧
      ∀ sN, Cycled demoLayout demoRoot 0 8192 s2 sN →
        (∀ va, mapping sN demoRoot va = mapping demoFree4 demoRoot va) ∧
        ∃ flN, Inv demoLayout sN demoRoot flN ∧ flN.length = fl2.length ∧
          ∀ f, f ∈ flN ↔ f ∈ fl2 :=
  grow_then_shrink demoLayout demoFree4 demoRoot 0 8192 PTE_W demoList4 demoUser2
    demoFree4_inv.1 (by decide) (by decide) demoUser2_run

theorem demo_shrink_run :
    uvmdealloc demoLayout demoUser2 demoRoot 8192 0
      = .ok 0 ((uvmdealloc demoLayout demoUser2 demoRoot 8192 0).st demoEmpty) := by rfl

theorem demo_shrink_free :
    (get_free_mem ((uvmdealloc demoLayout demoUser2 demoRoot 8192 0).st demoEmpty)).val?
      = some 8192 := by rfl

/-- C12 as written fails: the free-frame count after a grow/shrink cycle is not always the
count before the grow. From the empty table of `demoFree4` with 4 free frames,
`uvmalloc(pt, 0, 8192, W)` takes two data frames and two page-table pages, and
`uvmdealloc(pt, 8192, 0)` gives back the two data frames only: 2 frames are free. -/
theorem grow_shrink_count_counterexample :
    ¬ (∀ (L : Layout) (s : KState) (pt oldsz newsz xperm : Nat) (fl fl2 : List Nat)
        (s1 s2 : KState), Inv L s pt fl → oldsz < newsz → xperm < 1024 →
        uvmalloc L s pt oldsz newsz xperm = .ok newsz s1 →
        uvmdealloc L s1 pt newsz oldsz = .ok oldsz s2 → AllocOK L s2 fl2 →
        fl2.length = fl.length) := by
  intro H
  obtain ⟨s2, fl2, hd, rb, _, _⟩ := grow_shrink_cycle demoLayout demoFree4 demoRoot 0 8192
    PTE_W demoList4 demoUser2 demoFree4_inv.1 (by decide) (by decide) demoUser2_run
  have e := hd.symm.trans demo_shrink_run
  injection e with _ e2
  subst e2
  have hl := H demoLayout demoFree4 demoRoot 0 8192 PTE_W demoList4 fl2 demoUser2 _
    demoFree4_inv.1 (by decide) (by decide) demoUser2_run hd rb.inv.alloc
  have hg := get_free_mem_len demoLayout _ fl2 rb.inv.alloc
  have hv := demo_shrink_free
  rw [hg, hl] at hv
  revert hv
  decide

/-! ### `freewalk` -/

theorem sub_zero (m : Mem) (p q : Nat) : InTree m 0 p q ↔ q = p := Iff.rfl

theorem sub_succ (m : Mem) (h p q : Nat) : InTree m (h + 1) p q ↔ (q = p ∨
    ∃ i, i < 512 ∧ entry m p i % 2 = 1 ∧ InTree m h (PTE2PA (entry m p i)) q) := Iff.rfl

theorem sub_self (m : Mem) : ∀ (h p : Nat), InTree m h p p
  | 0, _ => rfl
  | _ + 1, _ => Or.inl rfl

theorem wf_zero (m : Mem) (p : Nat) : TreeOK m 0 p ↔ ∀ i, i < 512 → entry m p i % 2 = 0 :=
  Iff.rfl

theorem wf_succ (m : Mem) (h p : Nat) : TreeOK m (h + 1) p ↔
    ∀ i, i < 512 → entry m p i % 2 = 1 →
      entry m p i &&& (PTE_R ||| PTE_W ||| PTE_X) = 0 ∧
      TreeOK m h (PTE2PA (entry m p i)) ∧
      ¬ InTree m h (PTE2PA (entry m p i)) p ∧
      ∀ j, j < 512 → entry m p j % 2 = 1 → j ≠ i →
        ∀ q, InTree m h (PTE2PA (entry m p i)) q → ¬ InTree m h (PTE2PA (entry m p j)) q :=
  Iff.rfl

/-- The tree below `c` and its well-formedness depend on the memory of its own pages
only. -/
theorem sub_congr (m m' : Mem) : ∀ (h c : Nat), (∀ q, InTree m h c q → SamePage m m' q) →
    (∀ q, InTree m' h c q ↔ InTree m h c q) ∧ (TreeOK m h c → TreeOK m' h c) := by
  intro h
  induction h with
  | zero =>
    intro c hs
    refine ⟨fun q => Iff.rfl, fun wf => ?_⟩
    intro i hi
    have e : entry m' c i = entry m c i := rd64_samePage m m' c i (hs c rfl) hi
    rw [e]
    exact wf i hi
  | succ h ih =>
    intro c hs
    have he : ∀ i, i < 512 → entry m' c i = entry m c i :=
      fun i hi => rd64_samePage m m' c i (hs c (Or.inl rfl)) hi
    have hch : ∀ i, i < 512 → entry m c i % 2 = 1 →
        (∀ q, InTree m' h (PTE2PA (entry m c i)) q ↔ InTree m h (PTE2PA (entry m c i)) q) ∧
        (TreeOK m h (PTE2PA (entry m c i)) → TreeOK m' h (PTE2PA (entry m c i))) :=
      fun i hi hv => ih (PTE2PA (entry m c i)) (fun q hq => hs q (Or.inr ⟨i, hi, hv, hq⟩))
    constructor
    · intro q
      rw [sub_succ, sub_succ]
      constructor
      · rintro (e | ⟨i, hi, hv, hq⟩)
        · exact Or.inl e
        · rw [he i hi] at hv hq
          exact Or.inr ⟨i, hi, hv, ((hch i hi hv).1 q).mp hq⟩
      · rintro (e | ⟨i, hi, hv, hq⟩)
        · exact Or.inl e
        · refine Or.inr ⟨i, hi, ?_, ?_⟩
          · rw [he i hi]; exact hv
          · rw [he i hi]; exact ((hch i hi hv).1 q).mpr hq
    · intro wf
      rw [wf_succ] at wf ⊢
      intro i hi hv
      rw [he i hi] at hv ⊢
      obtain ⟨w1, w2, w3, w4⟩ := wf i hi hv
      refine ⟨w1, (hch i hi hv).2 w2, fun c1 => w3 (((hch i hi hv).1 c).mp c1), ?_⟩
      intro j hj hvj hne q hq hq'
      rw [he j hj] at hvj hq'
      exact w4 j hj hvj hne q (((hch i hi hv).1 q).mp hq) (((hch j hj hvj).1 q).mp hq')

theorem freewalkLoop_skip (child : KState → Nat → Res Unit) (s : KState) (p : Nat) :
    ∀ (n i : Nat), (∀ j, i ≤ j → j < i + n → entry s.mem p j % 2 = 0) →
      freewalkLoop child n s p i = .ok () s := by
  intro n
  induction n with
  | zero => intro i _; rw [freewalkLoop]
  | succ n ih =>
    intro i h
    rw [freewalkLoop]
    have h0 := h i (Nat.le_refl _) (by omega)
    unfold entry at h0
    have hv : ¬ (rd64 s.mem (p + 8 * i) &&& PTE_V ≠ 0) := by rw [and_V]; omega
    rw [if_neg (fun c => hv c.1), if_neg hv]
    exact ih (i + 1) (fun j h1 h2 => h j (by omega) (by omega))

theorem sub_ne (m : Mem) (h c q p : Nat) (hq : InTree m h c q) (hn : ¬ InTree m h c p) : q ≠ p :=
  fun e => hn (e ▸ hq)

theorem wr64_out (m : Mem) (p i v x : Nat) (hi : i < 512) (hx : ¬ inPage p x) :
    wr64 m (p + 8 * i) v x = m x := by
  have c : ¬ (p + 8 * i ≤ x ∧ x < p + 8 * i + 8) := by
    unfold inPage PGSIZE at hx; omega
  simp only [wr64, c, if_false]

/-- The loop of `freewalk` over the entries `i .. 511` of page `p`, given what the recursive
call does on a tree of height `h`: it returns, having put on the free list exactly the pages
of the trees below the valid entries, and having written to those pages and `p` only. -/
theorem freewalkLoop_spec (L : Layout) (h : Nat) (child : KState → Nat → Res Unit)
    (IH : ∀ (s : KState) (c : Nat) (fl : List Nat), AllocOK L s fl → TreeOK s.mem h c →
      (∀ q, InTree s.mem h c q → (q % 4096 = 0 ∧ L.kend ≤ q ∧ q < L.phystop) ∧ q ∉ fl) →
      ∃ s' added, child s c = .ok () s' ∧ AllocOK L s' (added ++ fl) ∧
        (∀ q, q ∈ added ↔ InTree s.mem h c q) ∧
        (∀ x, (∀ q, InTree s.mem h c q → ¬ inPage q x) → s'.mem x = s.mem x))
    (p : Nat) (hp : p % 4096 = 0) :
    ∀ (n i : Nat) (s : KState) (fl : List Nat), i + n = 512 → AllocOK L s fl → p ∉ fl →
      (∀ j, i ≤ j → j < 512 → entry s.mem p j % 2 = 1 →
        entry s.mem p j &&& (PTE_R ||| PTE_W ||| PTE_X) = 0 ∧
        TreeOK s.mem h (PTE2PA (entry s.mem p j)) ∧
        ¬ InTree s.mem h (PTE2PA (entry s.mem p j)) p ∧
        (∀ k, i ≤ k → k < 512 → entry s.mem p k % 2 = 1 → k ≠ j →
          ∀ q, InTree s.mem h (PTE2PA (entry s.mem p j)) q →
            ¬ InTree s.mem h (PTE2PA (entry s.mem p k)) q) ∧
        ∀ q, InTree s.mem h (PTE2PA (entry s.mem p j)) q →
          (q % 4096 = 0 ∧ L.kend ≤ q ∧ q < L.phystop) ∧ q ∉ fl) →
      ∃ s' added, freewalkLoop child n s p i = .ok () s' ∧ AllocOK L s' (added ++ fl) ∧
        (∀ q, q ∈ added ↔ ∃ j, i ≤ j ∧ j < 512 ∧ entry s.mem p j % 2 = 1 ∧
          InTree s.mem h (PTE2PA (entry s.mem p j)) q) ∧
        (∀ x, ¬ inPage p x → (∀ j q, i ≤ j → j < 512 → entry s.mem p j % 2 = 1 →
          InTree s.mem h (PTE2PA (entry s.mem p j)) q → ¬ inPage q x) → s'.mem x = s.mem x) := by
  intro n
  induction n with
  | zero =>
    intro i s fl hin ok _ _
    refine ⟨s, [], by rw [freewalkLoop], by simpa using ok, fun q => ?_, fun _ _ _ => rfl⟩
    constructor
    · intro c; cases c
    · rintro ⟨j, a, b, _⟩; omega
  | succ n ih =>
    intro i s fl hin ok hpn hyp
    have hi : i < 512 := by omega
    rw [freewalkLoop]
    by_cases hv : entry s.mem p i % 2 = 1
    case neg =>
      have hv' : ¬ (rd64 s.mem (p + 8 * i) &&& PTE_V ≠ 0) := by
        rw [and_V]; unfold entry at hv; omega
      rw [if_neg (fun c => hv' c.1), if_neg hv']
      obtain ⟨s', added, r1, r2, r3, r4⟩ := ih (i + 1) s fl (by omega) ok hpn
        (fun j h1 h2 h3 => by
          obtain ⟨a1, a2, a3, a4, a5⟩ := hyp j (by omega) h2 h3
          exact ⟨a1, a2, a3, fun k k1 k2 k3 k4 => a4 k (by omega) k2 k3 k4, a5⟩)
      refine ⟨s', added, r1, r2, fun q => ?_, fun x hx hq => r4 x hx
        (fun j q h1 h2 h3 h4 => hq j q (by omega) h2 h3 h4)⟩
      rw [r3 q]
      constructor
      · rintro ⟨j, a, b, c, d⟩; exact ⟨j, by omega, b, c, d⟩
      · rintro ⟨j, a, b, c, d⟩
        have : j ≠ i := fun e => hv (e ▸ c)
        exact ⟨j, by omega, b, c, d⟩
    case pos =>
      obtain ⟨a1, a2, a3, a4, a5⟩ := hyp i (Nat.le_refl _) hi hv
      have hv' : rd64 s.mem (p + 8 * i) &&& PTE_V ≠ 0 := by
        rw [and_V]; unfold entry at hv; omega
      rw [if_pos ⟨hv', a1⟩]
      obtain ⟨s1, added1, c1, c2, c3, c4⟩ := IH s (PTE2PA (entry s.mem p i)) fl ok a2 a5
      have c1' : child s (PTE2PA (rd64 s.mem (p + 8 * i))) = .ok () s1 := c1
      rw [c1', bind_ok]
      -- pages untouched by the recursive call and the store
      have hA : ∀ q', q' % 4096 = 0 → q' ≠ p → ¬ InTree s.mem h (PTE2PA (entry s.mem p i)) q' →
          SamePage s.mem (wr64 s1.mem (p + 8 * i) 0) q' := by
        intro q' hq' hne hns x hx
        rw [wr64_out s1.mem p i 0 x hi (pages_disjoint q' p x hq' hp hne hx)]
        apply c4 x
        intro q hq
        exact pages_disjoint q' q x hq' (a5 q hq).1.1 (sub_ne _ _ _ _ _ hq hns).symm hx
      have hP : SamePage s.mem s1.mem p := by
        intro x hx
        apply c4 x
        intro q hq
        exact pages_disjoint p q x hp (a5 q hq).1.1 (sub_ne _ _ _ _ _ hq a3).symm hx
      have hB : ∀ j, j < 512 → j ≠ i →
          entry (wr64 s1.mem (p + 8 * i) 0) p j = entry s.mem p j := by
        intro j hj hne
        unfold entry
        rw [rd64_wr64_other s1.mem (p + 8 * i) 0 (p + 8 * j) (by omega)]
        exact rd64_samePage s.mem s1.mem p j hP hj
      have hpa : p ∉ added1 ++ fl := by
        intro c
        rcases List.mem_append.mp c with c | c
        · exact a3 ((c3 p).mp c)
        · exact hpn c
      have hC : AllocOK L { s1 with mem := wr64 s1.mem (p + 8 * i) 0 } (added1 ++ fl) := by
        exact allocOK_frame L s1 { s1 with mem := wr64 s1.mem (p + 8 * i) 0 } (added1 ++ fl)
          c2 rfl (fun f hf =>
            wr64_samePage s1.mem p i 0 f hp (c2.frames f hf).1 hi (fun e => hpa (e ▸ hf)))
      have hD : ∀ j, i + 1 ≤ j → j < 512 → entry s.mem p j % 2 = 1 →
          (∀ q, InTree (wr64 s1.mem (p + 8 * i) 0) h (PTE2PA (entry s.mem p j)) q ↔
            InTree s.mem h (PTE2PA (entry s.mem p j)) q) ∧
          (TreeOK s.mem h (PTE2PA (entry s.mem p j)) →
            TreeOK (wr64 s1.mem (p + 8 * i) 0) h (PTE2PA (entry s.mem p j))) := by
        intro j h1 h2 h3
        obtain ⟨b1, b2, b3, b4, b5⟩ := hyp j (by omega) h2 h3
        apply sub_congr
        intro q hq
        apply hA q (b5 q hq).1.1 (sub_ne _ _ _ _ _ hq b3)
        exact b4 i (Nat.le_refl _) hi hv (by omega) q hq
      obtain ⟨s', added2, r1, r2, r3, r4⟩ := ih (i + 1)
        { s1 with mem := wr64 s1.mem (p + 8 * i) 0 } (added1 ++ fl) (by omega) hC hpa
        (fun j h1 h2 h3 => by
          have ej := hB j h2 (by omega)
          show entry (wr64 s1.mem (p + 8 * i) 0) p j &&& _ = 0 ∧ _
          have h3' : entry (wr64 s1.mem (p + 8 * i) 0) p j % 2 = 1 := h3
          rw [ej] at h3'
          obtain ⟨b1, b2, b3, b4, b5⟩ := hyp j (by omega) h2 h3'
          obtain ⟨d1, d2⟩ := hD j h1 h2 h3'
          refine ⟨by rw [ej]; exact b1, by rw [ej]; exact d2 b2, ?_, ?_, ?_⟩
          · rw [ej]; exact fun c => b3 ((d1 p).mp c)
          · intro k k1 k2 k3 k4 q hq hq'
            have ek := hB k k2 (by omega)
            have k3' : entry (wr64 s1.mem (p + 8 * i) 0) p k % 2 = 1 := k3
            have hq1 : InTree (wr64 s1.mem (p + 8 * i) 0) h
              (PTE2PA (entry (wr64 s1.mem (p + 8 * i) 0) p j)) q := hq
            have hq2 : InTree (wr64 s1.mem (p + 8 * i) 0) h
              (PTE2PA (entry (wr64 s1.mem (p + 8 * i) 0) p k)) q := hq'
            rw [ek] at k3' hq2
            rw [ej] at hq1
            exact b4 k (by omega) k2 k3' k4 q ((d1 q).mp hq1)
              (((hD k k1 k2 k3').1 q).mp hq2)
          · intro q hq
            have hq1 : InTree (wr64 s1.mem (p + 8 * i) 0) h
              (PTE2PA (entry (wr64 s1.mem (p + 8 * i) 0) p j)) q := hq
            rw [ej] at hq1
            have hq2 := (d1 q).mp hq1
            refine ⟨(b5 q hq2).1, fun c => ?_⟩
            rcases List.mem_append.mp c with c | c
            · exact b4 i (Nat.le_refl _) hi hv (by omega) q hq2 ((c3 q).mp c)
            · exact (b5 q hq2).2 c)
      refine ⟨s', added2 ++ added1, r1, by rw [List.append_assoc]; exact r2, fun q => ?_,
        fun x hx hq => ?_⟩
      · rw [List.mem_append, r3 q, c3 q]
        constructor
        · rintro (⟨j, h1, h2, h3, h4⟩ | c)
          · have ej := hB j h2 (by omega)
            have h3' : entry (wr64 s1.mem (p + 8 * i) 0) p j % 2 = 1 := h3
            have h4' : InTree (wr64 s1.mem (p + 8 * i) 0) h
              (PTE2PA (entry (wr64 s1.mem (p + 8 * i) 0) p j)) q := h4
            rw [ej] at h3' h4'
            exact ⟨j, by omega, h2, h3', ((hD j h1 h2 h3').1 q).mp h4'⟩
          · exact ⟨i, Nat.le_refl _, hi, hv, c⟩
        · rintro ⟨j, h1, h2, h3, h4⟩
          by_cases e : j = i
          · subst e; exact Or.inr h4
          · have ej := hB j h2 e
            refine Or.inl ⟨j, by omega, h2, ?_, ?_⟩
            · show entry (wr64 s1.mem (p + 8 * i) 0) p j % 2 = 1
              rw [ej]; exact h3
            · show InTree (wr64 s1.mem (p + 8 * i) 0) h
                (PTE2PA (entry (wr64 s1.mem (p + 8 * i) 0) p j)) q
              rw [ej]; exact ((hD j (by omega) h2 h3).1 q).mpr h4
      · have e1 := r4 x hx (fun j q h1 h2 h3 h4 => by
          have ej := hB j h2 (by omega)
          have h3' : entry (wr64 s1.mem (p + 8 * i) 0) p j % 2 = 1 := h3
          have h4' : InTree (wr64 s1.mem (p + 8 * i) 0) h
            (PTE2PA (entry (wr64 s1.mem (p + 8 * i) 0) p j)) q := h4
          rw [ej] at h3' h4'
          exact hq j q (by omega) h2 h3' (((hD j h1 h2 h3').1 q).mp h4'))
        rw [e1]
        show wr64 s1.mem (p + 8 * i) 0 x = s.mem x
        rw [wr64_out s1.mem p i 0 x hi hx]
        exact c4 x (fun q hs => hq i q (Nat.le_refl _) hi hv hs)

/-- Total correctness of `freewalk` on a well-formed tree of height `h` at recursion budget
`d + 1 > h`: it returns, puts exactly the pages of the tree on the free list, each once,
and writes to no other page. -/
theorem freewalk_spec (L : Layout) : ∀ (h d : Nat), h ≤ d →
    ∀ (s : KState) (c : Nat) (fl : List Nat), AllocOK L s fl → TreeOK s.mem h c →
      (∀ q, InTree s.mem h c q → (q % 4096 = 0 ∧ L.kend ≤ q ∧ q < L.phystop) ∧ q ∉ fl) →
      ∃ s' added, freewalk (d + 1) L s c = .ok () s' ∧ AllocOK L s' (added ++ fl) ∧
        (∀ q, q ∈ added ↔ InTree s.mem h c q) ∧
        (∀ x, (∀ q, InTree s.mem h c q → ¬ inPage q x) → s'.mem x = s.mem x) := by
  intro h
  induction h with
  | zero =>
    intro d _ s c fl ok wf hs
    obtain ⟨⟨k1, k2, k3⟩, k4⟩ := hs c rfl
    obtain ⟨e1, e2⟩ := kfree_ok L s fl c ok k4 k1 k2 k3
    refine ⟨_, [c], ?_, e2, fun q => by rw [sub_zero]; simp, fun x hx => ?_⟩
    · rw [freewalk, freewalkLoop_skip _ s c 512 0 (fun j _ hj => wf j (by omega)), bind_ok]
      exact e1
    · have hx' : ¬ inPage c x := hx c rfl
      have c1 : ¬ (c ≤ x ∧ x < c + 8) := by unfold inPage PGSIZE at hx'; omega
      have c2 : ¬ (c ≤ x ∧ x < c + PGSIZE) := hx'
      simp only [wr64, memset, c1, c2, if_false]
  | succ h ih =>
    intro d hd s c fl ok wf hs
    obtain ⟨d', rfl⟩ : ∃ d', d = d' + 1 := ⟨d - 1, by omega⟩
    obtain ⟨⟨k1, k2, k3⟩, k4⟩ := hs c (Or.inl rfl)
    rw [wf_succ] at wf
    obtain ⟨s1, added, r1, r2, r3, r4⟩ := freewalkLoop_spec L h
      (fun s1 c1 => freewalk (d' + 1) L s1 c1)
      (fun s2 c2 fl2 => ih d' (by omega) s2 c2 fl2) c k1 512 0 s fl (by omega) ok k4
      (fun j _ hj hv => by
        obtain ⟨w1, w2, w3, w4⟩ := wf j hj hv
        exact ⟨w1, w2, w3, fun k _ hk hkv hne q hq => w4 k hk hkv hne q hq,
          fun q hq => hs q (Or.inr ⟨j, hj, hv, hq⟩)⟩)
    have hcn : c ∉ added ++ fl := by
      intro m
      rcases List.mem_append.mp m with m | m
      · obtain ⟨j, _, hj, hv, hq⟩ := (r3 c).mp m
        exact (wf j hj hv).2.2.1 hq
      · exact k4 m
    obtain ⟨e1, e2⟩ := kfree_ok L s1 (added ++ fl) c r2 hcn k1 k2 k3
    refine ⟨_, c :: added, ?_, e2, fun q => ?_, fun x hx => ?_⟩
    · rw [freewalk, r1, bind_ok]
      exact e1
    · rw [List.mem_cons, r3 q, sub_succ]
      constructor
      · rintro (e | ⟨j, _, hj, hv, hq⟩)
        · exact Or.inl e
        · exact Or.inr ⟨j, hj, hv, hq⟩
      · rintro (e | ⟨j, hj, hv, hq⟩)
        · exact Or.inl e
        · exact Or.inr ⟨j, Nat.zero_le _, hj, hv, hq⟩
    · have hx' : ¬ inPage c x := hx c (Or.inl rfl)
      have c1 : ¬ (c ≤ x ∧ x < c + 8) := by unfold inPage PGSIZE at hx'; omega
      have c2 : ¬ (c ≤ x ∧ x < c + PGSIZE) := hx'
      have e : s1.mem x = s.mem x :=
        r4 x hx' (fun j q _ hj hv hq => hx q (Or.inr ⟨j, hj, hv, hq⟩))
      simp only [wr64, memset, c1, c2, if_false]
      exact e

/-! ### The page table of an address space as a tree -/

theorem pointer_bits (x : Nat) (h : x % 1024 = 1) : x &&& (PTE_R ||| PTE_W ||| PTE_X) = 0 := by
  have e : (PTE_R ||| PTE_W ||| PTE_X) = 15 &&& 14 := by decide
  rw [e, ← Nat.and_assoc]
  have h15 : x &&& 15 = x % 16 := Nat.and_pow_two_sub_one_eq_mod x 4
  have h1 : x % 16 = 1 := by omega
  rw [h15, h1]
  decide

theorem PX_vaOf (i j k : Nat) (hi : i < 512) (hj : j < 512) (hk : k < 512) :
    PX 2 (vaOf i j k) = i ∧ PX 1 (vaOf i j k) = j ∧ PX 0 (vaOf i j k) = k ∧
    (i < 256 → vaOf i j k < MAXVA) := by
  unfold PX vaOf MAXVA
  norm_num
  refine ⟨by omega, by omega, by omega, fun _ => by omega⟩

theorem ent_entry (m : Mem) (pt va : Nat) :
    ent2 m pt va = entry m pt (PX 2 va) ∧
    ent1 m pt va = entry m (PTE2PA (entry m pt (PX 2 va))) (PX 1 va) ∧
    ent0 m pt va =
      entry m (PTE2PA (entry m (PTE2PA (entry m pt (PX 2 va))) (PX 1 va))) (PX 0 va) :=
  ⟨rfl, rfl, rfl⟩

/-- Where every level-0 entry is invalid, the page-table pages of `pt` form a tree of height
2 that `freewalk` can free, and the pages of that tree are the page-table pages. -/
theorem tree_of_table (m : Mem) (pt : Nat) (ok : TableOK m pt) (cl : Clean m pt)
    (hl : ∀ va, va < MAXVA → leafOf m pt va % 2 = 0) :
    TreeOK m 2 pt ∧ ∀ q, InTree m 2 pt q ↔ IsTable m pt q := by
  -- facts about the address with given indices
  have h2 : ∀ i, i < 512 → entry m pt i % 2 = 1 → ∀ j k, j < 512 → k < 512 →
      has1 m pt (vaOf i j k) ∧ tbl1 m pt (vaOf i j k) = PTE2PA (entry m pt i) ∧
      ent2 m pt (vaOf i j k) = entry m pt i := by
    intro i hi hv j k hj hk
    obtain ⟨p2, _, _, _⟩ := PX_vaOf i j k hi hj hk
    have e : ent2 m pt (vaOf i j k) = entry m pt i := by rw [(ent_entry m pt _).1, p2]
    refine ⟨?_, ?_, e⟩
    · show ent2 m pt (vaOf i j k) % 2 = 1
      rw [e]; exact hv
    · show PTE2PA (ent2 m pt (vaOf i j k)) = _
      rw [e]
  have h1 : ∀ i, i < 512 → entry m pt i % 2 = 1 → ∀ j, j < 512 →
      entry m (PTE2PA (entry m pt i)) j % 2 = 1 → ∀ k, k < 512 →
      has0 m pt (vaOf i j k) ∧
      tbl0 m pt (vaOf i j k) = PTE2PA (entry m (PTE2PA (entry m pt i)) j) ∧
      ent1 m pt (vaOf i j k) = entry m (PTE2PA (entry m pt i)) j ∧
      ent0 m pt (vaOf i j k) = entry m (PTE2PA (entry m (PTE2PA (entry m pt i)) j)) k := by
    intro i hi hv j hj hvj k hk
    obtain ⟨p2, p1, p0, _⟩ := PX_vaOf i j k hi hj hk
    obtain ⟨a1, _, _⟩ := h2 i hi hv j k hj hk
    have e : ent1 m pt (vaOf i j k) = entry m (PTE2PA (entry m pt i)) j := by
      rw [(ent_entry m pt _).2.1, p2, p1]
    refine ⟨⟨a1, ?_⟩, ?_, e, ?_⟩
    · rw [e]; exact hvj
    · show PTE2PA (ent1 m pt (vaOf i j k)) = _
      rw [e]
    · rw [(ent_entry m pt _).2.2, p2, p1, p0]
  constructor
  · rw [wf_succ]
    intro i hi hv
    obtain ⟨a1, a2, a3⟩ := h2 i hi hv 0 0 (by omega) (by omega)
    have hi256 := (cl.1 _ a1).2
    rw [(PX_vaOf i 0 0 hi (by omega) (by omega)).1] at hi256
    refine ⟨?_, ?_, ?_, ?_⟩
    · rw [← a3]; exact pointer_bits _ (cl.1 _ a1).1
    · rw [wf_succ]
      intro j hj hvj
      obtain ⟨b1, b2, b3, _⟩ := h1 i hi hv j hj hvj 0 (by omega)
      refine ⟨?_, ?_, ?_, ?_⟩
      · rw [← b3]; exact pointer_bits _ (cl.2 _ b1)
      · rw [wf_zero]
        intro k hk
        obtain ⟨c1, _, _, c4⟩ := h1 i hi hv j hj hvj k hk
        have hlt := (PX_vaOf i j k hi hj hk).2.2.2 hi256
        have := hl _ hlt
        unfold leafOf at this
        rw [if_pos c1, c4] at this
        exact this
      · rw [sub_zero]
        intro e
        exact ok.t0_t1 _ _ b1 a1 (by rw [b2, a2]; exact e.symm)
      · intro j' hj' hvj' hne q hq hq'
        rw [sub_zero] at hq hq'
        obtain ⟨d1, d2, _, _⟩ := h1 i hi hv j' hj' hvj' 0 (by omega)
        have := (ok.t0_inj _ _ b1 d1 (by rw [b2, d2, ← hq, ← hq'])).2
        rw [(PX_vaOf i j 0 hi hj (by omega)).2.1, (PX_vaOf i j' 0 hi hj' (by omega)).2.1] at this
        exact hne this.symm
    · rw [sub_succ]
      rintro (e | ⟨j, hj, hvj, hq⟩)
      · exact (ok.t1_ne _ a1).1 (by rw [a2]; exact e.symm)
      · rw [sub_zero] at hq
        obtain ⟨b1, b2, _, _⟩ := h1 i hi hv j hj hvj 0 (by omega)
        exact (ok.t0_ne _ b1).1 (by rw [b2]; exact hq.symm)
    · intro i' hi' hv' hne q hq hq'
      obtain ⟨a1', a2', _⟩ := h2 i' hi' hv' 0 0 (by omega) (by omega)
      rw [sub_succ] at hq hq'
      rcases hq with e | ⟨j, hj, hvj, hq⟩
      · rcases hq' with e' | ⟨j', hj', hvj', hq'⟩
        · have := ok.t1_inj _ _ a1 a1' (by rw [a2, a2', ← e, ← e'])
          rw [(PX_vaOf i 0 0 hi (by omega) (by omega)).1,
            (PX_vaOf i' 0 0 hi' (by omega) (by omega)).1] at this
          exact hne this.symm
        · rw [sub_zero] at hq'
          obtain ⟨b1, b2, _, _⟩ := h1 i' hi' hv' j' hj' hvj' 0 (by omega)
          exact ok.t0_t1 _ _ b1 a1 (by rw [b2, a2, ← e, ← hq'])
      · rw [sub_zero] at hq
        obtain ⟨b1, b2, _, _⟩ := h1 i hi hv j hj hvj 0 (by omega)
        rcases hq' with e' | ⟨j', hj', hvj', hq'⟩
        · exact ok.t0_t1 _ _ b1 a1' (by rw [b2, a2', ← e', ← hq])
        · rw [sub_zero] at hq'
          obtain ⟨b1', b2', _, _⟩ := h1 i' hi' hv' j' hj' hvj' 0 (by omega)
          have := (ok.t0_inj _ _ b1 b1' (by rw [b2, b2', ← hq, ← hq'])).1
          rw [(PX_vaOf i j 0 hi hj (by omega)).1,
            (PX_vaOf i' j' 0 hi' hj' (by omega)).1] at this
          exact hne this.symm
  · intro q
    rw [sub_succ]
    constructor
    · rintro (e | ⟨i, hi, hv, hq⟩)
      · exact Or.inl (Or.inl e)
      · obtain ⟨a1, a2, _⟩ := h2 i hi hv 0 0 (by omega) (by omega)
        rw [sub_succ] at hq
        rcases hq with e | ⟨j, hj, hvj, hq⟩
        · exact Or.inl (Or.inr ⟨_, a1, by rw [a2]; exact e⟩)
        · rw [sub_zero] at hq
          obtain ⟨b1, b2, _, _⟩ := h1 i hi hv j hj hvj 0 (by omega)
          exact Or.inr ⟨_, b1, by rw [b2]; exact hq⟩
    · rintro ((e | ⟨va, hv, e⟩) | ⟨va, hv, e⟩)
      · exact Or.inl e
      · refine Or.inr ⟨PX 2 va, PX_lt 2 va, hv, ?_⟩
        rw [sub_succ]
        exact Or.inl e
      · refine Or.inr ⟨PX 2 va, PX_lt 2 va, hv.1, ?_⟩
        rw [sub_succ]
        exact Or.inr ⟨PX 1 va, PX_lt 1 va, hv.2, e⟩

/-! ### Pointer entries stay pointer entries -/

theorem ok_inj {α : Type} (v v' : α) (s s' : KState) (h : Res.ok v s = Res.ok v' s') :
    v = v' ∧ s = s' := by
  injection h with a b
  exact ⟨a, b⟩

theorem clean_same (m m' : Mem) (pt : Nat)
    (h : ∀ p, IsUpper m pt p → SamePage m m' p) (cl : Clean m pt) : Clean m' pt := by
  constructor
  · intro va hv
    obtain ⟨u1, u2, _, _, _, _⟩ := upper_same m m' pt h va
    rw [u1]
    exact cl.1 va (u2.mp hv)
  · intro va hv
    obtain ⟨_, _, _, u4, u5, _⟩ := upper_same m m' pt h va
    have hv' := u5.mp hv
    rw [u4 hv'.1]
    exact cl.2 va hv'

theorem link_flags (f : Nat) : (PA2PTE f ||| PTE_V) % 1024 = 1 := by
  have := (pte_make f 0 (by omega)).1
  rw [Nat.or_zero] at this
  rw [this]
  have e : (0 ||| 1 : Nat) = 1 := by decide
  rw [e]
  omega

theorem PX2_lt (va : Nat) (h : va < MAXVA) : PX 2 va < 256 := by
  unfold PX; unfold MAXVA at h
  norm_num
  omega

theorem link1_clean (m : Mem) (pt va f : Nat) (ok : TableOK m pt)
    (hf : f % 4096 = 0) (hlt : f < 2 ^ 64) (hnt : ¬ IsTable m pt f) (hva : va < MAXVA)
    (cl : Clean m pt) : Clean (linkMem m f (slot2 pt va)) pt := by
  have hfp : f ≠ pt := fun e => hnt (e ▸ Or.inl (Or.inl rfl))
  obtain ⟨r1, r2, r3, r4, _⟩ :=
    linkMem_reads m f pt (PX 2 va) hf ok.root_al hlt (fun e => hfp e.symm) (PX_lt 2 va)
  obtain ⟨_, l2, l3⟩ := link_entry f hf hlt
  have hnt1 : ∀ vb, has1 m pt vb → tbl1 m pt vb ≠ f :=
    fun vb hb e => hnt (e ▸ Or.inl (tbl1_isUpper m pt vb hb))
  have e2 : ∀ vb, ent2 (linkMem m f (slot2 pt va)) pt vb =
      if PX 2 vb = PX 2 va then PA2PTE f ||| PTE_V else ent2 m pt vb := by
    intro vb
    by_cases c : PX 2 vb = PX 2 va
    · rw [if_pos c]; unfold ent2 slot2; rw [c]; exact r1
    · rw [if_neg c]; unfold ent2 slot2
      exact r2 (PX 2 vb) (PX_lt 2 vb) c
  constructor
  · intro vb hb
    unfold has1 at hb
    rw [e2] at hb ⊢
    by_cases c : PX 2 vb = PX 2 va
    · rw [if_pos c]
      exact ⟨link_flags f, by rw [c]; exact PX2_lt va hva⟩
    · rw [if_neg c] at hb ⊢
      exact cl.1 vb hb
  · intro vb hb
    obtain ⟨hb1, hb2⟩ := hb
    unfold has1 at hb1
    rw [e2] at hb1
    by_cases c : PX 2 vb = PX 2 va
    · exfalso
      have e : ent1 (linkMem m f (slot2 pt va)) pt vb = 0 := by
        unfold ent1 slot1 tbl1
        rw [e2, if_pos c, l3]
        exact r3 (PX 1 vb) (PX_lt 1 vb)
      rw [e] at hb2
      omega
    · rw [if_neg c] at hb1
      have e : ent1 (linkMem m f (slot2 pt va)) pt vb = ent1 m pt vb := by
        unfold ent1 slot1 tbl1
        rw [e2, if_neg c]
        exact rd64_samePage _ _ _ (PX 1 vb)
          (r4 _ (tbl1_aligned m pt vb) (hnt1 vb hb1) (ok.t1_ne vb hb1).1) (PX_lt 1 vb)
      rw [e] at hb2 ⊢
      exact cl.2 vb ⟨hb1, hb2⟩

theorem link0_clean (m : Mem) (pt va f : Nat) (ok : TableOK m pt) (hv1 : has1 m pt va)
    (hf : f % 4096 = 0) (hlt : f < 2 ^ 64) (hnt : ¬ IsTable m pt f)
    (cl : Clean m pt) : Clean (linkMem m f (slot1 m pt va)) pt := by
  have hfp : f ≠ pt := fun e => hnt (e ▸ Or.inl (Or.inl rfl))
  have hnt1 : ∀ vb, has1 m pt vb → tbl1 m pt vb ≠ f :=
    fun vb hb e => hnt (e ▸ Or.inl (tbl1_isUpper m pt vb hb))
  have hq := tbl1_aligned m pt va
  obtain ⟨r1, r2, r3, r4, _⟩ :=
    linkMem_reads m f (tbl1 m pt va) (PX 1 va) hf hq hlt (hnt1 va hv1) (PX_lt 1 va)
  have hs : slot1 m pt va = tbl1 m pt va + 8 * PX 1 va := rfl
  rw [hs]
  have e2 : ∀ vb, ent2 (linkMem m f (tbl1 m pt va + 8 * PX 1 va)) pt vb = ent2 m pt vb := by
    intro vb
    unfold ent2 slot2
    exact rd64_samePage _ _ _ (PX 2 vb)
      (r4 pt ok.root_al (fun e => hfp e.symm) (fun e => (ok.t1_ne va hv1).1 e.symm)) (PX_lt 2 vb)
  have t1 : ∀ vb, tbl1 (linkMem m f (tbl1 m pt va + 8 * PX 1 va)) pt vb = tbl1 m pt vb := by
    intro vb; exact congrArg PTE2PA (e2 vb)
  have e1 : ∀ vb, has1 m pt vb → ent1 (linkMem m f (tbl1 m pt va + 8 * PX 1 va)) pt vb =
      if PX 2 vb = PX 2 va ∧ PX 1 vb = PX 1 va then PA2PTE f ||| PTE_V else ent1 m pt vb := by
    intro vb hb
    unfold ent1 slot1
    rw [t1]
    by_cases c2 : PX 2 vb = PX 2 va
    · have et := (path_congr2 m pt vb va c2).2.2.1
      rw [et]
      by_cases c1 : PX 1 vb = PX 1 va
      · rw [if_pos ⟨c2, c1⟩, c1]; exact r1
      · rw [if_neg (fun h => c1 h.2)]
        exact r2 (PX 1 vb) (PX_lt 1 vb) c1
    · rw [if_neg (fun h => c2 h.1)]
      have hne : tbl1 m pt vb ≠ tbl1 m pt va := fun e => c2 (ok.t1_inj vb va hb hv1 e)
      exact rd64_samePage _ _ _ (PX 1 vb)
        (r4 _ (tbl1_aligned m pt vb) (hnt1 vb hb) hne) (PX_lt 1 vb)
  constructor
  · intro vb hb
    unfold has1 at hb
    rw [e2] at hb ⊢
    exact cl.1 vb hb
  · intro vb hb
    obtain ⟨hb1, hb2⟩ := hb
    unfold has1 at hb1
    rw [e2] at hb1
    rw [e1 vb hb1] at hb2 ⊢
    by_cases c : PX 2 vb = PX 2 va ∧ PX 1 vb = PX 1 va
    · rw [if_pos c]; exact link_flags f
    · rw [if_neg c] at hb2 ⊢
      exact cl.2 vb ⟨hb1, hb2⟩

theorem walk1_clean (L : Layout) (s : KState) (pt va : Nat) (fl : List Nat) (r : Nat)
    (s' : KState) (inv : Inv L s pt fl) (hv1 : has1 s.mem pt va) (cl : Clean s.mem pt)
    (h : walkLevels 1 s (tbl1 s.mem pt va) va true = .ok r s') : Clean s'.mem pt := by
  by_cases hv0 : has0 s.mem pt va
  · have hx : rd64 s.mem (tbl1 s.mem pt va + 8 * PX (0 + 1) va) % 2 = 1 := hv0.2
    rw [walkLevels_valid 0 s _ va true hx, walkLevels] at h
    have h2 := (ok_inj _ _ _ _ h).2
    rw [← h2]
    exact cl
  · have hx : ¬ rd64 s.mem (tbl1 s.mem pt va + 8 * PX (0 + 1) va) % 2 = 1 :=
      fun c => hv0 ⟨hv1, c⟩
    cases fl with
    | nil =>
      rw [walkLevels_fail 0 s s _ va hx (kalloc_nil L s inv.alloc)] at h
      have h2 := (ok_inj _ _ _ _ h).2
      rw [← h2]
      exact cl
    | cons f rest =>
      obtain ⟨hk, _⟩ := kalloc_cons L s f rest inv.alloc
      have hf := inv.alloc.frames f (List.mem_cons_self _ _)
      have hk0 := inv.alloc.kend_pos
      have ht := inv.alloc.top
      have hf0 : f ≠ 0 := by omega
      rw [walkLevels_link 0 s _ _ va f hx hk hf0, walkLevels] at h
      have h2 := (ok_inj _ _ _ _ h).2
      have hnt : ¬ IsTable s.mem pt f := fun c => inv.sep f c (List.mem_cons_self _ _)
      have es : s' = KState.mk (linkMem s.mem f (tbl1 s.mem pt va + 8 * PX 1 va))
          (rd64 s.mem f) := h2.symm
      rw [es]
      exact link0_clean s.mem pt va f inv.table hv1 hf.1 (by omega) hnt cl

/-- A returning `walk(pt, va, 1)` leaves every valid root and level-1 entry a pointer
entry. -/
theorem walk_clean (L : Layout) (s : KState) (pt va : Nat) (fl : List Nat) (r : Nat)
    (s' : KState) (inv : Inv L s pt fl) (cl : Clean s.mem pt)
    (h : walk s pt va true = .ok r s') : Clean s'.mem pt := by
  unfold walk at h
  by_cases hva : va ≥ MAXVA
  · rw [if_pos hva] at h; cases h
  rw [if_neg hva] at h
  by_cases hv1 : has1 s.mem pt va
  · have hx : rd64 s.mem (pt + 8 * PX (1 + 1) va) % 2 = 1 := hv1
    rw [walkLevels_valid 1 s _ va true hx] at h
    exact walk1_clean L s pt va fl r s' inv hv1 cl h
  · have hx : ¬ rd64 s.mem (pt + 8 * PX (1 + 1) va) % 2 = 1 := hv1
    cases fl with
    | nil =>
      rw [walkLevels_fail 1 s s _ va hx (kalloc_nil L s inv.alloc)] at h
      have h2 := (ok_inj _ _ _ _ h).2
      rw [← h2]
      exact cl
    | cons f rest =>
      obtain ⟨hk, _⟩ := kalloc_cons L s f rest inv.alloc
      have hf := inv.alloc.frames f (List.mem_cons_self _ _)
      have hk0 := inv.alloc.kend_pos
      have ht := inv.alloc.top
      have hf0 : f ≠ 0 := by omega
      rw [walkLevels_link 1 s _ _ va f hx hk hf0] at h
      have hnt : ¬ IsTable s.mem pt f := fun c => inv.sep f c (List.mem_cons_self _ _)
      obtain ⟨ok', a1, t1, _, it, lf⟩ :=
        link1 s.mem pt va f inv.table hv1 hf.1 (by omega) hf0 hnt
      have g := grown_link L pt s f rest pt (PX 2 va) inv
        (Or.inl (root_isUpper _ _)) (PX_lt 2 va) ok' it lf
      have cl1 := link1_clean s.mem pt va f inv.table hf.1 (by omega) hnt (by omega) cl
      have h' : walkLevels 1 (KState.mk (linkMem s.mem f (slot2 pt va)) (rd64 s.mem f))
          (tbl1 (linkMem s.mem f (slot2 pt va)) pt va) va true = .ok r s' := by
        rw [t1]; exact h
      exact walk1_clean L _ pt va rest r s' g.inv a1 cl1 h'

/-- A returning `mappages` of one page leaves every valid root and level-1 entry a pointer
entry. -/
theorem mappages_clean (L : Layout) (s : KState) (pt a pa perm : Nat) (fl : List Nat)
    (r : Int) (s' : KState) (inv : Inv L s pt fl) (ha : a % 4096 = 0) (cl : Clean s.mem pt)
    (h : mappages s pt a PGSIZE pa perm = .ok r s') : Clean s'.mem pt := by
  unfold mappages at h
  rw [if_neg (by decide), loopfuel_eq, mappagesLoop] at h
  have e1 : PGROUNDDOWN a = a := by unfold PGROUNDDOWN PGSIZE; omega
  rw [e1] at h
  cases hw : walk s pt a true with
  | panic msg => rw [hw] at h; cases h
  | fuel => rw [hw] at h; cases h
  | ok pte s1 =>
    rw [hw, bind_ok] at h
    have cl1 := walk_clean L s pt a fl pte s1 inv cl hw
    obtain ⟨hva, fl1, g, p1, _⟩ := walk_alloc L s pt a fl pte s1 inv hw
    by_cases hp : pte = 0
    · rw [if_pos hp] at h
      have h2 := (ok_inj _ _ _ _ h).2
      rw [← h2]; exact cl1
    · rw [if_neg hp] at h
      by_cases hval : rd64 s1.mem pte &&& PTE_V ≠ 0
      · rw [if_pos hval] at h; cases h
      · rw [if_neg hval] at h
        obtain ⟨q1, q2⟩ := p1 hp
        have e2 : PGROUNDDOWN ((a + PGSIZE - 1) % 2 ^ 64) = a := by
          unfold PGROUNDDOWN PGSIZE; unfold MAXVA at hva; omega
        rw [e2] at h
        simp only [if_true] at h
        have h2 := (ok_inj _ _ _ _ h).2
        rw [← h2, q2]
        exact clean_same s1.mem _ pt
          (leaf_write s1.mem pt a _ g.inv.table q1).1 cl1

/-! ### The invariant of a built address space -/

theorem uvmallocLoop_clean (L : Layout) (pt lo newsz xperm : Nat) (s0 : KState)
    (fl0 : List Nat) (hx : xperm < 1024) :
    ∀ (fuel : Nat) (s : KState) (a : Nat) (fl : List Nat) (r : Nat) (s' : KState),
    Grew L pt (fun _ => PTE_R ||| PTE_U ||| xperm) (fun _ _ => 0) s0 fl0 lo a s fl →
    a % 4096 = 0 → lo ≤ a → a < 2 ^ 64 → Clean s.mem pt →
    uvmallocLoop fuel L s pt a lo newsz xperm = .ok r s' → r ≠ 0 → Clean s'.mem pt := by
  intro fuel
  induction fuel with
  | zero => intro s a fl r s' _ _ _ _ _ h; rw [uvmallocLoop] at h; cases h
  | succ k ih =>
    intro s a fl r s' g ha hle ha64 cl h hr
    rw [uvmallocLoop] at h
    by_cases hn : a < newsz
    case neg =>
      rw [if_neg hn] at h
      have h2 := (ok_inj _ _ _ _ h).2
      rw [← h2]; exact cl
    case pos =>
      rw [if_pos hn] at h
      cases fl with
      | nil =>
        rw [kalloc_nil L s g.inv.alloc] at h
        simp only [if_true] at h
        cases hd : uvmdealloc L s pt a lo with
        | panic msg => rw [hd] at h; cases h
        | fuel => rw [hd] at h; cases h
        | ok u s1 =>
          rw [hd, bind_ok] at h
          exact absurd (ok_inj _ _ _ _ h).1.symm hr
      | cons f rest =>
        obtain ⟨hk, _⟩ := kalloc_cons L s f rest g.inv.alloc
        have hfa := g.inv.alloc.frames f (List.mem_cons_self _ _)
        have hk0 := g.inv.alloc.kend_pos
        have hf0 : f ≠ 0 := by omega
        rw [hk] at h
        simp only [hf0, if_false] at h
        have hout : ∀ x, ¬ inPage f x →
            memset (memset s.mem f 5 PGSIZE) f 0 PGSIZE x = s.mem x := by
          intro x hx
          have c : ¬ (f ≤ x ∧ x < f + PGSIZE) := hx
          simp only [memset, c, if_false]
        have hin : ∀ i, i < 4096 → memset (memset s.mem f 5 PGSIZE) f 0 PGSIZE (f + i) = 0 := by
          intro i hi
          have c : f ≤ f + i ∧ f + i < f + PGSIZE := ⟨by omega, by unfold PGSIZE; omega⟩
          simp only [memset, c, and_self, if_true, Nat.zero_mod]
        cases hm : mappages
            { mem := memset (memset s.mem f 5 PGSIZE) f 0 PGSIZE, freelist := rd64 s.mem f }
            pt a PGSIZE f (PTE_R ||| PTE_U ||| xperm) with
        | panic msg => rw [hm] at h; cases h
        | fuel => rw [hm] at h; cases h
        | ok rr s3 =>
          rw [hm, bind_ok] at h
          by_cases hrr : rr ≠ 0
          · rw [if_pos hrr] at h
            cases hkf : kfree L s3 f with
            | panic msg => rw [hkf] at h; cases h
            | fuel => rw [hkf] at h; cases h
            | ok u4 s4 =>
              rw [hkf, bind_ok] at h
              cases hd : uvmdealloc L s4 pt a lo with
              | panic msg => rw [hd] at h; cases h
              | fuel => rw [hd] at h; cases h
              | ok u s5 =>
                rw [hd, bind_ok] at h
                exact absurd (ok_inj _ _ _ _ h).1.symm hr
          · rw [if_neg hrr] at h
            have hr0 : rr = 0 := by omega
            rw [hr0] at hm
            obtain ⟨inv2, _, _⟩ := inv_take L s
              (KState.mk (memset (memset s.mem f 5 PGSIZE) f 0 PGSIZE) (rd64 s.mem f)) pt f
              rest g.inv rfl hout
            have cl2 : Clean (memset (memset s.mem f 5 PGSIZE) f 0 PGSIZE) pt :=
              clean_same s.mem _ pt
                (fun p hp => (take_upper L s _ pt f rest g.inv hout).1 p (Or.inl hp)) cl
            have cl3 := mappages_clean L _ pt a f _ rest 0 s3 inv2 ha cl2 hm
            obtain ⟨fl3, g3⟩ := grew_step L pt _ _ s0 fl0 lo a s f rest
              (KState.mk (memset (memset s.mem f 5 PGSIZE) f 0 PGSIZE) (rd64 s.mem f)) s3 g ha
              hle ha64 (uperm_lt xperm hx) rfl hout hin hm
            have hb := g3.bound (by omega)
            have ea : (a + PGSIZE) % 2 ^ 64 = a + 4096 := by
              unfold PGSIZE; unfold MAXVA at hb; omega
            rw [ea] at h
            have hal' : (a + 4096) % 4096 = 0 := by omega
            have hle' : lo ≤ a + 4096 := by omega
            have h64' : a + 4096 < 2 ^ 64 := by unfold MAXVA at hb; omega
            exact ih s3 (a + 4096) fl3 r s' g3 hal' hle' h64' cl3 h hr

theorem uvmalloc_clean (L : Layout) (s : KState) (pt oldsz newsz xperm : Nat) (fl : List Nat)
    (s' : KState) (inv : Inv L s pt fl) (hle : oldsz ≤ newsz) (hn : newsz ≠ 0)
    (hx : xperm < 1024) (cl : Clean s.mem pt)
    (h : uvmalloc L s pt oldsz newsz xperm = .ok newsz s') : Clean s'.mem pt := by
  unfold uvmalloc at h
  rw [if_neg (by omega)] at h
  have hal : PGROUNDUP oldsz % 4096 = 0 := by unfold PGROUNDUP PGSIZE; omega
  have h64 : PGROUNDUP oldsz < 2 ^ 64 := by unfold PGROUNDUP PGSIZE; omega
  exact uvmallocLoop_clean L pt (PGROUNDUP oldsz) newsz xperm s fl hx LOOPFUEL s
    (PGROUNDUP oldsz) fl newsz s' (grew_init L pt _ _ s fl _ inv) hal (Nat.le_refl _) h64 cl h hn

/-- What `uvmcreate` leaves when it returns a table: an address space of size 0. -/
theorem space_create (L : Layout) (s0 : KState) (fl0 : List Nat) (pt : Nat) (s1 : KState)
    (ok : AllocOK L s0 fl0) (h : uvmcreate s0 = (pt, s1)) (hpt : pt ≠ 0) :
    ∃ fl, Space L pt fl0 s1 0 fl := by
  cases fl0 with
  | nil =>
    exfalso
    unfold uvmcreate at h
    rw [kalloc_nil L s0 ok] at h
    simp only [if_true] at h
    exact hpt (congrArg Prod.fst h).symm
  | cons f rest =>
    obtain ⟨hk, ok1⟩ := kalloc_cons L s0 f rest ok
    have hfa := ok.frames f (List.mem_cons_self _ _)
    have hk0 := ok.kend_pos
    have ht := ok.top
    have hf0 : f ≠ 0 := by omega
    have nd := List.nodup_cons.mp ok.nodup
    unfold uvmcreate at h
    rw [hk] at h
    simp only [hf0, if_false] at h
    have e1 : pt = f := (congrArg Prod.fst h).symm
    have e2 : s1 = KState.mk (memset (memset s0.mem f 5 PGSIZE) f 0 PGSIZE) (rd64 s0.mem f) :=
      (congrArg Prod.snd h).symm
    subst e1
    rw [e2]
    have hz : ∀ x, inPage pt x → memset (memset s0.mem pt 5 PGSIZE) pt 0 PGSIZE x = 0 := by
      intro x hx
      have c : pt ≤ x ∧ x < pt + PGSIZE := hx
      simp only [memset, c, and_self, if_true, Nat.zero_mod]
    obtain ⟨tok, tis, tlf⟩ := tableOK_zero _ pt hfa.1 hf0 hz
    have hno : ∀ va, ¬ has1 (memset (memset s0.mem pt 5 PGSIZE) pt 0 PGSIZE) pt va := by
      intro va hv
      have e : ent2 (memset (memset s0.mem pt 5 PGSIZE) pt 0 PGSIZE) pt va = 0 := by
        unfold ent2 slot2
        have := PX_lt 2 va
        exact rd64_memset_zero _ pt PGSIZE _ (by omega) (by unfold PGSIZE; omega)
      unfold has1 at hv
      rw [e] at hv
      omega
    have aok : AllocOK L
        (KState.mk (memset (memset s0.mem pt 5 PGSIZE) pt 0 PGSIZE) (rd64 s0.mem pt)) rest :=
      allocOK_frame L _ _ rest ok1 rfl (fun g hg =>
        memset_samePage _ pt 0 g hfa.1 (ok1.frames g hg).1 (fun e => nd.1 (e ▸ hg)))
    have p0 : PGROUNDUP 0 = 0 := by decide
    refine ⟨rest, ⟨⟨aok, tok, fun p hp => ?_⟩, fun g hg => List.mem_cons_of_mem _ hg,
      fun p hp => ?_, fun b _ hb => ?_, fun vb _ _ => ?_, fun b _ _ hb => ?_, fun g hg => ?_,
      Nat.zero_le _, ⟨fun va hv => absurd hv (hno va), fun va hv => absurd hv.1 (hno va)⟩,
      ok.nodup, ok.frames⟩⟩
    · rw [(tis p).mp hp]; exact nd.1
    · rw [(tis p).mp hp]; exact List.mem_cons_self _ _
    · rw [p0] at hb; omega
    · show leafOf (memset (memset s0.mem pt 5 PGSIZE) pt 0 PGSIZE) pt vb % 2 = 0
      rw [tlf vb]
    · rw [p0] at hb; omega
    · rcases List.mem_cons.mp hg with e | e
      · exact Or.inr (Or.inl ((tis g).mpr e))
      · exact Or.inl e

theorem PGROUNDUP_spec (sz : Nat) (h : sz ≤ MAXVA) :
    PGROUNDUP sz % 4096 = 0 ∧ sz ≤ PGROUNDUP sz ∧ PGROUNDUP sz < sz + 4096 ∧
    PGROUNDUP sz ≤ MAXVA := by
  unfold PGROUNDUP PGSIZE; unfold MAXVA at h ⊢
  norm_num at h ⊢
  omega

/-- A `uvmalloc` that returns `newsz` takes an address space of size `sz ≤ newsz` to one
of size `newsz`. -/
theorem space_grow (L : Layout) (pt : Nat) (fl0 : List Nat) (s : KState) (sz : Nat)
    (fl : List Nat) (sp : Space L pt fl0 s sz fl) (newsz xperm : Nat) (s' : KState)
    (hle : sz ≤ newsz) (hx : xperm < 1024)
    (h : uvmalloc L s pt sz newsz xperm = .ok newsz s') :
    ∃ fl', Space L pt fl0 s' newsz fl' := by
  by_cases hn : newsz = 0
  · have hs : sz = 0 := by omega
    subst hn
    subst hs
    unfold uvmalloc at h
    rw [if_neg (by omega), loopfuel_eq, uvmallocLoop, if_neg (by omega)] at h
    have h2 := (ok_inj _ _ _ _ h).2
    rw [← h2]
    exact ⟨fl, sp⟩
  have cl' := uvmalloc_clean L s pt sz newsz xperm fl s' sp.inv hle hn hx sp.clean h
  obtain ⟨_, a', fl', g, q1, q2, q3, q4⟩ :=
    (uvmalloc_cases L s pt sz newsz xperm fl newsz s' sp.inv hle hx h).resolve_right
      (fun c => hn c.1)
  obtain ⟨l1, l2, l3, l4⟩ := PGROUNDUP_spec sz sp.size
  have hb : a' ≤ MAXVA := by
    by_cases c : PGROUNDUP sz < a'
    · exact g.bound c
    · omega
  have hnm : newsz ≤ MAXVA := by omega
  obtain ⟨n1, n2, n3, n4⟩ := PGROUNDUP_spec newsz hnm
  have ea : PGROUNDUP newsz = a' := by omega
  rw [← ea] at g q3
  have hold : ∀ b, b < PGROUNDUP sz → b < MAXVA →
      leafOf s'.mem pt b = leafOf s.mem pt b :=
    fun b h1 h2 => g.leaf_out b h2 (by omega)
  refine ⟨fl', ⟨g.inv, fun f hf => sp.sub f (g.sub f hf), fun p hp => ?_, fun b hb1 hb2 => ?_,
    fun vb h1 h2 => ?_, fun b hb1 _ hb2 hb3 => ?_, fun f hf => ?_, hnm, cl', sp.nodup0,
    sp.frames0⟩⟩
  · rcases g.tables_new p hp with c | c
    · exact sp.tables p c
    · exact sp.sub p c
  · by_cases c : b < PGROUNDUP sz
    · rw [hold b c (by omega)]
      exact sp.mapped b hb1 c
    · obtain ⟨i1, i2, _, _⟩ := g.leaf_in b hb1 (by omega) hb2
      obtain ⟨u1, u2, _⟩ := uperm_leaf xperm hx (PTE2PA (leafOf s'.mem pt b))
      have u1' : leafOf s'.mem pt b % 2 = 1 := by rw [i1]; exact u1
      have u2' : leafOf s'.mem pt b % 1024 ≠ 1 := by rw [i1]; exact u2
      exact ⟨u1', u2', sp.sub _ i2⟩
  · rw [g.leaf_out vb h1 (by omega)]
    exact sp.unmapped vb h1 (by omega)
  · by_cases c : b < PGROUNDUP sz
    · obtain ⟨o1, o2, o3⟩ := sp.owned b hb1 (Nat.zero_le _) c hb3
      rw [hold b c hb3]
      refine ⟨fun m => o1 (g.sub _ m), fun t => ?_, fun b' k1 _ k2 k3 e => ?_⟩
      · rcases g.tables_new _ t with t' | t'
        · exact o2 t'
        · exact o1 t'
      · by_cases c' : b' < PGROUNDUP sz
        · rw [hold b' c' k3] at e
          exact o3 b' k1 (Nat.zero_le _) c' k3 e
        · exfalso
          have := (g.leaf_in b' k1 (by omega) k2).2.1
          rw [← e] at this
          exact o1 this
    · obtain ⟨o1, o2, o3⟩ := g.owned b hb1 (by omega) hb2 hb3
      refine ⟨o1, o2, fun b' k1 _ k2 k3 e => ?_⟩
      by_cases c' : b' < PGROUNDUP sz
      · exfalso
        have := (g.leaf_in b hb1 (by omega) hb2).2.1
        rw [e, hold b' c' k3] at this
        exact (sp.owned b' k1 (Nat.zero_le _) c' k3).1 this
      · exact o3 b' k1 (by omega) k2 k3 e
  · rcases sp.account f hf with c | c | ⟨b, b1, b2, b3⟩
    · rcases g.account f c with d | d | ⟨b, b1, b2, b3, b4⟩
      · exact Or.inl d
      · exact Or.inr (Or.inl d)
      · exact Or.inr (Or.inr ⟨b, b1, b3, b4⟩)
    · exact Or.inr (Or.inl (g.tables_mono f c))
    · refine Or.inr (Or.inr ⟨b, b1, by omega, ?_⟩)
      rw [hold b b2 (by omega)]
      exact b3

/-- Every address space built by `uvmcreate` and returning `uvmalloc` calls satisfies the
invariant. -/
theorem built_space (L : Layout) (s0 : KState) (fl0 : List Nat) (pt : Nat)
    (ok : AllocOK L s0 fl0) (s : KState) (sz : Nat) (b : Built L s0 pt s sz) :
    ∃ fl, Space L pt fl0 s sz fl := by
  induction b with
  | create s1 h hpt => exact space_create L s0 fl0 pt s1 ok h hpt
  | grow s s' sz newsz xperm _ hle hx h ih =>
    obtain ⟨fl, sp⟩ := ih
    exact space_grow L pt fl0 s sz fl sp newsz xperm s' hle hx h

/-! ### C14 -/

/-- In a built address space exactly the addresses below `PGROUNDUP(sz)` are mapped. -/
theorem space_mapped (L : Layout) (pt : Nat) (fl0 : List Nat) (s : KState) (sz : Nat)
    (fl : List Nat) (sp : Space L pt fl0 s sz fl) (va : Nat) :
    mapping s pt va ≠ none ↔ va < PGROUNDUP sz := by
  obtain ⟨l1, l2, l3, l4⟩ := PGROUNDUP_spec sz sp.size
  by_cases hva : va < MAXVA
  · rw [mapping_leaf s pt va sp.inv.table hva]
    obtain ⟨d1, d2, d3⟩ := PGROUNDDOWN_spec va
    by_cases c : va < PGROUNDUP sz
    · have hm := (sp.mapped (PGROUNDDOWN va) d1 (by omega)).1
      rw [← leafOf_page s.mem pt va hva] at hm
      rw [if_neg (by omega)]
      exact ⟨fun _ => c, fun _ => by simp⟩
    · have hu := sp.unmapped va hva (by omega)
      rw [if_pos hu]
      exact ⟨fun x => absurd rfl x, fun x => absurd x c⟩
  · rw [mapping_high s pt va (by omega)]
    exact ⟨fun x => absurd rfl x, fun x => by omega⟩

/-- Total correctness of `uvmfree` on a built address space: it returns, and the free list
it leaves holds exactly the frames the allocator had before `uvmcreate`. -/
theorem uvmfree_space (L : Layout) (pt : Nat) (fl0 : List Nat) (s : KState) (sz : Nat)
    (fl : List Nat) (sp : Space L pt fl0 s sz fl) :
    ∃ s' fl', uvmfree L s pt sz = .ok () s' ∧ AllocOK L s' fl' ∧ ∀ f, f ∈ fl' ↔ f ∈ fl0 := by
  obtain ⟨l1, l2, l3, l4⟩ := PGROUNDUP_spec sz sp.size
  -- the unmap phase
  have hA : ∃ s1 fl1,
      (if sz > 0 then uvmunmap L s pt 0 (PGROUNDUP sz / PGSIZE) true else .ok () s)
        = .ok () s1 ∧
      Inv L s1 pt fl1 ∧ Clean s1.mem pt ∧ (∀ vb, vb < MAXVA → leafOf s1.mem pt vb % 2 = 0) ∧
      (∀ p, IsTable s1.mem pt p ↔ IsTable s.mem pt p) ∧
      (∀ f, f ∈ fl1 ↔ f ∈ fl ∨
        ∃ b, b % 4096 = 0 ∧ b < PGROUNDUP sz ∧ f = PTE2PA (leafOf s.mem pt b)) := by
    by_cases hz : sz > 0
    · rw [if_pos hz]
      unfold uvmunmap
      rw [if_neg (by unfold PGSIZE; omega)]
      have eb : (0 + PGROUNDUP sz / PGSIZE * PGSIZE) % 2 ^ 64 = PGROUNDUP sz := by
        unfold PGSIZE; unfold MAXVA at l4; omega
      rw [eb, loopfuel_eq]
      have hfu : PGROUNDUP sz ≤ 0 + MAXVA / PGSIZE * 4096 := by
        have : MAXVA / PGSIZE * 4096 = MAXVA := by unfold MAXVA PGSIZE; norm_num
        omega
      obtain ⟨s1, run, up⟩ := uvmunmapLoop_total L pt (PGROUNDUP sz) l1 l4 (MAXVA / PGSIZE) s 0
        fl sp.inv (by omega) sp.owned hfu (fun b b1 _ b3 => by
          obtain ⟨m1, m2, m3⟩ := sp.mapped b b1 b3
          have := sp.frames0 _ m3
          exact ⟨m1, m2, this.2.1, this.2.2⟩)
      obtain ⟨freedL, i1, _, i3, i4, i5, _, _, _⟩ := uvmunmapLoop_spec L pt (PGROUNDUP sz) true
        l1 (MAXVA / PGSIZE + 1) s 0 fl s1 sp.inv (by omega) (fun _ => sp.owned) run
      refine ⟨s1, freedL ++ fl, run, i1, clean_same _ _ pt up sp.clean, fun vb hvb => ?_, i4,
        fun f => ?_⟩
      · rw [i5 vb hvb]
        by_cases c : 0 ≤ vb ∧ vb < PGROUNDUP sz
        · rw [if_pos c]
        · rw [if_neg c]
          exact sp.unmapped vb hvb (by omega)
      · rw [List.mem_append, (i3 rfl).1 f]
        constructor
        · rintro (⟨b, b1, _, b3, b4⟩ | c)
          · exact Or.inr ⟨b, b1, b3, b4⟩
          · exact Or.inl c
        · rintro (c | ⟨b, b1, b3, b4⟩)
          · exact Or.inr c
          · exact Or.inl ⟨b, b1, Nat.zero_le _, b3, b4⟩
    · rw [if_neg hz]
      have hs0 : sz = 0 := by omega
      have hb0 : PGROUNDUP sz = 0 := by rw [hs0]; decide
      refine ⟨s, fl, rfl, sp.inv, sp.clean, fun vb hvb => sp.unmapped vb hvb (by omega),
        fun p => Iff.rfl, fun f => ⟨fun c => Or.inl c, ?_⟩⟩
      rintro (c | ⟨b, _, b3, _⟩)
      · exact c
      · omega
  obtain ⟨s1, fl1, run1, inv1, cl1, lf1, it1, mem1⟩ := hA
  -- the tree of table pages
  obtain ⟨wf, sub⟩ := tree_of_table s1.mem pt inv1.table cl1 lf1
  obtain ⟨s2, added, run2, ok2, mem2, _⟩ := freewalk_spec L 2 (2 ^ 52) (by norm_num) s1 pt fl1
    inv1.alloc wf (fun q hq => by
      have ht := (sub q).mp hq
      exact ⟨sp.frames0 q (sp.tables q ((it1 q).mp ht)), inv1.sep q ht⟩)
  refine ⟨s2, added ++ fl1, ?_, ok2, fun f => ?_⟩
  · unfold uvmfree
    rw [run1, bind_ok]
    exact run2
  · rw [List.mem_append, mem2 f, sub f, it1 f, mem1 f]
    constructor
    · rintro (c | c | ⟨b, b1, b3, b4⟩)
      · exact sp.tables f c
      · exact sp.sub f c
      · rw [b4]; exact (sp.mapped b b1 b3).2.2
    · intro hf
      rcases sp.account f hf with c | c | c
      · exact Or.inr (Or.inl c)
      · exact Or.inl c
      · exact Or.inr (Or.inr c)

/-- C14. Destroy returns every frame: for an address space obtained by `uvmcreate` (in a
state with a well-formed allocator holding the frames `fl0`) and then grown by `uvmalloc`
calls that each returned their `newsz`, up to size `sz`, exactly the addresses below
`PGROUNDUP(sz)` are mapped, and `uvmfree(pt, sz)` returns without a fatal error, leaving a
well-formed allocator whose free list holds exactly the frames of `fl0`: the free-frame
count, and the value of `get_free_mem`, are what they were before `uvmcreate`. -/
theorem uvmfree_returns_all (L : Layout) (s0 : KState) (fl0 : List Nat) (pt : Nat)
    (s : KState) (sz : Nat) (ok : AllocOK L s0 fl0) (b : Built L s0 pt s sz) :
    (∀ va, mapping s pt va ≠ none ↔ va < PGROUNDUP sz) ∧
    ∃ s' fl', uvmfree L s pt sz = .ok () s' ∧ AllocOK L s' fl' ∧
      (∀ f, f ∈ fl' ↔ f ∈ fl0) ∧ fl'.length = fl0.length ∧
      (get_free_mem s').val? = (get_free_mem s0).val? := by
  obtain ⟨fl, sp⟩ := built_space L s0 fl0 pt ok s sz b
  refine ⟨space_mapped L pt fl0 s sz fl sp, ?_⟩
  obtain ⟨s', fl', run, ok', hm⟩ := uvmfree_space L pt fl0 s sz fl sp
  have hlen : fl'.length = fl0.length :=
    ((List.perm_ext_iff_of_nodup ok'.nodup ok.nodup).mpr hm).length_eq
  refine ⟨s', fl', run, ok', hm, hlen, ?_⟩
  rw [get_free_mem_len L s' fl' ok', get_free_mem_len L s0 fl0 ok, hlen]
  rfl

theorem demoPt_eq : demoPt = 0x87007000 := by rfl

theorem demoSpace3_built : Built demoLayout demoFree8 demoPt demoSpace3 12288 := by
  have h0 : demoPt ≠ 0 := by rw [demoPt_eq]; decide
  have c : uvmcreate demoFree8 = (demoPt, demoSpace0) := by rfl
  have g1 : uvmalloc demoLayout demoSpace0 demoPt 0 4096 PTE_W = .ok 4096 demoSpace1 := by rfl
  have g2 : uvmalloc demoLayout demoSpace1 demoPt 4096 12288 (PTE_W ||| PTE_X)
      = .ok 12288 demoSpace3 := by rfl
  exact Built.grow demoSpace1 demoSpace3 4096 12288 (PTE_W ||| PTE_X)
    (Built.grow demoSpace0 demoSpace1 0 4096 PTE_W (Built.create demoSpace0 c h0)
      (by decide) (by decide) g1)
    (by decide) (by decide) g2

theorem uvmfree_returns_all_witness :
    (AllocOK demoLayout demoFree8 demoList8 ∧
      Built demoLayout demoFree8 demoPt demoSpace3 12288) ∧
    (∀ va, mapping demoSpace3 demoPt va ≠ none ↔ va < PGROUNDUP 12288) ∧
    ∃ s' fl', uvmfree demoLayout demoSpace3 demoPt 12288 = .ok () s' ∧
      AllocOK demoLayout s' fl' ∧ (∀ f, f ∈ fl' ↔ f ∈ demoList8) ∧
      fl'.length = demoList8.length ∧
      (get_free_mem s').val? = (get_free_mem demoFree8).val? :=
  ⟨⟨demoFree8_inv.1.alloc, demoSpace3_built⟩,
    uvmfree_returns_all demoLayout demoFree8 demoList8 demoPt demoSpace3 12288
      demoFree8_inv.1.alloc demoSpace3_built⟩

/-- The example in numbers: `get_free_mem` reports 8 frames (32768 bytes) before
`uvmcreate` and 2 frames (8192 bytes) while the three-page space exists. -/
theorem demoSpace3_run :
    (get_free_mem demoFree8).val? = some 32768 ∧
    (get_free_mem demoSpace3).val? = some 8192 := by
  refine ⟨by rfl, by rfl⟩

/-! ### C21 -/

theorem and_div_pow (a b : Nat) : ∀ k, (a &&& b) / 2 ^ k = a / 2 ^ k &&& b / 2 ^ k
  | 0 => by simp
  | k + 1 => by
    rw [pow_succ, ← Nat.div_div_eq_div_mul, ← Nat.div_div_eq_div_mul,
      ← Nat.div_div_eq_div_mul, and_div_pow a b k, Nat.and_div_two]

/-- Clearing `PTE_U` in a 64-bit entry: bit 4 goes, every other bit stays. -/
theorem and_notU (x : Nat) (h : x < 2 ^ 64) :
    x &&& (2 ^ 64 - 1 - PTE_U) = x - x / 16 % 2 * 16 := by
  have hM : (2 ^ 64 - 1 - PTE_U) = 18446744073709551599 := by decide
  rw [hM]
  have h1 : (x &&& 18446744073709551599) % 16 = x % 16 := by
    have a := Nat.and_pow_two_sub_one_eq_mod (x &&& 18446744073709551599) 4
    have b := Nat.and_pow_two_sub_one_eq_mod x 4
    norm_num at a b
    have c : 18446744073709551599 &&& 15 = 15 := by decide
    rw [← a, ← b, Nat.and_assoc, c]
  have h2 : (x &&& 18446744073709551599) / 32 = x / 32 := by
    have a := and_div_pow x 18446744073709551599 5
    have c : 18446744073709551599 / 2 ^ 5 = 2 ^ 59 - 1 := by decide
    rw [c, Nat.and_pow_two_sub_one_eq_mod] at a
    norm_num at a
    omega
  have h3 : (x &&& 18446744073709551599) / 16 % 2 = 0 := by
    have t := @Nat.testBit_to_div_mod 4 (x &&& 18446744073709551599)
    rw [Nat.testBit_and] at t
    have tc : Nat.testBit 18446744073709551599 4 = false := by decide
    rw [tc, Bool.and_false] at t
    norm_num at t
    omega
  omega

/-- What `uvmclear` does on a page whose level-0 table exists: it returns, having replaced
the level-0 entry of `va` by the entry without `PTE_U`, and written nothing else. -/
theorem uvmclear_run (s : KState) (pt va : Nat) (ok : TableOK s.mem pt) (hva : va < MAXVA)
    (hv : has0 s.mem pt va) :
    uvmclear s pt va = .ok ()
      { s with mem := (wr64 s.mem (slot0 s.mem pt va)
          (leafOf s.mem pt va - leafOf s.mem pt va / 16 % 2 * 16)) } ∧
    (∀ vb, leafOf (wr64 s.mem (slot0 s.mem pt va)
        (leafOf s.mem pt va - leafOf s.mem pt va / 16 % 2 * 16)) pt vb =
      if samePath va vb then leafOf s.mem pt va - leafOf s.mem pt va / 16 % 2 * 16
      else leafOf s.mem pt vb) ∧
    (∀ p, IsUpper s.mem pt p → SamePage s.mem (wr64 s.mem (slot0 s.mem pt va)
        (leafOf s.mem pt va - leafOf s.mem pt va / 16 % 2 * 16)) p) ∧
    TableOK (wr64 s.mem (slot0 s.mem pt va)
        (leafOf s.mem pt va - leafOf s.mem pt va / 16 % 2 * 16)) pt := by
  obtain ⟨w1, w2, w3⟩ := (walkVal_ok s.mem pt va ok).1 hv
  have hlt : leafOf s.mem pt va < 2 ^ 64 := by rw [← w3]; exact rd64_lt _ _
  obtain ⟨l1, _, l3⟩ := leaf_write s.mem pt va
    (leafOf s.mem pt va - leafOf s.mem pt va / 16 % 2 * 16) ok hv
  refine ⟨?_, fun vb => ?_, l1, tableOK_same _ _ pt l1 ok⟩
  · unfold uvmclear
    rw [walk_noalloc s pt va hva, bind_ok, if_neg w2, w3, and_notU _ hlt, w1]
  · rw [l3 vb]
    have e : (leafOf s.mem pt va - leafOf s.mem pt va / 16 % 2 * 16) % 2 ^ 64 =
        leafOf s.mem pt va - leafOf s.mem pt va / 16 % 2 * 16 := by omega
    rw [e]

theorem mapping_mapped (s : KState) (pt va f flags : Nat) (ok : TableOK s.mem pt)
    (hm : mapping s pt va = some (f, flags)) :
    va < MAXVA ∧ has0 s.mem pt va ∧ leafOf s.mem pt va % 2 = 1 ∧
    PTE2PA (leafOf s.mem pt va) = f ∧ leafOf s.mem pt va % 1024 = flags := by
  have hva : va < MAXVA := by
    by_contra c
    rw [mapping_high s pt va (by omega)] at hm
    cases hm
  rw [mapping_leaf s pt va ok hva] at hm
  by_cases c : leafOf s.mem pt va % 2 = 0
  · rw [if_pos c] at hm; cases hm
  · rw [if_neg c] at hm
    have e := Option.some.inj hm
    have e1 := congrArg Prod.fst e
    have e2 := congrArg Prod.snd e
    refine ⟨hva, ?_, by omega, e1, e2⟩
    by_contra hn
    have := (walkVal_ok s.mem pt va ok).2 hn
    rw [this.2] at c
    exact c rfl

/-- C21. `uvmclear` changes only the user bit of one entry: on a well-formed table, for a
mapped `va` with frame `f` and flags `flags`, `uvmclear(pt, va)` returns; afterwards `va`
is mapped to the same frame with the flags less `PTE_U` (bit 4 clear; valid, readable,
writable, executable and every other bit as before); every address on another page has the
mapping it had; no byte of memory outside the eight bytes of that level-0 entry and no
allocator state changed; and `walkaddr(pt, va)` returns 0. -/
theorem uvmclear_only_user (s : KState) (pt va f flags : Nat) (ok : TableOK s.mem pt)
    (hm : mapping s pt va = some (f, flags)) :
    ∃ s', uvmclear s pt va = .ok () s' ∧
      mapping s' pt va = some (f, flags - flags / 16 % 2 * 16) ∧
      (flags - flags / 16 % 2 * 16) / 16 % 2 = 0 ∧
      (flags - flags / 16 % 2 * 16) % 16 = flags % 16 ∧
      (flags - flags / 16 % 2 * 16) / 32 = flags / 32 ∧
      (∀ vb, ¬ samePath va vb → mapping s' pt vb = mapping s pt vb) ∧
      (∀ x, ¬ (slot0 s.mem pt va ≤ x ∧ x < slot0 s.mem pt va + 8) → s'.mem x = s.mem x) ∧
      s'.freelist = s.freelist ∧
      walkaddr s' pt va = .ok 0 s' := by
  obtain ⟨hva, hv, m1, m2, m3⟩ := mapping_mapped s pt va f flags ok hm
  obtain ⟨r1, r2, _, r4⟩ := uvmclear_run s pt va ok hva hv
  have hl := r2 va
  rw [if_pos ⟨rfl, rfl, rfl⟩] at hl
  refine ⟨_, r1, ?_, by omega, by omega, by omega, fun vb hvb => ?_, fun x hx => ?_, rfl, ?_⟩
  · rw [mapping_leaf _ pt va r4 hva]
    show (if leafOf (wr64 s.mem _ _) pt va % 2 = 0 then none else _) = _
    rw [hl, if_neg (by omega)]
    have e1 : PTE2PA (leafOf s.mem pt va - leafOf s.mem pt va / 16 % 2 * 16) = f := by
      rw [← m2]; unfold PTE2PA; omega
    have e2 : PTE_FLAGS (leafOf s.mem pt va - leafOf s.mem pt va / 16 % 2 * 16) =
        flags - flags / 16 % 2 * 16 := by
      rw [← m3]; unfold PTE_FLAGS; omega
    rw [e1, e2]
  · by_cases hb : vb < MAXVA
    · rw [mapping_leaf _ pt vb r4 hb, mapping_leaf s pt vb ok hb]
      show (if leafOf (wr64 s.mem _ _) pt vb % 2 = 0 then none else _) = _
      rw [r2 vb, if_neg hvb]
    · rw [mapping_high _ pt vb (by omega), mapping_high s pt vb (by omega)]
  · show wr64 s.mem _ _ x = s.mem x
    simp only [wr64, hx, if_false]
  · rw [walkaddr_val, xlate_eq]
    show Res.ok (walkaddrVal (wr64 s.mem _ _) pt va) _ = _
    rw [walkaddrVal_leaf _ pt va r4 hva, hl, if_neg (by omega)]

theorem demoUser2_mapping : mapping demoUser2 demoRoot 4096 = some (0x87000000, 23) := by
  rfl

theorem uvmclear_only_user_witness :
    (TableOK demoUser2.mem demoRoot ∧
      mapping demoUser2 demoRoot 4096 = some (0x87000000, 23)) ∧
    ∃ s', uvmclear demoUser2 demoRoot 4096 = .ok () s' ∧
      mapping s' demoRoot 4096 = some (0x87000000, 23 - 23 / 16 % 2 * 16) ∧
      (23 - 23 / 16 % 2 * 16) / 16 % 2 = 0 ∧
      (23 - 23 / 16 % 2 * 16) % 16 = 23 % 16 ∧
      (23 - 23 / 16 % 2 * 16) / 32 = 23 / 32 ∧
      (∀ vb, ¬ samePath 4096 vb → mapping s' demoRoot vb = mapping demoUser2 demoRoot vb) ∧
      (∀ x, ¬ (slot0 demoUser2.mem demoRoot 4096 ≤ x ∧
          x < slot0 demoUser2.mem demoRoot 4096 + 8) → s'.mem x = demoUser2.mem x) ∧
      s'.freelist = demoUser2.freelist ∧
      walkaddr s' demoRoot 4096 = .ok 0 s' := by
  obtain ⟨fl, inv, _⟩ := demoUser2_ok
  exact ⟨⟨inv.table, demoUser2_mapping⟩,
    uvmclear_only_user demoUser2 demoRoot 4096 0x87000000 23 inv.table demoUser2_mapping⟩

/-! ### `freewalk` on a tree that still holds a leaf -/

theorem leafy_zero (m : Mem) (p : Nat) :
    Leafy m 0 p ↔ ∃ i, i < 512 ∧ entry m p i % 2 = 1 := Iff.rfl

theorem leafy_succ (m : Mem) (h p : Nat) : Leafy m (h + 1) p ↔
    ∃ i, i < 512 ∧ entry m p i % 2 = 1 ∧ Leafy m h (PTE2PA (entry m p i)) := Iff.rfl

theorem lax_zero (m : Mem) (p : Nat) : TreeLax m 0 p ↔
    ∀ i, i < 512 → entry m p i % 2 = 1 →
      entry m p i &&& (PTE_R ||| PTE_W ||| PTE_X) ≠ 0 := Iff.rfl

theorem lax_succ (m : Mem) (h p : Nat) : TreeLax m (h + 1) p ↔
    ∀ i, i < 512 → entry m p i % 2 = 1 →
      entry m p i &&& (PTE_R ||| PTE_W ||| PTE_X) = 0 ∧
      TreeLax m h (PTE2PA (entry m p i)) ∧
      ¬ InTree m h (PTE2PA (entry m p i)) p ∧
      ∀ j, j < 512 → entry m p j % 2 = 1 → j ≠ i →
        ∀ q, InTree m h (PTE2PA (entry m p i)) q → ¬ InTree m h (PTE2PA (entry m p j)) q :=
  Iff.rfl

/-- A lax tree without a leaf is a tree `freewalk` frees. -/
theorem treeOK_of_lax (m : Mem) : ∀ (h c : Nat), TreeLax m h c → ¬ Leafy m h c → TreeOK m h c := by
  intro h
  induction h with
  | zero =>
    intro c _ hn
    rw [wf_zero]
    intro i hi
    by_contra hv
    exact hn ⟨i, hi, by omega⟩
  | succ h ih =>
    intro c hl hn
    rw [wf_succ]
    rw [lax_succ] at hl
    intro i hi hv
    obtain ⟨a1, a2, a3, a4⟩ := hl i hi hv
    exact ⟨a1, ih _ a2 (fun c1 => hn ⟨i, hi, hv, c1⟩), a3, a4⟩

/-- Lax trees and their leaves depend on the memory of their own pages only. -/
theorem lax_congr (m m' : Mem) : ∀ (h c : Nat), (∀ q, InTree m h c q → SamePage m m' q) →
    (TreeLax m h c → TreeLax m' h c) ∧ (Leafy m h c → Leafy m' h c) := by
  intro h
  induction h with
  | zero =>
    intro c hs
    have he : ∀ i, i < 512 → entry m' c i = entry m c i :=
      fun i hi => rd64_samePage m m' c i (hs c rfl) hi
    constructor
    · intro hl i hi hv
      rw [he i hi] at hv ⊢
      exact hl i hi hv
    · rintro ⟨i, hi, hv⟩
      exact ⟨i, hi, by rw [he i hi]; exact hv⟩
  | succ h ih =>
    intro c hs
    have he : ∀ i, i < 512 → entry m' c i = entry m c i :=
      fun i hi => rd64_samePage m m' c i (hs c (Or.inl rfl)) hi
    have hsub : ∀ i, i < 512 → entry m c i % 2 = 1 →
        ∀ q, InTree m h (PTE2PA (entry m c i)) q → SamePage m m' q :=
      fun i hi hv q hq => hs q (Or.inr ⟨i, hi, hv, hq⟩)
    constructor
    · intro hl
      rw [lax_succ] at hl ⊢
      intro i hi hv
      rw [he i hi] at hv ⊢
      obtain ⟨w1, w2, w3, w4⟩ := hl i hi hv
      have ci := (sub_congr m m' h _ (hsub i hi hv)).1
      refine ⟨w1, (ih _ (hsub i hi hv)).1 w2, fun c1 => w3 ((ci c).mp c1), ?_⟩
      intro j hj hvj hne q hq hq'
      rw [he j hj] at hvj hq'
      have cj := (sub_congr m m' h _ (hsub j hj hvj)).1
      exact w4 j hj hvj hne q ((ci q).mp hq) ((cj q).mp hq')
    · rintro ⟨i, hi, hv, hl⟩
      refine ⟨i, hi, by rw [he i hi]; exact hv, ?_⟩
      rw [he i hi]
      exact (ih _ (hsub i hi hv)).2 hl

/-- The loop of `freewalk` on a page at height 0 that holds a valid entry at or after
`i`. -/
theorem freewalkLoop_leaf (child : KState → Nat → Res Unit) (s : KState) (p : Nat) :
    ∀ (n i : Nat), i + n = 512 →
      (∀ j, i ≤ j → j < 512 → entry s.mem p j % 2 = 1 →
        entry s.mem p j &&& (PTE_R ||| PTE_W ||| PTE_X) ≠ 0) →
      (∃ j, i ≤ j ∧ j < 512 ∧ entry s.mem p j % 2 = 1) →
      freewalkLoop child n s p i = .panic "freewalk: leaf" := by
  intro n
  induction n with
  | zero =>
    rintro i hin _ ⟨j, a, b, _⟩
    omega
  | succ n ih =>
    rintro i hin hl ⟨j, a, b, c⟩
    rw [freewalkLoop]
    by_cases hv : entry s.mem p i % 2 = 1
    · have h1 := hl i (Nat.le_refl _) (by omega) hv
      have hv' : rd64 s.mem (p + 8 * i) &&& PTE_V ≠ 0 := by
        rw [and_V]; unfold entry at hv; omega
      rw [if_neg (fun x => h1 x.2), if_pos hv']
    · have hv' : ¬ (rd64 s.mem (p + 8 * i) &&& PTE_V ≠ 0) := by
        rw [and_V]; unfold entry at hv; omega
      rw [if_neg (fun x => hv' x.1), if_neg hv']
      have hne : j ≠ i := fun e => hv (e ▸ c)
      exact ih (i + 1) (by omega) (fun k k1 k2 k3 => hl k (by omega) k2 k3)
        ⟨j, by omega, b, c⟩

/-- The loop of `freewalk` over the entries `i .. 511` of a page above height 0, given
what the recursive call does on trees of height `h`: where the tree below one of the valid
entries holds a leaf, it halts with "freewalk: leaf". -/
theorem freewalkLoop_leafy (L : Layout) (h : Nat) (child : KState → Nat → Res Unit)
    (IH : ∀ (s : KState) (c : Nat) (fl : List Nat), AllocOK L s fl → TreeOK s.mem h c →
      (∀ q, InTree s.mem h c q → (q % 4096 = 0 ∧ L.kend ≤ q ∧ q < L.phystop) ∧ q ∉ fl) →
      ∃ s' added, child s c = .ok () s' ∧ AllocOK L s' (added ++ fl) ∧
        (∀ q, q ∈ added ↔ InTree s.mem h c q) ∧
        (∀ x, (∀ q, InTree s.mem h c q → ¬ inPage q x) → s'.mem x = s.mem x))
    (IHL : ∀ (s : KState) (c : Nat) (fl : List Nat), AllocOK L s fl → TreeLax s.mem h c →
      Leafy s.mem h c →
      (∀ q, InTree s.mem h c q → (q % 4096 = 0 ∧ L.kend ≤ q ∧ q < L.phystop) ∧ q ∉ fl) →
      child s c = .panic "freewalk: leaf")
    (p : Nat) (hp : p % 4096 = 0) :
    ∀ (n i : Nat) (s : KState) (fl : List Nat), i + n = 512 → AllocOK L s fl → p ∉ fl →
      (∀ j, i ≤ j → j < 512 → entry s.mem p j % 2 = 1 →
        entry s.mem p j &&& (PTE_R ||| PTE_W ||| PTE_X) = 0 ∧
        TreeLax s.mem h (PTE2PA (entry s.mem p j)) ∧
        ¬ InTree s.mem h (PTE2PA (entry s.mem p j)) p ∧
        (∀ k, i ≤ k → k < 512 → entry s.mem p k % 2 = 1 → k ≠ j →
          ∀ q, InTree s.mem h (PTE2PA (entry s.mem p j)) q →
            ¬ InTree s.mem h (PTE2PA (entry s.mem p k)) q) ∧
        ∀ q, InTree s.mem h (PTE2PA (entry s.mem p j)) q →
          (q % 4096 = 0 ∧ L.kend ≤ q ∧ q < L.phystop) ∧ q ∉ fl) →
      (∃ j, i ≤ j ∧ j < 512 ∧ entry s.mem p j % 2 = 1 ∧
        Leafy s.mem h (PTE2PA (entry s.mem p j))) →
      freewalkLoop child n s p i = .panic "freewalk: leaf" := by
  intro n
  induction n with
  | zero =>
    rintro i s fl hin _ _ _ ⟨j, a, b, _⟩
    omega
  | succ n ih =>
    rintro i s fl hin ok hpn hyp ⟨j0, j1, j2, j3, j4⟩
    have hi : i < 512 := by omega
    rw [freewalkLoop]
    by_cases hv : entry s.mem p i % 2 = 1
    case neg =>
      have hv' : ¬ (rd64 s.mem (p + 8 * i) &&& PTE_V ≠ 0) := by
        rw [and_V]; unfold entry at hv; omega
      rw [if_neg (fun c => hv' c.1), if_neg hv']
      have hne : j0 ≠ i := fun e => hv (e ▸ j3)
      exact ih (i + 1) s fl (by omega) ok hpn
        (fun j h1 h2 h3 => by
          obtain ⟨a1, a2, a3, a4, a5⟩ := hyp j (by omega) h2 h3
          exact ⟨a1, a2, a3, fun k k1 k2 k3 k4 => a4 k (by omega) k2 k3 k4, a5⟩)
        ⟨j0, by omega, j2, j3, j4⟩
    case pos =>
      obtain ⟨a1, a2, a3, a4, a5⟩ := hyp i (Nat.le_refl _) hi hv
      have hv' : rd64 s.mem (p + 8 * i) &&& PTE_V ≠ 0 := by
        rw [and_V]; unfold entry at hv; omega
      rw [if_pos ⟨hv', a1⟩]
      by_cases hlf : Leafy s.mem h (PTE2PA (entry s.mem p i))
      · have c1 : child s (PTE2PA (rd64 s.mem (p + 8 * i))) = .panic "freewalk: leaf" :=
          IHL s (PTE2PA (entry s.mem p i)) fl ok a2 hlf a5
        rw [c1]
        rfl
      have hne : j0 ≠ i := fun e => hlf (e ▸ j4)
      obtain ⟨s1, added1, c1, c2, c3, c4⟩ := IH s (PTE2PA (entry s.mem p i)) fl ok
        (treeOK_of_lax _ _ _ a2 hlf) a5
      have c1' : child s (PTE2PA (rd64 s.mem (p + 8 * i))) = .ok () s1 := c1
      rw [c1', bind_ok]
      have hA : ∀ q', q' % 4096 = 0 → q' ≠ p →
          ¬ InTree s.mem h (PTE2PA (entry s.mem p i)) q' →
          SamePage s.mem (wr64 s1.mem (p + 8 * i) 0) q' := by
        intro q' hq' hne' hns x hx
        rw [wr64_out s1.mem p i 0 x hi (pages_disjoint q' p x hq' hp hne' hx)]
        apply c4 x
        intro q hq
        exact pages_disjoint q' q x hq' (a5 q hq).1.1 (sub_ne _ _ _ _ _ hq hns).symm hx
      have hP : SamePage s.mem s1.mem p := by
        intro x hx
        apply c4 x
        intro q hq
        exact pages_disjoint p q x hp (a5 q hq).1.1 (sub_ne _ _ _ _ _ hq a3).symm hx
      have hB : ∀ j, j < 512 → j ≠ i →
          entry (wr64 s1.mem (p + 8 * i) 0) p j = entry s.mem p j := by
        intro j hj hne'
        unfold entry
        rw [rd64_wr64_other s1.mem (p + 8 * i) 0 (p + 8 * j) (by omega)]
        exact rd64_samePage s.mem s1.mem p j hP hj
      have hpa : p ∉ added1 ++ fl := by
        intro c
        rcases List.mem_append.mp c with c | c
        · exact a3 ((c3 p).mp c)
        · exact hpn c
      have hC : AllocOK L { s1 with mem := wr64 s1.mem (p + 8 * i) 0 } (added1 ++ fl) := by
        exact allocOK_frame L s1 { s1 with mem := wr64 s1.mem (p + 8 * i) 0 } (added1 ++ fl)
          c2 rfl (fun f hf =>
            wr64_samePage s1.mem p i 0 f hp (c2.frames f hf).1 hi (fun e => hpa (e ▸ hf)))
      have hS : ∀ j, i + 1 ≤ j → j < 512 → entry s.mem p j % 2 = 1 →
          ∀ q, InTree s.mem h (PTE2PA (entry s.mem p j)) q →
            SamePage s.mem (wr64 s1.mem (p + 8 * i) 0) q := by
        intro j h1 h2 h3 q hq
        obtain ⟨b1, b2, b3, b4, b5⟩ := hyp j (by omega) h2 h3
        apply hA q (b5 q hq).1.1 (sub_ne _ _ _ _ _ hq b3)
        exact b4 i (Nat.le_refl _) hi hv (by omega) q hq
      have hD : ∀ j, i + 1 ≤ j → j < 512 → entry s.mem p j % 2 = 1 →
          (∀ q, InTree (wr64 s1.mem (p + 8 * i) 0) h (PTE2PA (entry s.mem p j)) q ↔
            InTree s.mem h (PTE2PA (entry s.mem p j)) q) :=
        fun j h1 h2 h3 => (sub_congr _ _ h _ (hS j h1 h2 h3)).1
      apply ih (i + 1) { s1 with mem := wr64 s1.mem (p + 8 * i) 0 } (added1 ++ fl)
        (by omega) hC hpa
      · intro j h1 h2 h3
        have ej := hB j h2 (by omega)
        show entry (wr64 s1.mem (p + 8 * i) 0) p j &&& _ = 0 ∧ _
        have h3' : entry (wr64 s1.mem (p + 8 * i) 0) p j % 2 = 1 := h3
        rw [ej] at h3'
        obtain ⟨b1, b2, b3, b4, b5⟩ := hyp j (by omega) h2 h3'
        have d1 := hD j h1 h2 h3'
        refine ⟨by rw [ej]; exact b1,
          by rw [ej]; exact (lax_congr _ _ h _ (hS j h1 h2 h3')).1 b2, ?_, ?_, ?_⟩
        · rw [ej]; exact fun c => b3 ((d1 p).mp c)
        · intro k k1 k2 k3 k4 q hq hq'
          have ek := hB k k2 (by omega)
          have k3' : entry (wr64 s1.mem (p + 8 * i) 0) p k % 2 = 1 := k3
          have hq1 : InTree (wr64 s1.mem (p + 8 * i) 0) h
            (PTE2PA (entry (wr64 s1.mem (p + 8 * i) 0) p j)) q := hq
          have hq2 : InTree (wr64 s1.mem (p + 8 * i) 0) h
            (PTE2PA (entry (wr64 s1.mem (p + 8 * i) 0) p k)) q := hq'
          rw [ek] at k3' hq2
          rw [ej] at hq1
          exact b4 k (by omega) k2 k3' k4 q ((d1 q).mp hq1)
            (((hD k k1 k2 k3') q).mp hq2)
        · intro q hq
          have hq1 : InTree (wr64 s1.mem (p + 8 * i) 0) h
            (PTE2PA (entry (wr64 s1.mem (p + 8 * i) 0) p j)) q := hq
          rw [ej] at hq1
          have hq2 := (d1 q).mp hq1
          refine ⟨(b5 q hq2).1, fun c => ?_⟩
          rcases List.mem_append.mp c with c | c
          · exact b4 i (Nat.le_refl _) hi hv (by omega) q hq2 ((c3 q).mp c)
          · exact (b5 q hq2).2 c
      · have ej := hB j0 j2 hne
        refine ⟨j0, by omega, j2, ?_, ?_⟩
        · show entry (wr64 s1.mem (p + 8 * i) 0) p j0 % 2 = 1
          rw [ej]; exact j3
        · show Leafy (wr64 s1.mem (p + 8 * i) 0) h
            (PTE2PA (entry (wr64 s1.mem (p + 8 * i) 0) p j0))
          rw [ej]
          exact (lax_congr _ _ h _ (hS j0 (by omega) j2 j3)).2 j4

/-- `freewalk` on a tree that still holds a valid entry at height 0 halts with
"freewalk: leaf". -/
theorem freewalk_leafy (L : Layout) : ∀ (h d : Nat), h ≤ d →
    ∀ (s : KState) (c : Nat) (fl : List Nat), AllocOK L s fl → TreeLax s.mem h c →
      Leafy s.mem h c →
      (∀ q, InTree s.mem h c q → (q % 4096 = 0 ∧ L.kend ≤ q ∧ q < L.phystop) ∧ q ∉ fl) →
      freewalk (d + 1) L s c = .panic "freewalk: leaf" := by
  intro h
  induction h with
  | zero =>
    intro d _ s c fl _ hl hlf _
    rw [freewalk, freewalkLoop_leaf _ s c 512 0 (by omega) (fun j _ hj hv => hl j hj hv)
      (by obtain ⟨i, hi, hv⟩ := hlf; exact ⟨i, Nat.zero_le _, hi, hv⟩)]
    rfl
  | succ h ih =>
    intro d hd s c fl ok hl hlf hs
    obtain ⟨d', rfl⟩ : ∃ d', d = d' + 1 := ⟨d - 1, by omega⟩
    obtain ⟨⟨k1, k2, k3⟩, k4⟩ := hs c (Or.inl rfl)
    rw [lax_succ] at hl
    obtain ⟨i, hi, hv, hlf'⟩ := hlf
    rw [freewalk, freewalkLoop_leafy L h (fun s1 c1 => freewalk (d' + 1) L s1 c1)
      (fun s2 c2 fl2 => freewalk_spec L h d' (by omega) s2 c2 fl2)
      (fun s2 c2 fl2 => ih d' (by omega) s2 c2 fl2) c k1 512 0 s fl (by omega) ok k4
      (fun j _ hj hvj => by
        obtain ⟨w1, w2, w3, w4⟩ := hl j hj hvj
        exact ⟨w1, w2, w3, fun k _ hk hkv hne q hq => w4 k hk hkv hne q hq,
          fun q hq => hs q (Or.inr ⟨j, hj, hvj, hq⟩)⟩)
      ⟨i, Nat.zero_le _, hi, hv, hlf'⟩]
    rfl

/-! ### `uvmfree` on a proper address space, and on one with pages left mapped -/

theorem readable_bits (x : Nat) (h : x / 2 % 2 = 1) :
    x &&& (PTE_R ||| PTE_W ||| PTE_X) ≠ 0 := by
  have e : (PTE_R ||| PTE_W ||| PTE_X) = 14 := by decide
  rw [e]
  have t := @Nat.testBit_to_div_mod 1 (x &&& 14)
  have tx := @Nat.testBit_to_div_mod 1 x
  rw [Nat.testBit_and] at t
  have tc : Nat.testBit 14 1 = true := by decide
  rw [tc, Bool.and_true, tx] at t
  norm_num at t
  intro c
  rw [c] at t
  omega

/-- The page-table pages of `pt` as a lax tree: its pages are the page-table pages, and
it holds a leaf where an address is mapped. -/
theorem tree_lax_of_table (m : Mem) (pt : Nat) (ok : TableOK m pt) (cl : Clean m pt)
    (hl : ∀ va, va < MAXVA → leafOf m pt va % 2 = 1 →
      leafOf m pt va &&& (PTE_R ||| PTE_W ||| PTE_X) ≠ 0) :
    TreeLax m 2 pt ∧ (∀ q, InTree m 2 pt q ↔ IsTable m pt q) ∧
    ((∃ va, va < MAXVA ∧ leafOf m pt va % 2 = 1) → Leafy m 2 pt) := by
  have h2 : ∀ i, i < 512 → entry m pt i % 2 = 1 → ∀ j k, j < 512 → k < 512 →
      has1 m pt (vaOf i j k) ∧ tbl1 m pt (vaOf i j k) = PTE2PA (entry m pt i) ∧
      ent2 m pt (vaOf i j k) = entry m pt i := by
    intro i hi hv j k hj hk
    obtain ⟨p2, _, _, _⟩ := PX_vaOf i j k hi hj hk
    have e : ent2 m pt (vaOf i j k) = entry m pt i := by rw [(ent_entry m pt _).1, p2]
    refine ⟨?_, ?_, e⟩
    · show ent2 m pt (vaOf i j k) % 2 = 1
      rw [e]; exact hv
    · show PTE2PA (ent2 m pt (vaOf i j k)) = _
      rw [e]
  have h1 : ∀ i, i < 512 → entry m pt i % 2 = 1 → ∀ j, j < 512 →
      entry m (PTE2PA (entry m pt i)) j % 2 = 1 → ∀ k, k < 512 →
      has0 m pt (vaOf i j k) ∧
      tbl0 m pt (vaOf i j k) = PTE2PA (entry m (PTE2PA (entry m pt i)) j) ∧
      ent1 m pt (vaOf i j k) = entry m (PTE2PA (entry m pt i)) j ∧
      ent0 m pt (vaOf i j k) = entry m (PTE2PA (entry m (PTE2PA (entry m pt i)) j)) k := by
    intro i hi hv j hj hvj k hk
    obtain ⟨p2, p1, p0, _⟩ := PX_vaOf i j k hi hj hk
    obtain ⟨a1, _, _⟩ := h2 i hi hv j k hj hk
    have e : ent1 m pt (vaOf i j k) = entry m (PTE2PA (entry m pt i)) j := by
      rw [(ent_entry m pt _).2.1, p2, p1]
    refine ⟨⟨a1, ?_⟩, ?_, e, ?_⟩
    · rw [e]; exact hvj
    · show PTE2PA (ent1 m pt (vaOf i j k)) = _
      rw [e]
    · rw [(ent_entry m pt _).2.2, p2, p1, p0]
  refine ⟨?_, ?_, ?_⟩
  · rw [lax_succ]
    intro i hi hv
    obtain ⟨a1, a2, a3⟩ := h2 i hi hv 0 0 (by omega) (by omega)
    have hi256 := (cl.1 _ a1).2
    rw [(PX_vaOf i 0 0 hi (by omega) (by omega)).1] at hi256
    refine ⟨?_, ?_, ?_, ?_⟩
    · rw [← a3]; exact pointer_bits _ (cl.1 _ a1).1
    · rw [lax_succ]
      intro j hj hvj
      obtain ⟨b1, b2, b3, _⟩ := h1 i hi hv j hj hvj 0 (by omega)
      refine ⟨?_, ?_, ?_, ?_⟩
      · rw [← b3]; exact pointer_bits _ (cl.2 _ b1)
      · rw [lax_zero]
        intro k hk hvk
        obtain ⟨c1, _, _, c4⟩ := h1 i hi hv j hj hvj k hk
        have hlt := (PX_vaOf i j k hi hj hk).2.2.2 hi256
        have := hl _ hlt
        unfold leafOf at this
        rw [if_pos c1, c4] at this
        exact this hvk
      · rw [sub_zero]
        intro e
        exact ok.t0_t1 _ _ b1 a1 (by rw [b2, a2]; exact e.symm)
      · intro j' hj' hvj' hne q hq hq'
        rw [sub_zero] at hq hq'
        obtain ⟨d1, d2, _, _⟩ := h1 i hi hv j' hj' hvj' 0 (by omega)
        have := (ok.t0_inj _ _ b1 d1 (by rw [b2, d2, ← hq, ← hq'])).2
        rw [(PX_vaOf i j 0 hi hj (by omega)).2.1, (PX_vaOf i j' 0 hi hj' (by omega)).2.1] at this
        exact hne this.symm
    · rw [sub_succ]
      rintro (e | ⟨j, hj, hvj, hq⟩)
      · exact (ok.t1_ne _ a1).1 (by rw [a2]; exact e.symm)
      · rw [sub_zero] at hq
        obtain ⟨b1, b2, _, _⟩ := h1 i hi hv j hj hvj 0 (by omega)
        exact (ok.t0_ne _ b1).1 (by rw [b2]; exact hq.symm)
    · intro i' hi' hv' hne q hq hq'
      obtain ⟨a1', a2', _⟩ := h2 i' hi' hv' 0 0 (by omega) (by omega)
      rw [sub_succ] at hq hq'
      rcases hq with e | ⟨j, hj, hvj, hq⟩
      · rcases hq' with e' | ⟨j', hj', hvj', hq'⟩
        · have := ok.t1_inj _ _ a1 a1' (by rw [a2, a2', ← e, ← e'])
          rw [(PX_vaOf i 0 0 hi (by omega) (by omega)).1,
            (PX_vaOf i' 0 0 hi' (by omega) (by omega)).1] at this
          exact hne this.symm
        · rw [sub_zero] at hq'
          obtain ⟨b1, b2, _, _⟩ := h1 i' hi' hv' j' hj' hvj' 0 (by omega)
          exact ok.t0_t1 _ _ b1 a1 (by rw [b2, a2, ← e, ← hq'])
      · rw [sub_zero] at hq
        obtain ⟨b1, b2, _, _⟩ := h1 i hi hv j hj hvj 0 (by omega)
        rcases hq' with e' | ⟨j', hj', hvj', hq'⟩
        · exact ok.t0_t1 _ _ b1 a1' (by rw [b2, a2', ← e', ← hq])
        · rw [sub_zero] at hq'
          obtain ⟨b1', b2', _, _⟩ := h1 i' hi' hv' j' hj' hvj' 0 (by omega)
          have := (ok.t0_inj _ _ b1 b1' (by rw [b2, b2', ← hq, ← hq'])).1
          rw [(PX_vaOf i j 0 hi hj (by omega)).1,
            (PX_vaOf i' j' 0 hi' hj' (by omega)).1] at this
          exact hne this.symm
  · intro q
    rw [sub_succ]
    constructor
    · rintro (e | ⟨i, hi, hv, hq⟩)
      · exact Or.inl (Or.inl e)
      · obtain ⟨a1, a2, _⟩ := h2 i hi hv 0 0 (by omega) (by omega)
        rw [sub_succ] at hq
        rcases hq with e | ⟨j, hj, hvj, hq⟩
        · exact Or.inl (Or.inr ⟨_, a1, by rw [a2]; exact e⟩)
        · rw [sub_zero] at hq
          obtain ⟨b1, b2, _, _⟩ := h1 i hi hv j hj hvj 0 (by omega)
          exact Or.inr ⟨_, b1, by rw [b2]; exact hq⟩
    · rintro ((e | ⟨va, hv, e⟩) | ⟨va, hv, e⟩)
      · exact Or.inl e
      · refine Or.inr ⟨PX 2 va, PX_lt 2 va, hv, ?_⟩
        rw [sub_succ]
        exact Or.inl e
      · refine Or.inr ⟨PX 2 va, PX_lt 2 va, hv.1, ?_⟩
        rw [sub_succ]
        exact Or.inr ⟨PX 1 va, PX_lt 1 va, hv.2, e⟩
  · rintro ⟨va, _, hv⟩
    have h0 : has0 m pt va := by
      by_contra hn
      have := (walkVal_ok m pt va ok).2 hn
      rw [this.2] at hv
      omega
    unfold leafOf at hv
    rw [if_pos h0] at hv
    exact ⟨PX 2 va, PX_lt 2 va, h0.1, PX 1 va, PX_lt 1 va, h0.2, PX 0 va, PX_lt 0 va, hv⟩

/-- The unmap phase of `uvmfree(pt, sz)` on an address space whose pages below
`PGROUNDUP(big)` are mapped, for `sz` up to `big`: it returns, leaving the pages below
`PGROUNDUP(sz)` unmapped and their frames on the free list. -/
theorem uvmfree_unmap (L : Layout) (s : KState) (pt big : Nat) (fl : List Nat)
    (pr : Proper L s pt big fl) (sz : Nat) (hle : PGROUNDUP sz ≤ PGROUNDUP big)
    (hsz : sz ≤ MAXVA) :
    ∃ s1 fl1,
      (if sz > 0 then uvmunmap L s pt 0 (PGROUNDUP sz / PGSIZE) true else .ok () s)
        = .ok () s1 ∧
      Inv L s1 pt fl1 ∧ Clean s1.mem pt ∧
      (∀ vb, vb < MAXVA → leafOf s1.mem pt vb =
        if vb < PGROUNDUP sz then 0 else leafOf s.mem pt vb) ∧
      (∀ p, IsTable s1.mem pt p ↔ IsTable s.mem pt p) ∧
      (∀ f, f ∈ fl1 ↔ f ∈ fl ∨
        ∃ b, b % 4096 = 0 ∧ b < PGROUNDUP sz ∧ f = PTE2PA (leafOf s.mem pt b)) ∧
      (∀ x, (∀ p, IsTable s.mem pt p → ¬ inPage p x) →
        (∀ b, b % 4096 = 0 → b < PGROUNDUP sz → ¬ inPage (PTE2PA (leafOf s.mem pt b)) x) →
        s1.mem x = s.mem x) := by
  obtain ⟨l1, l2, l3, l4⟩ := PGROUNDUP_spec sz hsz
  have own := owned_mono s pt fl 0 (PGROUNDUP big) 0 (PGROUNDUP sz) pr.owned (Nat.le_refl _) hle
  by_cases hz : sz > 0
  · rw [if_pos hz]
    unfold uvmunmap
    rw [if_neg (by unfold PGSIZE; omega)]
    have eb : (0 + PGROUNDUP sz / PGSIZE * PGSIZE) % 2 ^ 64 = PGROUNDUP sz := by
      unfold PGSIZE; unfold MAXVA at l4; omega
    rw [eb, loopfuel_eq]
    have hfu : PGROUNDUP sz ≤ 0 + MAXVA / PGSIZE * 4096 := by
      have : MAXVA / PGSIZE * 4096 = MAXVA := by unfold MAXVA PGSIZE; norm_num
      omega
    obtain ⟨s1, run, up⟩ := uvmunmapLoop_total L pt (PGROUNDUP sz) l1 l4 (MAXVA / PGSIZE) s 0
      fl pr.inv (by omega) own hfu (fun b b1 _ b3 => pr.mapped b b1 (by omega))
    obtain ⟨freedL, i1, _, i3, i4, i5, _, _, i8⟩ := uvmunmapLoop_spec L pt (PGROUNDUP sz) true
      l1 (MAXVA / PGSIZE + 1) s 0 fl s1 pr.inv (by omega) (fun _ => own) run
    refine ⟨s1, freedL ++ fl, run, i1, clean_same _ _ pt up pr.clean, fun vb hvb => ?_, i4,
      fun f => ?_, fun x hx1 hx2 => ?_⟩
    · rw [i5 vb hvb]
      by_cases c : vb < PGROUNDUP sz
      · rw [if_pos ⟨Nat.zero_le _, c⟩, if_pos c]
      · rw [if_neg (fun x => c x.2), if_neg c]
    · rw [List.mem_append, (i3 rfl).1 f]
      constructor
      · rintro (⟨b, b1, _, b3, b4⟩ | c)
        · exact Or.inr ⟨b, b1, b3, b4⟩
        · exact Or.inl c
      · rintro (c | ⟨b, b1, b3, b4⟩)
        · exact Or.inr c
        · exact Or.inl ⟨b, b1, Nat.zero_le _, b3, b4⟩
    · apply i8 x hx1
      intro f hf
      obtain ⟨b, b1, _, b3, b4⟩ := ((i3 rfl).1 f).mp hf
      rw [b4]
      exact hx2 b b1 b3
  · rw [if_neg hz]
    have hs0 : sz = 0 := by omega
    have hb0 : PGROUNDUP sz = 0 := by rw [hs0]; decide
    refine ⟨s, fl, rfl, pr.inv, pr.clean, fun vb _ => by rw [if_neg (by omega)],
      fun p => Iff.rfl, fun f => ⟨fun c => Or.inl c, ?_⟩, fun _ _ _ => rfl⟩
    rintro (c | ⟨b, _, b3, _⟩)
    · exact c
    · omega

/-- Total correctness of `uvmfree` on a proper address space: it returns; the free list
gains exactly the page-table pages and the frames of the mapped pages; nothing outside
these pages is written. -/
theorem uvmfree_proper (L : Layout) (s : KState) (pt sz : Nat) (fl : List Nat)
    (pr : Proper L s pt sz fl) :
    ∃ s' fl', uvmfree L s pt sz = .ok () s' ∧ AllocOK L s' fl' ∧
      (∀ f, f ∈ fl' ↔ f ∈ fl ∨ IsTable s.mem pt f ∨
        ∃ b, b % 4096 = 0 ∧ b < PGROUNDUP sz ∧ f = PTE2PA (leafOf s.mem pt b)) ∧
      (∀ x, (∀ p, IsTable s.mem pt p → ¬ inPage p x) →
        (∀ b, b % 4096 = 0 → b < PGROUNDUP sz → ¬ inPage (PTE2PA (leafOf s.mem pt b)) x) →
        s'.mem x = s.mem x) := by
  obtain ⟨s1, fl1, run1, inv1, cl1, lf1, it1, mem1, fr1⟩ :=
    uvmfree_unmap L s pt sz fl pr sz (Nat.le_refl _) pr.size
  have hlf : ∀ vb, vb < MAXVA → leafOf s1.mem pt vb % 2 = 0 := by
    intro vb hvb
    rw [lf1 vb hvb]
    by_cases c : vb < PGROUNDUP sz
    · rw [if_pos c]
    · rw [if_neg c]; exact pr.unmapped vb hvb (by omega)
  obtain ⟨wf, sub⟩ := tree_of_table s1.mem pt inv1.table cl1 hlf
  obtain ⟨s2, added, run2, ok2, mem2, fr2⟩ := freewalk_spec L 2 (2 ^ 52) (by norm_num) s1 pt
    fl1 inv1.alloc wf (fun q hq => by
      have ht := (sub q).mp hq
      have ht' := (it1 q).mp ht
      exact ⟨⟨isTable_aligned _ _ _ pr.inv.table.root_al ht', pr.tables q ht'⟩,
        inv1.sep q ht⟩)
  refine ⟨s2, added ++ fl1, ?_, ok2, fun f => ?_, fun x hx1 hx2 => ?_⟩
  · unfold uvmfree
    rw [run1, bind_ok]
    exact run2
  · rw [List.mem_append, mem2 f, sub f, it1 f, mem1 f]
    constructor
    · rintro (c | c | c)
      · exact Or.inr (Or.inl c)
      · exact Or.inl c
      · exact Or.inr (Or.inr c)
    · rintro (c | c | c)
      · exact Or.inr (Or.inl c)
      · exact Or.inl c
      · exact Or.inr (Or.inr c)
  · rw [fr2 x (fun q hq => hx1 q ((it1 q).mp ((sub q).mp hq)))]
    exact fr1 x hx1 hx2

/-- Calling `uvmfree(pt, sz)` on an address space that has readable pages mapped at and
above `PGROUNDUP(sz)` halts with "freewalk: leaf". -/
theorem uvmfree_leafy (L : Layout) (s : KState) (pt big : Nat) (fl : List Nat)
    (pr : Proper L s pt big fl)
    (hr : ∀ b, b % 4096 = 0 → b < PGROUNDUP big → leafOf s.mem pt b / 2 % 2 = 1)
    (sz : Nat) (hlt : PGROUNDUP sz < PGROUNDUP big) (hsz : sz ≤ MAXVA) :
    uvmfree L s pt sz = .panic "freewalk: leaf" := by
  obtain ⟨s1, fl1, run1, inv1, cl1, lf1, it1, mem1, _⟩ :=
    uvmfree_unmap L s pt big fl pr sz (by omega) hsz
  obtain ⟨l1, l2, l3, l4⟩ := PGROUNDUP_spec sz hsz
  obtain ⟨g1, g2, g3, g4⟩ := PGROUNDUP_spec big pr.size
  have hlv : ∀ va, va < MAXVA → leafOf s1.mem pt va % 2 = 1 →
      leafOf s1.mem pt va &&& (PTE_R ||| PTE_W ||| PTE_X) ≠ 0 := by
    intro va hva hv
    rw [lf1 va hva] at hv ⊢
    by_cases c : va < PGROUNDUP sz
    · rw [if_pos c] at hv; omega
    · rw [if_neg c] at hv ⊢
      have hvb : va < PGROUNDUP big := by
        by_contra c2
        have := pr.unmapped va hva (by omega)
        omega
      obtain ⟨d1, d2, d3⟩ := PGROUNDDOWN_spec va
      rw [leafOf_page s.mem pt va hva]
      exact readable_bits _ (hr (PGROUNDDOWN va) d1 (by omega))
  obtain ⟨lax, sub, lfy⟩ := tree_lax_of_table s1.mem pt inv1.table cl1 hlv
  have hleaf : Leafy s1.mem 2 pt := by
    apply lfy
    refine ⟨PGROUNDUP sz, by omega, ?_⟩
    rw [lf1 _ (by omega), if_neg (by omega)]
    exact (pr.mapped _ l1 hlt).1
  unfold uvmfree
  rw [run1, bind_ok]
  exact freewalk_leafy L 2 (2 ^ 52) (by norm_num) s1 pt fl1 inv1.alloc lax hleaf
    (fun q hq => by
      have ht := (sub q).mp hq
      have ht' := (it1 q).mp ht
      exact ⟨⟨isTable_aligned _ _ _ pr.inv.table.root_al ht', pr.tables q ht'⟩,
        inv1.sep q ht⟩)

/-- A built address space is proper. -/
theorem proper_of_space (L : Layout) (pt : Nat) (fl0 : List Nat) (s : KState) (sz : Nat)
    (fl : List Nat) (sp : Space L pt fl0 s sz fl) : Proper L s pt sz fl :=
  ⟨sp.inv, fun b b1 b2 => by
      obtain ⟨m1, m2, m3⟩ := sp.mapped b b1 b2
      have := sp.frames0 _ m3
      exact ⟨m1, m2, this.2.1, this.2.2⟩,
    sp.unmapped, sp.owned, sp.size, sp.clean,
    fun p hp => (sp.frames0 p (sp.tables p hp)).2⟩

/-! ### The address space `exec` builds: what each step preserves -/

/-- An address space stays one when the table pages and the frame and validity of every
leaf stay what they are. -/
theorem space_transfer (L : Layout) (pt : Nat) (fl0 : List Nat) (s : KState) (sz : Nat)
    (fl : List Nat) (sp : Space L pt fl0 s sz fl) (s' : KState) (inv' : Inv L s' pt fl)
    (it : ∀ p, IsTable s'.mem pt p ↔ IsTable s.mem pt p)
    (lf : ∀ vb, PTE2PA (leafOf s'.mem pt vb) = PTE2PA (leafOf s.mem pt vb) ∧
      leafOf s'.mem pt vb % 2 = leafOf s.mem pt vb % 2)
    (lfl : ∀ b, b % 4096 = 0 → b < PGROUNDUP sz → leafOf s'.mem pt b % 1024 ≠ 1)
    (cl : Clean s'.mem pt) : Space L pt fl0 s' sz fl := by
  refine ⟨inv', sp.sub, fun p hp => sp.tables p ((it p).mp hp), fun b b1 b2 => ?_,
    fun vb h1 h2 => ?_, fun b b1 b2 b3 b4 => ?_, fun f hf => ?_, sp.size, cl, sp.nodup0,
    sp.frames0⟩
  · obtain ⟨m1, _, m3⟩ := sp.mapped b b1 b2
    rw [(lf b).1, (lf b).2]
    exact ⟨m1, lfl b b1 b2, m3⟩
  · rw [(lf vb).2]; exact sp.unmapped vb h1 h2
  · obtain ⟨o1, o2, o3⟩ := sp.owned b b1 b2 b3 b4
    rw [(lf b).1]
    refine ⟨o1, fun c => o2 ((it _).mp c), fun b' k1 k2 k3 k4 e => ?_⟩
    rw [(lf b').1] at e
    exact o3 b' k1 k2 k3 k4 e
  · rcases sp.account f hf with c | c | ⟨b, b1, b2, b3⟩
    · exact Or.inl c
    · exact Or.inr (Or.inl ((it f).mpr c))
    · exact Or.inr (Or.inr ⟨b, b1, b2, by rw [(lf b).1]; exact b3⟩)

/-- Writing into frames of mapped pages only (as `loadseg` and `copyout` do) keeps the
address space. -/
theorem image_write (L : Layout) (pt : Nat) (fl0 : List Nat) (s0 s : KState) (sz : Nat)
    (fl : List Nat) (im : Image L pt fl0 s0 s sz fl) (s' : KState)
    (hf : s'.freelist = s.freelist)
    (hw : ∀ x, (∀ b, b % 4096 = 0 → b < PGROUNDUP sz →
      ¬ inPage (PTE2PA (leafOf s.mem pt b)) x) → s'.mem x = s.mem x) :
    Image L pt fl0 s0 s' sz fl ∧ (∀ vb, leafOf s'.mem pt vb = leafOf s.mem pt vb) ∧
    (∀ p, IsTable s.mem pt p → SamePage s.mem s'.mem p) := by
  have sp := im.space
  obtain ⟨l1, l2, l3, l4⟩ := PGROUNDUP_spec sz sp.size
  have hfl : ∀ f, f ∈ fl → SamePage s.mem s'.mem f := by
    intro f hfm x hx
    apply hw
    intro b b1 b2
    obtain ⟨o1, _, _⟩ := sp.owned b b1 (Nat.zero_le _) b2 (by omega)
    exact fun c => pages_disjoint f _ x (sp.inv.alloc.frames f hfm).1 (PTE2PA_aligned _)
      (fun e => o1 (e ▸ hfm)) hx c
  have ht : ∀ p, IsTable s.mem pt p → SamePage s.mem s'.mem p := by
    intro p hp x hx
    apply hw
    intro b b1 b2
    obtain ⟨_, o2, _⟩ := sp.owned b b1 (Nat.zero_le _) b2 (by omega)
    exact fun c => pages_disjoint p _ x (isTable_aligned _ _ _ sp.inv.table.root_al hp)
      (PTE2PA_aligned _) (fun e => o2 (e ▸ hp)) hx c
  obtain ⟨inv', it, lf⟩ := inv_frame L s s' pt fl sp.inv hf hfl ht
  have cl : Clean s'.mem pt := clean_same s.mem s'.mem pt (fun p hp => ht p (Or.inl hp)) sp.clean
  refine ⟨⟨space_transfer L pt fl0 s sz fl sp s' inv' it (fun vb => by rw [lf vb]; exact ⟨rfl, rfl⟩)
    (fun b b1 b2 => by rw [lf b]; exact (sp.mapped b b1 b2).2.1) cl, fun x hx => ?_,
    fun b b1 b2 => by rw [lf b]; exact im.readable b b1 b2⟩, lf, ht⟩
  rw [← im.outside x hx]
  apply hw
  intro b b1 b2 c
  exact hx _ (sp.mapped b b1 b2).2.2 c

/-- What `uvmcreate` leaves when it returns a table: the empty image. -/
theorem image_create (L : Layout) (s0 : KState) (fl0 : List Nat) (pt : Nat) (s1 : KState)
    (ok : AllocOK L s0 fl0) (h : uvmcreate s0 = (pt, s1)) (hpt : pt ≠ 0) :
    ∃ fl, Image L pt fl0 s0 s1 0 fl := by
  obtain ⟨fl, sp⟩ := space_create L s0 fl0 pt s1 ok h hpt
  have p0 : PGROUNDUP 0 = 0 := by decide
  refine ⟨fl, sp, fun x hx => ?_, fun b _ hb => by rw [p0] at hb; omega⟩
  have hptm : pt ∈ fl0 := sp.tables pt (Or.inl (root_isUpper _ _))
  have hnx : ¬ (pt ≤ x ∧ x < pt + PGSIZE) := hx pt hptm
  cases fl0 with
  | nil => cases hptm
  | cons f rest =>
    obtain ⟨hk, _⟩ := kalloc_cons L s0 f rest ok
    have hfa := ok.frames f (List.mem_cons_self _ _)
    have hk0 := ok.kend_pos
    have hf0 : f ≠ 0 := by omega
    unfold uvmcreate at h
    rw [hk] at h
    simp only [hf0, if_false] at h
    have e1 : pt = f := (congrArg Prod.fst h).symm
    have e2 : s1 = KState.mk (memset (memset s0.mem f 5 PGSIZE) f 0 PGSIZE) (rd64 s0.mem f) :=
      (congrArg Prod.snd h).symm
    rw [e2, ← e1]
    simp only [memset, hnx, if_false]

theorem uperm_user (xperm : Nat) (hx : xperm < 1024) (f : Nat) :
    (PA2PTE f ||| (PTE_R ||| PTE_U ||| xperm) ||| PTE_V) / 16 % 2 = 1 := by
  obtain ⟨pm1, pm2, _, pm4⟩ := pte_make f (PTE_R ||| PTE_U ||| xperm) (uperm_lt xperm hx)
  have hU : (PTE_R ||| PTE_U ||| xperm) / 16 % 2 = 1 := by
    have ta := @Nat.testBit_to_div_mod 4 (PTE_R ||| PTE_U ||| xperm)
    rw [Nat.testBit_or, Nat.testBit_or] at ta
    have tc : Nat.testBit PTE_U 4 = true := by decide
    rw [tc] at ta
    simp only [Bool.or_true, Bool.true_or] at ta
    norm_num at ta
    omega
  rw [pm1]
  omega

/-- The roll-back call of `uvmalloc` writes to no root or level-1 table. -/
theorem uvmdealloc_upper (L : Layout) (pt xperm : Nat) (hx : xperm < 1024)
    (fill : Nat → Nat → Nat) (s0 : KState) (fl0 : List Nat) (lo a : Nat) (s : KState)
    (fl : List Nat) (s' : KState) (r : Nat)
    (g : Grew L pt (fun _ => PTE_R ||| PTE_U ||| xperm) fill s0 fl0 lo a s fl)
    (hfr : ∀ f, f ∈ fl0 → L.kend ≤ f ∧ f < L.phystop)
    (hlo : lo % 4096 = 0) (ha : a % 4096 = 0) (hle : lo ≤ a) (ha64 : a < 2 ^ 64)
    (h : uvmdealloc L s pt a lo = .ok r s') :
    ∀ p, IsUpper s.mem pt p → SamePage s.mem s'.mem p := by
  unfold uvmdealloc at h
  by_cases c : lo ≥ a
  · rw [if_pos c] at h
    have h2 := (ok_inj _ _ _ _ h).2
    rw [← h2]
    exact fun p _ => samePage_refl _ _
  · rw [if_neg c] at h
    have hb := g.bound (by omega)
    have e1 : PGROUNDUP lo = lo := PGROUNDUP_aligned lo hlo (by omega)
    have e2 : PGROUNDUP a = a := PGROUNDUP_aligned a ha ha64
    rw [e1, e2, if_pos (by omega)] at h
    have hleaf : ∀ b, b % 4096 = 0 → lo ≤ b → b < a →
        leafOf s.mem pt b % 2 = 1 ∧ leafOf s.mem pt b % 1024 ≠ 1 ∧
        L.kend ≤ PTE2PA (leafOf s.mem pt b) ∧ PTE2PA (leafOf s.mem pt b) < L.phystop := by
      intro b hb1 hb2 hb3
      obtain ⟨q1, q2, _, _⟩ := g.leaf_in b hb1 hb2 hb3
      obtain ⟨u1, u2, _⟩ := uperm_leaf xperm hx (PTE2PA (leafOf s.mem pt b))
      have hf := hfr _ q2
      rw [← q1] at u1 u2
      exact ⟨u1, u2, hf.1, hf.2⟩
    obtain ⟨s2, r1, r2⟩ := uvmunmapLoop_total L pt a ha hb (MAXVA / PGSIZE) s lo fl g.inv hlo
      g.owned
      (by
        have : MAXVA / PGSIZE * 4096 = MAXVA := by unfold MAXVA PGSIZE; norm_num
        omega)
      hleaf
    have hfuel : MAXVA / PGSIZE + 1 = LOOPFUEL := rfl
    rw [hfuel] at r1
    have hlt' : (a - lo) / 4096 < 2 ^ 31 := by unfold MAXVA at hb; omega
    have en : intToU64 ((a - lo) / PGSIZE) = (a - lo) / 4096 := by
      unfold intToU64 PGSIZE
      rw [Nat.mod_eq_of_lt (by omega), if_pos hlt']
    have eb : (lo + (a - lo) / 4096 * PGSIZE) % 2 ^ 64 = a := by
      unfold PGSIZE; unfold MAXVA at hb; omega
    rw [en] at h
    simp only [] at h
    unfold uvmunmap at h
    rw [if_neg (by unfold PGSIZE; omega), eb, r1, bind_ok] at h
    have h2 := (ok_inj _ _ _ _ h).2
    rw [← h2]
    exact r2

/-- A returning loop of `uvmalloc`, whatever it returns, leaves every valid root and
level-1 entry a pointer entry. -/
theorem uvmallocLoop_clean_all (L : Layout) (pt lo newsz xperm : Nat) (s0 : KState)
    (fl0 : List Nat) (hx : xperm < 1024) (hlo : lo % 4096 = 0)
    (hfr : ∀ f, f ∈ fl0 → L.kend ≤ f ∧ f < L.phystop) :
    ∀ (fuel : Nat) (s : KState) (a : Nat) (fl : List Nat) (r : Nat) (s' : KState),
    Grew L pt (fun _ => PTE_R ||| PTE_U ||| xperm) (fun _ _ => 0) s0 fl0 lo a s fl →
    a % 4096 = 0 → lo ≤ a → a < 2 ^ 64 → Clean s.mem pt →
    uvmallocLoop fuel L s pt a lo newsz xperm = .ok r s' → Clean s'.mem pt := by
  intro fuel
  induction fuel with
  | zero => intro s a fl r s' _ _ _ _ _ h; rw [uvmallocLoop] at h; cases h
  | succ k ih =>
    intro s a fl r s' g ha hle ha64 cl h
    rw [uvmallocLoop] at h
    by_cases hn : a < newsz
    case neg =>
      rw [if_neg hn] at h
      have h2 := (ok_inj _ _ _ _ h).2
      rw [← h2]; exact cl
    case pos =>
      rw [if_pos hn] at h
      cases fl with
      | nil =>
        rw [kalloc_nil L s g.inv.alloc] at h
        simp only [if_true] at h
        cases hd : uvmdealloc L s pt a lo with
        | panic msg => rw [hd] at h; cases h
        | fuel => rw [hd] at h; cases h
        | ok u s1 =>
          rw [hd, bind_ok] at h
          have h2 := (ok_inj _ _ _ _ h).2
          rw [← h2]
          exact clean_same _ _ pt
            (uvmdealloc_upper L pt xperm hx _ s0 fl0 lo a s [] s1 u g hfr hlo ha hle ha64 hd) cl
      | cons f rest =>
        obtain ⟨hk, _⟩ := kalloc_cons L s f rest g.inv.alloc
        have hfa := g.inv.alloc.frames f (List.mem_cons_self _ _)
        have hk0 := g.inv.alloc.kend_pos
        have hf0 : f ≠ 0 := by omega
        have nd := List.nodup_cons.mp g.inv.alloc.nodup
        rw [hk] at h
        simp only [hf0, if_false] at h
        have hout : ∀ x, ¬ inPage f x →
            memset (memset s.mem f 5 PGSIZE) f 0 PGSIZE x = s.mem x := by
          intro x hx
          have c : ¬ (f ≤ x ∧ x < f + PGSIZE) := hx
          simp only [memset, c, if_false]
        have hin : ∀ i, i < 4096 → memset (memset s.mem f 5 PGSIZE) f 0 PGSIZE (f + i) = 0 := by
          intro i hi
          have c : f ≤ f + i ∧ f + i < f + PGSIZE := ⟨by omega, by unfold PGSIZE; omega⟩
          simp only [memset, c, and_self, if_true, Nat.zero_mod]
        obtain ⟨inv2, t2, _⟩ := inv_take L s
          (KState.mk (memset (memset s.mem f 5 PGSIZE) f 0 PGSIZE) (rd64 s.mem f)) pt f
          rest g.inv rfl hout
        have cl2 : Clean (memset (memset s.mem f 5 PGSIZE) f 0 PGSIZE) pt :=
          clean_same s.mem _ pt
            (fun p hp => (take_upper L s _ pt f rest g.inv hout).1 p (Or.inl hp)) cl
        cases hm : mappages
            { mem := memset (memset s.mem f 5 PGSIZE) f 0 PGSIZE, freelist := rd64 s.mem f }
            pt a PGSIZE f (PTE_R ||| PTE_U ||| xperm) with
        | panic msg => rw [hm] at h; cases h
        | fuel => rw [hm] at h; cases h
        | ok rr s3 =>
          rw [hm, bind_ok] at h
          have cl3 := mappages_clean L _ pt a f _ rest rr s3 inv2 ha cl2 hm
          by_cases hrr : rr ≠ 0
          · rw [if_pos hrr] at h
            cases hkf : kfree L s3 f with
            | panic msg => rw [hkf] at h; cases h
            | fuel => rw [hkf] at h; cases h
            | ok u4 s4 =>
              rw [hkf, bind_ok] at h
              cases hd : uvmdealloc L s4 pt a lo with
              | panic msg => rw [hd] at h; cases h
              | fuel => rw [hd] at h; cases h
              | ok u s5 =>
                rw [hd, bind_ok] at h
                have h2 := (ok_inj _ _ _ _ h).2
                rw [← h2]
                have g4 := grew_fail L pt _ _ s0 fl0 lo a s f rest
                  (KState.mk (memset (memset s.mem f 5 PGSIZE) f 0 PGSIZE) (rd64 s.mem f))
                  s3 s4 rr g ha ha64 (uperm_lt xperm hx) rfl hout hm hrr hkf
                have htop := g.inv.alloc.top
                obtain ⟨_, fl3, e, _⟩ := mappages_page L _ pt a f _ rest rr s3 inv2 ha ha64
                  (uperm_lt xperm hx) (by omega) hm
                have hnt_f : ¬ IsTable s.mem pt f :=
                  fun c => g.inv.sep f c (List.mem_cons_self _ _)
                have hnt3_f : ¬ IsTable s3.mem pt f := by
                  intro c
                  rcases e.tables_new f c with c1 | ⟨c1, _⟩
                  · exact hnt_f ((t2 f).mp c1)
                  · exact nd.1 c1
                obtain ⟨k1, _, _, k4⟩ := kfree_inv L s3 s4 f hkf
                have cl4 : Clean s4.mem pt := by
                  rw [k4]
                  apply clean_same s3.mem _ pt _ cl3
                  intro p hp
                  exact kfree_samePage s3.mem f s3.freelist p k1
                    (isTable_aligned _ _ _ e.inv.table.root_al (Or.inl hp))
                    (fun e' => hnt3_f (e' ▸ Or.inl hp))
                exact clean_same _ _ pt
                  (uvmdealloc_upper L pt xperm hx _ s0 fl0 lo a s4 [f] s5 u g4 hfr hlo ha hle
                    ha64 hd) cl4
          · rw [if_neg hrr] at h
            have hr0 : rr = 0 := by omega
            rw [hr0] at hm
            obtain ⟨fl3, g3⟩ := grew_step L pt _ _ s0 fl0 lo a s f rest
              (KState.mk (memset (memset s.mem f 5 PGSIZE) f 0 PGSIZE) (rd64 s.mem f)) s3 g ha
              hle ha64 (uperm_lt xperm hx) rfl hout hin hm
            have hb := g3.bound (by omega)
            have ea : (a + PGSIZE) % 2 ^ 64 = a + 4096 := by
              unfold PGSIZE; unfold MAXVA at hb; omega
            rw [ea] at h
            have hal' : (a + 4096) % 4096 = 0 := by omega
            have hle' : lo ≤ a + 4096 := by omega
            have h64' : a + 4096 < 2 ^ 64 := by unfold MAXVA at hb; omega
            exact ih s3 (a + 4096) fl3 r s' g3 hal' hle' h64' cl3 h

theorem uperm_bits (xperm f : Nat) :
    (PA2PTE f ||| (PTE_R ||| PTE_U ||| xperm) ||| PTE_V) / 16 % 2 = 1 ∧
    (PA2PTE f ||| (PTE_R ||| PTE_U ||| xperm) ||| PTE_V) / 2 % 2 = 1 ∧
    (xperm / 4 % 2 = 1 → (PA2PTE f ||| (PTE_R ||| PTE_U ||| xperm) ||| PTE_V) / 4 % 2 = 1) := by
  have ta := @Nat.testBit_to_div_mod 4 (PA2PTE f ||| (PTE_R ||| PTE_U ||| xperm) ||| PTE_V)
  have tb := @Nat.testBit_to_div_mod 1 (PA2PTE f ||| (PTE_R ||| PTE_U ||| xperm) ||| PTE_V)
  have tc := @Nat.testBit_to_div_mod 2 (PA2PTE f ||| (PTE_R ||| PTE_U ||| xperm) ||| PTE_V)
  have tx := @Nat.testBit_to_div_mod 2 xperm
  simp only [Nat.testBit_or] at ta tb tc
  have e1 : Nat.testBit PTE_U 4 = true := by decide
  have e2 : Nat.testBit PTE_R 1 = true := by decide
  rw [e1] at ta
  rw [e2] at tb
  simp only [Bool.or_true, Bool.true_or] at ta tb
  norm_num at ta tb tc tx
  refine ⟨ta, tb, fun hw => ?_⟩
  have : xperm.testBit 2 = true := by rw [tx]; simp [hw]
  rw [this] at tc
  simp only [Bool.or_true, Bool.true_or] at tc
  simpa using tc.symm

theorem uvmalloc_clean_all (L : Layout) (s : KState) (pt oldsz newsz xperm : Nat)
    (fl : List Nat) (r : Nat) (s' : KState) (inv : Inv L s pt fl) (hx : xperm < 1024)
    (cl : Clean s.mem pt) (h : uvmalloc L s pt oldsz newsz xperm = .ok r s') :
    Clean s'.mem pt := by
  unfold uvmalloc at h
  by_cases c : newsz < oldsz
  · rw [if_pos c] at h
    rw [← (ok_inj _ _ _ _ h).2]; exact cl
  rw [if_neg c] at h
  have hal : PGROUNDUP oldsz % 4096 = 0 := by unfold PGROUNDUP PGSIZE; omega
  have h64 : PGROUNDUP oldsz < 2 ^ 64 := by unfold PGROUNDUP PGSIZE; omega
  exact uvmallocLoop_clean_all L pt (PGROUNDUP oldsz) newsz xperm s fl hx hal
    (fun f hf => (inv.alloc.frames f hf).2) LOOPFUEL s
    (PGROUNDUP oldsz) fl r s' (grew_init L pt _ _ s fl _ inv) hal (Nat.le_refl _) h64 cl h

/-- The invariant of an address space depends on its size through `PGROUNDUP` only. -/
theorem space_resize (L : Layout) (pt : Nat) (fl0 : List Nat) (s : KState) (sz : Nat)
    (fl : List Nat) (sp : Space L pt fl0 s sz fl) (sz' : Nat)
    (e : PGROUNDUP sz' = PGROUNDUP sz) (hs : sz' ≤ MAXVA) : Space L pt fl0 s sz' fl := by
  refine ⟨sp.inv, sp.sub, sp.tables, ?_, ?_, ?_, ?_, hs, sp.clean, sp.nodup0, sp.frames0⟩
  · rw [e]; exact sp.mapped
  · rw [e]; exact sp.unmapped
  · rw [e]; exact sp.owned
  · rw [e]; exact sp.account

/-- A rolled-back `uvmalloc` leaves the address space what it was. -/
theorem space_rollback (L : Layout) (pt : Nat) (fl0 : List Nat) (s : KState) (sz : Nat)
    (fl : List Nat) (sp : Space L pt fl0 s sz fl) (s' : KState) (fl' : List Nat)
    (rb : RolledBack L pt s fl s' fl') (cl : Clean s'.mem pt) :
    Space L pt fl0 s' sz fl' ∧
    (∀ b, b < PGROUNDUP sz → b < MAXVA → leafOf s'.mem pt b = leafOf s.mem pt b) := by
  obtain ⟨l1, l2, l3, l4⟩ := PGROUNDUP_spec sz sp.size
  have hold : ∀ b, b % 4096 = 0 → b < PGROUNDUP sz →
      leafOf s'.mem pt b = leafOf s.mem pt b := by
    intro b b1 b2
    rcases rb.leaf b (by omega) with c | ⟨_, c⟩
    · exact c
    · have := (sp.mapped b b1 b2).1
      omega
  have hold2 : ∀ b, b < PGROUNDUP sz → b < MAXVA →
      leafOf s'.mem pt b = leafOf s.mem pt b := by
    intro b b2 b3
    have hp := PGROUNDDOWN_spec b
    rw [leafOf_page s'.mem pt b b3, leafOf_page s.mem pt b b3]
    exact hold _ hp.1 (by omega)
  refine ⟨⟨rb.inv, fun f hf => sp.sub f (rb.sub f hf), fun p hp => ?_, fun b b1 b2 => ?_,
    fun vb h1 h2 => ?_, fun b b1 _ b2 b3 => ?_, fun f hf => ?_, sp.size, cl, sp.nodup0,
    sp.frames0⟩, hold2⟩
  · rcases rb.tables_new p hp with c | c
    · exact sp.tables p c
    · exact sp.sub p c
  · rw [hold b b1 b2]; exact sp.mapped b b1 b2
  · rcases rb.leaf vb h1 with c | ⟨c, _⟩
    · rw [c]; exact sp.unmapped vb h1 h2
    · rw [c]
  · obtain ⟨o1, o2, o3⟩ := sp.owned b b1 (Nat.zero_le _) b2 b3
    rw [hold b b1 b2]
    refine ⟨fun m => o1 (rb.sub _ m), fun t => ?_, fun b' k1 _ k2 k3 e => ?_⟩
    · rcases rb.tables_new _ t with t' | t'
      · exact o2 t'
      · exact o1 t'
    · rw [hold b' k1 k2] at e
      exact o3 b' k1 (Nat.zero_le _) k2 k3 e
  · rcases sp.account f hf with c | c | ⟨b, b1, b2, b3⟩
    · rcases rb.account f c with d | d
      · exact Or.inl d
      · exact Or.inr (Or.inl d)
    · exact Or.inr (Or.inl (rb.tables_mono f c))
    · exact Or.inr (Or.inr ⟨b, b1, b2, by rw [hold b b1 b2]; exact b3⟩)

/-- What a returning `uvmalloc` does to the image `exec` is building. -/
theorem image_alloc (L : Layout) (pt : Nat) (fl0 : List Nat) (s0 s : KState) (sz : Nat)
    (fl : List Nat) (im : Image L pt fl0 s0 s sz fl) (newsz xperm r : Nat) (s' : KState)
    (hle : sz ≤ newsz) (hx : xperm < 1024)
    (h : uvmalloc L s pt sz newsz xperm = .ok r s') :
    (r = newsz ∧ ∃ fl', Image L pt fl0 s0 s' newsz fl' ∧
      (∀ b, b < PGROUNDUP sz → b < MAXVA → leafOf s'.mem pt b = leafOf s.mem pt b) ∧
      (∀ b, b % 4096 = 0 → PGROUNDUP sz ≤ b → b < PGROUNDUP newsz →
        leafOf s'.mem pt b / 16 % 2 = 1 ∧ leafOf s'.mem pt b / 2 % 2 = 1 ∧
        (xperm / 4 % 2 = 1 → leafOf s'.mem pt b / 4 % 2 = 1))) ∨
    (r = 0 ∧ ∃ fl', Image L pt fl0 s0 s' sz fl' ∧
      (∀ b, b < PGROUNDUP sz → b < MAXVA → leafOf s'.mem pt b = leafOf s.mem pt b)) := by
  have sp := im.space
  obtain ⟨l1, l2, l3, l4⟩ := PGROUNDUP_spec sz sp.size
  have cl' := uvmalloc_clean_all L s pt sz newsz xperm fl r s' sp.inv hx sp.clean h
  rcases uvmalloc_cases L s pt sz newsz xperm fl r s' sp.inv hle hx h with
    ⟨h1, a', fl', g, q1, q2, q3, q4⟩ | ⟨h1, fl', rb⟩
  · left
    rw [h1] at h
    obtain ⟨fl2, sp2⟩ := space_grow L pt fl0 s sz fl sp newsz xperm s' hle hx h
    have hb : a' ≤ MAXVA := by
      by_cases c : PGROUNDUP sz < a'
      · exact g.bound c
      · omega
    have hnm : newsz ≤ MAXVA := by omega
    obtain ⟨n1, n2, n3, n4⟩ := PGROUNDUP_spec newsz hnm
    have ea : PGROUNDUP newsz = a' := by omega
    have hold : ∀ b, b < PGROUNDUP sz → b < MAXVA →
        leafOf s'.mem pt b = leafOf s.mem pt b :=
      fun b h1 h2 => g.leaf_out b h2 (by omega)
    have hnew : ∀ b, b % 4096 = 0 → PGROUNDUP sz ≤ b → b < PGROUNDUP newsz →
        leafOf s'.mem pt b / 16 % 2 = 1 ∧ leafOf s'.mem pt b / 2 % 2 = 1 ∧
        (xperm / 4 % 2 = 1 → leafOf s'.mem pt b / 4 % 2 = 1) := by
      intro b b1 b2 b3
      obtain ⟨i1, _, _, _⟩ := g.leaf_in b b1 b2 (by omega)
      have ub := uperm_bits xperm (PTE2PA (leafOf s'.mem pt b))
      rw [← i1] at ub
      exact ub
    refine ⟨h1, fl2, ⟨sp2, fun x hx' => ?_, fun b b1 b2 => ?_⟩, hold, hnew⟩
    · rw [← im.outside x hx']
      apply g.frame x
      · intro p hp
        exact hx' p (sp2.tables p hp)
      · intro f hf
        exact hx' f (sp.sub f hf)
    · by_cases c : b < PGROUNDUP sz
      · rw [hold b c (by omega)]; exact im.readable b b1 c
      · exact (hnew b b1 (by omega) b2).2.1
  · right
    obtain ⟨sp2, hold⟩ := space_rollback L pt fl0 s sz fl sp s' fl' rb cl'
    refine ⟨h1, fl', ⟨sp2, fun x hx' => ?_, fun b b1 b2 => ?_⟩, hold⟩
    · rw [← im.outside x hx']
      apply rb.frame x
      · intro p hp
        exact hx' p (sp2.tables p hp)
      · intro f hf
        exact hx' f (sp.sub f hf)
    · rw [hold b b2 (by omega)]; exact im.readable b b1 b2

/-! ### Total correctness of `uvmalloc` on a fresh range -/

theorem walkLevels_total : ∀ (level : Nat) (s : KState) (pt va : Nat) (alloc : Bool),
    ∃ r s', walkLevels level s pt va alloc = .ok r s' := by
  intro level
  induction level with
  | zero => intro s pt va alloc; exact ⟨_, _, by rw [walkLevels]⟩
  | succ k ih =>
    intro s pt va alloc
    rw [walkLevels]
    simp only []
    split_ifs
    · exact ih _ _ _ _
    · exact ⟨_, _, rfl⟩
    · exact ⟨_, _, rfl⟩
    · exact ih _ _ _ _

theorem walk_total (s : KState) (pt va : Nat) (alloc : Bool) (h : va < MAXVA) :
    ∃ r s', walk s pt va alloc = .ok r s' := by
  unfold walk
  rw [if_neg (by omega)]
  exact walkLevels_total _ _ _ _ _

/-- Mapping one page whose entry is invalid returns. -/
theorem mappages_page_total (L : Layout) (s : KState) (pt a pa perm : Nat) (fl : List Nat)
    (inv : Inv L s pt fl) (ha : a % 4096 = 0) (hva : a < MAXVA)
    (hfree : leafOf s.mem pt a % 2 = 0) :
    ∃ r s', mappages s pt a PGSIZE pa perm = .ok r s' := by
  unfold mappages
  rw [if_neg (by decide)]
  have e1 : PGROUNDDOWN a = a := by unfold PGROUNDDOWN PGSIZE; omega
  have e2 : PGROUNDDOWN ((a + PGSIZE - 1) % 2 ^ 64) = a := by
    unfold MAXVA at hva; unfold PGROUNDDOWN PGSIZE; omega
  rw [e1, e2, loopfuel_eq, mappagesLoop]
  obtain ⟨pte, s1, hw⟩ := walk_total s pt a true hva
  rw [hw, bind_ok]
  by_cases hp : pte = 0
  · rw [if_pos hp]; exact ⟨_, _, rfl⟩
  rw [if_neg hp]
  obtain ⟨_, fl1, g, q, _⟩ := walk_alloc L s pt a fl pte s1 inv hw
  obtain ⟨h0, hs⟩ := q hp
  have hl : leafOf s1.mem pt a = rd64 s1.mem pte := by
    unfold leafOf ent0
    rw [if_pos h0, hs]
  have hz : rd64 s1.mem pte &&& PTE_V = 0 := by
    rw [← hl, g.leaf, and_V]
    exact hfree
  rw [if_neg (by rw [hz]; decide)]
  simp only [if_true]
  exact ⟨_, _, rfl⟩

/-- The roll-back call of `uvmalloc` returns. -/
theorem uvmdealloc_grew_total (L : Layout) (pt xperm : Nat) (hx : xperm < 1024)
    (fill : Nat → Nat → Nat) (s0 : KState) (fl0 : List Nat) (lo a : Nat) (s : KState)
    (fl : List Nat)
    (g : Grew L pt (fun _ => PTE_R ||| PTE_U ||| xperm) fill s0 fl0 lo a s fl)
    (hfr : ∀ f, f ∈ fl0 → L.kend ≤ f ∧ f < L.phystop)
    (hlo : lo % 4096 = 0) (ha : a % 4096 = 0) (hle : lo ≤ a) (ha64 : a < 2 ^ 64) :
    ∃ r s', uvmdealloc L s pt a lo = .ok r s' := by
  unfold uvmdealloc
  by_cases c : lo ≥ a
  · rw [if_pos c]; exact ⟨_, _, rfl⟩
  · rw [if_neg c]
    have hb := g.bound (by omega)
    have e1 : PGROUNDUP lo = lo := PGROUNDUP_aligned lo hlo (by omega)
    have e2 : PGROUNDUP a = a := PGROUNDUP_aligned a ha ha64
    rw [e1, e2, if_pos (by omega)]
    have hleaf : ∀ b, b % 4096 = 0 → lo ≤ b → b < a →
        leafOf s.mem pt b % 2 = 1 ∧ leafOf s.mem pt b % 1024 ≠ 1 ∧
        L.kend ≤ PTE2PA (leafOf s.mem pt b) ∧ PTE2PA (leafOf s.mem pt b) < L.phystop := by
      intro b hb1 hb2 hb3
      obtain ⟨q1, q2, _, _⟩ := g.leaf_in b hb1 hb2 hb3
      obtain ⟨u1, u2, _⟩ := uperm_leaf xperm hx (PTE2PA (leafOf s.mem pt b))
      have hf := hfr _ q2
      rw [← q1] at u1 u2
      exact ⟨u1, u2, hf.1, hf.2⟩
    obtain ⟨s2, r1, r2⟩ := uvmunmapLoop_total L pt a ha hb (MAXVA / PGSIZE) s lo fl g.inv hlo
      g.owned
      (by
        have : MAXVA / PGSIZE * 4096 = MAXVA := by unfold MAXVA PGSIZE; norm_num
        omega)
      hleaf
    have hfuel : MAXVA / PGSIZE + 1 = LOOPFUEL := rfl
    rw [hfuel] at r1
    have hlt' : (a - lo) / 4096 < 2 ^ 31 := by unfold MAXVA at hb; omega
    have en : intToU64 ((a - lo) / PGSIZE) = (a - lo) / 4096 := by
      unfold intToU64 PGSIZE
      rw [Nat.mod_eq_of_lt (by omega), if_pos hlt']
    have eb : (lo + (a - lo) / 4096 * PGSIZE) % 2 ^ 64 = a := by
      unfold PGSIZE; unfold MAXVA at hb; omega
    rw [en]
    simp only []
    unfold uvmunmap
    rw [if_neg (by unfold PGSIZE; omega), eb, r1, bind_ok]
    exact ⟨_, _, rfl⟩

/-- The loop of `uvmalloc` returns when the pages ahead are unmapped and lie below
`MAXVA`. -/
theorem uvmallocLoop_total (L : Layout) (pt lo newsz xperm : Nat) (s0 : KState)
    (fl0 : List Nat) (hx : xperm < 1024) (hlo : lo % 4096 = 0) (hn : newsz ≤ MAXVA)
    (hfr : ∀ f, f ∈ fl0 → L.kend ≤ f ∧ f < L.phystop)
    (hfree : ∀ b, b % 4096 = 0 → lo ≤ b → b < newsz → leafOf s0.mem pt b % 2 = 0) :
    ∀ (fuel : Nat) (s : KState) (a : Nat) (fl : List Nat),
    Grew L pt (fun _ => PTE_R ||| PTE_U ||| xperm) (fun _ _ => 0) s0 fl0 lo a s fl →
    a % 4096 = 0 → lo ≤ a → a < 2 ^ 64 → newsz ≤ a + fuel * 4096 →
    ∃ r s', uvmallocLoop (fuel + 1) L s pt a lo newsz xperm = .ok r s' := by
  intro fuel
  induction fuel with
  | zero =>
    intro s a fl _ _ _ _ hf
    rw [uvmallocLoop, if_neg (by omega)]
    exact ⟨_, _, rfl⟩
  | succ k ih =>
    intro s a fl g ha hle ha64 hf
    rw [uvmallocLoop]
    by_cases hlt : a < newsz
    case neg => rw [if_neg hlt]; exact ⟨_, _, rfl⟩
    case pos =>
      rw [if_pos hlt]
      cases fl with
      | nil =>
        rw [kalloc_nil L s g.inv.alloc]
        simp only [if_true]
        obtain ⟨u, s1, hd⟩ := uvmdealloc_grew_total L pt xperm hx _ s0 fl0 lo a s [] g hfr hlo
          ha hle ha64
        rw [hd, bind_ok]
        exact ⟨_, _, rfl⟩
      | cons f rest =>
        obtain ⟨hk, _⟩ := kalloc_cons L s f rest g.inv.alloc
        have hfa := g.inv.alloc.frames f (List.mem_cons_self _ _)
        have hk0 := g.inv.alloc.kend_pos
        have htop := g.inv.alloc.top
        have hf0 : f ≠ 0 := by omega
        rw [hk]
        simp only [hf0, if_false]
        have hout : ∀ x, ¬ inPage f x →
            memset (memset s.mem f 5 PGSIZE) f 0 PGSIZE x = s.mem x := by
          intro x hx
          have c : ¬ (f ≤ x ∧ x < f + PGSIZE) := hx
          simp only [memset, c, if_false]
        have hin : ∀ i, i < 4096 → memset (memset s.mem f 5 PGSIZE) f 0 PGSIZE (f + i) = 0 := by
          intro i hi
          have c : f ≤ f + i ∧ f + i < f + PGSIZE := ⟨by omega, by unfold PGSIZE; omega⟩
          simp only [memset, c, and_self, if_true, Nat.zero_mod]
        obtain ⟨inv2, t2, l2⟩ := inv_take L s
          (KState.mk (memset (memset s.mem f 5 PGSIZE) f 0 PGSIZE) (rd64 s.mem f)) pt f
          rest g.inv rfl hout
        have hva : a < MAXVA := by omega
        have hfree2 : leafOf (memset (memset s.mem f 5 PGSIZE) f 0 PGSIZE) pt a % 2 = 0 := by
          have := l2 a
          simp only [] at this
          rw [this, g.leaf_out a hva (by omega)]
          exact hfree a ha hle hlt
        obtain ⟨rr, s3, hm⟩ := mappages_page_total L
          (KState.mk (memset (memset s.mem f 5 PGSIZE) f 0 PGSIZE) (rd64 s.mem f)) pt a f
          (PTE_R ||| PTE_U ||| xperm) rest inv2 ha hva hfree2
        rw [hm, bind_ok]
        by_cases hrr : rr ≠ 0
        · rw [if_pos hrr]
          obtain ⟨_, fl3, e, q⟩ := mappages_page L _ pt a f _ rest rr s3 inv2 ha ha64
            (uperm_lt xperm hx) (by omega) hm
          have hfl3 : fl3 = [] := by
            rcases q with ⟨c, _⟩ | ⟨_, c, _⟩
            · exact absurd c hrr
            · exact c
          have a3 := e.inv.alloc
          rw [hfl3] at a3
          obtain ⟨hkf, _⟩ := kfree_ok L s3 [] f a3 (List.not_mem_nil _) hfa.1 hfa.2.1 hfa.2.2
          rw [hkf, bind_ok]
          have g4 := grew_fail L pt _ _ s0 fl0 lo a s f rest
            (KState.mk (memset (memset s.mem f 5 PGSIZE) f 0 PGSIZE) (rd64 s.mem f))
            s3 _ rr g ha ha64 (uperm_lt xperm hx) rfl hout hm hrr hkf
          obtain ⟨u, s5, hd⟩ := uvmdealloc_grew_total L pt xperm hx _ s0 fl0 lo a _ [f] g4 hfr
            hlo ha hle ha64
          rw [hd, bind_ok]
          exact ⟨_, _, rfl⟩
        · rw [if_neg hrr]
          have hr0 : rr = 0 := by omega
          rw [hr0] at hm
          obtain ⟨fl3, g3⟩ := grew_step L pt _ _ s0 fl0 lo a s f rest
            (KState.mk (memset (memset s.mem f 5 PGSIZE) f 0 PGSIZE) (rd64 s.mem f)) s3 g ha
            hle ha64 (uperm_lt xperm hx) rfl hout hin hm
          have hb := g3.bound (by omega)
          have ea : (a + PGSIZE) % 2 ^ 64 = a + 4096 := by
            unfold PGSIZE; unfold MAXVA at hb; omega
          rw [ea]
          exact ih s3 (a + 4096) fl3 g3 (by omega) (by omega)
            (by unfold MAXVA at hb; omega) (by omega)

/-- `uvmalloc` returns on an address space that it is asked to grow within `MAXVA`. -/
theorem uvmalloc_total (L : Layout) (pt : Nat) (fl0 : List Nat) (s : KState) (sz : Nat)
    (fl : List Nat) (sp : Space L pt fl0 s sz fl) (newsz xperm : Nat) (hx : xperm < 1024)
    (hn : newsz ≤ MAXVA) :
    ∃ r s', uvmalloc L s pt sz newsz xperm = .ok r s' := by
  unfold uvmalloc
  by_cases c : newsz < sz
  · rw [if_pos c]; exact ⟨_, _, rfl⟩
  rw [if_neg c, loopfuel_eq]
  have hal : PGROUNDUP sz % 4096 = 0 := by unfold PGROUNDUP PGSIZE; omega
  have h64 : PGROUNDUP sz < 2 ^ 64 := by unfold PGROUNDUP PGSIZE; omega
  apply uvmallocLoop_total L pt (PGROUNDUP sz) newsz xperm s fl hx hal hn
    (fun f hf => (sp.inv.alloc.frames f hf).2)
    (fun b _ b2 b3 => sp.unmapped b (by omega) b2)
    (MAXVA / PGSIZE) s (PGROUNDUP sz) fl (grew_init L pt _ _ s fl _ sp.inv) hal
    (Nat.le_refl _) h64
  have : MAXVA / PGSIZE * 4096 = MAXVA := by unfold MAXVA PGSIZE; norm_num
  omega

theorem leafOf_lt (m : Mem) (pt va : Nat) : leafOf m pt va < 2 ^ 64 := by
  unfold leafOf ent0
  split_ifs
  · exact rd64_lt _ _
  · norm_num

theorem leaf_has0 (m : Mem) (pt va : Nat) (h : leafOf m pt va % 2 = 1) : has0 m pt va := by
  by_contra c
  unfold leafOf at h
  rw [if_neg c] at h
  omega

/-- What `uvmclear` does to the image: the user bit of the one page is cleared. -/
theorem image_clear (L : Layout) (pt : Nat) (fl0 : List Nat) (s0 s : KState) (sz : Nat)
    (fl : List Nat) (im : Image L pt fl0 s0 s sz fl) (g : Nat) (hg : g % 4096 = 0)
    (hlt : g < PGROUNDUP sz) :
    ∃ s', uvmclear s pt g = .ok () s' ∧ Image L pt fl0 s0 s' sz fl ∧
      (∀ vb, vb < MAXVA → ¬ (g ≤ vb ∧ vb < g + 4096) →
        leafOf s'.mem pt vb = leafOf s.mem pt vb) ∧
      leafOf s'.mem pt g / 16 % 2 = 0 ∧ leafOf s'.mem pt g % 2 = 1 := by
  have sp := im.space
  obtain ⟨l1, l2, l3, l4⟩ := PGROUNDUP_spec sz sp.size
  have hgm : g < MAXVA := by omega
  obtain ⟨m1, m2, m3⟩ := sp.mapped g hg hlt
  have hr := im.readable g hg hlt
  have h0 := leaf_has0 s.mem pt g m1
  obtain ⟨run, lf, up, tok⟩ := uvmclear_run s pt g sp.inv.table hgm h0
  obtain ⟨e, _⟩ := ext_leaf_write L s pt g
    (leafOf s.mem pt g - leafOf s.mem pt g / 16 % 2 * 16) fl sp.inv h0
  obtain ⟨_, wout, _⟩ := leaf_write s.mem pt g
    (leafOf s.mem pt g - leafOf s.mem pt g / 16 % 2 * 16) sp.inv.table h0
  have hlt64 := leafOf_lt s.mem pt g
  have it : ∀ p, IsTable (wr64 s.mem (slot0 s.mem pt g)
      (leafOf s.mem pt g - leafOf s.mem pt g / 16 % 2 * 16)) pt p ↔ IsTable s.mem pt p := by
    intro p
    constructor
    · intro hp
      rcases e.tables_new p hp with c | ⟨c1, c2⟩
      · exact c
      · exact absurd c1 c2
    · exact e.tables_mono p
  have lf2 : ∀ vb, PTE2PA (leafOf (wr64 s.mem (slot0 s.mem pt g)
        (leafOf s.mem pt g - leafOf s.mem pt g / 16 % 2 * 16)) pt vb) =
        PTE2PA (leafOf s.mem pt vb) ∧
      leafOf (wr64 s.mem (slot0 s.mem pt g)
        (leafOf s.mem pt g - leafOf s.mem pt g / 16 % 2 * 16)) pt vb % 2 =
        leafOf s.mem pt vb % 2 ∧
      leafOf (wr64 s.mem (slot0 s.mem pt g)
        (leafOf s.mem pt g - leafOf s.mem pt g / 16 % 2 * 16)) pt vb / 2 % 2 =
        leafOf s.mem pt vb / 2 % 2 := by
    intro vb
    rw [lf vb]
    by_cases c : samePath g vb
    · rw [if_pos c, ← (path_congr0 s.mem pt g vb c).2.2]
      unfold PTE2PA
      refine ⟨?_, by omega, by omega⟩
      have : (leafOf s.mem pt g - leafOf s.mem pt g / 16 % 2 * 16) / 1024 =
          leafOf s.mem pt g / 1024 := by omega
      rw [this]
    · rw [if_neg c]
      exact ⟨rfl, rfl, rfl⟩
  refine ⟨_, run, ⟨space_transfer L pt fl0 s sz fl sp _ e.inv it (fun vb => ⟨(lf2 vb).1,
    (lf2 vb).2.1⟩) (fun b b1 b2 => ?_) (clean_same s.mem _ pt up sp.clean), fun x hx => ?_,
    fun b b1 b2 => ?_⟩, fun vb hvb hn => ?_, ?_, ?_⟩
  · have r1 := (lf2 b).2.2
    have r2 := im.readable b b1 b2
    simp only [] at r1 ⊢
    omega
  · rw [← im.outside x hx]
    exact wout x (hx _ (sp.tables _ (tbl0_isTable _ _ _ h0)))
  · have r1 := (lf2 b).2.2
    have r2 := im.readable b b1 b2
    simp only [] at r1 ⊢
    omega
  · have := lf vb
    simp only [] at this ⊢
    rw [this, if_neg]
    rw [samePath_iff g vb (by unfold MAXVA at hgm; omega) (by unfold MAXVA at hvb; omega)]
    omega
  · have := lf g
    simp only [] at this ⊢
    rw [this, if_pos ⟨rfl, rfl, rfl⟩]
    omega
  · have := lf g
    simp only [] at this ⊢
    rw [this, if_pos ⟨rfl, rfl, rfl⟩]
    omega

/-! ### `loadseg` -/

/-- In an image, `walkaddr` of an address of a user-accessible page below the size is the
frame of its page, which is not null. -/
theorem image_xlate (L : Layout) (pt : Nat) (fl0 : List Nat) (s0 s : KState) (sz : Nat)
    (fl : List Nat) (im : Image L pt fl0 s0 s sz fl) (va : Nat) (hva : va < PGROUNDUP sz)
    (hu : leafOf s.mem pt (PGROUNDDOWN va) / 16 % 2 = 1) :
    xlate s pt va = PTE2PA (leafOf s.mem pt (PGROUNDDOWN va)) ∧ xlate s pt va ≠ 0 ∧
    PTE2PA (leafOf s.mem pt (PGROUNDDOWN va)) ∈ fl0 := by
  have sp := im.space
  obtain ⟨l1, l2, l3, l4⟩ := PGROUNDUP_spec sz sp.size
  have hp := PGROUNDDOWN_spec va
  have hvm : va < MAXVA := by omega
  obtain ⟨m1, _, m3⟩ := sp.mapped (PGROUNDDOWN va) hp.1 (by omega)
  have hf := sp.frames0 _ m3
  have hk := sp.inv.alloc.kend_pos
  rw [xlate_eq, walkaddrVal_leaf s.mem pt va sp.inv.table hvm, leafOf_page s.mem pt va hvm,
    if_pos ⟨m1, hu⟩]
  exact ⟨rfl, by omega, m3⟩

/-- In an image, `walkaddr` of an address at or above the size is null. -/
theorem image_xlate_above (L : Layout) (pt : Nat) (fl0 : List Nat) (s0 s : KState) (sz : Nat)
    (fl : List Nat) (im : Image L pt fl0 s0 s sz fl) (va : Nat) (hva : PGROUNDUP sz ≤ va) :
    xlate s pt va = 0 := by
  have sp := im.space
  rw [xlate_eq]
  by_cases hvm : va < MAXVA
  · rw [walkaddrVal_leaf s.mem pt va sp.inv.table hvm, if_neg]
    have := sp.unmapped va hvm hva
    omega
  · by_contra c
    exact hvm (walkaddrVal_maxva _ _ _ c)

/-- Total correctness of the loop of `loadseg` on an image that maps the segment with
user access: it returns, and what it wrote went into the frames of the image. -/
theorem loadsegLoop_spec (L : Layout) (pt : Nat) (fl0 : List Nat) (s0 : KState) (szI : Nat)
    (va : Nat) (ip : Inode) (offset sz : Nat) (hsz : sz ≤ 2 ^ 32 - 4096)
    (hin : va + sz ≤ PGROUNDUP szI) :
    ∀ (fuel : Nat) (s : KState) (i : Nat) (fl : List Nat),
    Image L pt fl0 s0 s szI fl →
    (∀ b, b % 4096 = 0 → b < PGROUNDUP szI → leafOf s.mem pt b / 16 % 2 = 1) →
    sz ≤ i + fuel * 4096 →
    ∃ r s', loadsegLoop (fuel + 1) s pt va ip offset sz i = .ok r s' ∧
      Image L pt fl0 s0 s' szI fl ∧ (∀ vb, leafOf s'.mem pt vb = leafOf s.mem pt vb) := by
  intro fuel
  induction fuel with
  | zero =>
    intro s i fl im _ hf
    rw [loadsegLoop, if_neg (by omega)]
    exact ⟨_, _, rfl, im, fun _ => rfl⟩
  | succ k ih =>
    intro s i fl im hu hf
    rw [loadsegLoop]
    by_cases hlt : i < sz
    case neg =>
      rw [if_neg hlt]
      exact ⟨_, _, rfl, im, fun _ => rfl⟩
    case pos =>
      rw [if_pos hlt]
      have sp := im.space
      obtain ⟨l1, l2, l3, l4⟩ := PGROUNDUP_spec szI sp.size
      have e64 : (va + i) % 2 ^ 64 = va + i := by
        apply Nat.mod_eq_of_lt
        unfold MAXVA at l4
        omega
      have hp := PGROUNDDOWN_spec (va + i)
      obtain ⟨x1, x2, x3⟩ := image_xlate L pt fl0 s0 s szI fl im (va + i) (by omega)
        (hu _ hp.1 (by omega))
      rw [e64, walkaddr_val, bind_ok, if_neg x2]
      simp only []
      have hal : xlate s pt (va + i) % 4096 = 0 := by rw [x1]; exact PTE2PA_aligned _
      have hn : (if sz - i < PGSIZE then sz - i else PGSIZE) ≤ 4096 := by
        unfold PGSIZE; split_ifs <;> omega
      have hrd : readi ip ((offset + i) % 2 ^ 32) (if sz - i < PGSIZE then sz - i else PGSIZE)
          ≤ 4096 := by
        unfold readi
        exact Nat.le_trans (Nat.min_le_left _ _) hn
      obtain ⟨im2, lf2, _⟩ := image_write L pt fl0 s0 s szI fl im
        { s with mem := (readiMem ip s.mem (xlate s pt (va + i)) ((offset + i) % 2 ^ 32)
            (if sz - i < PGSIZE then sz - i else PGSIZE)) } rfl
        (fun x hx => by
          have c := hx (PGROUNDDOWN (va + i)) hp.1 (by omega)
          rw [← x1] at c
          have c' : ¬ (xlate s pt (va + i) ≤ x ∧ x < xlate s pt (va + i) + PGSIZE) := c
          show readiMem ip s.mem _ _ _ x = s.mem x
          unfold readiMem
          rw [if_neg]
          unfold PGSIZE at c'
          omega)
      by_cases hr : readi ip ((offset + i) % 2 ^ 32)
          (if sz - i < PGSIZE then sz - i else PGSIZE) ≠
          (if sz - i < PGSIZE then sz - i else PGSIZE)
      · rw [if_pos hr]
        exact ⟨_, _, rfl, im2, lf2⟩
      · rw [if_neg hr]
        have ei : (i + PGSIZE) % 2 ^ 32 = i + 4096 := by unfold PGSIZE; omega
        rw [ei]
        obtain ⟨r, s', e, im3, lf3⟩ := ih _ (i + 4096) fl im2
          (fun b b1 b2 => by rw [lf2 b]; exact hu b b1 b2) (by omega)
        exact ⟨r, s', e, im3, fun vb => by rw [lf3 vb, lf2 vb]⟩

/-- Total correctness of `loadseg` on an image that maps the segment with user access. -/
theorem loadseg_spec (L : Layout) (pt : Nat) (fl0 : List Nat) (s0 s : KState) (szI : Nat)
    (fl : List Nat) (im : Image L pt fl0 s0 s szI fl)
    (hu : ∀ b, b % 4096 = 0 → b < PGROUNDUP szI → leafOf s.mem pt b / 16 % 2 = 1)
    (va : Nat) (ip : Inode) (offset filesz : Nat) (hsz : filesz ≤ 2 ^ 32 - 4096)
    (hin : va + filesz ≤ PGROUNDUP szI) :
    ∃ r s', loadseg s pt va ip offset filesz = .ok r s' ∧
      Image L pt fl0 s0 s' szI fl ∧ (∀ vb, leafOf s'.mem pt vb = leafOf s.mem pt vb) := by
  unfold loadseg
  have e : filesz % 2 ^ 32 = filesz := Nat.mod_eq_of_lt (by omega)
  rw [e]
  have hf : LOADFUEL = 2 ^ 20 + 1 := by unfold LOADFUEL PGSIZE; norm_num
  rw [hf]
  exact loadsegLoop_spec L pt fl0 s0 szI va ip (offset % 2 ^ 32) filesz hsz hin (2 ^ 20) s 0
    fl im hu (by omega)

/-! ### The segment loop of `exec` -/

theorem flags2perm_lt (flags : Nat) : flags2perm flags < 1024 := by
  unfold flags2perm
  simp only []
  split_ifs <;> decide

theorem PGROUNDUP_mono (a b : Nat) (h : a ≤ b) (hb : b ≤ MAXVA) :
    PGROUNDUP a ≤ PGROUNDUP b := by
  unfold PGROUNDUP PGSIZE; unfold MAXVA at hb
  norm_num at hb ⊢
  omega

theorem readProghdr_lt (ip : Inode) (off : Nat) (ph : Proghdr)
    (h : readProghdr ip off = some ph) :
    ph.vaddr < 2 ^ 64 ∧ ph.memsz < 2 ^ 64 ∧ ph.filesz < 2 ^ 64 := by
  unfold readProghdr at h
  split_ifs at h
  have e := Option.some.inj h
  rw [← e]
  have a1 := rdLE_lt ip.mem 8 (off + 16)
  have a2 := rdLE_lt ip.mem 8 (off + 40)
  have a3 := rdLE_lt ip.mem 8 (off + 32)
  norm_num at a1 a2 a3
  exact ⟨a1, a2, a3⟩

/-- One loadable segment that passes the three checks of `exec`: what `uvmalloc` and
`loadseg` leave. -/
theorem segment_step (L : Layout) (pt : Nat) (fl0 : List Nat) (s0 s : KState) (sz : Nat)
    (fl : List Nat) (im : Image L pt fl0 s0 s sz fl)
    (hu : ∀ b, b % 4096 = 0 → b < PGROUNDUP sz → leafOf s.mem pt b / 16 % 2 = 1)
    (hlow : sz < PLIC) (ip : Inode) (ph : Proghdr)
    (h1 : ¬ ph.memsz < ph.filesz) (h2 : ¬ (ph.vaddr + ph.memsz) % 2 ^ 64 < ph.vaddr)
    (hv : ph.vaddr < 2 ^ 64) (hm : ph.memsz < 2 ^ 64)
    (r : Nat) (s1 : KState)
    (h : uvmalloc L s pt sz ((ph.vaddr + ph.memsz) % 2 ^ 64) (flags2perm ph.flags)
      = .ok r s1) :
    (r = 0 ∨ r ≥ PLIC → ∃ big fl', Image L pt fl0 s0 s1 big fl' ∧
      (∀ b, b % 4096 = 0 → b < PGROUNDUP big → leafOf s1.mem pt b / 16 % 2 = 1) ∧
      PGROUNDUP sz ≤ PGROUNDUP big ∧ (r = 0 → big = sz)) ∧
    (r ≠ 0 → r < PLIC → ∃ rl s2 fl',
      loadseg s1 pt ph.vaddr ip ph.off ph.filesz = .ok rl s2 ∧ Image L pt fl0 s0 s2 r fl' ∧
      (∀ b, b % 4096 = 0 → b < PGROUNDUP r → leafOf s2.mem pt b / 16 % 2 = 1)) ∧
    (r = 0 ∨ r = sz ∨ r = ph.vaddr + ph.memsz) := by
  have e64 : (ph.vaddr + ph.memsz) % 2 ^ 64 = ph.vaddr + ph.memsz := by omega
  rw [e64] at h
  have sp := im.space
  obtain ⟨l1, l2, l3, l4⟩ := PGROUNDUP_spec sz sp.size
  have hplic : PLIC = 201326592 := rfl
  by_cases c : ph.vaddr + ph.memsz < sz
  · -- nothing to allocate
    have h' := h
    unfold uvmalloc at h'
    rw [if_pos c] at h'
    obtain ⟨e1, e2⟩ := ok_inj _ _ _ _ h'
    rw [← e1, ← e2]
    refine ⟨fun hc => ⟨sz, fl, im, hu, Nat.le_refl _, fun _ => rfl⟩, fun _ _ => ?_,
      Or.inr (Or.inl rfl)⟩
    obtain ⟨rl, s2, e, im2, lf2⟩ := loadseg_spec L pt fl0 s0 s sz fl im hu ph.vaddr ip ph.off
      ph.filesz (by omega) (by omega)
    exact ⟨rl, s2, fl, e, im2, fun b b1 b2 => by rw [lf2 b]; exact hu b b1 b2⟩
  · rcases image_alloc L pt fl0 s0 s sz fl im _ _ r s1 (by omega) (flags2perm_lt ph.flags) h
      with ⟨hr, fl', im1, hold, hnew⟩ | ⟨hr, fl', im1, hold⟩
    · have hu1 : ∀ b, b % 4096 = 0 → b < PGROUNDUP (ph.vaddr + ph.memsz) →
          leafOf s1.mem pt b / 16 % 2 = 1 := by
        intro b b1 b2
        by_cases cb : b < PGROUNDUP sz
        · rw [hold b cb (by omega)]; exact hu b b1 cb
        · exact (hnew b b1 (by omega) b2).1
      have hmx := im1.space.size
      obtain ⟨n1, n2, n3, n4⟩ := PGROUNDUP_spec _ hmx
      refine ⟨fun _ => ⟨ph.vaddr + ph.memsz, fl', im1, hu1,
        PGROUNDUP_mono _ _ (by omega) hmx, fun h0 => by omega⟩, fun _ hlt => ?_,
        Or.inr (Or.inr hr)⟩
      rw [hr]
      rw [hr] at hlt
      obtain ⟨rl, s2, e, im2, lf2⟩ := loadseg_spec L pt fl0 s0 s1 _ fl' im1 hu1 ph.vaddr ip
        ph.off ph.filesz (by omega) (by omega)
      exact ⟨rl, s2, fl', e, im2, fun b b1 b2 => by rw [lf2 b]; exact hu1 b b1 b2⟩
    · refine ⟨fun _ => ⟨sz, fl', im1, fun b b1 b2 => ?_, Nat.le_refl _, fun _ => rfl⟩,
        fun hne => absurd hr hne, Or.inl hr⟩
      rw [hold b b2 (by omega)]; exact hu b b1 b2

/-- What the segment loop leaves when it returns: an image of some size `big` with
user-accessible pages, `big` being the size it reports unless it stopped at the check
against `PLIC`. -/
theorem execSegs_image (L : Layout) (ip : Inode) (pt : Nat) (fl0 : List Nat) (s0 : KState) :
    ∀ (n : Nat) (s : KState) (off sz : Nat) (fl : List Nat) (b : Bool) (sz' : Nat)
      (s' : KState),
    Image L pt fl0 s0 s sz fl →
    (∀ b, b % 4096 = 0 → b < PGROUNDUP sz → leafOf s.mem pt b / 16 % 2 = 1) →
    sz < PLIC →
    execSegs L ip pt n s off sz = .ok (b, sz') s' →
    ∃ big fl', Image L pt fl0 s0 s' big fl' ∧
      (∀ b, b % 4096 = 0 → b < PGROUNDUP big → leafOf s'.mem pt b / 16 % 2 = 1) ∧
      PGROUNDUP sz' ≤ PGROUNDUP big ∧ sz' < PLIC ∧ (b = true → big = sz') := by
  intro n
  induction n with
  | zero =>
    intro s off sz fl b sz' s' im hu hlow h
    rw [execSegs] at h
    obtain ⟨e1, e2⟩ := ok_inj _ _ _ _ h
    have e3 : sz = sz' := congrArg Prod.snd e1
    rw [← e2, ← e3]
    exact ⟨sz, fl, im, hu, Nat.le_refl _, hlow, fun _ => rfl⟩
  | succ k ih =>
    intro s off sz fl b sz' s' im hu hlow h
    have stop : ∀ (s1 : KState) (szr : Nat), Res.ok (false, szr) s1 = Res.ok (b, sz') s' →
        b = false ∧ szr = sz' ∧ s1 = s' := by
      intro s1 szr hh
      obtain ⟨e1, e2⟩ := ok_inj _ _ _ _ hh
      exact ⟨(congrArg Prod.fst e1).symm, congrArg Prod.snd e1, e2⟩
    rw [execSegs] at h
    cases hp : readProghdr ip off with
    | none =>
      rw [hp] at h
      simp only [] at h
      obtain ⟨e1, e2, e3⟩ := stop _ _ h
      rw [← e2, ← e3, e1]
      exact ⟨sz, fl, im, hu, Nat.le_refl _, hlow, fun c => by cases c⟩
    | some ph =>
      rw [hp] at h
      simp only [] at h
      by_cases c0 : ph.type ≠ ELF_PROG_LOAD
      · rw [if_pos c0] at h
        exact ih _ _ _ fl b sz' s' im hu hlow h
      rw [if_neg c0] at h
      by_cases c1 : ph.memsz < ph.filesz
      · rw [if_pos c1] at h
        obtain ⟨e1, e2, e3⟩ := stop _ _ h
        rw [← e2, ← e3, e1]
        exact ⟨sz, fl, im, hu, Nat.le_refl _, hlow, fun c => by cases c⟩
      rw [if_neg c1] at h
      by_cases c2 : (ph.vaddr + ph.memsz) % 2 ^ 64 < ph.vaddr
      · rw [if_pos c2] at h
        obtain ⟨e1, e2, e3⟩ := stop _ _ h
        rw [← e2, ← e3, e1]
        exact ⟨sz, fl, im, hu, Nat.le_refl _, hlow, fun c => by cases c⟩
      rw [if_neg c2] at h
      by_cases c3 : ph.vaddr % PGSIZE ≠ 0
      · rw [if_pos c3] at h
        obtain ⟨e1, e2, e3⟩ := stop _ _ h
        rw [← e2, ← e3, e1]
        exact ⟨sz, fl, im, hu, Nat.le_refl _, hlow, fun c => by cases c⟩
      rw [if_neg c3] at h
      obtain ⟨hv, hm, _⟩ := readProghdr_lt ip off ph hp
      cases ha : uvmalloc L s pt sz ((ph.vaddr + ph.memsz) % 2 ^ 64) (flags2perm ph.flags) with
      | panic msg => rw [ha] at h; cases h
      | fuel => rw [ha] at h; cases h
      | ok r s1 =>
        rw [ha, bind_ok] at h
        obtain ⟨st1, st2, _⟩ := segment_step L pt fl0 s0 s sz fl im hu hlow ip ph c1 c2 hv hm
          r s1 ha
        by_cases r0 : r = 0
        · rw [if_pos r0] at h
          obtain ⟨e1, e2, e3⟩ := stop _ _ h
          obtain ⟨big, fl', im1, hu1, hle, _⟩ := st1 (Or.inl r0)
          rw [← e2, ← e3, e1]
          exact ⟨big, fl', im1, hu1, hle, hlow, fun c => by cases c⟩
        rw [if_neg r0] at h
        by_cases rp : r ≥ PLIC
        · rw [if_pos rp] at h
          obtain ⟨e1, e2, e3⟩ := stop _ _ h
          obtain ⟨big, fl', im1, hu1, hle, _⟩ := st1 (Or.inr rp)
          rw [← e2, ← e3, e1]
          exact ⟨big, fl', im1, hu1, hle, hlow, fun c => by cases c⟩
        rw [if_neg rp] at h
        obtain ⟨rl, s2, fl', el, im2, hu2⟩ := st2 r0 (by omega)
        rw [el, bind_ok] at h
        by_cases cl : rl < 0
        · rw [if_pos cl] at h
          obtain ⟨e1, e2, e3⟩ := stop _ _ h
          rw [← e2, ← e3, e1]
          exact ⟨r, fl', im2, hu2, Nat.le_refl _, by omega, fun c => by cases c⟩
        rw [if_neg cl] at h
        exact ih _ _ _ fl' b sz' s' im2 hu2 (by omega) h

/-! ### `copyout` into the image -/

/-- In an image, a page that translates lies below the size and translates to its frame,
which is no table page. -/
theorem image_xlate_ne (L : Layout) (pt : Nat) (fl0 : List Nat) (s0 s : KState) (sz : Nat)
    (fl : List Nat) (im : Image L pt fl0 s0 s sz fl) (p : Nat) (hp : p % 4096 = 0)
    (hx : xlate s pt p ≠ 0) :
    p < PGROUNDUP sz ∧ xlate s pt p = PTE2PA (leafOf s.mem pt p) ∧
    ¬ IsTable s.mem pt (xlate s pt p) := by
  have sp := im.space
  obtain ⟨l1, l2, l3, l4⟩ := PGROUNDUP_spec sz sp.size
  have hlt : p < PGROUNDUP sz := by
    by_contra c
    exact hx (image_xlate_above L pt fl0 s0 s sz fl im p (by omega))
  have hvm : p < MAXVA := by omega
  have e : xlate s pt p = PTE2PA (leafOf s.mem pt p) := by
    have h2 := hx
    rw [xlate_eq, walkaddrVal_leaf s.mem pt p sp.inv.table hvm] at h2 ⊢
    by_cases c : leafOf s.mem pt p % 2 = 1 ∧ leafOf s.mem pt p / 16 % 2 = 1
    · rw [if_pos c]
    · rw [if_neg c] at h2
      exact absurd rfl h2
  refine ⟨hlt, e, ?_⟩
  rw [e]
  exact (sp.owned p hp (Nat.zero_le _) hlt hvm).2.1

/-- A returning `copyout` keeps the image: it writes into frames of its pages only. -/
theorem image_copyout (L : Layout) (pt : Nat) (fl0 : List Nat) (s0 s : KState) (sz : Nat)
    (fl : List Nat) (im : Image L pt fl0 s0 s sz fl) (va : Nat) (src : Buf) (len : Nat) :
    ∃ r s', copyout s pt va src len = .ok r s' ∧
      Image L pt fl0 s0 s' sz fl ∧ (∀ vb, leafOf s'.mem pt vb = leafOf s.mem pt vb) ∧
      (∀ p, IsTable s.mem pt p → SamePage s.mem s'.mem p) ∧
      ((r = -1 ∧ ∃ p, touches va len p ∧ xlate s pt p = 0) ∨
       (r = 0 ∧ (∀ p, touches va len p → xlate s pt p ≠ 0) ∧
        (∀ x, (∀ i, i < len → x ≠ userAddr s pt (va + i)) → s'.mem x = s.mem x) ∧
        ((∀ p q, touches va len p → touches va len q →
            xlate s pt p = xlate s pt q → p = q) →
          ∀ i, i < len → rd8 s'.mem (userAddr s pt (va + i)) = src (0 + i) % 256))) := by
  have sp := im.space
  have hsep : ∀ p, touches va len p → xlate s pt p ≠ 0 → ¬ IsTable s.mem pt (xlate s pt p) :=
    fun p hp hx => (image_xlate_ne L pt fl0 s0 s sz fl im p hp.1 hx).2.2
  obtain ⟨r, s', e, hf, _, hr⟩ := copyout_spec s pt va src len sp.inv.table.root_al hsep
  have e' := e
  unfold copyout at e'
  have hfr := copyoutLoop_frame pt sp.inv.table.root_al src LOOPFUEL s va 0 len r s' hsep e'
  obtain ⟨im2, lf2, ht2⟩ := image_write L pt fl0 s0 s sz fl im s' hf (fun x hx => by
    apply hfr x
    intro p hp hxl
    obtain ⟨a1, a2, _⟩ := image_xlate_ne L pt fl0 s0 s sz fl im p hp.1 hxl
    rw [a2]
    exact hx p hp.1 a1)
  exact ⟨r, s', e, im2, lf2, ht2, hr⟩

theorem stacked_write (L : Layout) (pt : Nat) (fl0 : List Nat) (s0 s : KState) (sz : Nat)
    (fl : List Nat) (st : Stacked L pt fl0 s0 s sz fl) (s' : KState) (fl' : List Nat)
    (im : Image L pt fl0 s0 s' sz fl')
    (lf : ∀ vb, leafOf s'.mem pt vb = leafOf s.mem pt vb) : Stacked L pt fl0 s0 s' sz fl' :=
  ⟨im, st.aligned, st.two, by rw [lf]; exact st.guard, by rw [lf]; exact st.stack⟩

/-- The frame of the stack page. -/
theorem stacked_frame (L : Layout) (pt : Nat) (fl0 : List Nat) (s0 s : KState) (sz : Nat)
    (fl : List Nat) (st : Stacked L pt fl0 s0 s sz fl) :
    PGROUNDUP sz = sz ∧ sz ≤ MAXVA ∧
    (∀ va, sz - 4096 ≤ va → va < sz →
      xlate s pt va = PTE2PA (leafOf s.mem pt (sz - 4096)) ∧ xlate s pt va ≠ 0) ∧
    (∀ va, sz ≤ va → xlate s pt va = 0) ∧
    (∀ va, sz - 8192 ≤ va → va < sz - 4096 → xlate s pt va = 0) ∧
    PTE2PA (leafOf s.mem pt (sz - 4096)) % 4096 = 0 ∧
    PTE2PA (leafOf s.mem pt (sz - 4096)) ∈ fl0 := by
  have hsz := st.image.space.size
  have h2 := st.two
  have hal := st.aligned
  have e : PGROUNDUP sz = sz := PGROUNDUP_aligned sz hal (by unfold MAXVA at hsz; omega)
  have hsb : ∀ va, sz - 4096 ≤ va → va < sz → PGROUNDDOWN va = sz - 4096 :=
    fun va h1 h2 => PGROUNDDOWN_eq (sz - 4096) va (by omega) h1 (by omega)
  refine ⟨e, hsz, fun va h1 h2 => ?_, fun va h => ?_, fun va h1 h2 => ?_,
    PTE2PA_aligned _, ?_⟩
  · obtain ⟨x1, x2, _⟩ := image_xlate L pt fl0 s0 s sz fl st.image va (by omega)
      (by rw [hsb va h1 h2]; exact st.stack.1)
    rw [hsb va h1 h2] at x1
    exact ⟨x1, x2⟩
  · exact image_xlate_above L pt fl0 s0 s sz fl st.image va (by omega)
  · have hg : PGROUNDDOWN va = sz - 8192 :=
      PGROUNDDOWN_eq (sz - 8192) va (by omega) h1 (by omega)
    rw [xlate_eq, walkaddrVal_leaf s.mem pt va st.image.space.inv.table (by omega),
      leafOf_page s.mem pt va (by omega), hg, if_neg]
    have := st.guard
    omega
  · exact (st.image.space.mapped (sz - 4096) (by omega) (by omega)).2.2

/-- A `copyout` at or above the base of the stack page of a stacked image: it returns; when
it returns 0 and `len > 0`, the range lies in the stack page and the bytes are in its
frame. -/
theorem stacked_copyout (L : Layout) (pt : Nat) (fl0 : List Nat) (s0 s : KState) (sz : Nat)
    (fl : List Nat) (st : Stacked L pt fl0 s0 s sz fl) (va : Nat) (src : Buf) (len : Nat)
    (hva : sz - 4096 ≤ va) (hlen : 0 < len) :
    ∃ r s', copyout s pt va src len = .ok r s' ∧ Stacked L pt fl0 s0 s' sz fl ∧
      (∀ vb, leafOf s'.mem pt vb = leafOf s.mem pt vb) ∧
      (∀ p, IsTable s.mem pt p → SamePage s.mem s'.mem p) ∧ (r = 0 ∨ r = -1) ∧
      (r = 0 → va + len ≤ sz ∧
        (∀ x, ¬ (PTE2PA (leafOf s.mem pt (sz - 4096)) + (va - (sz - 4096)) ≤ x ∧
            x < PTE2PA (leafOf s.mem pt (sz - 4096)) + (va - (sz - 4096)) + len) →
          s'.mem x = s.mem x) ∧
        ∀ i, i < len → rd8 s'.mem
          (PTE2PA (leafOf s.mem pt (sz - 4096)) + (va - (sz - 4096)) + i) = src i % 256) := by
  obtain ⟨r, s', e, im2, lf2, ht2, hr⟩ := image_copyout L pt fl0 s0 s sz fl st.image va src len
  obtain ⟨f1, f2, f3, f4, _, _, _⟩ := stacked_frame L pt fl0 s0 s sz fl st
  have h2 := st.two
  have hal := st.aligned
  refine ⟨r, s', e, stacked_write L pt fl0 s0 s sz fl st s' fl im2 lf2, lf2, ht2, ?_, ?_⟩
  · rcases hr with ⟨c, _⟩ | ⟨c, _⟩
    · exact Or.inr c
    · exact Or.inl c
  intro hr0
  rcases hr with ⟨c, _⟩ | ⟨_, q1, q2, q3⟩
  · omega
  have hin : va + len ≤ sz := by
    by_contra c
    have hp := PGROUNDDOWN_spec va
    by_cases c2 : sz ≤ PGROUNDDOWN va
    · exact q1 (PGROUNDDOWN va) ⟨hp.1, by omega, by unfold PGSIZE; omega, hlen⟩
        (f4 _ c2)
    · exact q1 sz ⟨hal, by omega, by unfold PGSIZE; omega, hlen⟩ (f4 _ (Nat.le_refl _))
  have hua : ∀ i, i < len → userAddr s pt (va + i) =
      PTE2PA (leafOf s.mem pt (sz - 4096)) + (va - (sz - 4096)) + i := by
    intro i hi
    unfold userAddr
    have hg : PGROUNDDOWN (va + i) = sz - 4096 :=
      PGROUNDDOWN_eq (sz - 4096) (va + i) (by omega) (by omega) (by omega)
    rw [hg, (f3 (sz - 4096) (Nat.le_refl _) (by omega)).1]
    omega
  have htouch : ∀ p, touches va len p → p = sz - 4096 := by
    intro p hp
    unfold touches PGSIZE at hp
    omega
  refine ⟨hin, fun x hx => ?_, fun i hi => ?_⟩
  · apply q2 x
    intro i hi
    rw [hua i hi]
    omega
  · have := q3 (fun p q hp hq _ => by rw [htouch p hp, htouch q hq]) i hi
    rw [hua i hi, Nat.zero_add] at this
    exact this

/-! ### The argument loop of `exec` -/

theorem rd8_congr (m m' : Mem) (x : Nat) (h : m' x = m x) : rd8 m' x = rd8 m x := by
  unfold rd8; rw [h]

/-- What the argument loop leaves when it returns: each string lies in the stack page,
16-byte aligned, below the one pushed before it, and its bytes are in the frame of the
stack page; nothing else changed. -/
theorem execArgs_spec (L : Layout) (pt : Nat) (fl0 : List Nat) (s0 : KState) (sz : Nat) :
    ∀ (argv : List (List Nat)) (s : KState) (argc sp : Nat) (ustack : Nat → Nat)
      (idx : List Nat) (fl : List Nat)
      (res : Option (Nat × Nat × (Nat → Nat)) × List Nat) (s' : KState),
    Stacked L pt fl0 s0 s sz fl → sz - 4096 ≤ sp → sp ≤ sz → argc ≤ MAXARG →
    execArgs pt (sz - 4096) argv s argc sp ustack idx = .ok res s' →
    Stacked L pt fl0 s0 s' sz fl ∧ (∀ vb, leafOf s'.mem pt vb = leafOf s.mem pt vb) ∧
    ∀ argc' sp' ustack', res.1 = some (argc', sp', ustack') →
      argc' = argc + argv.length ∧ argc' ≤ MAXARG ∧ sz - 4096 ≤ sp' ∧ sp' ≤ sp ∧
      (argv = [] → sp' = sp) ∧ (argv ≠ [] → sp' % 16 = 0) ∧
      (∀ j, j < argc → ustack' j = ustack j) ∧
      (∀ i, i < argv.length →
        ustack' (argc + i) % 16 = 0 ∧ sp' ≤ ustack' (argc + i) ∧
        ustack' (argc + i) + (argv.getD i []).length + 1 ≤ sp ∧
        (∀ j, i < j → j < argv.length →
          ustack' (argc + j) + (argv.getD j []).length + 1 ≤ ustack' (argc + i)) ∧
        ∀ k, k ≤ (argv.getD i []).length →
          rd8 s'.mem (PTE2PA (leafOf s.mem pt (sz - 4096)) +
            (ustack' (argc + i) - (sz - 4096)) + k) = strBuf (argv.getD i []) k % 256) ∧
      (∀ x, ¬ (PTE2PA (leafOf s.mem pt (sz - 4096)) + (sp' - (sz - 4096)) ≤ x ∧
          x < PTE2PA (leafOf s.mem pt (sz - 4096)) + (sp - (sz - 4096))) →
        s'.mem x = s.mem x) := by
  intro argv
  induction argv with
  | nil =>
    intro s argc sp ustack idx fl res s' st h1 h2 h3 h
    rw [execArgs] at h
    obtain ⟨e1, e2⟩ := ok_inj _ _ _ _ h
    rw [← e2]
    refine ⟨st, fun _ => rfl, fun argc' sp' ustack' hr => ?_⟩
    rw [← e1] at hr
    have hr' := Option.some.inj hr
    have q1 : argc = argc' := congrArg Prod.fst hr'
    have q2 : sp = sp' := congrArg (fun t => t.2.1) hr'
    have q3 : ustack = ustack' := congrArg (fun t => t.2.2) hr'
    rw [← q1, ← q2, ← q3]
    refine ⟨rfl, h3, h1, Nat.le_refl _, fun _ => rfl, fun c => absurd rfl c, fun _ _ => rfl,
      fun i hi => ?_, fun _ _ => rfl⟩
    simp at hi
  | cons a rest ih =>
    intro s argc sp ustack idx fl res s' st h1 h2 h3 h
    have none_case : ∀ (s1 : KState) (fl1 : List Nat), Stacked L pt fl0 s0 s1 sz fl1 →
        (∀ vb, leafOf s1.mem pt vb = leafOf s.mem pt vb) →
        Res.ok ((none : Option (Nat × Nat × (Nat → Nat))), idx) s1 = Res.ok res s' →
        fl1 = fl →
        Stacked L pt fl0 s0 s' sz fl ∧ (∀ vb, leafOf s'.mem pt vb = leafOf s.mem pt vb) ∧
        ∀ argc' sp' ustack', res.1 = some (argc', sp', ustack') → False := by
      intro s1 fl1 st1 lf1 hh hfl
      obtain ⟨e1, e2⟩ := ok_inj _ _ _ _ hh
      rw [← e2, ← hfl]
      refine ⟨st1, lf1, fun _ _ _ hr => ?_⟩
      rw [← e1] at hr
      cases hr
    rw [execArgs] at h
    by_cases c0 : argc ≥ MAXARG
    · rw [if_pos c0] at h
      obtain ⟨r1, r2, r3⟩ := none_case s fl st (fun _ => rfl) h rfl
      exact ⟨r1, r2, fun a b c hr => (r3 a b c hr).elim⟩
    rw [if_neg c0] at h
    simp only [] at h
    by_cases c1 : (sp + 2 ^ 64 - (strlen a + 1) % 2 ^ 64) % 2 ^ 64 -
        (sp + 2 ^ 64 - (strlen a + 1) % 2 ^ 64) % 2 ^ 64 % 16 < sz - 4096
    · rw [if_pos c1] at h
      obtain ⟨r1, r2, r3⟩ := none_case s fl st (fun _ => rfl) h rfl
      exact ⟨r1, r2, fun a b c hr => (r3 a b c hr).elim⟩
    rw [if_neg c1] at h
    obtain ⟨r, s1, e, st1, lf1, _, hr01, hok⟩ := stacked_copyout L pt fl0 s0 s sz fl st
      ((sp + 2 ^ 64 - (strlen a + 1) % 2 ^ 64) % 2 ^ 64 -
        (sp + 2 ^ 64 - (strlen a + 1) % 2 ^ 64) % 2 ^ 64 % 16) (strBuf a) (strlen a + 1)
      (by omega) (by omega)
    rw [e, bind_ok] at h
    by_cases c2 : r < 0
    · rw [if_pos c2] at h
      obtain ⟨r1, r2, r3⟩ := none_case s1 fl st1 lf1 h rfl
      exact ⟨r1, r2, fun a b c hr => (r3 a b c hr).elim⟩
    rw [if_neg c2] at h
    have hr0 : r = 0 := by omega
    obtain ⟨hin, hfr, hdata⟩ := hok hr0
    have hsz := st.image.space.size
    have h2' := st.two
    have hlen : strlen a + 1 ≤ 4096 := by omega
    have esp1 : (sp + 2 ^ 64 - (strlen a + 1) % 2 ^ 64) % 2 ^ 64 = sp - (strlen a + 1) := by
      unfold MAXVA at hsz
      omega
    rw [esp1] at h hin hfr hdata c1
    generalize hsp2 : sp - (strlen a + 1) - (sp - (strlen a + 1)) % 16 = sp2
      at h hin hfr hdata c1
    have hs2a : sp2 % 16 = 0 := by omega
    have hs2b : sp2 + strlen a + 1 ≤ sp := by omega
    obtain ⟨st', lf', hres⟩ := ih s1 (argc + 1) sp2 (fun j => if j = argc then sp2 else ustack j)
      (idx ++ [argc]) fl res s' st1 (by omega) (by omega) (by omega) h
    refine ⟨st', fun vb => by rw [lf', lf1], fun argc' sp' ustack' hr => ?_⟩
    obtain ⟨a1, a2, a3, a4, a5, a6, a7, a8, a9⟩ := hres argc' sp' ustack' hr
    rw [lf1] at a8 a9
    have hu0 : ustack' argc = sp2 := by
      rw [a7 argc (by omega)]
      simp only [if_true]
    have hlen' : a.length = strlen a := rfl
    have hac : argc' = argc + (a :: rest).length := by rw [a1, List.length_cons]; omega
    refine ⟨hac, a2, a3, (by omega),
      (fun c => by cases c), fun _ => ?_, fun j hj => ?_, fun i hi => ?_, fun x hx => ?_⟩
    · by_cases cr : rest = []
      · rw [a5 cr]; exact hs2a
      · exact a6 cr
    · rw [a7 j (by omega), if_neg (by omega)]
    · cases i with
      | zero =>
        rw [Nat.add_zero, hu0]
        simp only [List.getD_cons_zero]
        refine ⟨hs2a, a4, by rw [hlen']; omega, fun j hj1 hj2 => ?_, fun k hk => ?_⟩
        · obtain ⟨j', ej⟩ : ∃ j', j = j' + 1 := ⟨j - 1, by omega⟩
          rw [ej, List.getD_cons_succ]
          rw [ej, List.length_cons] at hj2
          have := (a8 j' (by omega)).2.2.1
          have e2 : argc + (j' + 1) = argc + 1 + j' := by omega
          rw [e2]
          exact this
        · rw [rd8_congr s1.mem s'.mem _ (a9 _ (by omega))]
          exact hdata k (by rw [← hlen']; omega)
      | succ i' =>
        rw [List.length_cons] at hi
        obtain ⟨b1, b2, b3, b4, b5⟩ := a8 i' (by omega)
        have e2 : argc + (i' + 1) = argc + 1 + i' := by omega
        rw [e2]
        simp only [List.getD_cons_succ]
        refine ⟨b1, b2, by omega, fun j hj1 hj2 => ?_, b5⟩
        obtain ⟨j', ej⟩ : ∃ j', j = j' + 1 := ⟨j - 1, by omega⟩
        rw [ej, List.getD_cons_succ]
        rw [ej, List.length_cons] at hj2
        have := b4 j' (by omega) (by omega)
        have e3 : argc + (j' + 1) = argc + 1 + j' := by omega
        rw [e3]
        exact this
    · rw [a9 x (by omega)]
      exact hfr x (by omega)

/-! ### Destroying the image; the old address space -/

theorem image_resize (L : Layout) (pt : Nat) (fl0 : List Nat) (s0 s : KState) (sz : Nat)
    (fl : List Nat) (im : Image L pt fl0 s0 s sz fl) (sz' : Nat)
    (e : PGROUNDUP sz' = PGROUNDUP sz) (hs : sz' ≤ MAXVA) : Image L pt fl0 s0 s sz' fl :=
  ⟨space_resize L pt fl0 s sz fl im.space sz' e hs, im.outside, by rw [e]; exact im.readable⟩

/-- Destroying an image at its size returns every frame and touches nothing else. -/
theorem image_free (L : Layout) (pt : Nat) (fl0 : List Nat) (s0 s : KState) (sz : Nat)
    (fl : List Nat) (im : Image L pt fl0 s0 s sz fl) :
    ∃ s' fl', uvmfree L s pt sz = .ok () s' ∧ AllocOK L s' fl' ∧ (∀ f, f ∈ fl' ↔ f ∈ fl0) ∧
      Outside fl0 s0 s' := by
  have sp := im.space
  obtain ⟨s', fl', run, ok', hm, hfr⟩ := uvmfree_proper L s pt sz fl
    (proper_of_space L pt fl0 s sz fl sp)
  refine ⟨s', fl', run, ok', fun f => ?_, fun x hx => ?_⟩
  · rw [hm f]
    constructor
    · rintro (c | c | ⟨b, b1, b2, b3⟩)
      · exact sp.sub f c
      · exact sp.tables f c
      · rw [b3]; exact (sp.mapped b b1 b2).2.2
    · exact sp.account f
  · rw [← im.outside x hx]
    apply hfr x
    · intro p hp
      exact hx p (sp.tables p hp)
    · intro b b1 b2
      exact hx _ (sp.mapped b b1 b2).2.2

/-- The exit `bad:` on an image of size `big`, called with the size `sz` that `exec` holds:
if it returns, every frame is back and nothing else was touched. -/
theorem image_bad (L : Layout) (pt : Nat) (fl0 : List Nat) (s0 s : KState) (big : Nat)
    (fl : List Nat) (im : Image L pt fl0 s0 s big fl) (sz : Nat)
    (hle : PGROUNDUP sz ≤ PGROUNDUP big) (hsz : sz ≤ MAXVA) (p : Proc) (idx : List Nat)
    (r : ExecRet) (s' : KState) (h : execBad L s pt sz p idx = .ok r s') :
    r.ret = -1 ∧ r.p = p ∧ ∃ fl', AllocOK L s' fl' ∧ (∀ f, f ∈ fl' ↔ f ∈ fl0) ∧
      Outside fl0 s0 s' := by
  unfold execBad proc_freepagetable at h
  by_cases c : PGROUNDUP sz < PGROUNDUP big
  · rw [uvmfree_leafy L s pt big fl (proper_of_space L pt fl0 s big fl im.space) im.readable
      sz c hsz] at h
    cases h
  · have e : PGROUNDUP sz = PGROUNDUP big := by omega
    obtain ⟨s1, fl1, run, ok1, hm, ho⟩ := image_free L pt fl0 s0 s sz fl
      (image_resize L pt fl0 s0 s big fl im sz e hsz)
    rw [run, bind_ok] at h
    obtain ⟨e1, e2⟩ := ok_inj _ _ _ _ h
    rw [← e1, ← e2]
    exact ⟨rfl, rfl, fl1, ok1, hm, ho⟩

/-- An address space whose pages hold no frame of `fl0` is not affected by changes
inside the frames of `fl0`. -/
theorem proper_keep (L : Layout) (s : KState) (opt osz : Nat) (fl0 : List Nat)
    (pr : Proper L s opt osz fl0) (s6 : KState) (fl6 : List Nat) (ok6 : AllocOK L s6 fl6)
    (hsub : ∀ f, f ∈ fl6 → f ∈ fl0) (ho : Outside fl0 s s6) :
    Proper L s6 opt osz fl6 ∧ (∀ p, IsTable s.mem opt p → SamePage s.mem s6.mem p) := by
  have hal0 : ∀ f, f ∈ fl0 → f % 4096 = 0 := fun f hf => (pr.inv.alloc.frames f hf).1
  have ht : ∀ p, IsTable s.mem opt p → SamePage s.mem s6.mem p := by
    intro p hp x hx
    apply ho x
    intro f hf
    exact pages_disjoint p f x (isTable_aligned _ _ _ pr.inv.table.root_al hp) (hal0 f hf)
      (fun e => pr.inv.sep p hp (e ▸ hf)) hx
  have hu : ∀ p, IsUpper s.mem opt p → SamePage s.mem s6.mem p := fun p hp => ht p (Or.inl hp)
  have it := isTable_same s.mem s6.mem opt hu
  have lf := leafOf_same s.mem s6.mem opt ht
  refine ⟨⟨⟨ok6, tableOK_same s.mem s6.mem opt hu pr.inv.table,
    fun p hp c => pr.inv.sep p ((it p).mp hp) (hsub p c)⟩, fun b b1 b2 => ?_,
    fun vb h1 h2 => ?_, fun b b1 b2 b3 b4 => ?_, pr.size,
    clean_same s.mem s6.mem opt hu pr.clean, fun p hp => pr.tables p ((it p).mp hp)⟩, ht⟩
  · rw [lf b]; exact pr.mapped b b1 b2
  · rw [lf vb]; exact pr.unmapped vb h1 h2
  · obtain ⟨o1, o2, o3⟩ := pr.owned b b1 b2 b3 b4
    rw [lf b]
    refine ⟨fun c => o1 (hsub _ c), fun c => o2 ((it _).mp c), fun b' k1 k2 k3 k4 e => ?_⟩
    rw [lf b'] at e
    exact o3 b' k1 k2 k3 k4 e

/-- Freeing the old address space after the commit leaves the frames of `fl0`, where the
new image lives, as they are. -/
theorem old_free (L : Layout) (s : KState) (opt osz : Nat) (fl0 : List Nat)
    (pr : Proper L s opt osz fl0) (s6 : KState) (fl6 : List Nat) (ok6 : AllocOK L s6 fl6)
    (hsub : ∀ f, f ∈ fl6 → f ∈ fl0) (ho : Outside fl0 s s6) :
    ∃ s', uvmfree L s6 opt osz = .ok () s' ∧ ∀ f, f ∈ fl0 → SamePage s6.mem s'.mem f := by
  obtain ⟨pr6, ht⟩ := proper_keep L s opt osz fl0 pr s6 fl6 ok6 hsub ho
  have hal0 : ∀ f, f ∈ fl0 → f % 4096 = 0 := fun f hf => (pr.inv.alloc.frames f hf).1
  obtain ⟨s', fl', run, _, _, hfr⟩ := uvmfree_proper L s6 opt osz fl6 pr6
  refine ⟨s', run, fun f hf x hx => ?_⟩
  apply hfr x
  · intro p hp
    exact pages_disjoint f p x (hal0 f hf)
      (isTable_aligned _ _ _ pr6.inv.table.root_al hp)
      (fun e => pr6.inv.sep p hp (by
        exfalso
        have hp' : IsTable s.mem opt p :=
          (isTable_same s.mem s6.mem opt (fun q hq => ht q (Or.inl hq)) p).mp hp
        exact pr.inv.sep p hp' (e ▸ hf))) hx
  · intro b b1 b2
    obtain ⟨l1, l2, l3, l4⟩ := PGROUNDUP_spec osz pr.size
    have hlf := leafOf_same s.mem s6.mem opt ht b
    rw [hlf]
    obtain ⟨o1, _, _⟩ := pr.owned b b1 (Nat.zero_le _) b2 (by omega)
    exact pages_disjoint f _ x (hal0 f hf) (PTE2PA_aligned _) (fun e => o1 (e ▸ hf)) hx

/-! ### The stack phase of `exec` -/

theorem PGROUNDUP_low (lsz : Nat) (h : lsz < PLIC) :
    PGROUNDUP lsz ≤ PLIC ∧ PGROUNDUP lsz % 4096 = 0 ∧ PGROUNDUP (PGROUNDUP lsz) = PGROUNDUP lsz ∧
    PGROUNDUP (PGROUNDUP lsz + 8192) = PGROUNDUP lsz + 8192 ∧ PGROUNDUP lsz + 8192 ≤ MAXVA := by
  have hp : PLIC = 201326592 := rfl
  unfold PGROUNDUP PGSIZE MAXVA
  norm_num
  omega

/-- The two stack pages: after the `uvmalloc` and the `uvmclear` of `exec` the image is
stacked. -/
theorem stack_pages (L : Layout) (pt : Nat) (fl0 : List Nat) (s0 s2 : KState) (lsz : Nat)
    (fl : List Nat) (im : Image L pt fl0 s0 s2 lsz fl) (hlow : lsz < PLIC) (sz1 : Nat)
    (s3 : KState)
    (h : uvmalloc L s2 pt (PGROUNDUP lsz) ((PGROUNDUP lsz + 2 * PGSIZE) % 2 ^ 64) PTE_W
      = .ok sz1 s3) :
    (sz1 = 0 ∧ ∃ fl', Image L pt fl0 s0 s3 (PGROUNDUP lsz) fl') ∨
    (sz1 = PGROUNDUP lsz + 8192 ∧ ∃ s4 fl',
      uvmclear s3 pt ((sz1 + 2 ^ 64 - 2 * PGSIZE) % 2 ^ 64) = .ok () s4 ∧
      Stacked L pt fl0 s0 s4 sz1 fl') := by
  obtain ⟨p1, p2, p3, p4, p5⟩ := PGROUNDUP_low lsz hlow
  have hp : PLIC = 201326592 := rfl
  have e1 : (PGROUNDUP lsz + 2 * PGSIZE) % 2 ^ 64 = PGROUNDUP lsz + 8192 := by
    unfold PGSIZE; omega
  rw [e1] at h
  have imR := image_resize L pt fl0 s0 s2 lsz fl im (PGROUNDUP lsz) p3
    (by unfold MAXVA at p5 ⊢; omega)
  rcases image_alloc L pt fl0 s0 s2 (PGROUNDUP lsz) fl imR _ _ sz1 s3 (by omega)
      (by decide) h with ⟨hr, fl', im3, hold, hnew⟩ | ⟨hr, fl', im3, _⟩
  · right
    refine ⟨hr, ?_⟩
    rw [hr]
    have e2 : (PGROUNDUP lsz + 8192 + 2 ^ 64 - 2 * PGSIZE) % 2 ^ 64 = PGROUNDUP lsz := by
      unfold PGSIZE; unfold MAXVA at p5; omega
    rw [e2]
    obtain ⟨s4, run, im4, lf4, g1, g2⟩ := image_clear L pt fl0 s0 s3 _ fl' im3 (PGROUNDUP lsz)
      p2 (by rw [p4]; omega)
    refine ⟨s4, fl', run, im4, by omega, by omega, ?_, ?_⟩
    · have : PGROUNDUP lsz + 8192 - 8192 = PGROUNDUP lsz := by omega
      rw [this]; exact g1
    · have : PGROUNDUP lsz + 8192 - 4096 = PGROUNDUP lsz + 4096 := by omega
      rw [this, lf4 _ (by omega) (by omega)]
      obtain ⟨n1, _, n3⟩ := hnew (PGROUNDUP lsz + 4096) (by omega) (by rw [p3]; omega)
        (by rw [p4]; omega)
      exact ⟨n1, n3 (by decide)⟩
  · left
    exact ⟨hr, fl', im3⟩

theorem wordsBuf_lt (u : Nat → Nat) (i : Nat) : wordsBuf u i < 256 := by
  unfold wordsBuf
  exact Nat.mod_lt _ (by norm_num)

/-- What the stack phase of `exec` leaves when it returns: either the failure exit, with
every frame back, or the pushed image and the committed process, the old address space
being freed last. -/
theorem execStack_cases (L : Layout) (pt : Nat) (fl0 : List Nat) (s0 s2 : KState) (lsz : Nat)
    (fl : List Nat) (im : Image L pt fl0 s0 s2 lsz fl) (hlow : lsz < PLIC) (p : Proc)
    (path : List Nat) (argv : List (List Nat)) (entry : Nat) (r : ExecRet) (s' : KState)
    (h : execStack L s2 p path argv pt lsz entry = .ok r s') :
    (r.ret = -1 ∧ r.p = p ∧ ∃ fl', AllocOK L s' fl' ∧ (∀ f, f ∈ fl' ↔ f ∈ fl0) ∧
      Outside fl0 s0 s') ∨
    (∃ s6 fl6 ustack,
      Pushed L pt fl0 s0 s6 (PGROUNDUP lsz + 8192) fl6 argv r.p.sp ustack ∧
      r.ret = (argv.length : Int) ∧
      r.p = { pagetable := pt, sz := PGROUNDUP lsz + 8192,
              name := (lastName path path).take 15, epc := entry, sp := r.p.sp,
              a1 := r.p.sp } ∧
      r.ustack = (List.range (argv.length + 1)).map
        (fun j => if j = argv.length then 0 else ustack j) ∧
      uvmfree L s6 p.pagetable p.sz = .ok () s') := by
  obtain ⟨p1, p2, p3, p4, p5⟩ := PGROUNDUP_low lsz hlow
  unfold execStack at h
  cases ha : uvmalloc L s2 pt (PGROUNDUP lsz) ((PGROUNDUP lsz + 2 * PGSIZE) % 2 ^ 64) PTE_W with
  | panic msg => rw [ha] at h; cases h
  | fuel => rw [ha] at h; cases h
  | ok sz1 s3 =>
    rw [ha, bind_ok] at h
    rcases stack_pages L pt fl0 s0 s2 lsz fl im hlow sz1 s3 ha with
      ⟨hz, fl3, im3⟩ | ⟨hz, s4, fl4, hc, st4⟩
    · rw [if_pos hz] at h
      exact Or.inl (image_bad L pt fl0 s0 s3 _ fl3 im3 _ (Nat.le_refl _) im3.space.size p []
        r s' h)
    rw [if_neg (by omega), hc, bind_ok] at h
    have esb : (sz1 + 2 ^ 64 - PGSIZE) % 2 ^ 64 = sz1 - 4096 := by
      unfold PGSIZE; unfold MAXVA at p5; omega
    rw [esb] at h
    cases he : execArgs pt (sz1 - 4096) argv s4 0 sz1 (fun _ => 0) [] with
    | panic msg => rw [he] at h; cases h
    | fuel => rw [he] at h; cases h
    | ok r5 s5 =>
      rw [he, bind_ok] at h
      have hq : PGROUNDUP sz1 = sz1 := by rw [hz]; exact p4
      obtain ⟨st5, lf5, hres⟩ := execArgs_spec L pt fl0 s0 sz1 argv s4 0 sz1 (fun _ => 0) []
        fl4 r5 s5 st4 (by omega) (Nat.le_refl _) (Nat.zero_le _) he
      obtain ⟨o, idx⟩ := r5
      cases o with
      | none =>
        simp only [] at h
        exact Or.inl (image_bad L pt fl0 s0 s5 _ fl4 st5.image _ (Nat.le_refl _)
          st5.image.space.size p idx r s' h)
      | some t =>
        obtain ⟨argc, sp, ustack⟩ := t
        simp only [] at h
        obtain ⟨a1, a2, a3, a4, _, _, _, a8, a9⟩ := hres argc sp ustack rfl
        rw [Nat.zero_add] at a1
        subst a1
        have hM : MAXARG = 32 := rfl
        have e8 : (argv.length + 1) * 8 % 2 ^ 64 = (argv.length + 1) * 8 := by omega
        have esp : (sp + 2 ^ 64 - (argv.length + 1) * 8 % 2 ^ 64) % 2 ^ 64 = sp - (argv.length + 1) * 8 := by
          rw [e8]; unfold MAXVA at p5; omega
        rw [esp] at h
        generalize hsp2 : sp - (argv.length + 1) * 8 - (sp - (argv.length + 1) * 8) % 16 = sp2 at h
        by_cases c1 : sp2 < sz1 - 4096
        · rw [if_pos c1] at h
          exact Or.inl (image_bad L pt fl0 s0 s5 _ fl4 st5.image _ (Nat.le_refl _)
            st5.image.space.size p _ r s' h)
        rw [if_neg c1] at h
        obtain ⟨c, s6, e, st6, lf6, _, hr01, hok⟩ := stacked_copyout L pt fl0 s0 s5 sz1 fl4 st5
          sp2 (wordsBuf (fun j => if j = argv.length then 0 else ustack j)) ((argv.length + 1) * 8)
          (by omega) (by omega)
        rw [e, bind_ok] at h
        by_cases c2 : c < 0
        · rw [if_pos c2] at h
          exact Or.inl (image_bad L pt fl0 s0 s6 _ fl4 st6.image _ (Nat.le_refl _)
            st6.image.space.size p _ r s' h)
        rw [if_neg c2] at h
        obtain ⟨hin, hfr, hdata⟩ := hok (by omega)
        unfold proc_freepagetable at h
        cases hu : uvmfree L s6 p.pagetable p.sz with
        | panic msg => rw [hu] at h; cases h
        | fuel => rw [hu] at h; cases h
        | ok u s7 =>
          rw [hu, bind_ok] at h
          obtain ⟨e1, e2⟩ := ok_inj _ _ _ _ h
          right
          rw [← e1, ← e2, ← hz]
          simp only []
          have hs2a : sp2 % 16 = 0 := by omega
          have hs2b : sp2 + (argv.length + 1) * 8 ≤ sp := by omega
          refine ⟨s6, fl4, ustack, ⟨st6, a2, hs2a, by omega, hin,
            fun i hi => ?_, fun i hi => ?_, fun i hi => ?_⟩, trivial, trivial, rfl, hu⟩
          · have := (a8 i hi).2.1
            rw [Nat.zero_add] at this
            omega
          · obtain ⟨b1, b2, b3, b4, b5⟩ := a8 i hi
            rw [Nat.zero_add] at b1 b2 b3 b5
            refine ⟨b1, b3, fun j hj1 hj2 => ?_, fun k hk => ?_⟩
            · have := b4 j hj1 hj2
              rw [Nat.zero_add, Nat.zero_add] at this
              exact this
            · rw [lf6, lf5] 
              rw [lf5] at hfr
              rw [rd8_congr s5.mem s6.mem _ (hfr _ (by omega))]
              exact b5 k hk
          · rw [lf6]
            have := hdata i hi
            rw [Nat.mod_eq_of_lt (wordsBuf_lt _ _)] at this ⊢
            exact this

/-! ### `exec` as a whole -/

theorem Outside_refl (fl0 : List Nat) (s : KState) : Outside fl0 s s := fun _ _ => rfl

/-- When `uvmcreate` finds no frame the state is unchanged. -/
theorem uvmcreate_zero (L : Layout) (s : KState) (fl0 : List Nat) (ok : AllocOK L s fl0)
    (h : (uvmcreate s).1 = 0) : (uvmcreate s).2 = s := by
  cases fl0 with
  | nil =>
    unfold uvmcreate
    rw [kalloc_nil L s ok]
    rfl
  | cons f rest =>
    exfalso
    obtain ⟨hk, _⟩ := kalloc_cons L s f rest ok
    have hfa := ok.frames f (List.mem_cons_self _ _)
    have hk0 := ok.kend_pos
    have hf0 : f ≠ 0 := by omega
    unfold uvmcreate at h
    rw [hk] at h
    simp only [hf0, if_false] at h

/-- What `exec` leaves when it returns: either the failure exit, the process as it was,
every frame back and nothing outside the free frames touched; or the pushed image, the
committed process and the old address space freed. -/
theorem exec_cases (L : Layout) (fs : Files) (s : KState) (p : Proc) (path : List Nat)
    (argv : List (List Nat)) (fl0 : List Nat) (r : ExecRet) (s' : KState)
    (ok : AllocOK L s fl0) (h : exec L fs s p path argv = .ok r s') :
    (r.ret = -1 ∧ r.p = p ∧ ∃ fl', AllocOK L s' fl' ∧ (∀ f, f ∈ fl' ↔ f ∈ fl0) ∧
      Outside fl0 s s') ∨
    (∃ ip elf lsz s2 s6 fl6 ustack,
      fs path = some ip ∧ readElfhdr ip = some elf ∧ (proc_pagetable s).1 ≠ 0 ∧
      execSegs L ip (proc_pagetable s).1 elf.phnum (proc_pagetable s).2
        (elf.phoff % 2 ^ 32) 0 = .ok (true, lsz) s2 ∧ lsz < PLIC ∧
      Pushed L (proc_pagetable s).1 fl0 s s6 (PGROUNDUP lsz + 8192) fl6 argv r.p.sp ustack ∧
      r.ret = (argv.length : Int) ∧
      r.p = { pagetable := (proc_pagetable s).1, sz := PGROUNDUP lsz + 8192,
              name := (lastName path path).take 15, epc := elf.entry, sp := r.p.sp,
              a1 := r.p.sp } ∧
      r.ustack = (List.range (argv.length + 1)).map
        (fun j => if j = argv.length then 0 else ustack j) ∧
      uvmfree L s6 p.pagetable p.sz = .ok () s') := by
  have early : ∀ (s1 : KState), s1 = s →
      Res.ok ({ ret := -1, p := p, idx := [], ustack := [] } : ExecRet) s1 = Res.ok r s' →
      r.ret = -1 ∧ r.p = p ∧ ∃ fl', AllocOK L s' fl' ∧ (∀ f, f ∈ fl' ↔ f ∈ fl0) ∧
        Outside fl0 s s' := by
    intro s1 hs hh
    obtain ⟨e1, e2⟩ := ok_inj _ _ _ _ hh
    rw [← e1, ← e2, hs]
    exact ⟨rfl, rfl, fl0, ok, fun _ => Iff.rfl, Outside_refl fl0 s⟩
  unfold exec at h
  cases hf : fs path with
  | none =>
    rw [hf] at h
    exact Or.inl (early s rfl h)
  | some ip =>
    rw [hf] at h
    simp only [] at h
    cases hel : readElfhdr ip with
    | none =>
      rw [hel] at h
      exact Or.inl (early s rfl h)
    | some elf =>
      rw [hel] at h
      simp only [] at h
      by_cases cm : elf.magic ≠ ELF_MAGIC
      · rw [if_pos cm] at h
        exact Or.inl (early s rfl h)
      rw [if_neg cm] at h
      by_cases cp : (proc_pagetable s).1 = 0
      · rw [if_pos cp] at h
        exact Or.inl (early _ (uvmcreate_zero L s fl0 ok cp) h)
      rw [if_neg cp] at h
      obtain ⟨fl1, im1⟩ := image_create L s fl0 (proc_pagetable s).1 (proc_pagetable s).2 ok
        rfl cp
      have p0 : PGROUNDUP 0 = 0 := by decide
      cases hs : execSegs L ip (proc_pagetable s).1 elf.phnum (proc_pagetable s).2
          (elf.phoff % 2 ^ 32) 0 with
      | panic msg => rw [hs] at h; cases h
      | fuel => rw [hs] at h; cases h
      | ok r2 s2 =>
        rw [hs, bind_ok] at h
        obtain ⟨b, lsz⟩ := r2
        obtain ⟨big, fl2, im2, _, hle, hlow, hb⟩ := execSegs_image L ip (proc_pagetable s).1
          fl0 s elf.phnum (proc_pagetable s).2 (elf.phoff % 2 ^ 32) 0 fl1 b lsz s2 im1
          (fun b _ hb => by rw [p0] at hb; omega) (by decide) hs
        have hplic : PLIC = 201326592 := rfl
        cases b with
        | false =>
          simp only [if_true] at h
          exact Or.inl (image_bad L _ fl0 s s2 big fl2 im2 lsz hle
            (by unfold MAXVA; omega) p [] r s' h)
        | true =>
          simp only [Bool.true_eq_false, if_false] at h
          have hbig := hb rfl
          rw [hbig] at im2
          rcases execStack_cases L _ fl0 s s2 lsz fl2 im2 hlow p path argv elf.entry r s' h
            with c | ⟨s6, fl6, ustack, q1, q2, q3, q4, q5⟩
          · exact Or.inl c
          · exact Or.inr ⟨ip, elf, lsz, s2, s6, fl6, ustack, rfl, hel, cp, hs, hlow, q1,
              q2, q3, q4, q5⟩

/-! ### The first offending segment -/

/-- At the offending header the loop of `exec` stops at once, the state untouched. -/
theorem offender_rejects (ip : Inode) :
    ∀ (n off o : Nat), offender ip n off = some o →
    ∃ ph, readProghdr ip o = some ph ∧ ph.type = ELF_PROG_LOAD ∧
      (ph.memsz < ph.filesz ∨ 2 ^ 64 ≤ ph.vaddr + ph.memsz ∨ ph.vaddr % 4096 ≠ 0) ∧
      ∀ (L : Layout) (pt m : Nat) (s : KState) (sz : Nat),
        execSegs L ip pt (m + 1) s o sz = .ok (false, sz) s := by
  intro n
  induction n with
  | zero => intro off o h; rw [offender] at h; cases h
  | succ k ih =>
    intro off o h
    rw [offender] at h
    cases hp : readProghdr ip off with
    | none => rw [hp] at h; cases h
    | some ph =>
      rw [hp] at h
      simp only [] at h
      by_cases c0 : ph.type ≠ ELF_PROG_LOAD
      · rw [if_pos c0] at h
        exact ih _ o h
      rw [if_neg c0] at h
      by_cases c1 : ph.memsz < ph.filesz ∨ (ph.vaddr + ph.memsz) % 2 ^ 64 < ph.vaddr ∨
          ph.vaddr % PGSIZE ≠ 0
      · rw [if_pos c1] at h
        have e : off = o := Option.some.inj h
        rw [← e]
        obtain ⟨hv, hm, _⟩ := readProghdr_lt ip off ph hp
        refine ⟨ph, hp, by omega, ?_, fun L pt m s sz => ?_⟩
        · rcases c1 with c | c | c
          · exact Or.inl c
          · exact Or.inr (Or.inl (by omega))
          · exact Or.inr (Or.inr c)
        · rw [execSegs, hp]
          simp only []
          rw [if_neg c0]
          by_cases d1 : ph.memsz < ph.filesz
          · rw [if_pos d1]
          rw [if_neg d1]
          by_cases d2 : (ph.vaddr + ph.memsz) % 2 ^ 64 < ph.vaddr
          · rw [if_pos d2]
          rw [if_neg d2]
          have d3 : ph.vaddr % PGSIZE ≠ 0 := by
            rcases c1 with c | c | c
            · exact absurd c d1
            · exact absurd c d2
            · exact c
          rw [if_pos d3]
      rw [if_neg c1] at h
      by_cases c2 : ph.vaddr + ph.memsz ≥ PLIC
      · rw [if_pos c2] at h; cases h
      rw [if_neg c2] at h
      exact ih _ o h

/-- Total correctness of the segment loop on an image with an offending header: it
returns at a `goto bad`, with an image of the size it reports. -/
theorem execSegs_offender (L : Layout) (ip : Inode) (pt : Nat) (fl0 : List Nat)
    (s0 : KState) :
    ∀ (n : Nat) (s : KState) (off sz : Nat) (fl : List Nat) (o : Nat),
    Image L pt fl0 s0 s sz fl →
    (∀ b, b % 4096 = 0 → b < PGROUNDUP sz → leafOf s.mem pt b / 16 % 2 = 1) →
    sz < PLIC → offender ip n off = some o →
    ∃ sz' s' fl', execSegs L ip pt n s off sz = .ok (false, sz') s' ∧
      Image L pt fl0 s0 s' sz' fl' := by
  intro n
  induction n with
  | zero => intro s off sz fl o _ _ _ h; rw [offender] at h; cases h
  | succ k ih =>
    intro s off sz fl o im hu hlow h
    rw [offender] at h
    rw [execSegs]
    cases hp : readProghdr ip off with
    | none => rw [hp] at h; cases h
    | some ph =>
      rw [hp] at h
      simp only [] at h ⊢
      by_cases c0 : ph.type ≠ ELF_PROG_LOAD
      · rw [if_pos c0] at h ⊢
        exact ih _ _ _ fl o im hu hlow h
      rw [if_neg c0] at h ⊢
      by_cases d1 : ph.memsz < ph.filesz
      · rw [if_pos d1]; exact ⟨sz, s, fl, rfl, im⟩
      rw [if_neg d1]
      by_cases d2 : (ph.vaddr + ph.memsz) % 2 ^ 64 < ph.vaddr
      · rw [if_pos d2]; exact ⟨sz, s, fl, rfl, im⟩
      rw [if_neg d2]
      by_cases d3 : ph.vaddr % PGSIZE ≠ 0
      · rw [if_pos d3]; exact ⟨sz, s, fl, rfl, im⟩
      rw [if_neg d3]
      rw [if_neg (by
        rintro (c | c | c)
        · exact d1 c
        · exact d2 c
        · exact d3 c)] at h
      by_cases c2 : ph.vaddr + ph.memsz ≥ PLIC
      · rw [if_pos c2] at h; cases h
      rw [if_neg c2] at h
      obtain ⟨hv, hm, _⟩ := readProghdr_lt ip off ph hp
      have hplic : PLIC = 201326592 := rfl
      have e64 : (ph.vaddr + ph.memsz) % 2 ^ 64 = ph.vaddr + ph.memsz := by omega
      obtain ⟨r, s1, ha⟩ := uvmalloc_total L pt fl0 s sz fl im.space
        ((ph.vaddr + ph.memsz) % 2 ^ 64) (flags2perm ph.flags) (flags2perm_lt _)
        (by rw [e64]; unfold MAXVA; omega)
      obtain ⟨st1, st2, st3⟩ := segment_step L pt fl0 s0 s sz fl im hu hlow ip ph d1 d2 hv hm
        r s1 ha
      rw [ha, bind_ok]
      by_cases r0 : r = 0
      · rw [if_pos r0]
        obtain ⟨big, fl', im1, _, _, hb⟩ := st1 (Or.inl r0)
        rw [hb r0] at im1
        exact ⟨sz, s1, fl', rfl, im1⟩
      rw [if_neg r0, if_neg (by omega)]
      obtain ⟨rl, s2, fl', el, im2, hu2⟩ := st2 r0 (by omega)
      rw [el, bind_ok]
      by_cases cl : rl < 0
      · rw [if_pos cl]
        exact ⟨r, s2, fl', rfl, im2⟩
      rw [if_neg cl]
      exact ih _ _ _ fl' o im2 hu2 (by omega) h

/-- The result of a run that returned the value `v`. -/
theorem val_ok {α : Type} (r : Res α) (v : α) (d : KState) (h : r.val? = some v) :
    r = .ok v (r.st d) := by
  cases r with
  | ok v' s =>
    have e : v' = v := Option.some.inj h
    rw [e]
    rfl
  | panic msg => cases h
  | fuel => cases h

/-- Two well-formed free lists with the same frames have the same length, and
`get_free_mem` reports the same amount. -/
theorem same_frames (L : Layout) (s s' : KState) (fl fl' : List Nat) (ok : AllocOK L s fl)
    (ok' : AllocOK L s' fl') (hm : ∀ f, f ∈ fl' ↔ f ∈ fl) :
    fl'.length = fl.length ∧ (get_free_mem s').val? = (get_free_mem s).val? := by
  have hlen : fl'.length = fl.length :=
    ((List.perm_ext_iff_of_nodup ok'.nodup ok.nodup).mpr hm).length_eq
  refine ⟨hlen, ?_⟩
  rw [get_free_mem_len L s' fl' ok', get_free_mem_len L s fl ok, hlen]
  rfl

/-- Total correctness of `exec` on an image with an offending header. -/
theorem exec_offender (L : Layout) (fs : Files) (s : KState) (p : Proc) (path : List Nat)
    (argv : List (List Nat)) (fl0 : List Nat) (ip : Inode) (elf : Elfhdr) (off : Nat)
    (ok : AllocOK L s fl0) (hf : fs path = some ip) (he : readElfhdr ip = some elf)
    (ho : offender ip elf.phnum (elf.phoff % 2 ^ 32) = some off) :
    ∃ r s', exec L fs s p path argv = .ok r s' ∧ r.ret = -1 := by
  unfold exec
  rw [hf]
  simp only []
  rw [he]
  simp only []
  by_cases cm : elf.magic ≠ ELF_MAGIC
  · rw [if_pos cm]; exact ⟨_, _, rfl, rfl⟩
  rw [if_neg cm]
  by_cases cp : (proc_pagetable s).1 = 0
  · rw [if_pos cp]; exact ⟨_, _, rfl, rfl⟩
  rw [if_neg cp]
  obtain ⟨fl1, im1⟩ := image_create L s fl0 (proc_pagetable s).1 (proc_pagetable s).2 ok
    rfl cp
  have p0 : PGROUNDUP 0 = 0 := by decide
  obtain ⟨sz', s2, fl2, e, im2⟩ := execSegs_offender L ip (proc_pagetable s).1 fl0 s
    elf.phnum (proc_pagetable s).2 (elf.phoff % 2 ^ 32) 0 fl1 off im1
    (fun b _ hb => by rw [p0] at hb; omega) (by decide) ho
  rw [e, bind_ok]
  simp only [if_true]
  obtain ⟨s3, fl3, run, _, _, _⟩ := image_free L _ fl0 s s2 sz' fl2 im2
  unfold execBad proc_freepagetable
  rw [run, bind_ok]
  exact ⟨_, _, rfl, rfl⟩

/-! ## The examples for `exec` -/

/-- The state of the examples: the empty address space `demoSpace0` with root `demoPt`,
built from the eight free frames of `demoFree8`. -/
theorem demoSpace0_space : ∃ fl, Space demoLayout demoPt demoList8 demoSpace0 0 fl :=
  space_create demoLayout demoFree8 demoList8 demoPt demoSpace0 demoFree8_inv.1.alloc rfl
    (by rw [demoPt_eq]; decide)

/-- The run on the image whose segment has `memsz < filesz`: `exec` returns -1. -/
theorem demoBad_run :
    (exec demoLayout demoFiles demoSpace0 demoProc demoBadPath demoArgv).val? =
      some { ret := -1, p := demoProc, idx := [], ustack := [] } := by decide!

set_option maxRecDepth 100000 in
theorem demoBad_header :
    readElfhdr demoBadImage = some { magic := ELF_MAGIC, entry := 0, phoff := 64, phnum := 1 } := by
  rfl

theorem demoBad_offender : offender demoBadImage 1 (64 % 2 ^ 32) = some 64 := by decide!

/-! ### C24 -/

/-- C24. A failed `exec` leaves the calling process untouched: in a state where the
allocator and the page table of the calling process are well formed, if `exec` returns -1
then the process's page-table handle, its size, its name and the registers `epc`, `sp`,
`a1` are what they were before the call, every mapping of the process's address space is
unchanged, and no byte outside the frames that were free at the call has changed. -/
theorem exec_failure_untouched (L : Layout) (fs : Files) (s : KState) (p : Proc)
    (path : List Nat) (argv : List (List Nat)) (fl0 : List Nat) (r : ExecRet) (s' : KState)
    (inv : Inv L s p.pagetable fl0) (h : exec L fs s p path argv = .ok r s')
    (hr : r.ret = -1) :
    r.p.pagetable = p.pagetable ∧ r.p.sz = p.sz ∧ r.p.name = p.name ∧ r.p.epc = p.epc ∧
    r.p.sp = p.sp ∧ r.p.a1 = p.a1 ∧
    (∀ va, mapping s' p.pagetable va = mapping s p.pagetable va) ∧
    (∀ x, (∀ f, f ∈ fl0 → ¬ inPage f x) → s'.mem x = s.mem x) := by
  rcases exec_cases L fs s p path argv fl0 r s' inv.alloc h with
    ⟨_, hp, fl', _, _, ho⟩ | ⟨_, _, _, _, _, _, _, _, _, _, _, _, _, q, _⟩
  · rw [hp]
    refine ⟨rfl, rfl, rfl, rfl, rfl, rfl, ?_, ho⟩
    apply mapping_same s s' p.pagetable inv.table
    intro t ht x hx
    apply ho x
    intro f hf
    exact pages_disjoint t f x (isTable_aligned _ _ _ inv.table.root_al ht)
      (inv.alloc.frames f hf).1 (fun e => inv.sep t ht (e ▸ hf)) hx
  · rw [hr] at q
    omega

theorem exec_failure_untouched_witness :
    ∃ fl0 s', Inv demoLayout demoSpace0 demoProc.pagetable fl0 ∧
      exec demoLayout demoFiles demoSpace0 demoProc demoBadPath demoArgv =
        .ok { ret := -1, p := demoProc, idx := [], ustack := [] } s' ∧
      (∀ va, mapping s' demoProc.pagetable va = mapping demoSpace0 demoProc.pagetable va) ∧
      (∀ x, (∀ f, f ∈ fl0 → ¬ inPage f x) → s'.mem x = demoSpace0.mem x) := by
  obtain ⟨fl, sp⟩ := demoSpace0_space
  have run := val_ok _ _ demoEmpty demoBad_run
  have t := exec_failure_untouched demoLayout demoFiles demoSpace0 demoProc demoBadPath
    demoArgv fl _ _ sp.inv run rfl
  exact ⟨fl, _, sp.inv, run, t.2.2.2.2.2.2.1, t.2.2.2.2.2.2.2⟩

/-! ### C25 -/

/-- C25. `exec` rejects an invalid segment before allocating for it: in a state with a
well-formed allocator, for an image whose first offending loadable segment (the header at
offset `off`) has `memsz < filesz`, or `vaddr + memsz` wrapping past `2^64`, or a `vaddr`
that is not a multiple of 4096, the loop of `exec` stops at that header with the state
as it was (neither `uvmalloc` nor `loadseg` runs for it), `exec` returns -1, and the
allocator's free frames after the call are those before it: the same frames, the same
count, the same value of `get_free_mem`. -/
theorem exec_rejects_invalid_segment (L : Layout) (fs : Files) (s : KState) (p : Proc)
    (path : List Nat) (argv : List (List Nat)) (fl0 : List Nat) (ip : Inode) (elf : Elfhdr)
    (off : Nat) (ok : AllocOK L s fl0) (hf : fs path = some ip)
    (he : readElfhdr ip = some elf)
    (ho : offender ip elf.phnum (elf.phoff % 2 ^ 32) = some off) :
    (∃ ph, readProghdr ip off = some ph ∧ ph.type = ELF_PROG_LOAD ∧
      (ph.memsz < ph.filesz ∨ 2 ^ 64 ≤ ph.vaddr + ph.memsz ∨ ph.vaddr % 4096 ≠ 0) ∧
      ∀ (pt m : Nat) (s1 : KState) (sz : Nat),
        execSegs L ip pt (m + 1) s1 off sz = .ok (false, sz) s1) ∧
    ∃ r s' fl', exec L fs s p path argv = .ok r s' ∧ r.ret = -1 ∧ r.p = p ∧
      AllocOK L s' fl' ∧ (∀ f, f ∈ fl' ↔ f ∈ fl0) ∧ fl'.length = fl0.length ∧
      (get_free_mem s').val? = (get_free_mem s).val? := by
  constructor
  · obtain ⟨ph, h1, h2, h3, h4⟩ := offender_rejects ip _ _ off ho
    exact ⟨ph, h1, h2, h3, fun pt m s1 sz => h4 L pt m s1 sz⟩
  · obtain ⟨r, s', run, hr⟩ := exec_offender L fs s p path argv fl0 ip elf off ok hf he ho
    rcases exec_cases L fs s p path argv fl0 r s' ok run with
      ⟨_, hp, fl', ok', hm, _⟩ | ⟨_, _, _, _, _, _, _, _, _, _, _, _, _, q, _⟩
    · obtain ⟨l1, l2⟩ := same_frames L s s' fl0 fl' ok ok' hm
      exact ⟨r, s', fl', run, hr, hp, ok', hm, l1, l2⟩
    · rw [hr] at q
      omega

theorem exec_rejects_invalid_segment_witness :
    ∃ fl0, AllocOK demoLayout demoSpace0 fl0 ∧
      (∃ ph, readProghdr demoBadImage 64 = some ph ∧ ph.type = ELF_PROG_LOAD ∧
        (ph.memsz < ph.filesz ∨ 2 ^ 64 ≤ ph.vaddr + ph.memsz ∨ ph.vaddr % 4096 ≠ 0) ∧
        ∀ (pt m : Nat) (s1 : KState) (sz : Nat),
          execSegs demoLayout demoBadImage pt (m + 1) s1 64 sz = .ok (false, sz) s1) ∧
      ∃ r s' fl', exec demoLayout demoFiles demoSpace0 demoProc demoBadPath demoArgv
          = .ok r s' ∧ r.ret = -1 ∧ r.p = demoProc ∧
        AllocOK demoLayout s' fl' ∧ (∀ f, f ∈ fl' ↔ f ∈ fl0) ∧ fl'.length = fl0.length ∧
        (get_free_mem s').val? = (get_free_mem demoSpace0).val? := by
  obtain ⟨fl, sp⟩ := demoSpace0_space
  exact ⟨fl, sp.inv.alloc, exec_rejects_invalid_segment demoLayout demoFiles demoSpace0
    demoProc demoBadPath demoArgv fl demoBadImage
    { magic := ELF_MAGIC, entry := 0, phoff := 64, phnum := 1 } 64 sp.inv.alloc rfl
    demoBad_header demoBad_offender⟩

/-! ### Reading the stack of a successful `exec` -/

theorem map_range_getD (f : Nat → Nat) (n i : Nat) (h : i < n) :
    ((List.range n).map f).getD i 0 = f i := by
  rw [List.getD_eq_getElem?_getD, List.getElem?_map, List.getElem?_range h]
  rfl

/-- A little-endian load of bytes that are the digits of `w` yields `w`. -/
theorem rdLE_digits (m : Mem) : ∀ (n a w : Nat),
    (∀ t, t < n → m (a + t) % 256 = w / 256 ^ t % 256) → rdLE m n a = w % 256 ^ n := by
  intro n
  induction n with
  | zero => intro a w _; simp [rdLE, Nat.mod_one]
  | succ k ih =>
    intro a w h
    rw [rdLE, ih (a + 1) (w / 256) (fun t ht => by
      have := h (t + 1) (by omega)
      rw [Nat.add_assoc, Nat.add_comm 1 t, this, pow_succ, Nat.mul_comm,
        Nat.div_div_eq_div_mul])]
    have h0 := h 0 (by omega)
    rw [Nat.add_zero, pow_zero, Nat.div_one] at h0
    unfold rd8
    rw [h0, pow_succ, Nat.mul_comm (256 ^ k) 256, Nat.mod_mul]

/-- `copyinstr` on a string that ends within `max` bytes. -/
theorem copyinstr_nul (s : KState) (pt : Nat) (dst : Buf) (srcva max j : Nat) (hj : j < max)
    (htr : ∀ i, i ≤ j → xlate s pt (PGROUNDDOWN (srcva + i)) ≠ 0)
    (hz : userByte s pt (srcva + j) = 0)
    (hnz : ∀ i, i < j → userByte s pt (srcva + i) ≠ 0) :
    ∃ dst', copyinstr s pt dst srcva max = .ok (0, dst') s ∧
      ∀ i, dst' i = if i ≤ j then userByte s pt (srcva + i) else dst i := by
  obtain ⟨dst', e, hd⟩ := copyinstrLoop_nul s pt (MAXVA / PGSIZE) srcva
    { got_null := false, dst := dst, di := 0, max := max } j rfl hj htr hz hnz
    (fuel_enough srcva)
  refine ⟨dst', e, fun i => ?_⟩
  have hd' : dst' i = if 0 ≤ i ∧ i ≤ 0 + j then userByte s pt (srcva + (i - 0))
      else dst i := hd i
  rw [hd']
  by_cases hi : i ≤ j
  · rw [if_pos ⟨Nat.zero_le _, by omega⟩, if_pos hi, Nat.sub_zero]
  · rw [if_neg (fun c => hi (by have := c.2; omega)), if_neg hi]

/-- The final state of a successful `exec`: freeing the old address space left the new
image as it was pushed. -/
theorem pushed_final (L : Layout) (pt : Nat) (fl0 : List Nat) (s0 s6 : KState) (sz : Nat)
    (fl6 : List Nat) (argv : List (List Nat)) (sp : Nat) (ustack : Nat → Nat)
    (pu : Pushed L pt fl0 s0 s6 sz fl6 argv sp ustack) (s' : KState)
    (hf : ∀ f, f ∈ fl0 → SamePage s6.mem s'.mem f) :
    TableOK s'.mem pt ∧ (∀ vb, leafOf s'.mem pt vb = leafOf s6.mem pt vb) ∧
    (∀ va, xlate s' pt va = xlate s6 pt va) ∧
    (∀ q, IsTable s'.mem pt q ↔ IsTable s6.mem pt q) ∧
    (∀ va, sz - 4096 ≤ va → va < sz →
      userByte s' pt va = rd8 s6.mem (PTE2PA (leafOf s6.mem pt (sz - 4096)) +
        (va - (sz - 4096)))) := by
  have sp6 := pu.stacked.image.space
  have ht : ∀ q, IsTable s6.mem pt q → SamePage s6.mem s'.mem q :=
    fun q hq => hf q (sp6.tables q hq)
  have hu : ∀ q, IsUpper s6.mem pt q → SamePage s6.mem s'.mem q := fun q hq => ht q (Or.inl hq)
  have hx : ∀ va, xlate s' pt va = xlate s6 pt va := by
    intro va
    rw [xlate_eq, xlate_eq]
    exact walkaddrVal_same _ _ _ ht va
  obtain ⟨f1, f2, f3, f4, f5, f6, f7⟩ := stacked_frame L pt fl0 s0 s6 sz fl6 pu.stacked
  have h2 := pu.stacked.two
  have hal := pu.stacked.aligned
  refine ⟨tableOK_same _ _ pt hu sp6.inv.table, leafOf_same _ _ pt ht, hx,
    isTable_same _ _ pt hu, fun va h1 h3 => ?_⟩
  unfold userByte
  have hg : PGROUNDDOWN va = sz - 4096 :=
    PGROUNDDOWN_eq (sz - 4096) va (by omega) h1 (by omega)
  rw [hg, hx, (f3 (sz - 4096) (Nat.le_refl _) (by omega)).1]
  apply rd8_congr
  apply hf _ f7
  unfold inPage PGSIZE
  omega

/-! ### C22 -/

/-- The run of the loader test: `exec("/echo", ["echo", "hi"])` returns 2, with the new
page table `0x87006000`, size 12288 and stack pointer 12224. -/
theorem demoExec_run :
    (exec demoLayout demoFiles demoSpace0 demoProc demoPath demoArgv).val? =
      some { ret := 2,
             p := { pagetable := 0x87006000, sz := 12288, name := [101, 99, 104, 111],
                    epc := 0, sp := 12224, a1 := 12224 },
             idx := [0, 1, 2, 0, 1, 2], ustack := [12272, 12256, 0] } := by decide!

/-- C22. The stack pointer `exec` returns is aligned and inside the stack page: in a state
with a well-formed allocator, when `exec` succeeds the final stack pointer, stored in the
trapframe registers `sp` and `a1`, satisfies `sp % 16 = 0` and `stackbase ≤ sp < sz`, where
`sz` is the new process size and `stackbase = sz - 4096`; and each of the `argc` recorded
argument-string addresses is 16-byte aligned and lies in `[stackbase, sz)`. -/
theorem exec_stack_pointer (L : Layout) (fs : Files) (s : KState) (p : Proc)
    (path : List Nat) (argv : List (List Nat)) (fl0 : List Nat) (r : ExecRet) (s' : KState)
    (ok : AllocOK L s fl0) (h : exec L fs s p path argv = .ok r s') (hr : r.ret ≠ -1) :
    r.p.sp % 16 = 0 ∧ r.p.a1 = r.p.sp ∧ 4096 ≤ r.p.sz ∧ r.p.sz - 4096 ≤ r.p.sp ∧
    r.p.sp < r.p.sz ∧ r.ret = (argv.length : Int) ∧ r.ustack.length = argv.length + 1 ∧
    ∀ i, i < argv.length → r.ustack.getD i 0 % 16 = 0 ∧
      r.p.sz - 4096 ≤ r.ustack.getD i 0 ∧ r.ustack.getD i 0 < r.p.sz := by
  rcases exec_cases L fs s p path argv fl0 r s' ok h with
    ⟨c, _⟩ | ⟨ip, elf, lsz, s2, s6, fl6, ustack, _, _, _, _, _, pu, q2, q3, q4, _⟩
  · exact absurd c hr
  have e1 : r.p.a1 = r.p.sp := congrArg Proc.a1 q3
  have e2 : r.p.sz = PGROUNDUP lsz + 8192 := congrArg Proc.sz q3
  have h1 := pu.sp_aligned
  have h2 := pu.sp_low
  have h3 := pu.array_top
  rw [e2]
  refine ⟨h1, e1, by omega, h2, by omega, q2, by rw [q4]; simp, fun i hi => ?_⟩
  rw [q4, map_range_getD _ _ _ (by omega), if_neg (by omega)]
  obtain ⟨b1, b2, _, _⟩ := pu.strings i hi
  have b3 := pu.below i hi
  exact ⟨b1, by omega, by omega⟩

theorem exec_stack_pointer_witness :
    ∃ fl0 r s', AllocOK demoLayout demoSpace0 fl0 ∧
      exec demoLayout demoFiles demoSpace0 demoProc demoPath demoArgv = .ok r s' ∧
      r.ret = 2 ∧ r.p.sz = 12288 ∧ r.p.sp = 12224 ∧ r.ustack = [12272, 12256, 0] ∧
      (r.p.sp % 16 = 0 ∧ r.p.a1 = r.p.sp ∧ 4096 ≤ r.p.sz ∧ r.p.sz - 4096 ≤ r.p.sp ∧
        r.p.sp < r.p.sz ∧ r.ret = (demoArgv.length : Int) ∧
        r.ustack.length = demoArgv.length + 1 ∧
        ∀ i, i < demoArgv.length → r.ustack.getD i 0 % 16 = 0 ∧
          r.p.sz - 4096 ≤ r.ustack.getD i 0 ∧ r.ustack.getD i 0 < r.p.sz) := by
  obtain ⟨fl, sp⟩ := demoSpace0_space
  have run := val_ok _ _ demoEmpty demoExec_run
  exact ⟨fl, _, _, sp.inv.alloc, run, rfl, rfl, rfl, rfl,
    exec_stack_pointer demoLayout demoFiles demoSpace0 demoProc demoPath demoArgv fl _ _
      sp.inv.alloc run (by decide)⟩

/-! ### C27 -/

/-- A successful `exec`, with the old address space well formed: the pushed image, and
the final state in which its frames are as they were pushed. -/
theorem exec_success (L : Layout) (fs : Files) (s : KState) (p : Proc) (path : List Nat)
    (argv : List (List Nat)) (fl0 : List Nat) (r : ExecRet) (s' : KState)
    (old : Proper L s p.pagetable p.sz fl0) (h : exec L fs s p path argv = .ok r s')
    (hr : r.ret ≠ -1) :
    ∃ ip elf lsz s2 s6 fl6 ustack,
      fs path = some ip ∧ readElfhdr ip = some elf ∧
      execSegs L ip r.p.pagetable elf.phnum (proc_pagetable s).2
        (elf.phoff % 2 ^ 32) 0 = .ok (true, lsz) s2 ∧ lsz < PLIC ∧
      Pushed L r.p.pagetable fl0 s s6 r.p.sz fl6 argv r.p.sp ustack ∧
      r.p.sz = PGROUNDUP lsz + 8192 ∧ r.ret = (argv.length : Int) ∧
      r.ustack = (List.range (argv.length + 1)).map
        (fun j => if j = argv.length then 0 else ustack j) ∧
      ∀ f, f ∈ fl0 → SamePage s6.mem s'.mem f := by
  rcases exec_cases L fs s p path argv fl0 r s' old.inv.alloc h with
    ⟨c, _⟩ | ⟨ip, elf, lsz, s2, s6, fl6, ustack, hf, hel, _, hs, hlow, pu, q2, q3, q4, q5⟩
  · exact absurd c hr
  have e1 : r.p.pagetable = (proc_pagetable s).1 := congrArg Proc.pagetable q3
  have e2 : r.p.sz = PGROUNDUP lsz + 8192 := congrArg Proc.sz q3
  have sp6 := pu.stacked.image.space
  obtain ⟨s'', run, hfr⟩ := old_free L s p.pagetable p.sz fl0 old s6 fl6 sp6.inv.alloc
    sp6.sub pu.stacked.image.outside
  rw [q5] at run
  have e3 := (ok_inj _ _ _ _ run).2
  rw [← e3] at hfr
  rw [e1, e2]
  exact ⟨ip, elf, lsz, s2, s6, fl6, ustack, hf, hel, hs, hlow, pu, rfl, q2, q4, hfr⟩

/-- C27. `exec` builds a guard page below the stack: in a state where the allocator and
the address space of the calling process are well formed, after a successful `exec` with
final size `sz`, `sz` is the page-rounded loaded size (the size the segment loop reached)
plus exactly `2*4096`; every address of the page `[sz - 8192, sz - 4096)` is mapped with
the user bit clear, so `walkaddr` returns 0 and `copyin` and `copyout` of a non-empty range
starting there return -1; and every address of the page `[sz - 4096, sz)` is mapped
valid, readable, writable and user-accessible. -/
theorem exec_guard_page (L : Layout) (fs : Files) (s : KState) (p : Proc) (path : List Nat)
    (argv : List (List Nat)) (fl0 : List Nat) (r : ExecRet) (s' : KState)
    (old : Proper L s p.pagetable p.sz fl0) (h : exec L fs s p path argv = .ok r s')
    (hr : r.ret ≠ -1) :
    (∃ ip elf lsz s2, fs path = some ip ∧ readElfhdr ip = some elf ∧
      execSegs L ip r.p.pagetable elf.phnum (proc_pagetable s).2
        (elf.phoff % 2 ^ 32) 0 = .ok (true, lsz) s2 ∧
      r.p.sz = PGROUNDUP lsz + 2 * 4096) ∧
    (∀ va, r.p.sz - 8192 ≤ va → va < r.p.sz - 4096 →
      (∃ f flags, mapping s' r.p.pagetable va = some (f, flags) ∧ flags / 16 % 2 = 0) ∧
      walkaddr s' r.p.pagetable va = .ok 0 s' ∧
      (∀ dst len, 0 < len → ∃ dst', copyin s' r.p.pagetable dst va len = .ok (-1, dst') s') ∧
      (∀ src len, 0 < len → ∃ s'', copyout s' r.p.pagetable va src len = .ok (-1) s'')) ∧
    (∀ va, r.p.sz - 4096 ≤ va → va < r.p.sz →
      ∃ f flags, mapping s' r.p.pagetable va = some (f, flags) ∧ flags % 2 = 1 ∧
        flags / 2 % 2 = 1 ∧ flags / 4 % 2 = 1 ∧ flags / 16 % 2 = 1) := by
  obtain ⟨ip, elf, lsz, s2, s6, fl6, ustack, hf, hel, hs, hlow, pu, e2, _, _, hfr⟩ :=
    exec_success L fs s p path argv fl0 r s' old h hr
  obtain ⟨tok, lf, hx, it, _⟩ := pushed_final L _ fl0 s s6 _ fl6 argv _ ustack pu s' hfr
  obtain ⟨f1, f2, f3, f4, f5, f6, f7⟩ := stacked_frame L _ fl0 s s6 _ fl6 pu.stacked
  have st := pu.stacked
  have sp6 := st.image.space
  have h2 := st.two
  have hal := st.aligned
  refine ⟨⟨ip, elf, lsz, s2, hf, hel, hs, by omega⟩, fun va v1 v2 => ?_, fun va v1 v2 => ?_⟩
  · have hg : PGROUNDDOWN va = r.p.sz - 8192 :=
      PGROUNDDOWN_eq (r.p.sz - 8192) va (by omega) v1 (by omega)
    have hvm : va < MAXVA := by omega
    have hl : leafOf s'.mem r.p.pagetable va = leafOf s6.mem r.p.pagetable (r.p.sz - 8192) := by
      rw [lf, leafOf_page _ _ va hvm, hg]
    have m1 := (sp6.mapped (r.p.sz - 8192) (by omega) (by rw [f1]; omega)).1
    have g1 := st.guard
    have hx0 : xlate s' r.p.pagetable va = 0 := by rw [hx]; exact f5 va v1 v2
    refine ⟨⟨PTE2PA (leafOf s6.mem r.p.pagetable (r.p.sz - 8192)),
      PTE_FLAGS (leafOf s6.mem r.p.pagetable (r.p.sz - 8192)), ?_, ?_⟩, ?_,
      fun dst len hlen => ?_, fun src len hlen => ?_⟩
    · rw [mapping_leaf s' _ va tok hvm, hl, if_neg (by omega)]
    · unfold PTE_FLAGS
      omega
    · rw [walkaddr_val, hx0]
    · obtain ⟨c, dst', e, hc⟩ := copyin_spec s' r.p.pagetable dst va len
      have hp := PGROUNDDOWN_spec va
      rcases hc with ⟨c1, _⟩ | ⟨_, c2, _⟩
      · rw [c1] at e; exact ⟨dst', e⟩
      · exfalso
        apply c2 (PGROUNDDOWN va) ⟨hp.1, by omega, by unfold PGSIZE; omega, hlen⟩
        rw [hx, hg]
        exact f5 _ (Nat.le_refl _) (by omega)
    · obtain ⟨c, s'', e, _, _, hc⟩ := copyout_spec s' r.p.pagetable va src len tok.root_al
        (fun q hq hxq => by
          rw [hx] at hxq ⊢
          rw [it]
          exact (image_xlate_ne L _ fl0 s s6 _ fl6 st.image q hq.1 hxq).2.2)
      have hp := PGROUNDDOWN_spec va
      rcases hc with ⟨c1, _⟩ | ⟨_, c2, _⟩
      · rw [c1] at e; exact ⟨s'', e⟩
      · exfalso
        apply c2 (PGROUNDDOWN va) ⟨hp.1, by omega, by unfold PGSIZE; omega, hlen⟩
        rw [hx, hg]
        exact f5 _ (Nat.le_refl _) (by omega)
  · have hg : PGROUNDDOWN va = r.p.sz - 4096 :=
      PGROUNDDOWN_eq (r.p.sz - 4096) va (by omega) v1 (by omega)
    have hvm : va < MAXVA := by omega
    have hl : leafOf s'.mem r.p.pagetable va = leafOf s6.mem r.p.pagetable (r.p.sz - 4096) := by
      rw [lf, leafOf_page _ _ va hvm, hg]
    have m1 := (sp6.mapped (r.p.sz - 4096) (by omega) (by rw [f1]; omega)).1
    have m2 := st.image.readable (r.p.sz - 4096) (by omega) (by rw [f1]; omega)
    obtain ⟨g1, g2⟩ := st.stack
    refine ⟨PTE2PA (leafOf s6.mem r.p.pagetable (r.p.sz - 4096)),
      PTE_FLAGS (leafOf s6.mem r.p.pagetable (r.p.sz - 4096)), ?_, ?_⟩
    · rw [mapping_leaf s' _ va tok hvm, hl, if_neg (by omega)]
    · unfold PTE_FLAGS
      omega

theorem exec_guard_page_witness :
    ∃ fl0 r s', Proper demoLayout demoSpace0 demoProc.pagetable demoProc.sz fl0 ∧
      exec demoLayout demoFiles demoSpace0 demoProc demoPath demoArgv = .ok r s' ∧
      r.p.sz = 12288 ∧
      (∃ ip elf lsz s2, demoFiles demoPath = some ip ∧ readElfhdr ip = some elf ∧
        execSegs demoLayout ip r.p.pagetable elf.phnum (proc_pagetable demoSpace0).2
          (elf.phoff % 2 ^ 32) 0 = .ok (true, lsz) s2 ∧
        r.p.sz = PGROUNDUP lsz + 2 * 4096) ∧
      (∀ va, r.p.sz - 8192 ≤ va → va < r.p.sz - 4096 →
        (∃ f flags, mapping s' r.p.pagetable va = some (f, flags) ∧ flags / 16 % 2 = 0) ∧
        walkaddr s' r.p.pagetable va = .ok 0 s' ∧
        (∀ dst len, 0 < len →
          ∃ dst', copyin s' r.p.pagetable dst va len = .ok (-1, dst') s') ∧
        (∀ src len, 0 < len →
          ∃ s'', copyout s' r.p.pagetable va src len = .ok (-1) s'')) ∧
      (∀ va, r.p.sz - 4096 ≤ va → va < r.p.sz →
        ∃ f flags, mapping s' r.p.pagetable va = some (f, flags) ∧ flags % 2 = 1 ∧
          flags / 2 % 2 = 1 ∧ flags / 4 % 2 = 1 ∧ flags / 16 % 2 = 1) := by
  obtain ⟨fl, sp⟩ := demoSpace0_space
  have pr := proper_of_space demoLayout demoPt demoList8 demoSpace0 0 fl sp
  have run := val_ok _ _ demoEmpty demoExec_run
  exact ⟨fl, _, _, pr, run, rfl,
    exec_guard_page demoLayout demoFiles demoSpace0 demoProc demoPath demoArgv fl _ _
      pr run (by decide)⟩

/-! ### C23 -/

theorem strBuf_byte (a : List Nat) (hstr : ∀ c, c ∈ a → 0 < c ∧ c < 256) (k : Nat) :
    strBuf a k % 256 = a.getD k 0 ∧ (k < a.length → a.getD k 0 ≠ 0) ∧
    (k = a.length → a.getD k 0 = 0) := by
  unfold strBuf
  by_cases hk : k < a.length
  · have e : a.getD k 0 = a[k] := by
      rw [List.getD_eq_getElem?_getD, List.getElem?_eq_getElem hk]
      rfl
    have hm := hstr a[k] (List.getElem_mem _)
    rw [e]
    exact ⟨Nat.mod_eq_of_lt hm.2, fun _ => by omega, fun c => by omega⟩
  · have e : a.getD k 0 = 0 := by
      rw [List.getD_eq_getElem?_getD, List.getElem?_eq_none (by omega)]
      rfl
    rw [e]
    exact ⟨rfl, fun c => absurd c hk, fun _ => rfl⟩

theorem wordsBuf_digit (u : Nat → Nat) (j t : Nat) (ht : t < 8) (hu : u j < 2 ^ 64) :
    wordsBuf u (8 * j + t) = u j / 256 ^ t % 256 := by
  unfold wordsBuf
  have e1 : (8 * j + t) / 8 = j := by omega
  have e2 : (8 * j + t) % 8 = t := by omega
  rw [e1, e2, Nat.mod_eq_of_lt hu]

/-- C23. The argument block of `exec` reads back as `argv`: in a state where the
allocator and the address space of the calling process are well formed, after a
successful `exec` with argument strings `a_0 .. a_(n-1)` (bytes 1..255), `exec` has
returned `n`; `copyin` of `n+1` 64-bit words from the returned stack pointer returns 0 and
yields `n` non-zero addresses followed by 0; for every `i < n`, `copyinstr` at the `i`-th
address returns 0 and yields exactly the bytes of `a_i` and its terminating NUL; and the
byte ranges are pairwise disjoint: each string ends at or below the start of the one
pushed before it, and the pointer array ends at or below the start of every string. -/
theorem exec_args_read_back (L : Layout) (fs : Files) (s : KState) (p : Proc)
    (path : List Nat) (argv : List (List Nat)) (fl0 : List Nat) (r : ExecRet) (s' : KState)
    (old : Proper L s p.pagetable p.sz fl0)
    (hstr : ∀ a, a ∈ argv → ∀ c, c ∈ a → 0 < c ∧ c < 256)
    (h : exec L fs s p path argv = .ok r s') (hr : r.ret ≠ -1) :
    r.ret = (argv.length : Int) ∧
    ∃ addr : Nat → Nat,
      (∀ dst, ∃ dst', copyin s' r.p.pagetable dst r.p.sp ((argv.length + 1) * 8)
          = .ok (0, dst') s' ∧
        (∀ i, i < argv.length → rdLE dst' 8 (8 * i) = addr i) ∧
        rdLE dst' 8 (8 * argv.length) = 0) ∧
      (∀ i, i < argv.length → addr i ≠ 0) ∧
      (∀ i, i < argv.length → ∀ dst max, (argv.getD i []).length < max →
        ∃ dst', copyinstr s' r.p.pagetable dst (addr i) max = .ok (0, dst') s' ∧
          ∀ k, dst' k = if k ≤ (argv.getD i []).length then (argv.getD i []).getD k 0
                        else dst k) ∧
      (∀ i j, i < j → j < argv.length →
        addr j + (argv.getD j []).length + 1 ≤ addr i) ∧
      (∀ i, i < argv.length → r.p.sp + (argv.length + 1) * 8 ≤ addr i) := by
  obtain ⟨ip, elf, lsz, s2, s6, fl6, ustack, hf, hel, hs, hlow, pu, e2, q2, _, hfr⟩ :=
    exec_success L fs s p path argv fl0 r s' old h hr
  obtain ⟨tok, lf, hx, it, hub⟩ := pushed_final L _ fl0 s s6 _ fl6 argv _ ustack pu s' hfr
  obtain ⟨f1, f2, f3, f4, f5, f6, f7⟩ := stacked_frame L _ fl0 s s6 _ fl6 pu.stacked
  have st := pu.stacked
  have h2 := st.two
  have hal := st.aligned
  have hlo := pu.sp_low
  have htop := pu.array_top
  have hmax : MAXVA = 2 ^ 38 := rfl
  have hxs : ∀ va, r.p.sz - 4096 ≤ va → va < r.p.sz →
      xlate s' r.p.pagetable (PGROUNDDOWN va) ≠ 0 := by
    intro va v1 v2
    have hg : PGROUNDDOWN va = r.p.sz - 4096 :=
      PGROUNDDOWN_eq (r.p.sz - 4096) va (by omega) v1 (by omega)
    rw [hg, hx]
    exact (f3 _ (Nat.le_refl _) (by omega)).2
  refine ⟨q2, ustack, fun dst => ?_, fun i hi => ?_, fun i hi dst max hmx => ?_,
    fun i j hij hj => ?_, fun i hi => pu.below i hi⟩
  · obtain ⟨c, dst', e, hc⟩ := copyin_spec s' r.p.pagetable dst r.p.sp
      ((argv.length + 1) * 8)
    rcases hc with ⟨_, q, hq, hq0⟩ | ⟨c0, _, hd⟩
    · exfalso
      have hqe : q = r.p.sz - 4096 := by
        unfold touches PGSIZE at hq
        omega
      have := hxs (r.p.sz - 4096) (Nat.le_refl _) (by omega)
      rw [PGROUNDDOWN_eq (r.p.sz - 4096) (r.p.sz - 4096) (by omega) (Nat.le_refl _)
        (by omega)] at this
      rw [hqe] at hq0
      exact this hq0
    rw [c0] at e
    have hword : ∀ j, j ≤ argv.length → rdLE dst' 8 (8 * j) =
        (if j = argv.length then 0 else ustack j) := by
      intro j hj
      have hw : (if j = argv.length then 0 else ustack j) < 2 ^ 64 := by
        by_cases cj : j = argv.length
        · rw [if_pos cj]; norm_num
        · rw [if_neg cj]
          have := (pu.strings j (by omega)).2.1
          omega
      rw [rdLE_digits dst' 8 (8 * j) _ (fun t ht => ?_)]
      · exact Nat.mod_eq_of_lt (by norm_num; exact hw)
      · rw [hd (8 * j + t), if_pos ⟨Nat.zero_le _, by omega⟩, Nat.sub_zero,
          hub _ (by omega) (by omega)]
        have ea : PTE2PA (leafOf s6.mem r.p.pagetable (r.p.sz - 4096)) +
            (r.p.sp + (8 * j + t) - (r.p.sz - 4096)) =
            PTE2PA (leafOf s6.mem r.p.pagetable (r.p.sz - 4096)) +
            (r.p.sp - (r.p.sz - 4096)) + (8 * j + t) := by omega
        rw [ea, pu.array (8 * j + t) (by omega), Nat.mod_mod,
          wordsBuf_digit _ j t ht hw, Nat.mod_mod]
    refine ⟨dst', e, fun i hi => ?_, ?_⟩
    · rw [hword i (by omega), if_neg (by omega)]
    · rw [hword _ (Nat.le_refl _), if_pos rfl]
  · have := pu.below i hi
    omega
  · obtain ⟨b1, b2, b3, b4⟩ := pu.strings i hi
    have b0 := pu.below i hi
    have hmem : argv.getD i [] ∈ argv := by
      have e : argv.getD i [] = argv[i] := by
        rw [List.getD_eq_getElem?_getD, List.getElem?_eq_getElem hi]
        rfl
      rw [e]
      exact List.getElem_mem _
    have hs' := hstr _ hmem
    have hbyte : ∀ k, k ≤ (argv.getD i []).length →
        userByte s' r.p.pagetable (ustack i + k) = (argv.getD i []).getD k 0 := by
      intro k hk
      rw [hub _ (by omega) (by omega)]
      have ea : PTE2PA (leafOf s6.mem r.p.pagetable (r.p.sz - 4096)) +
          (ustack i + k - (r.p.sz - 4096)) =
          PTE2PA (leafOf s6.mem r.p.pagetable (r.p.sz - 4096)) +
          (ustack i - (r.p.sz - 4096)) + k := by omega
      rw [ea, b4 k hk]
      exact (strBuf_byte _ hs' k).1
    obtain ⟨dst', e, hd⟩ := copyinstr_nul s' r.p.pagetable dst (ustack i) max
      (argv.getD i []).length hmx
      (fun k hk => hxs _ (by omega) (by omega))
      (by rw [hbyte _ (Nat.le_refl _)]; exact (strBuf_byte _ hs' _).2.2 rfl)
      (fun k hk => by rw [hbyte k (by omega)]; exact (strBuf_byte _ hs' k).2.1 hk)
    refine ⟨dst', e, fun k => ?_⟩
    rw [hd k]
    by_cases ck : k ≤ (argv.getD i []).length
    · rw [if_pos ck, if_pos ck, hbyte k ck]
    · rw [if_neg ck, if_neg ck]
  · exact (pu.strings i (by omega)).2.2.1 j hij hj

theorem exec_args_read_back_witness :
    ∃ fl0 r s', Proper demoLayout demoSpace0 demoProc.pagetable demoProc.sz fl0 ∧
      exec demoLayout demoFiles demoSpace0 demoProc demoPath demoArgv = .ok r s' ∧
      r.p.sp = 12224 ∧ r.ret = 2 ∧
      r.ret = (demoArgv.length : Int) ∧
      ∃ addr : Nat → Nat,
        (∀ dst, ∃ dst', copyin s' r.p.pagetable dst r.p.sp ((demoArgv.length + 1) * 8)
            = .ok (0, dst') s' ∧
          (∀ i, i < demoArgv.length → rdLE dst' 8 (8 * i) = addr i) ∧
          rdLE dst' 8 (8 * demoArgv.length) = 0) ∧
        (∀ i, i < demoArgv.length → addr i ≠ 0) ∧
        (∀ i, i < demoArgv.length → ∀ dst max, (demoArgv.getD i []).length < max →
          ∃ dst', copyinstr s' r.p.pagetable dst (addr i) max = .ok (0, dst') s' ∧
            ∀ k, dst' k = if k ≤ (demoArgv.getD i []).length
                          then (demoArgv.getD i []).getD k 0 else dst k) ∧
        (∀ i j, i < j → j < demoArgv.length →
          addr j + (demoArgv.getD j []).length + 1 ≤ addr i) ∧
        (∀ i, i < demoArgv.length → r.p.sp + (demoArgv.length + 1) * 8 ≤ addr i) := by
  obtain ⟨fl, sp⟩ := demoSpace0_space
  have pr := proper_of_space demoLayout demoPt demoList8 demoSpace0 0 fl sp
  have run := val_ok _ _ demoEmpty demoExec_run
  exact ⟨fl, _, _, pr, run, rfl, rfl,
    exec_args_read_back demoLayout demoFiles demoSpace0 demoProc demoPath demoArgv fl _ _
      pr (by decide) run (by decide)⟩

/-! ### `uvmalloc` with enough free frames -/

/-- The walk of the last level with its count: at most one frame is taken, and the walk
succeeds when there is one. -/
theorem walk1_alloc_len (L : Layout) (s : KState) (pt va : Nat) (fl : List Nat) (r : Nat)
    (s' : KState) (inv : Inv L s pt fl) (hv1 : has1 s.mem pt va)
    (h : walkLevels 1 s (tbl1 s.mem pt va) va true = .ok r s') :
    ∃ fl', Grown L pt s fl s' fl' ∧
      (r ≠ 0 → has0 s'.mem pt va ∧ r = slot0 s'.mem pt va) ∧
      fl.length ≤ fl'.length + 1 ∧ (fl ≠ [] → r ≠ 0) := by
  by_cases hv0 : has0 s.mem pt va
  · have hx : rd64 s.mem (tbl1 s.mem pt va + 8 * PX (0 + 1) va) % 2 = 1 := hv0.2
    rw [walkLevels_valid 0 s _ va true hx, walkLevels] at h
    injection h with h1 h2
    subst h2
    have hne : r ≠ 0 := by
      have := (inv.table.t0_ne va hv0).2
      have e : r = tbl0 s.mem pt va + 8 * PX 0 va := h1.symm
      omega
    exact ⟨fl, grown_refl L pt s fl inv, fun _ => ⟨hv0, h1.symm⟩, by omega, fun _ => hne⟩
  · have hx : ¬ rd64 s.mem (tbl1 s.mem pt va + 8 * PX (0 + 1) va) % 2 = 1 :=
      fun c => hv0 ⟨hv1, c⟩
    cases fl with
    | nil =>
      rw [walkLevels_fail 0 s s _ va hx (kalloc_nil L s inv.alloc)] at h
      injection h with h1 h2
      subst h2
      exact ⟨[], grown_refl L pt s [] inv, fun c => absurd h1.symm c, by simp,
        fun c => absurd rfl c⟩
    | cons f rest =>
      obtain ⟨hk, _⟩ := kalloc_cons L s f rest inv.alloc
      have hf := inv.alloc.frames f (List.mem_cons_self _ _)
      have hk0 := inv.alloc.kend_pos
      have ht := inv.alloc.top
      have hf0 : f ≠ 0 := by omega
      rw [walkLevels_link 0 s _ _ va f hx hk hf0, walkLevels] at h
      injection h with h1 h2
      have hnt : ¬ IsTable s.mem pt f := fun c => inv.sep f c (List.mem_cons_self _ _)
      obtain ⟨ok', a0, t0, it, lf⟩ :=
        link0 s.mem pt va f inv.table hv1 hv0 hf.1 (by omega) hf0 hnt
      have g := grown_link L pt s f rest (tbl1 s.mem pt va) (PX 1 va) inv
        (Or.inl (tbl1_isUpper _ _ _ hv1)) (PX_lt 1 va) ok' it lf
      have es : s' = KState.mk (linkMem s.mem f (tbl1 s.mem pt va + 8 * PX 1 va))
          (rd64 s.mem f) := h2.symm
      rw [es]
      refine ⟨rest, g, fun _ => ⟨a0, ?_⟩, by simp, fun _ => by omega⟩
      rw [← h1]
      show f + 8 * PX 0 va =
        tbl0 (linkMem s.mem f (slot1 s.mem pt va)) pt va + 8 * PX 0 va
      rw [t0]

/-- The allocating `walk` with its count: at most two frames are taken, and the walk
succeeds when there are two. -/
theorem walk_alloc_len (L : Layout) (s : KState) (pt va : Nat) (fl : List Nat) (r : Nat)
    (s' : KState) (inv : Inv L s pt fl) (h : walk s pt va true = .ok r s') :
    ∃ fl', Grown L pt s fl s' fl' ∧
      (r ≠ 0 → has0 s'.mem pt va ∧ r = slot0 s'.mem pt va) ∧
      fl.length ≤ fl'.length + 2 ∧ (2 ≤ fl.length → r ≠ 0) := by
  unfold walk at h
  by_cases hva : va ≥ MAXVA
  · rw [if_pos hva] at h; cases h
  rw [if_neg hva] at h
  by_cases hv1 : has1 s.mem pt va
  · have hx : rd64 s.mem (pt + 8 * PX (1 + 1) va) % 2 = 1 := hv1
    rw [walkLevels_valid 1 s _ va true hx] at h
    obtain ⟨fl', g, p1, p2, p3⟩ := walk1_alloc_len L s pt va fl r s' inv hv1 h
    refine ⟨fl', g, p1, by omega, fun c => p3 (fun e => ?_)⟩
    rw [e] at c
    simp at c
  · have hx : ¬ rd64 s.mem (pt + 8 * PX (1 + 1) va) % 2 = 1 := hv1
    cases fl with
    | nil =>
      rw [walkLevels_fail 1 s s _ va hx (kalloc_nil L s inv.alloc)] at h
      injection h with h1 h2
      subst h2
      exact ⟨[], grown_refl L pt s [] inv, fun c => absurd h1.symm c, by simp,
        fun c => by simp at c⟩
    | cons f rest =>
      obtain ⟨hk, _⟩ := kalloc_cons L s f rest inv.alloc
      have hf := inv.alloc.frames f (List.mem_cons_self _ _)
      have hk0 := inv.alloc.kend_pos
      have ht := inv.alloc.top
      have hf0 : f ≠ 0 := by omega
      rw [walkLevels_link 1 s _ _ va f hx hk hf0] at h
      have hnt : ¬ IsTable s.mem pt f := fun c => inv.sep f c (List.mem_cons_self _ _)
      obtain ⟨ok', a1, t1, _, it, lf⟩ :=
        link1 s.mem pt va f inv.table hv1 hf.1 (by omega) hf0 hnt
      have g := grown_link L pt s f rest pt (PX 2 va) inv
        (Or.inl (root_isUpper _ _)) (PX_lt 2 va) ok' it lf
      have h' : walkLevels 1 (KState.mk (linkMem s.mem f (slot2 pt va)) (rd64 s.mem f))
          (tbl1 (linkMem s.mem f (slot2 pt va)) pt va) va true = .ok r s' := by
        rw [t1]; exact h
      obtain ⟨fl', g', p1, p2, p3⟩ := walk1_alloc_len L _ pt va rest r s' g.inv a1 h'
      refine ⟨fl', grown_trans L pt _ _ _ _ _ _ g g', p1, by simp; omega, fun c => p3 ?_⟩
      intro e
      rw [e] at c
      simp at c

/-- Mapping one unmapped page with two frames in reserve returns 0 and takes at most two
frames. -/
theorem mappages_page_enough (L : Layout) (s : KState) (pt a pa perm : Nat) (fl : List Nat)
    (inv : Inv L s pt fl) (ha : a % 4096 = 0) (hva : a < MAXVA)
    (hfree : leafOf s.mem pt a % 2 = 0) (hlen : 2 ≤ fl.length) :
    ∃ s' fl', mappages s pt a PGSIZE pa perm = .ok 0 s' ∧ AllocOK L s' fl' ∧
      fl.length ≤ fl'.length + 2 := by
  unfold mappages
  rw [if_neg (by decide)]
  have e1 : PGROUNDDOWN a = a := by unfold PGROUNDDOWN PGSIZE; omega
  have e2 : PGROUNDDOWN ((a + PGSIZE - 1) % 2 ^ 64) = a := by
    unfold MAXVA at hva; unfold PGROUNDDOWN PGSIZE; omega
  rw [e1, e2, loopfuel_eq, mappagesLoop]
  obtain ⟨pte, s1, hw⟩ := walk_total s pt a true hva
  rw [hw, bind_ok]
  obtain ⟨fl1, g, p1, p2, p3⟩ := walk_alloc_len L s pt a fl pte s1 inv hw
  have hp : pte ≠ 0 := p3 hlen
  rw [if_neg hp]
  obtain ⟨h0, hs⟩ := p1 hp
  have hl : leafOf s1.mem pt a = rd64 s1.mem pte := by
    unfold leafOf ent0
    rw [if_pos h0, hs]
  have hz : rd64 s1.mem pte &&& PTE_V = 0 := by
    rw [← hl, g.leaf, and_V]
    exact hfree
  rw [if_neg (by rw [hz]; decide)]
  simp only [if_true]
  obtain ⟨e, _⟩ := ext_leaf_write L s1 pt a (PA2PTE pa ||| perm ||| PTE_V) fl1 g.inv h0
  rw [← hs] at e
  exact ⟨_, fl1, rfl, e.inv.alloc, p2⟩

/-- With three free frames for each page still to map, the loop of `uvmalloc` returns
`newsz`. -/
theorem uvmallocLoop_enough (L : Layout) (pt lo newsz xperm : Nat) (s0 : KState)
    (fl0 : List Nat) (hx : xperm < 1024) (hn : newsz ≤ MAXVA)
    (hfree : ∀ b, b % 4096 = 0 → lo ≤ b → b < newsz → leafOf s0.mem pt b % 2 = 0) :
    ∀ (fuel : Nat) (s : KState) (a : Nat) (fl : List Nat),
    Grew L pt (fun _ => PTE_R ||| PTE_U ||| xperm) (fun _ _ => 0) s0 fl0 lo a s fl →
    a % 4096 = 0 → lo ≤ a → a < 2 ^ 64 → newsz ≤ a + fuel * 4096 →
    3 * ((newsz + 4095 - a) / 4096) ≤ fl.length →
    ∃ s', uvmallocLoop (fuel + 1) L s pt a lo newsz xperm = .ok newsz s' := by
  intro fuel
  induction fuel with
  | zero =>
    intro s a fl _ _ _ _ hf _
    rw [uvmallocLoop, if_neg (by omega)]
    exact ⟨_, rfl⟩
  | succ k ih =>
    intro s a fl g ha hle ha64 hf hlen
    rw [uvmallocLoop]
    by_cases hlt : a < newsz
    case neg => rw [if_neg hlt]; exact ⟨_, rfl⟩
    case pos =>
      rw [if_pos hlt]
      cases fl with
      | nil =>
        exfalso
        simp only [List.length_nil] at hlen
        omega
      | cons f rest =>
        simp only [List.length_cons] at hlen
        obtain ⟨hk, _⟩ := kalloc_cons L s f rest g.inv.alloc
        have hfa := g.inv.alloc.frames f (List.mem_cons_self _ _)
        have hk0 := g.inv.alloc.kend_pos
        have htop := g.inv.alloc.top
        have hf0 : f ≠ 0 := by omega
        rw [hk]
        simp only [hf0, if_false]
        have hout : ∀ x, ¬ inPage f x →
            memset (memset s.mem f 5 PGSIZE) f 0 PGSIZE x = s.mem x := by
          intro x hx
          have c : ¬ (f ≤ x ∧ x < f + PGSIZE) := hx
          simp only [memset, c, if_false]
        have hin : ∀ i, i < 4096 → memset (memset s.mem f 5 PGSIZE) f 0 PGSIZE (f + i) = 0 := by
          intro i hi
          have c : f ≤ f + i ∧ f + i < f + PGSIZE := ⟨by omega, by unfold PGSIZE; omega⟩
          simp only [memset, c, and_self, if_true, Nat.zero_mod]
        obtain ⟨inv2, t2, l2⟩ := inv_take L s
          (KState.mk (memset (memset s.mem f 5 PGSIZE) f 0 PGSIZE) (rd64 s.mem f)) pt f
          rest g.inv rfl hout
        have hva : a < MAXVA := by omega
        have hfree2 : leafOf (memset (memset s.mem f 5 PGSIZE) f 0 PGSIZE) pt a % 2 = 0 := by
          have := l2 a
          simp only [] at this
          rw [this, g.leaf_out a hva (by omega)]
          exact hfree a ha hle hlt
        obtain ⟨s3, fl3', hm, ok3, hl3⟩ := mappages_page_enough L
          (KState.mk (memset (memset s.mem f 5 PGSIZE) f 0 PGSIZE) (rd64 s.mem f)) pt a f
          (PTE_R ||| PTE_U ||| xperm) rest inv2 ha hva hfree2 (by omega)
        rw [hm, bind_ok, if_neg (by decide)]
        obtain ⟨fl3, g3⟩ := grew_step L pt _ _ s0 fl0 lo a s f rest
          (KState.mk (memset (memset s.mem f 5 PGSIZE) f 0 PGSIZE) (rd64 s.mem f)) s3 g ha
          hle ha64 (uperm_lt xperm hx) rfl hout hin hm
        have efl : fl3 = fl3' := freeList_det _ _ _ _ g3.inv.alloc.list ok3.list
        have hb := g3.bound (by omega)
        have ea : (a + PGSIZE) % 2 ^ 64 = a + 4096 := by
          unfold PGSIZE; unfold MAXVA at hb; omega
        rw [ea]
        exact ih s3 (a + 4096) fl3 g3 (by omega) (by omega)
          (by unfold MAXVA at hb; omega) (by omega) (by rw [efl]; omega)

/-- With three free frames for each page to map, `uvmalloc` on an address space returns
`newsz`. -/
theorem uvmalloc_enough (L : Layout) (pt : Nat) (fl0 : List Nat) (s : KState) (sz : Nat)
    (fl : List Nat) (sp : Space L pt fl0 s sz fl) (newsz xperm : Nat) (hx : xperm < 1024)
    (hle : sz ≤ newsz) (hn : newsz ≤ MAXVA) (hlen : 3 * ((newsz + 4095) / 4096) ≤ fl.length) :
    ∃ s', uvmalloc L s pt sz newsz xperm = .ok newsz s' := by
  unfold uvmalloc
  rw [if_neg (by omega), loopfuel_eq]
  have hal : PGROUNDUP sz % 4096 = 0 := by unfold PGROUNDUP PGSIZE; omega
  have h64 : PGROUNDUP sz < 2 ^ 64 := by unfold PGROUNDUP PGSIZE; omega
  apply uvmallocLoop_enough L pt (PGROUNDUP sz) newsz xperm s fl hx hn
    (fun b _ b2 b3 => sp.unmapped b (by omega) b2)
    (MAXVA / PGSIZE) s (PGROUNDUP sz) fl (grew_init L pt _ _ s fl _ sp.inv) hal
    (Nat.le_refl _) h64
  · have : MAXVA / PGSIZE * 4096 = MAXVA := by unfold MAXVA PGSIZE; norm_num
    omega
  · omega

/-! ### The check against `PLIC` with more RAM than `PLIC` bytes -/

/-- `kinit` on an empty allocator returns with a well-formed free list of the whole pages
of `[end, PHYSTOP)`. -/
theorem kinit_alloc (L : Layout) (s : KState) (hs : s.freelist = 0) (hk : 0 < L.kend)
    (h1 : L.kend ≤ L.phystop) (h2 : L.phystop + 8192 ≤ 2 ^ 64) :
    ∃ s' fl, kinit L s = .ok () s' ∧ AllocOK L s' fl ∧
      ∀ p, p ∈ fl ↔ (p % 4096 = 0 ∧ L.kend ≤ p ∧ p + 4096 ≤ L.phystop) := by
  have hup : PGROUNDUP L.kend % 4096 = 0 ∧ L.kend ≤ PGROUNDUP L.kend ∧
      PGROUNDUP L.kend < L.kend + 4096 := by
    unfold PGROUNDUP PGSIZE
    omega
  obtain ⟨s', fl', r1, r2, r3⟩ := freerangeLoop_spec L L.phystop (Nat.le_refl _) h2
    (L.phystop / 4096) FRAMEFUEL s (PGROUNDUP L.kend) [] (by unfold FRAMEFUEL; omega) hup.1
    (by omega) (by omega) (by omega) (by omega) (by rw [hs]; rfl) (by rw [hs]; decide)
    (fun g hg => by cases hg)
  have hm : ∀ p, p ∈ fl' ↔ (p % 4096 = 0 ∧ L.kend ≤ p ∧ p + 4096 ≤ L.phystop) := by
    intro p
    rw [r3 p]
    constructor
    · rintro (c | c)
      · cases c
      · exact ⟨c.1, by omega, c.2.2⟩
    · intro c
      right
      exact ⟨c.1, by omega, c.2.2⟩
  refine ⟨s', fl', r1, ⟨r2, freeList_nodup _ _ _ r2, fun f hf => ?_, hk, by omega⟩, hm⟩
  have := (hm f).mp hf
  omega

/-- A nodup list that holds `n` pages in a row has at least `n` elements. -/
theorem frames_count (fl : List Nat) (base n : Nat)
    (h : ∀ i, i < n → base + 4096 * i ∈ fl) : n ≤ fl.length := by
  have hnd : ((List.range n).map (fun i => base + 4096 * i)).Nodup :=
    (List.nodup_range n).map (fun a b e => by
      have e' : base + 4096 * a = base + 4096 * b := e
      omega)
  have hsub : (List.range n).map (fun i => base + 4096 * i) ⊆ fl := by
    intro x hx
    rw [List.mem_map] at hx
    obtain ⟨i, hi, e⟩ := hx
    rw [← e]
    exact h i (List.mem_range.mp hi)
  have := (List.subperm_of_subset hnd hsub).length_le
  simpa using this

/-- What `uvmcreate` does to a non-empty free list: it takes the head as root. -/
theorem uvmcreate_alloc (L : Layout) (s : KState) (f : Nat) (rest : List Nat)
    (ok : AllocOK L s (f :: rest)) :
    (uvmcreate s).1 = f ∧ f ≠ 0 ∧ AllocOK L (uvmcreate s).2 rest := by
  obtain ⟨hk, ok1⟩ := kalloc_cons L s f rest ok
  have hfa := ok.frames f (List.mem_cons_self _ _)
  have hk0 := ok.kend_pos
  have hf0 : f ≠ 0 := by omega
  have nd := List.nodup_cons.mp ok.nodup
  have e : uvmcreate s = (f, KState.mk (memset (memset s.mem f 5 PGSIZE) f 0 PGSIZE)
      (rd64 s.mem f)) := by
    unfold uvmcreate
    rw [hk]
    simp only [hf0, if_false]
  rw [e]
  refine ⟨rfl, hf0, ?_⟩
  exact allocOK_frame L _ _ rest ok1 rfl (fun g hg =>
    memset_samePage _ f 0 g hfa.1 (ok1.frames g hg).1 (fun e => nd.1 (e ▸ hg)))

/-- The check against `PLIC` on a machine with more allocatable RAM than `PLIC` bytes
(not the machine of `kalloc.c`, see `space_below_device`): in a state with a well-formed
allocator, for an image whose first program header is a loadable segment that passes the
three checks of `exec`, if `uvmalloc` for that segment succeeds with a size `sz1 ≥ PLIC`,
then `exec` takes `goto bad` before `sz = sz1`, so `proc_freepagetable(pagetable, 0)`
unmaps nothing and `freewalk` halts with `panic("freewalk: leaf")` at the first page
mapped for the segment. -/
theorem exec_device_branch_halts (L : Layout) (fs : Files) (s : KState) (p : Proc)
    (path : List Nat) (argv : List (List Nat)) (fl0 : List Nat) (ip : Inode) (elf : Elfhdr)
    (ph : Proghdr) (sz1 : Nat) (s1 : KState)
    (ok : AllocOK L s fl0) (hf : fs path = some ip) (he : readElfhdr ip = some elf)
    (hm : elf.magic = ELF_MAGIC) (hn : 0 < elf.phnum)
    (hp : readProghdr ip (elf.phoff % 2 ^ 32) = some ph) (ht : ph.type = ELF_PROG_LOAD)
    (h1 : ph.filesz ≤ ph.memsz) (h2 : ph.vaddr + ph.memsz < 2 ^ 64)
    (h3 : ph.vaddr % 4096 = 0) (hpt : (proc_pagetable s).1 ≠ 0)
    (hu : uvmalloc L (proc_pagetable s).2 (proc_pagetable s).1 0 (ph.vaddr + ph.memsz)
      (flags2perm ph.flags) = .ok sz1 s1)
    (hbig : sz1 ≥ PLIC) :
    exec L fs s p path argv = .panic "freewalk: leaf" := by
  have hplic : PLIC = 201326592 := rfl
  obtain ⟨fl1, im1⟩ := image_create L s fl0 (proc_pagetable s).1 (proc_pagetable s).2 ok
    rfl hpt
  have pr : ∃ fl', Image L (proc_pagetable s).1 fl0 s s1 sz1 fl' := by
    rcases image_alloc L _ fl0 s _ 0 fl1 im1 _ _ sz1 s1 (Nat.zero_le _)
        (flags2perm_lt ph.flags) hu with ⟨hr, fl', im, _, _⟩ | ⟨hr, _⟩
    · rw [hr]; exact ⟨fl', im⟩
    · omega
  obtain ⟨fl', im⟩ := pr
  obtain ⟨l1, l2, l3, l4⟩ := PGROUNDUP_spec sz1 im.space.size
  have p0 : PGROUNDUP 0 = 0 := by decide
  have hfree : uvmfree L s1 (proc_pagetable s).1 0 = .panic "freewalk: leaf" :=
    uvmfree_leafy L s1 _ sz1 fl' (proper_of_space L _ fl0 s1 sz1 fl' im.space) im.readable 0
      (by rw [p0]; omega) (Nat.zero_le _)
  obtain ⟨n, en⟩ : ∃ n, elf.phnum = n + 1 := ⟨elf.phnum - 1, by omega⟩
  have e64 : (ph.vaddr + ph.memsz) % 2 ^ 64 = ph.vaddr + ph.memsz := Nat.mod_eq_of_lt h2
  unfold exec
  rw [hf]
  simp only []
  rw [he]
  simp only []
  rw [if_neg (by rw [hm]; exact fun c => c rfl), if_neg hpt, en, execSegs, hp]
  simp only []
  rw [if_neg (by rw [ht]; exact fun c => c rfl), if_neg (by omega), if_neg (by omega),
    if_neg (by unfold PGSIZE; omega), e64, hu, bind_ok, if_neg (by omega), if_pos hbig,
    bind_ok]
  simp only [if_true]
  unfold execBad proc_freepagetable
  rw [hfree]
  rfl

set_option maxRecDepth 100000 in
theorem demoBig_header :
    readElfhdr demoBigImage = some { magic := ELF_MAGIC, entry := 0, phoff := 64, phnum := 1 } := by
  rfl

set_option maxRecDepth 100000 in
theorem demoBig_proghdr :
    readProghdr demoBigImage (64 % 2 ^ 32) =
      some { type := 1, flags := 5, off := 120, vaddr := 0, filesz := 10,
             memsz := 0x0c000000 } := by
  rfl

/-- The allocator of `demoBigLayout` after `kinit` is well formed and holds the 262112
frames from `0x80020000` up. -/
theorem demoBigState_alloc :
    ∃ fl, AllocOK demoBigLayout demoBigState fl ∧ 262112 ≤ fl.length := by
  obtain ⟨s', fl, hk, ok, hm⟩ := kinit_alloc demoBigLayout demoEmpty rfl (by decide)
    (by decide) (by decide)
  have e : demoBigState = s' := by
    unfold demoBigState
    rw [hk]
    rfl
  rw [e]
  refine ⟨fl, ok, frames_count fl 0x80020000 262112 (fun i hi => ?_)⟩
  rw [hm]
  have h1 : demoBigLayout.kend = 0x80020000 := rfl
  have h2 : demoBigLayout.phystop = 0xC0000000 := rfl
  rw [h1, h2]
  omega

theorem demoBig_file : demoBigFiles demoBigPath = some demoBigImage := by
  unfold demoBigFiles
  rw [if_pos rfl]

set_option maxRecDepth 100000 in
/-- With 1 GB of RAM the segment of `demoBigImage` is mapped in full and `exec` halts. -/
theorem demoBig_halts :
    (∃ fl0 sz1 s1, AllocOK demoBigLayout demoBigState fl0 ∧
      (proc_pagetable demoBigState).1 ≠ 0 ∧
      uvmalloc demoBigLayout (proc_pagetable demoBigState).2 (proc_pagetable demoBigState).1
        0 (0 + 0x0c000000) (flags2perm 5) = .ok sz1 s1 ∧ sz1 ≥ PLIC) ∧
    exec demoBigLayout demoBigFiles demoBigState demoProc demoBigPath [] =
      .panic "freewalk: leaf" := by
  obtain ⟨fl, ok, hlen⟩ := demoBigState_alloc
  cases fl with
  | nil => simp at hlen
  | cons f rest =>
    simp only [List.length_cons] at hlen
    obtain ⟨c1, c2, c3⟩ := uvmcreate_alloc demoBigLayout demoBigState f rest ok
    have hpt : (proc_pagetable demoBigState).1 ≠ 0 := by
      unfold proc_pagetable; rw [c1]; exact c2
    obtain ⟨fl1, sp1⟩ := space_create demoBigLayout demoBigState (f :: rest)
      (proc_pagetable demoBigState).1 (proc_pagetable demoBigState).2 ok
      (Prod.mk.eta).symm hpt
    have efl : fl1 = rest := freeList_det _ _ _ _ sp1.inv.alloc.list c3.list
    obtain ⟨s1, hu⟩ := uvmalloc_enough demoBigLayout _ (f :: rest) _ 0 fl1 sp1
      (0 + 0x0c000000) (flags2perm 5) (flags2perm_lt 5) (Nat.zero_le _)
      (by unfold MAXVA; norm_num) (by rw [efl]; omega)
    exact ⟨⟨f :: rest, _, s1, ok, hpt, hu, by decide⟩,
      exec_device_branch_halts demoBigLayout demoBigFiles demoBigState demoProc demoBigPath []
        (f :: rest) demoBigImage { magic := ELF_MAGIC, entry := 0, phoff := 64, phnum := 1 }
        { type := 1, flags := 5, off := 120, vaddr := 0, filesz := 10, memsz := 0x0c000000 }
        (0 + 0x0c000000) s1 ok demoBig_file demoBig_header rfl (by decide) demoBig_proghdr rfl
        (by decide) (by decide) (by decide) hpt hu (by decide)⟩

/-! ### C28 -/

theorem execBad_ret (L : Layout) (s : KState) (pt sz : Nat) (p : Proc) (idx : List Nat)
    (r : ExecRet) (s' : KState) (h : execBad L s pt sz p idx = .ok r s') : r.ret = -1 := by
  unfold execBad at h
  cases hu : proc_freepagetable L s pt sz with
  | panic msg => rw [hu] at h; cases h
  | fuel => rw [hu] at h; cases h
  | ok u s1 =>
    rw [hu, bind_ok] at h
    rw [← (ok_inj _ _ _ _ h).1]

/-- The indices of `ustack` a successful stack phase used: `argc` is among them, and
`argc + 1` words were copied out. -/
theorem execStack_idx (L : Layout) (s : KState) (p : Proc) (path : List Nat)
    (argv : List (List Nat)) (pt sz entry : Nat) (r : ExecRet) (s' : KState)
    (h : execStack L s p path argv pt sz entry = .ok r s') (hr : r.ret ≠ -1) :
    ∃ argc : Nat, r.ret = (argc : Int) ∧ argc ∈ r.idx ∧ r.ustack.length = argc + 1 := by
  unfold execStack at h
  cases ha : uvmalloc L s pt (PGROUNDUP sz) ((PGROUNDUP sz + 2 * PGSIZE) % 2 ^ 64) PTE_W with
  | panic msg => rw [ha] at h; cases h
  | fuel => rw [ha] at h; cases h
  | ok sz1 s3 =>
    rw [ha, bind_ok] at h
    by_cases hz : sz1 = 0
    · rw [if_pos hz] at h
      exact absurd (execBad_ret _ _ _ _ _ _ _ _ h) hr
    rw [if_neg hz] at h
    cases hc : uvmclear s3 pt ((sz1 + 2 ^ 64 - 2 * PGSIZE) % 2 ^ 64) with
    | panic msg => rw [hc] at h; cases h
    | fuel => rw [hc] at h; cases h
    | ok u s4 =>
      rw [hc, bind_ok] at h
      cases he : execArgs pt ((sz1 + 2 ^ 64 - PGSIZE) % 2 ^ 64) argv s4 0 sz1 (fun _ => 0) [] with
      | panic msg => rw [he] at h; cases h
      | fuel => rw [he] at h; cases h
      | ok r5 s5 =>
        rw [he, bind_ok] at h
        obtain ⟨o, idx⟩ := r5
        cases o with
        | none =>
          simp only [] at h
          exact absurd (execBad_ret _ _ _ _ _ _ _ _ h) hr
        | some t =>
          obtain ⟨argc, sp, ustack⟩ := t
          simp only [] at h
          generalize (sp + 2 ^ 64 - (argc + 1) * 8 % 2 ^ 64) % 2 ^ 64 -
            (sp + 2 ^ 64 - (argc + 1) * 8 % 2 ^ 64) % 2 ^ 64 % 16 = sp2 at h
          by_cases c1 : sp2 < (sz1 + 2 ^ 64 - PGSIZE) % 2 ^ 64
          · rw [if_pos c1] at h
            exact absurd (execBad_ret _ _ _ _ _ _ _ _ h) hr
          rw [if_neg c1] at h
          cases hco : copyout s5 pt sp2 (wordsBuf (fun j => if j = argc then 0 else ustack j))
              ((argc + 1) * 8) with
          | panic msg => rw [hco] at h; cases h
          | fuel => rw [hco] at h; cases h
          | ok c s6 =>
            rw [hco, bind_ok] at h
            by_cases c2 : c < 0
            · rw [if_pos c2] at h
              exact absurd (execBad_ret _ _ _ _ _ _ _ _ h) hr
            rw [if_neg c2] at h
            cases hu : proc_freepagetable L s6 p.pagetable p.sz with
            | panic msg => rw [hu] at h; cases h
            | fuel => rw [hu] at h; cases h
            | ok u7 s7 =>
              rw [hu, bind_ok] at h
              have e1 := (ok_inj _ _ _ _ h).1
              rw [← e1]
              refine ⟨argc, rfl, ?_, ?_⟩
              · simp
              · simp

/-- The indices of `ustack` a successful `exec` used. -/
theorem exec_idx (L : Layout) (fs : Files) (s : KState) (p : Proc) (path : List Nat)
    (argv : List (List Nat)) (r : ExecRet) (s' : KState)
    (h : exec L fs s p path argv = .ok r s') (hr : r.ret ≠ -1) :
    ∃ argc : Nat, r.ret = (argc : Int) ∧ argc ∈ r.idx ∧ r.ustack.length = argc + 1 := by
  have early : ∀ (s1 : KState),
      Res.ok ({ ret := -1, p := p, idx := [], ustack := [] } : ExecRet) s1 = Res.ok r s' →
      False := by
    intro s1 hh
    exact hr (by rw [← (ok_inj _ _ _ _ hh).1])
  unfold exec at h
  cases hf : fs path with
  | none => rw [hf] at h; exact (early _ h).elim
  | some ip =>
    rw [hf] at h
    simp only [] at h
    cases hel : readElfhdr ip with
    | none => rw [hel] at h; exact (early _ h).elim
    | some elf =>
      rw [hel] at h
      simp only [] at h
      by_cases cm : elf.magic ≠ ELF_MAGIC
      · rw [if_pos cm] at h; exact (early _ h).elim
      rw [if_neg cm] at h
      by_cases cp : (proc_pagetable s).1 = 0
      · rw [if_pos cp] at h; exact (early _ h).elim
      rw [if_neg cp] at h
      cases hs : execSegs L ip (proc_pagetable s).1 elf.phnum (proc_pagetable s).2
          (elf.phoff % 2 ^ 32) 0 with
      | panic msg => rw [hs] at h; cases h
      | fuel => rw [hs] at h; cases h
      | ok r2 s2 =>
        rw [hs, bind_ok] at h
        obtain ⟨b, lsz⟩ := r2
        cases b with
        | false =>
          simp only [if_true] at h
          exact absurd (execBad_ret _ _ _ _ _ _ _ _ h) hr
        | true =>
          simp only [Bool.true_eq_false, if_false] at h
          exact execStack_idx L s2 p path argv _ lsz elf.entry r s' h hr

/-- A `copyout` into the stack page of a stacked image returns 0. -/
theorem stacked_copyout_ok (L : Layout) (pt : Nat) (fl0 : List Nat) (s0 s : KState) (sz : Nat)
    (fl : List Nat) (st : Stacked L pt fl0 s0 s sz fl) (va : Nat) (src : Buf) (len : Nat)
    (hva : sz - 4096 ≤ va) (hlen : 0 < len) (hin : va + len ≤ sz) :
    ∃ s', copyout s pt va src len = .ok 0 s' ∧ Stacked L pt fl0 s0 s' sz fl := by
  obtain ⟨r, s', e, st', _, _, _, _⟩ := stacked_copyout L pt fl0 s0 s sz fl st va src len hva hlen
  obtain ⟨r2, s2, e2, _, _, _, hr⟩ := image_copyout L pt fl0 s0 s sz fl st.image va src len
  obtain ⟨f1, f2, f3, f4, _, _, _⟩ := stacked_frame L pt fl0 s0 s sz fl st
  have h2 := st.two
  have hal := st.aligned
  rw [e] at e2
  obtain ⟨e3, _⟩ := ok_inj _ _ _ _ e2
  rcases hr with ⟨_, q, hq, hq0⟩ | ⟨c, _⟩
  · exfalso
    have hqe : q = sz - 4096 := by
      unfold touches PGSIZE at hq
      omega
    rw [hqe] at hq0
    exact (f3 (sz - 4096) (Nat.le_refl _) (by omega)).2 hq0
  · rw [e3, c] at e
    exact ⟨s', e, st'⟩

/-- Total correctness of the argument loop: when the strings fit into the stack page and
there are at most `MAXARG` of them, the loop runs to its end. -/
theorem execArgs_total (L : Layout) (pt : Nat) (fl0 : List Nat) (s0 : KState) (sz : Nat) :
    ∀ (argv : List (List Nat)) (s : KState) (argc sp : Nat) (ustack : Nat → Nat)
      (idx : List Nat) (fl : List Nat),
    Stacked L pt fl0 s0 s sz fl → sz - 4096 ≤ sp → sp ≤ sz →
    argc + argv.length ≤ MAXARG →
    sz - 4096 + (argv.map (fun a => a.length + 16)).sum ≤ sp →
    ∃ argc' sp' ustack' idx' s',
      execArgs pt (sz - 4096) argv s argc sp ustack idx
        = .ok (some (argc', sp', ustack'), idx') s' ∧
      sp ≤ sp' + (argv.map (fun a => a.length + 16)).sum := by
  intro argv
  induction argv with
  | nil =>
    intro s argc sp ustack idx fl _ _ _ _ _
    exact ⟨argc, sp, ustack, idx, s, by rw [execArgs], by simp⟩
  | cons a rest ih =>
    intro s argc sp ustack idx fl st h1 h2 h3 h4
    simp only [List.map_cons, List.sum_cons, List.length_cons] at h3 h4
    have hsz := st.image.space.size
    have h2' := st.two
    have hmax : MAXVA = 2 ^ 38 := rfl
    have hlen' : a.length = strlen a := rfl
    rw [execArgs, if_neg (by omega)]
    simp only []
    have esp1 : (sp + 2 ^ 64 - (strlen a + 1) % 2 ^ 64) % 2 ^ 64 = sp - (strlen a + 1) := by
      omega
    rw [esp1]
    generalize hsp2 : sp - (strlen a + 1) - (sp - (strlen a + 1)) % 16 = sp2
    rw [if_neg (by omega)]
    obtain ⟨s1, e, st1⟩ := stacked_copyout_ok L pt fl0 s0 s sz fl st sp2 (strBuf a)
      (strlen a + 1) (by omega) (by omega) (by omega)
    rw [e, bind_ok, if_neg (by decide)]
    obtain ⟨argc', sp', ustack', idx', s', e', hb⟩ := ih s1 (argc + 1) sp2
      (fun j => if j = argc then sp2 else ustack j) (idx ++ [argc]) fl st1 (by omega)
      (by omega) (by omega) (by omega)
    refine ⟨argc', sp', ustack', idx', s', e', ?_⟩
    simp only [List.map_cons, List.sum_cons]
    omega

/-- Total correctness of the stack phase of `exec`: when its `uvmalloc` succeeds, the
strings fit into the stack page, there are at most `MAXARG` of them and the old address
space is well formed, `exec` succeeds and returns the number of strings. -/
theorem execStack_total (L : Layout) (pt : Nat) (fl0 : List Nat) (s0 s2 : KState) (lsz : Nat)
    (fl : List Nat) (im : Image L pt fl0 s0 s2 lsz fl) (hlow : lsz < PLIC) (p : Proc)
    (old : Proper L s0 p.pagetable p.sz fl0) (path : List Nat) (argv : List (List Nat))
    (entry sz1 : Nat) (s3 : KState)
    (hu : uvmalloc L s2 pt (PGROUNDUP lsz) ((PGROUNDUP lsz + 2 * PGSIZE) % 2 ^ 64) PTE_W
      = .ok sz1 s3)
    (hz : sz1 ≠ 0) (hn : argv.length ≤ MAXARG)
    (hfit : (argv.map (fun a => a.length + 16)).sum + 8 * (argv.length + 1) + 16 ≤ 4096) :
    ∃ r s', execStack L s2 p path argv pt lsz entry = .ok r s' ∧
      r.ret = (argv.length : Int) := by
  obtain ⟨p1, p2, p3, p4, p5⟩ := PGROUNDUP_low lsz hlow
  have hM : MAXARG = 32 := rfl
  unfold execStack
  rw [hu, bind_ok, if_neg hz]
  rcases stack_pages L pt fl0 s0 s2 lsz fl im hlow sz1 s3 hu with
    ⟨c, _⟩ | ⟨hs, s4, fl4, hc, st4⟩
  · exact absurd c hz
  rw [hc, bind_ok]
  have esb : (sz1 + 2 ^ 64 - PGSIZE) % 2 ^ 64 = sz1 - 4096 := by
    unfold PGSIZE; unfold MAXVA at p5; omega
  rw [esb]
  obtain ⟨argc', sp', ustack', idx', s5, e5, hb⟩ := execArgs_total L pt fl0 s0 sz1 argv s4 0
    sz1 (fun _ => 0) [] fl4 st4 (by omega) (Nat.le_refl _) (by omega) (by omega)
  obtain ⟨st5, _, hres⟩ := execArgs_spec L pt fl0 s0 sz1 argv s4 0 sz1 (fun _ => 0) []
    fl4 _ s5 st4 (by omega) (Nat.le_refl _) (Nat.zero_le _) e5
  obtain ⟨a1, a2, a3, a4, _, _, _, _, _⟩ := hres argc' sp' ustack' rfl
  rw [Nat.zero_add] at a1
  rw [e5, bind_ok]
  simp only []
  have e8 : (argc' + 1) * 8 % 2 ^ 64 = (argc' + 1) * 8 := by omega
  have esp : (sp' + 2 ^ 64 - (argc' + 1) * 8 % 2 ^ 64) % 2 ^ 64 = sp' - (argc' + 1) * 8 := by
    rw [e8]; unfold MAXVA at p5; omega
  rw [esp]
  generalize hsp2 : sp' - (argc' + 1) * 8 - (sp' - (argc' + 1) * 8) % 16 = sp2
  rw [if_neg (by omega)]
  obtain ⟨s6, e6, st6⟩ := stacked_copyout_ok L pt fl0 s0 s5 sz1 fl4 st5 sp2
    (wordsBuf (fun j => if j = argc' then 0 else ustack' j)) ((argc' + 1) * 8)
    (by omega) (by omega) (by omega)
  rw [e6, bind_ok, if_neg (by decide)]
  have sp6 := st6.image.space
  obtain ⟨s7, run, _⟩ := old_free L s0 p.pagetable p.sz fl0 old s6 fl4 sp6.inv.alloc
    sp6.sub st6.image.outside
  unfold proc_freepagetable
  rw [run, bind_ok]
  exact ⟨_, _, rfl, by simp [a1]⟩

/-- Total correctness of `exec` on an image whose segments load: when the segment loop and
the `uvmalloc` of the stack pages succeed, the strings fit into the stack page, there are
at most `MAXARG` of them and the old address space is well formed, `exec` succeeds and
returns the number of strings. -/
theorem exec_total (L : Layout) (fs : Files) (s : KState) (p : Proc) (path : List Nat)
    (argv : List (List Nat)) (fl0 : List Nat) (ip : Inode) (elf : Elfhdr) (lsz : Nat)
    (s2 : KState) (sz1 : Nat) (s3 : KState)
    (old : Proper L s p.pagetable p.sz fl0) (hf : fs path = some ip)
    (he : readElfhdr ip = some elf) (hm : elf.magic = ELF_MAGIC)
    (hpt : (proc_pagetable s).1 ≠ 0)
    (hs : execSegs L ip (proc_pagetable s).1 elf.phnum (proc_pagetable s).2
      (elf.phoff % 2 ^ 32) 0 = .ok (true, lsz) s2)
    (hu : uvmalloc L s2 (proc_pagetable s).1 (PGROUNDUP lsz)
      ((PGROUNDUP lsz + 2 * PGSIZE) % 2 ^ 64) PTE_W = .ok sz1 s3)
    (hz : sz1 ≠ 0) (hn : argv.length ≤ MAXARG)
    (hfit : (argv.map (fun a => a.length + 16)).sum + 8 * (argv.length + 1) + 16 ≤ 4096) :
    ∃ r s', exec L fs s p path argv = .ok r s' ∧ r.ret = (argv.length : Int) := by
  obtain ⟨fl1, im1⟩ := image_create L s fl0 (proc_pagetable s).1 (proc_pagetable s).2
    old.inv.alloc rfl hpt
  have p0 : PGROUNDUP 0 = 0 := by decide
  obtain ⟨big, fl2, im2, _, _, hlow, hb⟩ := execSegs_image L ip (proc_pagetable s).1
    fl0 s elf.phnum (proc_pagetable s).2 (elf.phoff % 2 ^ 32) 0 fl1 true lsz s2 im1
    (fun b _ hb => by rw [p0] at hb; omega) (by decide) hs
  rw [hb rfl] at im2
  obtain ⟨r, s', e, hr⟩ := execStack_total L _ fl0 s s2 lsz fl2 im2 hlow p old path argv
    elf.entry sz1 s3 hu hz hn hfit
  refine ⟨r, s', ?_, hr⟩
  unfold exec
  rw [hf]
  simp only []
  rw [he]
  simp only []
  rw [if_neg (by rw [hm]; exact fun c => c rfl), if_neg hpt, hs, bind_ok]
  simp only [Bool.true_eq_false, if_false]
  exact e

theorem demoExec_file : demoFiles demoPath = some demoImage := by
  unfold demoFiles
  rw [if_pos rfl]

set_option maxRecDepth 100000 in
theorem demoExec_header :
    readElfhdr demoImage = some { magic := ELF_MAGIC, entry := 0, phoff := 64, phnum := 1 } := by
  rfl

theorem demoExec_root : (proc_pagetable demoSpace0).1 = 0x87006000 := by decide!

/-- The segment loop of the example: one page is loaded. -/
theorem demoExec_segs :
    (execSegs demoLayout demoImage (proc_pagetable demoSpace0).1 1
      (proc_pagetable demoSpace0).2 (64 % 2 ^ 32) 0).val? = some (true, 4096) := by decide!

/-- The stack pages of the example. -/
theorem demoExec_stack :
    (uvmalloc demoLayout
      ((execSegs demoLayout demoImage (proc_pagetable demoSpace0).1 1
        (proc_pagetable demoSpace0).2 (64 % 2 ^ 32) 0).st demoEmpty)
      (proc_pagetable demoSpace0).1 (PGROUNDUP 4096)
      ((PGROUNDUP 4096 + 2 * PGSIZE) % 2 ^ 64) PTE_W).val? = some 12288 := by decide!

/-- With exactly `MAXARG` strings `"a"` the example `exec` succeeds and returns 32. -/
theorem demoExec32_total :
    ∃ fl0 r s', AllocOK demoLayout demoSpace0 fl0 ∧
      exec demoLayout demoFiles demoSpace0 demoProc demoPath demoArgv32 = .ok r s' ∧
      r.ret = 32 := by
  obtain ⟨fl, sp⟩ := demoSpace0_space
  have pr := proper_of_space demoLayout demoPt demoList8 demoSpace0 0 fl sp
  obtain ⟨r, s', e, hr⟩ := exec_total demoLayout demoFiles demoSpace0 demoProc demoPath
    demoArgv32 fl demoImage { magic := ELF_MAGIC, entry := 0, phoff := 64, phnum := 1 } 4096
    _ 12288 _ pr demoExec_file demoExec_header rfl (by rw [demoExec_root]; decide)
    (val_ok _ _ demoEmpty demoExec_segs) (val_ok _ _ demoEmpty demoExec_stack)
    (by decide) (by decide) (by decide)
  exact ⟨fl, r, s', sp.inv.alloc, e, hr⟩

/-- C28. `exec` indexes its array `ustack[MAXARG]` out of bounds at exactly `MAXARG`
strings: in a state with a well-formed allocator, if `exec` succeeds on an argument vector
of exactly `MAXARG` (32) strings, it returns `MAXARG`, the indices of `ustack` it used
include `MAXARG` itself (the final `ustack[argc] = 0`), and the `copyout` of the pointer
array reads `MAXARG + 1` words, one element past the end of the array. -/
theorem exec_ustack_overrun (L : Layout) (fs : Files) (s : KState) (p : Proc)
    (path : List Nat) (argv : List (List Nat)) (fl0 : List Nat) (r : ExecRet) (s' : KState)
    (ok : AllocOK L s fl0) (h : exec L fs s p path argv = .ok r s') (hr : r.ret ≠ -1)
    (hlen : argv.length = MAXARG) :
    r.ret = (MAXARG : Int) ∧ MAXARG ∈ r.idx ∧ r.ustack.length = MAXARG + 1 := by
  obtain ⟨argc, h1, h2, h3⟩ := exec_idx L fs s p path argv r s' h hr
  rcases exec_cases L fs s p path argv fl0 r s' ok h with
    ⟨c, _⟩ | ⟨_, _, _, _, _, _, _, _, _, _, _, _, _, q, _⟩
  · exact absurd c hr
  have e : argc = MAXARG := by
    rw [q, hlen] at h1
    exact (Int.ofNat_inj.mp h1).symm
  rw [e] at h1 h2 h3
  exact ⟨h1, h2, h3⟩

theorem exec_ustack_overrun_witness :
    ∃ fl0 r s', AllocOK demoLayout demoSpace0 fl0 ∧
      exec demoLayout demoFiles demoSpace0 demoProc demoPath demoArgv32 = .ok r s' ∧
      r.ret ≠ -1 ∧ demoArgv32.length = MAXARG ∧
      r.ret = (MAXARG : Int) ∧ MAXARG ∈ r.idx ∧ r.ustack.length = MAXARG + 1 := by
  obtain ⟨fl, r, s', ok, e, hr⟩ := demoExec32_total
  have hne : r.ret ≠ -1 := by rw [hr]; decide
  exact ⟨fl, r, s', ok, e, hne, rfl,
    exec_ustack_overrun demoLayout demoFiles demoSpace0 demoProc demoPath demoArgv32 fl r s'
      ok e hne rfl⟩

/-! ### A machine with less allocatable RAM than `PLIC` bytes -/

end Xv6
